import Mathlib

/-!
# The MCP JSON-RPC dispatcher of `main.go`

A shallow embedding of `MCPServer` (tool registry, `HandleRequest` and its
handlers, `successResponse` / `errorResponse`) together with the part of Go's
`encoding/json`, `strconv` and `time` that the dispatcher runs through:

* the JSON scanner (`scanner.go`), as the same character-driven state machine,
  building the syntax tree of the value it accepts;
* `Unmarshal` into `JSONRPCRequest` and `ToolCallParams`, and into `interface{}`;
* `Marshal` of `JSONRPCResponse` (declaration order of struct members,
  `omitempty`, sorted map keys, HTML-safe string escaping);
* `float64` values as exact dyadic numbers, with correctly rounded parsing and
  shortest round-trip printing;
* `time.Time.Format(time.RFC3339)` on a civil clock reading.

Strings are sequences of Unicode scalar values, so the input of `HandleRequest`
is well-formed UTF-8. The program builds for js/wasm only; the bounded call
stack of that host is modelled apart from `HandleRequest`, in the function
`mcpHandleRequest` that `main` hands to JavaScript.
-/

namespace MCP

/-! ## JSON syntax trees -/

/-- The syntax tree of a JSON text: numbers keep their literal, strings and
object keys are unquoted, object members keep their order and duplicates. -/
inductive JSON where
  | null
  | bool (b : Bool)
  | number (lit : String)
  | string (s : String)
  | array (elems : List JSON)
  | object (members : List (String × JSON))

instance : Inhabited JSON := ⟨JSON.null⟩

/-! ## Unquoting string literals (`unquoteBytes` in decode.go) -/

/-- Value of a hexadecimal digit (0 for any other character). -/
def hexVal (c : Char) : Nat :=
  if '0' ≤ c ∧ c ≤ '9' then c.toNat - '0'.toNat
  else if 'a' ≤ c ∧ c ≤ 'f' then c.toNat - 'a'.toNat + 10
  else if 'A' ≤ c ∧ c ≤ 'F' then c.toNat - 'A'.toNat + 10
  else 0

/-- The code unit of a four-digit escape (`getu4`). -/
def getu4 (a b c d : Char) : Nat :=
  hexVal a * 4096 + hexVal b * 256 + hexVal c * 16 + hexVal d

/-- First half of a surrogate pair. -/
def isHighSurrogate (r : Nat) : Bool := 0xd800 ≤ r && r < 0xdc00

/-- Second half of a surrogate pair. -/
def isLowSurrogate (r : Nat) : Bool := 0xdc00 ≤ r && r < 0xe000

/-- The rune of a valid surrogate pair (`utf16.DecodeRune`). -/
def decodeSurrogates (hi lo : Nat) : Char :=
  Char.ofNat (0x10000 + (hi - 0xd800) * 1024 + (lo - 0xdc00))

/-- The character `unicode.ReplacementChar`. -/
def replacementChar : Char := Char.ofNat 0xfffd

/-- A high surrogate that found no low surrogate right behind it becomes the
replacement character. -/
def flushSurrogate : Option Nat → List Char
  | none => []
  | some _ => [replacementChar]

/-- The character a single-letter escape stands for. -/
def unescapeChar (c : Char) : Char :=
  if c = 'b' then Char.ofNat 8
  else if c = 'f' then Char.ofNat 12
  else if c = 'n' then Char.ofNat 10
  else if c = 'r' then Char.ofNat 13
  else if c = 't' then Char.ofNat 9
  else c

/-- The body of a string literal, unquoted. `pending` holds a high surrogate
escape whose partner is looked for in the next escape: a pair that decodes
gives its rune, any other surrogate gives the replacement character. -/
def unquoteAux : Option Nat → List Char → List Char
  | pending, '\\' :: 'u' :: a :: b :: c :: d :: rest =>
      let rr := getu4 a b c d
      match pending with
      | some hi =>
          if isLowSurrogate rr then decodeSurrogates hi rr :: unquoteAux none rest
          else if isHighSurrogate rr then replacementChar :: unquoteAux (some rr) rest
          else replacementChar :: Char.ofNat rr :: unquoteAux none rest
      | none =>
          if isHighSurrogate rr then unquoteAux (some rr) rest
          else if isLowSurrogate rr then replacementChar :: unquoteAux none rest
          else Char.ofNat rr :: unquoteAux none rest
  | pending, '\\' :: c :: rest =>
      flushSurrogate pending ++ unescapeChar c :: unquoteAux none rest
  | pending, c :: rest => flushSurrogate pending ++ c :: unquoteAux none rest
  | pending, [] => flushSurrogate pending

/-- The string a literal's body denotes. -/
def unquote (body : List Char) : String := String.mk (unquoteAux none body)

/-! ## The scanner (scanner.go) -/

/-- Nesting beyond this many open arrays and objects is a syntax error. -/
def maxNestingDepth : Nat := 10000

/-- The scanner's `step` functions. -/
inductive Step where
  | beginValueOrEmpty | beginValue | beginStringOrEmpty | beginString
  | endValue | endTop
  | inString | inStringEsc | inStringEscU | inStringEscU1 | inStringEscU12 | inStringEscU123
  | neg | one | zero | dot | dot0 | e | eSign | e0
  | t | tr | tru | f | fa | fal | fals | n | nu | nul
  | error
  deriving DecidableEq, Repr

/-- An entry of the scanner's `parseState` stack, with what has been read of
the array or object it stands for. -/
inductive Frame where
  | objectKey (members : List (String × JSON)) (key : String)
  | objectValue (members : List (String × JSON)) (key : String)
  | arrayValue (elems : List JSON)

/-- The scanner: current step, the stack of open containers, the text of the
literal being read (latest character first) and the finished top-level value. -/
structure Scanner where
  step : Step
  parseState : List Frame
  lit : List Char
  top : Option JSON

/-- A scanner at the start of the input (`scanner.reset`). -/
def Scanner.reset : Scanner :=
  { step := Step.beginValue, parseState := [], lit := [], top := none }

/-- The scanner after a syntax error. -/
def Scanner.fail (s : Scanner) : Scanner := { s with step := Step.error }

/-- The characters the scanner skips between tokens (`isSpace`). -/
def isSpace (c : Char) : Bool := c = ' ' || c = '\t' || c = '\r' || c = '\n'

/-- Decimal digit. -/
def isDigit (c : Char) : Bool := '0' ≤ c && c ≤ '9'

/-- Hexadecimal digit. -/
def isHex (c : Char) : Bool :=
  ('0' ≤ c && c ≤ '9') || ('a' ≤ c && c ≤ 'f') || ('A' ≤ c && c ≤ 'F')

/-- Hand a finished value to the container on top of the stack, or make it the
top-level value. A string finished while an object expects a key is that key. -/
def Scanner.emit (s : Scanner) (v : JSON) : Scanner :=
  match s.parseState with
  | [] => { s with top := some v, lit := [] }
  | Frame.arrayValue elems :: rest =>
      { s with parseState := Frame.arrayValue (elems ++ [v]) :: rest, lit := [] }
  | Frame.objectValue members key :: rest =>
      { s with parseState := Frame.objectValue (members ++ [(key, v)]) key :: rest, lit := [] }
  | Frame.objectKey members key :: rest =>
      match v with
      | JSON.string k => { s with parseState := Frame.objectKey members k :: rest, lit := [] }
      | _ => { s with parseState := Frame.objectKey members key :: rest, lit := [] }

/-- The function `pushParseState`: open a container, unless that nests too deep. -/
def Scanner.push (s : Scanner) (f : Frame) (next : Step) : Scanner :=
  if s.parseState.length + 1 ≤ maxNestingDepth then
    { s with parseState := f :: s.parseState, step := next }
  else s.fail

/-- The function `popParseState`: close the container on top of the stack and
hand its value on. -/
def Scanner.pop (s : Scanner) : Scanner :=
  match s.parseState with
  | [] => s.fail
  | f :: rest =>
      let v := match f with
        | Frame.arrayValue elems => JSON.array elems
        | Frame.objectKey members _ => JSON.object members
        | Frame.objectValue members _ => JSON.object members
      let s1 := Scanner.emit { s with parseState := rest } v
      { s1 with step := if rest.isEmpty then Step.endTop else Step.endValue }

/-- The step `stateEndTop`: only space may follow the top-level value. -/
def stateEndTop (s : Scanner) (c : Char) : Scanner :=
  if isSpace c then { s with step := Step.endTop } else s.fail

/-- The step `stateEndValue`: after a value, inside the container on top of the stack. -/
def stateEndValue (s : Scanner) (c : Char) : Scanner :=
  match s.parseState with
  | [] => stateEndTop { s with step := Step.endTop } c
  | Frame.objectKey members key :: rest =>
      if isSpace c then { s with step := Step.endValue }
      else if c = ':' then
        { s with parseState := Frame.objectValue members key :: rest, step := Step.beginValue }
      else s.fail
  | Frame.objectValue members key :: rest =>
      if isSpace c then { s with step := Step.endValue }
      else if c = ',' then
        { s with parseState := Frame.objectKey members key :: rest, step := Step.beginString }
      else if c = '}' then s.pop
      else s.fail
  | Frame.arrayValue _ :: _ =>
      if isSpace c then { s with step := Step.endValue }
      else if c = ',' then { s with step := Step.beginValue }
      else if c = ']' then s.pop
      else s.fail

/-- A number literal ends at the character `c`, which is then read as what
follows a value. -/
def endNumber (s : Scanner) (c : Char) : Scanner :=
  stateEndValue (s.emit (JSON.number (String.mk s.lit.reverse))) c

/-- The step `stateBeginValue`. -/
def stateBeginValue (s : Scanner) (c : Char) : Scanner :=
  if isSpace c then s
  else if c = '{' then s.push (Frame.objectKey [] "") Step.beginStringOrEmpty
  else if c = '[' then s.push (Frame.arrayValue []) Step.beginValueOrEmpty
  else if c = '"' then { s with step := Step.inString, lit := [] }
  else if c = '-' then { s with step := Step.neg, lit := [c] }
  else if c = '0' then { s with step := Step.zero, lit := [c] }
  else if c = 't' then { s with step := Step.t }
  else if c = 'f' then { s with step := Step.f }
  else if c = 'n' then { s with step := Step.n }
  else if '1' ≤ c ∧ c ≤ '9' then { s with step := Step.one, lit := [c] }
  else s.fail

/-- The step `stateBeginString`. -/
def stateBeginString (s : Scanner) (c : Char) : Scanner :=
  if isSpace c then s
  else if c = '"' then { s with step := Step.inString, lit := [] }
  else s.fail

/-- The step `state0`: after the integer part of a number. -/
def state0 (s : Scanner) (c : Char) : Scanner :=
  if c = '.' then { s with step := Step.dot, lit := c :: s.lit }
  else if c = 'e' ∨ c = 'E' then { s with step := Step.e, lit := c :: s.lit }
  else endNumber s c

/-- The step `stateESign`: after the sign of an exponent. -/
def stateESign (s : Scanner) (c : Char) : Scanner :=
  if isDigit c then { s with step := Step.e0, lit := c :: s.lit } else s.fail

/-- One step of the scanner on the character `c`. -/
def Scanner.next (s : Scanner) (c : Char) : Scanner :=
  match s.step with
  | Step.error => s
  | Step.beginValue => stateBeginValue s c
  | Step.beginValueOrEmpty =>
      if isSpace c then s
      else if c = ']' then stateEndValue s c
      else stateBeginValue s c
  | Step.beginStringOrEmpty =>
      if isSpace c then s
      else if c = '}' then
        match s.parseState with
        | Frame.objectKey members key :: rest =>
            stateEndValue { s with parseState := Frame.objectValue members key :: rest } c
        | _ => s.fail
      else stateBeginString s c
  | Step.beginString => stateBeginString s c
  | Step.endValue => stateEndValue s c
  | Step.endTop => stateEndTop s c
  | Step.inString =>
      if c = '"' then
        { Scanner.emit s (JSON.string (unquote s.lit.reverse)) with step := Step.endValue }
      else if c = '\\' then { s with step := Step.inStringEsc, lit := c :: s.lit }
      else if c.toNat < 0x20 then s.fail
      else { s with lit := c :: s.lit }
  | Step.inStringEsc =>
      if c = 'b' ∨ c = 'f' ∨ c = 'n' ∨ c = 'r' ∨ c = 't' ∨ c = '\\' ∨ c = '/' ∨ c = '"' then
        { s with step := Step.inString, lit := c :: s.lit }
      else if c = 'u' then { s with step := Step.inStringEscU, lit := c :: s.lit }
      else s.fail
  | Step.inStringEscU =>
      if isHex c then { s with step := Step.inStringEscU1, lit := c :: s.lit } else s.fail
  | Step.inStringEscU1 =>
      if isHex c then { s with step := Step.inStringEscU12, lit := c :: s.lit } else s.fail
  | Step.inStringEscU12 =>
      if isHex c then { s with step := Step.inStringEscU123, lit := c :: s.lit } else s.fail
  | Step.inStringEscU123 =>
      if isHex c then { s with step := Step.inString, lit := c :: s.lit } else s.fail
  | Step.neg =>
      if c = '0' then { s with step := Step.zero, lit := c :: s.lit }
      else if '1' ≤ c ∧ c ≤ '9' then { s with step := Step.one, lit := c :: s.lit }
      else s.fail
  | Step.one =>
      if isDigit c then { s with lit := c :: s.lit } else state0 s c
  | Step.zero => state0 s c
  | Step.dot =>
      if isDigit c then { s with step := Step.dot0, lit := c :: s.lit } else s.fail
  | Step.dot0 =>
      if isDigit c then { s with lit := c :: s.lit }
      else if c = 'e' ∨ c = 'E' then { s with step := Step.e, lit := c :: s.lit }
      else endNumber s c
  | Step.e =>
      if c = '+' ∨ c = '-' then { s with step := Step.eSign, lit := c :: s.lit }
      else stateESign s c
  | Step.eSign => stateESign s c
  | Step.e0 =>
      if isDigit c then { s with lit := c :: s.lit } else endNumber s c
  | Step.t => if c = 'r' then { s with step := Step.tr } else s.fail
  | Step.tr => if c = 'u' then { s with step := Step.tru } else s.fail
  | Step.tru =>
      if c = 'e' then { Scanner.emit s (JSON.bool true) with step := Step.endValue } else s.fail
  | Step.f => if c = 'a' then { s with step := Step.fa } else s.fail
  | Step.fa => if c = 'l' then { s with step := Step.fal } else s.fail
  | Step.fal => if c = 's' then { s with step := Step.fals } else s.fail
  | Step.fals =>
      if c = 'e' then { Scanner.emit s (JSON.bool false) with step := Step.endValue } else s.fail
  | Step.n => if c = 'u' then { s with step := Step.nu } else s.fail
  | Step.nu => if c = 'l' then { s with step := Step.nul } else s.fail
  | Step.nul =>
      if c = 'l' then { Scanner.emit s JSON.null with step := Step.endValue } else s.fail

/-- The scanner run over a text. -/
def Scanner.run (s : Scanner) (data : List Char) : Scanner := data.foldl Scanner.next s

/-- The function `scanner.eof`: at the end of the input a last space is fed,
which ends a number still being read; the text is accepted when the scanner
then stands after the top-level value. -/
def Scanner.eof (s : Scanner) : Option JSON :=
  match s.step with
  | Step.error => none
  | Step.endTop => s.top
  | _ =>
      let s1 := s.next ' '
      match s1.step with
      | Step.endTop => s1.top
      | _ => none

/-- The function `checkValid`, returning the syntax tree of the text it accepts. -/
def checkValid (data : String) : Option JSON := (Scanner.reset.run data.data).eof

/-- The function `json.Valid`. -/
def Valid (data : String) : Bool := (checkValid data).isSome

/-! ## float64 (strconv.ParseFloat, strconv.FormatFloat) -/

/-- A finite `float64`: the number `(-1)^neg * mant * 2^exp`, with
`mant < 2^53` and `-1074 ≤ exp ≤ 971`, and `exp = -1074` when `mant < 2^52`
(zero and the subnormal numbers). -/
structure Float64 where
  neg : Bool
  mant : Nat
  exp : Int
  deriving DecidableEq, Repr

/-- Number of binary digits of `n`, counted with `fuel` halvings. -/
def bitLenAux : Nat → Nat → Nat
  | 0, _ => 0
  | fuel + 1, n => if n = 0 then 0 else bitLenAux fuel (n / 2) + 1

/-- Number of binary digits of `n`. -/
def bitLen (n : Nat) : Nat := bitLenAux n n

/-- The quotient `floor (num / (den * 2^e))` as a fraction with the power of two
moved to the side where it is a natural number. -/
def scale2 (num den : Nat) (e : Int) : Nat × Nat :=
  if 0 ≤ e then (num, den * 2 ^ e.toNat) else (num * 2 ^ (-e).toNat, den)

/-- Quotient of a fraction rounded to the nearest integer, ties to even. -/
def roundHalfEven (nd : Nat × Nat) : Nat :=
  let q := nd.1 / nd.2
  let r := nd.1 % nd.2
  if 2 * r > nd.2 ∨ (2 * r = nd.2 ∧ q % 2 = 1) then q + 1 else q

/-- The `float64` nearest to `num / den` (ties to the even mantissa), as
mantissa and exponent; `none` when the rounded number exceeds the largest
`float64`. Here `0 < num` and `0 < den`. -/
def roundToFloat64 (num den : Nat) : Option (Nat × Int) :=
  let b : Int := (bitLen num : Int) - (bitLen den : Int)
  let e1 : Int := max (b - 53) (-1074)
  let s1 := scale2 num den e1
  let e : Int := if s1.1 / s1.2 ≥ 2 ^ 53 then e1 + 1 else e1
  let q := roundHalfEven (scale2 num den e)
  let r : Nat × Int := if q = 2 ^ 53 then (2 ^ 52, e + 1) else (q, e)
  if r.2 > 971 then none else some r

/-- A number literal read as sign, digits and power of ten (`readFloat`). -/
structure Decimal where
  neg : Bool
  digits : Nat
  exp10 : Int

/-- Value of a decimal digit. -/
def digitVal (c : Char) : Nat := c.toNat - '0'.toNat

/-- The number a run of decimal digits denotes. -/
def digitsVal (ds : List Char) : Nat := ds.foldl (fun acc c => acc * 10 + digitVal c) 0

/-- The exponent a run of digits denotes; as in `readFloat`, digits are no
longer taken in once the exponent has reached 10000. -/
def expVal (ds : List Char) : Nat :=
  ds.foldl (fun acc c => if acc < 10000 then acc * 10 + digitVal c else acc) 0

/-- The function `readFloat` on a literal the scanner accepted. -/
def readFloat (lit : List Char) : Decimal :=
  let neg := lit.head? = some '-'
  let body := if neg then lit.drop 1 else lit
  let ip := body.span isDigit
  let fp := match ip.2 with
    | '.' :: rest => rest.span isDigit
    | rest => ([], rest)
  let ex : Int := match fp.2 with
    | _ :: '-' :: ds => -(expVal ds : Int)
    | _ :: '+' :: ds => (expVal ds : Int)
    | _ :: ds => (expVal ds : Int)
    | [] => 0
  { neg := neg, digits := digitsVal (ip.1 ++ fp.1), exp10 := ex - (fp.1.length : Int) }

/-- The function `strconv.ParseFloat(lit, 64)` on a literal the scanner accepted:
the nearest `float64`, or `none` for a number out of range. -/
def parseFloat (lit : String) : Option Float64 :=
  let d := readFloat lit.data
  if d.digits = 0 then some { neg := d.neg, mant := 0, exp := -1074 }
  else
    let r := if 0 ≤ d.exp10 then roundToFloat64 (d.digits * 10 ^ d.exp10.toNat) 1
             else roundToFloat64 d.digits (10 ^ (-d.exp10).toNat)
    r.map fun me => { neg := d.neg, mant := me.1, exp := me.2 }

/-- The character of a decimal digit. -/
def digitChar (d : Nat) : Char := Char.ofNat ('0'.toNat + d % 10)

/-- Decimal digits of `n` in front of `acc`, produced with `fuel` divisions. -/
def natDigitsAux : Nat → Nat → List Char → List Char
  | 0, _, acc => acc
  | fuel + 1, n, acc =>
      if n / 10 = 0 then digitChar n :: acc
      else natDigitsAux fuel (n / 10) (digitChar n :: acc)

/-- Decimal digits of `n`. -/
def natDigits (n : Nat) : List Char := natDigitsAux (n + 1) n []

/-- The `float64` nearest to `digits * 10^exp10`, if it is `f`. -/
def roundsTo (f : Float64) (digits : Nat) (exp10 : Int) : Bool :=
  parseFloat (String.mk ((if f.neg then ['-'] else []) ++ natDigits digits ++
    'e' :: (if exp10 < 0 then '-' :: natDigits (-exp10).toNat else natDigits exp10.toNat)))
    = some f

/-- The exact value `mant * 2^exp` of a `float64` as a fraction. -/
def Float64.fraction (f : Float64) : Nat × Nat :=
  if 0 ≤ f.exp then (f.mant * 2 ^ f.exp.toNat, 1) else (f.mant, 2 ^ (-f.exp).toNat)

/-- The quotient `num / (den * 10^u)` as a fraction with the power of ten moved
to the side where it is a natural number. -/
def scale10 (nd : Nat × Nat) (u : Int) : Nat × Nat :=
  if 0 ≤ u then (nd.1, nd.2 * 10 ^ u.toNat) else (nd.1 * 10 ^ (-u).toNat, nd.2)

/-- The position `p` of the decimal point of a positive fraction:
`10^(p-1) ≤ num / den < 10^p`. -/
def decimalPoint (nd : Nat × Nat) : Int :=
  if nd.1 ≥ nd.2 then ((natDigits (nd.1 / nd.2)).length : Int)
  else
    let k := (natDigits nd.2).length - (natDigits nd.1).length
    if nd.1 * 10 ^ k ≥ nd.2 then 1 - (k : Int) else 1 - ((k : Int) + 1)

/-- Drop the zeros at the end of a digit string, counting them into the
power of ten (with `fuel` divisions). -/
def trimZeros : Nat → Nat → Int → Nat × Int
  | 0, d, u => (d, u)
  | fuel + 1, d, u => if d ≠ 0 ∧ d % 10 = 0 then trimZeros fuel (d / 10) (u + 1) else (d, u)

/-- The shortest decimal `digits * 10^u` whose nearest `float64` is `f`, looked
for with `n`, `n + 1`, ... significant digits (`fuel` tries). Of the two
`n`-digit decimals around `f` the one nearer to `f` is taken when both round to
`f` (ties to the even digit), and the one that rounds to `f` otherwise. -/
def shortestAux (f : Float64) (p : Int) : Nat → Nat → Nat × Int
  | 0, n => (roundHalfEven (scale10 f.fraction (p - n)), p - n)
  | fuel + 1, n =>
      let u : Int := p - n
      let sc := scale10 f.fraction u
      let d := sc.1 / sc.2
      let lowOK := roundsTo f d u
      let highOK := roundsTo f (d + 1) u
      if lowOK && highOK then (roundHalfEven sc, u)
      else if lowOK then (d, u)
      else if highOK then (d + 1, u)
      else shortestAux f p fuel (n + 1)

/-- The shortest decimal that `ParseFloat` reads back as `f` (`f` not zero):
its digits, without zeros at the end, and the position of the decimal point
in front of which they stand (`decimalSlice.d` and `decimalSlice.dp`). -/
def shortest (f : Float64) : List Char × Int :=
  let r := shortestAux f (decimalPoint f.fraction) 16 1
  let t := trimZeros 17 r.1 r.2
  let ds := natDigits t.1
  (ds, (ds.length : Int) + t.2)

/-- The `%f` form of a digit string with the decimal point at `dp` (`fmtF` with
the shortest precision). -/
def fmtF (ds : List Char) (dp : Int) : List Char :=
  let ip := if 0 < dp then ds.take dp.toNat ++ List.replicate (dp.toNat - ds.length) '0' else ['0']
  let fp := if (ds.length : Int) > dp then
      '.' :: (List.replicate (-dp).toNat '0' ++ ds.drop dp.toNat)
    else []
  ip ++ fp

/-- The `%e` form of a digit string with the decimal point at `dp` (`fmtE` with
the shortest precision), the exponent written as `encoding/json` leaves it:
an exponent below ten has one digit (the `e-07` of `strconv` becomes `e-7`). -/
def fmtE (ds : List Char) (dp : Int) : List Char :=
  let ex : Int := dp - 1
  let mantissa := match ds with
    | [] => ['0']
    | [d] => [d]
    | d :: rest => d :: '.' :: rest
  mantissa ++ 'e' :: (if ex < 0 then '-' else '+') ::
    natDigits ex.natAbs

/-- The constant `1e-6` as a `float64`. -/
def float1em6 : Float64 := { neg := false, mant := 4722366482869645, exp := -72 }

/-- The constant `1e21` as a `float64`. -/
def float1e21 : Float64 := { neg := false, mant := 7629394531250000, exp := 17 }

/-- Comparison of the absolute values of two `float64`. -/
def Float64.absLt (f g : Float64) : Bool :=
  f.mant * 2 ^ (f.exp + 1074).toNat < g.mant * 2 ^ (g.exp + 1074).toNat

/-- The text `encoding/json` writes for a `float64` (`floatEncoder.encode`):
`%f` with the shortest digits, `%e` below `1e-6` and from `1e21` on. -/
def formatFloat (f : Float64) : String :=
  let sign := if f.neg then ['-'] else []
  if f.mant = 0 then String.mk (sign ++ ['0'])
  else
    let sd := shortest f
    if f.absLt float1em6 || !(f.absLt float1e21) then String.mk (sign ++ fmtE sd.1 sd.2)
    else String.mk (sign ++ fmtF sd.1 sd.2)

/-! ## Values held in `interface{}` -/

/-- The Go values that `encoding/json` stores in an `interface{}`, which are
also the values the maps written in `main.go` hold: `nil`, `bool`, `float64`,
`string`, slices and `map[string]interface{}` (its entries in no particular
order, one per key). -/
inductive GoValue where
  | nil
  | bool (b : Bool)
  | float64 (f : Float64)
  | string (s : String)
  | slice (elems : List GoValue)
  | map (entries : List (String × GoValue))

instance : Inhabited GoValue := ⟨GoValue.nil⟩

/-- Whether an `interface{}` is nil. -/
def GoValue.isNil : GoValue → Bool
  | GoValue.nil => true
  | _ => false

/-- The assignment `m[key] = v` on a map. -/
def mapSet (m : List (String × GoValue)) (key : String) (v : GoValue) : List (String × GoValue) :=
  match m with
  | [] => [(key, v)]
  | (k, w) :: rest => if k = key then (key, v) :: rest else (k, w) :: mapSet rest key v

/-- The assignments `m[key] = v` for a list of members, in their order. -/
def mapSetAll (m : List (String × GoValue)) (kvs : List (String × GoValue)) :
    List (String × GoValue) :=
  kvs.foldl (fun acc kv => mapSet acc kv.1 kv.2) m

mutual
/-- Decoding a JSON value into an `interface{}` (`valueInterface`); `none` when
a number in it is out of the range of `float64`. -/
def toInterface : JSON → Option GoValue
  | JSON.null => some GoValue.nil
  | JSON.bool b => some (GoValue.bool b)
  | JSON.number lit =>
      match parseFloat lit with
      | some f => some (GoValue.float64 f)
      | none => none
  | JSON.string s => some (GoValue.string s)
  | JSON.array elems =>
      match toInterfaceList elems with
      | some vs => some (GoValue.slice vs)
      | none => none
  | JSON.object members =>
      match toInterfaceMembers members with
      | some kvs => some (GoValue.map (mapSetAll [] kvs))
      | none => none
/-- Decoding the elements of an array. -/
def toInterfaceList : List JSON → Option (List GoValue)
  | [] => some []
  | x :: xs =>
      match toInterface x, toInterfaceList xs with
      | some v, some vs => some (v :: vs)
      | _, _ => none
/-- Decoding the members of an object. -/
def toInterfaceMembers : List (String × JSON) → Option (List (String × GoValue))
  | [] => some []
  | (k, x) :: xs =>
      match toInterface x, toInterfaceMembers xs with
      | some v, some vs => some ((k, v) :: vs)
      | _, _ => none
end

/-! ## Writing JSON text (encode.go) -/

/-- Lowercase hexadecimal digit. -/
def hexDigit (n : Nat) : Char :=
  if n % 16 < 10 then Char.ofNat ('0'.toNat + n % 16) else Char.ofNat ('a'.toNat + (n % 16 - 10))

/-- The escape `\u` followed by four hexadecimal digits. -/
def escapeU (n : Nat) : List Char :=
  ['\\', 'u', hexDigit (n / 4096), hexDigit (n / 256), hexDigit (n / 16), hexDigit n]

/-- How one character of a string is written (`appendString` with HTML
escaping): the quote and the backslash get a backslash, control characters
their short escape or a `\u00XX`, and `<`, `>`, `&`, U+2028 and U+2029 a
`\uXXXX`. -/
def escapeChar (c : Char) : List Char :=
  if c = '"' ∨ c = '\\' then ['\\', c]
  else if c = Char.ofNat 8 then ['\\', 'b']
  else if c = Char.ofNat 12 then ['\\', 'f']
  else if c = '\n' then ['\\', 'n']
  else if c = '\r' then ['\\', 'r']
  else if c = '\t' then ['\\', 't']
  else if c.toNat < 0x20 ∨ c = '<' ∨ c = '>' ∨ c = '&' ∨ c.toNat = 0x2028 ∨ c.toNat = 0x2029 then
    escapeU c.toNat
  else [c]

/-- A string written as a JSON string literal. -/
def quote (s : String) : List Char := '"' :: (s.data.flatMap escapeChar ++ ['"'])

mutual
/-- The compact text of a syntax tree. -/
def render : JSON → List Char
  | JSON.null => ['n', 'u', 'l', 'l']
  | JSON.bool true => ['t', 'r', 'u', 'e']
  | JSON.bool false => ['f', 'a', 'l', 's', 'e']
  | JSON.number lit => lit.data
  | JSON.string s => quote s
  | JSON.array elems => '[' :: (renderList elems ++ [']'])
  | JSON.object members => '{' :: (renderMembers members ++ ['}'])
/-- The elements of an array, separated by commas. -/
def renderList : List JSON → List Char
  | [] => []
  | [x] => render x
  | x :: y :: rest => render x ++ ',' :: renderList (y :: rest)
/-- The members of an object, separated by commas. -/
def renderMembers : List (String × JSON) → List Char
  | [] => []
  | [(k, x)] => quote k ++ ':' :: render x
  | (k, x) :: y :: rest => quote k ++ ':' :: render x ++ ',' :: renderMembers (y :: rest)
end

/-- Order of map keys in the output: byte-wise, which for UTF-8 is the order
of the code points. -/
def keyLt : List Char → List Char → Bool
  | [], [] => false
  | [], _ :: _ => true
  | _ :: _, [] => false
  | a :: as, b :: bs => a.toNat < b.toNat || (a = b && keyLt as bs)

/-- Insertion of a member into members sorted by key. -/
def insertByKey (kv : String × JSON) : List (String × JSON) → List (String × JSON)
  | [] => [kv]
  | m :: rest => if keyLt m.1.data kv.1.data then m :: insertByKey kv rest else kv :: m :: rest

/-- The members of a map sorted by key, as the encoder writes them. -/
def sortByKey (ms : List (String × JSON)) : List (String × JSON) :=
  ms.foldr insertByKey []

mutual
/-- The JSON value the encoder writes for a value held in an `interface{}`. -/
def GoValue.toJSON : GoValue → JSON
  | GoValue.nil => JSON.null
  | GoValue.bool b => JSON.bool b
  | GoValue.float64 f => JSON.number (formatFloat f)
  | GoValue.string s => JSON.string s
  | GoValue.slice elems => JSON.array (toJSONList elems)
  | GoValue.map entries => JSON.object (sortByKey (toJSONMembers entries))
/-- The elements of a slice. -/
def toJSONList : List GoValue → List JSON
  | [] => []
  | v :: vs => v.toJSON :: toJSONList vs
/-- The entries of a map. -/
def toJSONMembers : List (String × GoValue) → List (String × JSON)
  | [] => []
  | (k, v) :: vs => (k, v.toJSON) :: toJSONMembers vs
end

/-! ## MCP protocol types (main.go) -/

/-- The struct `JSONRPCRequest`. `ID` is an `interface{}`, nil until set;
`Params` is a `json.RawMessage`, kept as the syntax tree of the raw text and
`none` while it is empty. -/
structure JSONRPCRequest where
  JSONRPC : String
  ID : GoValue
  Method : String
  Params : Option JSON

/-- The struct `RPCError`. -/
structure RPCError where
  Code : Int
  Message : String
  Data : GoValue

/-- The struct `Tool`; `InputSchema` is a `map[string]interface{}`, `none` for
the nil map. -/
structure Tool where
  Name : String
  Description : String
  InputSchema : Option (List (String × GoValue))

/-- The struct `ToolCallParams`; `Arguments` is `none` for the nil map. -/
structure ToolCallParams where
  Name : String
  Arguments : Option (List (String × GoValue))

/-- The struct `ContentBlock`; `Typ` is its member `Type`. -/
structure ContentBlock where
  Typ : String
  Text : String

/-- The struct `ToolResult`, with `Content` a slice that is not nil. -/
structure ToolResult where
  Content : List ContentBlock
  IsError : Bool

/-- What the `interface{}` field `Result` holds when it is not nil: a value of
the kinds of `GoValue` (the `map[string]interface{}` of `handleInitialize`, or
what `Unmarshal` stores), the map `{"tools": toolsList}` of `handleToolsList`
with its `[]Tool`, or the `ToolResult` of `handleToolCall`. -/
inductive ResultValue where
  | value (v : GoValue)
  | toolsMap (toolsList : List Tool)
  | toolResult (r : ToolResult)

/-- The struct `JSONRPCResponse`; `Result` is `none` for the nil interface and
`Error` is `none` for the nil pointer. -/
structure JSONRPCResponse where
  JSONRPC : String
  ID : GoValue
  Result : Option ResultValue
  Error : Option RPCError

/-! ## `json.Unmarshal` into the request types -/

/-- One character of a folded name (`foldName`): ASCII letters in upper case;
the long s and the Kelvin sign are the only other characters that fold to an
ASCII letter. -/
def foldChar (c : Char) : Char :=
  if 'a' ≤ c ∧ c ≤ 'z' then Char.ofNat (c.toNat - 32)
  else if c.toNat = 0x17f then 'S'
  else if c.toNat = 0x212a then 'K'
  else c

/-- Whether an object key selects the struct member with the JSON name
`name`: it is that name, or equal to it under case folding. -/
def keyMatches (key name : String) : Bool :=
  key = name || key.data.map foldChar = name.data.map foldChar

/-- Decoding a value into a member of type `string`: a string is stored, null
leaves the member as it is, anything else is an `UnmarshalTypeError`. -/
def decodeString (cur : String) : JSON → Option String
  | JSON.string s => some s
  | JSON.null => some cur
  | _ => none

/-- Decoding a value into a member of type `map[string]interface{}`: the
members of an object are assigned into the map (a new one if it is nil), null
makes the map nil, anything else is an `UnmarshalTypeError`. -/
def decodeMap (cur : Option (List (String × GoValue))) :
    JSON → Option (Option (List (String × GoValue)))
  | JSON.object members =>
      match toInterfaceMembers members with
      | some kvs => some (some (mapSetAll (cur.getD []) kvs))
      | none => none
  | JSON.null => some none
  | _ => none

/-- The zero value of `JSONRPCRequest`. -/
def JSONRPCRequest.zero : JSONRPCRequest :=
  { JSONRPC := "", ID := GoValue.nil, Method := "", Params := none }

/-- Decoding one object member into a `JSONRPCRequest`; a key that matches no
member is skipped. -/
def JSONRPCRequest.setMember (req : JSONRPCRequest) (kv : String × JSON) :
    Option JSONRPCRequest :=
  if keyMatches kv.1 "jsonrpc" then
    (decodeString req.JSONRPC kv.2).map fun s => { req with JSONRPC := s }
  else if keyMatches kv.1 "id" then
    (toInterface kv.2).map fun v => { req with ID := v }
  else if keyMatches kv.1 "method" then
    (decodeString req.Method kv.2).map fun s => { req with Method := s }
  else if keyMatches kv.1 "params" then
    some { req with Params := some kv.2 }
  else some req

/-- Decoding a JSON value into a `JSONRPCRequest` that holds `req`: an object
sets its members in their order, null changes nothing, any other value is an
`UnmarshalTypeError`. -/
def decodeRequest (req : JSONRPCRequest) : JSON → Option JSONRPCRequest
  | JSON.object members => members.foldlM JSONRPCRequest.setMember req
  | JSON.null => some req
  | _ => none

/-- The call `json.Unmarshal([]byte(requestJSON), &req)` of `HandleRequest`:
`none` when it returns an error (a syntax error, or a value of the wrong type),
the decoded request otherwise. -/
def unmarshalRequest (requestJSON : String) : Option JSONRPCRequest :=
  match checkValid requestJSON with
  | none => none
  | some v => decodeRequest JSONRPCRequest.zero v

/-- The zero value of `ToolCallParams`. -/
def ToolCallParams.zero : ToolCallParams := { Name := "", Arguments := none }

/-- Decoding one object member into a `ToolCallParams`. -/
def ToolCallParams.setMember (p : ToolCallParams) (kv : String × JSON) : Option ToolCallParams :=
  if keyMatches kv.1 "name" then
    (decodeString p.Name kv.2).map fun s => { p with Name := s }
  else if keyMatches kv.1 "arguments" then
    (decodeMap p.Arguments kv.2).map fun m => { p with Arguments := m }
  else some p

/-- The call `json.Unmarshal(req.Params, &params)` of `handleToolCall`: empty
params are a syntax error; otherwise the raw text, which the scanner accepted
before, decodes like a request does. -/
def unmarshalParams : Option JSON → Option ToolCallParams
  | none => none
  | some (JSON.object members) => members.foldlM ToolCallParams.setMember ToolCallParams.zero
  | some JSON.null => some ToolCallParams.zero
  | some _ => none

/-! ## `json.Unmarshal` of a response text, as a client reads the answer -/

/-- The function `strconv.ParseInt(lit, 10, 64)` on a literal the scanner
accepted: digits with an optional minus sign, within 64 bits. -/
def parseInt (lit : String) : Option Int :=
  let neg := lit.data.head? = some '-'
  let body := if neg then lit.data.drop 1 else lit.data
  if body.all isDigit && !body.isEmpty then
    let n : Int := if neg then -(digitsVal body : Int) else (digitsVal body : Int)
    if -(2 ^ 63 : Int) ≤ n ∧ n < (2 ^ 63 : Int) then some n else none
  else none

/-- Decoding a value into a member of type `int`. -/
def decodeInt (cur : Int) : JSON → Option Int
  | JSON.number lit => parseInt lit
  | JSON.null => some cur
  | _ => none

/-- The zero value of `RPCError`. -/
def RPCError.zero : RPCError := { Code := 0, Message := "", Data := GoValue.nil }

/-- Decoding one object member into an `RPCError`. -/
def RPCError.setMember (e : RPCError) (kv : String × JSON) : Option RPCError :=
  if keyMatches kv.1 "code" then
    (decodeInt e.Code kv.2).map fun c => { e with Code := c }
  else if keyMatches kv.1 "message" then
    (decodeString e.Message kv.2).map fun m => { e with Message := m }
  else if keyMatches kv.1 "data" then
    (toInterface kv.2).map fun v => { e with Data := v }
  else some e

/-- Decoding a value into a member of type `*RPCError`: null makes the pointer
nil, an object is decoded into the struct pointed to (a new one if the pointer
is nil). -/
def decodeError (cur : Option RPCError) : JSON → Option (Option RPCError)
  | JSON.object members =>
      (members.foldlM RPCError.setMember (cur.getD RPCError.zero)).map some
  | JSON.null => some none
  | _ => none

/-- The zero value of `JSONRPCResponse`. -/
def JSONRPCResponse.zero : JSONRPCResponse :=
  { JSONRPC := "", ID := GoValue.nil, Result := none, Error := none }

/-- Decoding one object member into a `JSONRPCResponse`. -/
def JSONRPCResponse.setMember (resp : JSONRPCResponse) (kv : String × JSON) :
    Option JSONRPCResponse :=
  if keyMatches kv.1 "jsonrpc" then
    (decodeString resp.JSONRPC kv.2).map fun s => { resp with JSONRPC := s }
  else if keyMatches kv.1 "id" then
    (toInterface kv.2).map fun v => { resp with ID := v }
  else if keyMatches kv.1 "result" then
    (toInterface kv.2).map fun v =>
      { resp with Result := if v.isNil then none else some (ResultValue.value v) }
  else if keyMatches kv.1 "error" then
    (decodeError resp.Error kv.2).map fun e => { resp with Error := e }
  else some resp

/-- The call `json.Unmarshal([]byte(text), &resp)` with `resp` a zero
`JSONRPCResponse`: `none` when it returns an error. -/
def unmarshalResponse (text : String) : Option JSONRPCResponse :=
  match checkValid text with
  | none => none
  | some (JSON.object members) =>
      members.foldlM JSONRPCResponse.setMember JSONRPCResponse.zero
  | some JSON.null => some JSONRPCResponse.zero
  | some _ => none

/-! ## `json.Marshal` of the response types -/

/-- The text of an `int`. -/
def intText (i : Int) : String :=
  String.mk ((if i < 0 then ['-'] else []) ++ natDigits i.natAbs)

/-- The JSON object of a `ContentBlock`. -/
def ContentBlock.toJSON (b : ContentBlock) : JSON :=
  JSON.object [("type", JSON.string b.Typ), ("text", JSON.string b.Text)]

/-- The JSON object of a `ToolResult`: `isError` is tagged `omitempty` and is
left out when false. -/
def ToolResult.toJSON (r : ToolResult) : JSON :=
  JSON.object (("content", JSON.array (r.Content.map ContentBlock.toJSON)) ::
    (if r.IsError then [("isError", JSON.bool true)] else []))

/-- The JSON value of a `map[string]interface{}`: null for the nil map. -/
def mapToJSON : Option (List (String × GoValue)) → JSON
  | none => JSON.null
  | some m => (GoValue.map m).toJSON

/-- The JSON object of a `Tool`. -/
def Tool.toJSON (t : Tool) : JSON :=
  JSON.object [("name", JSON.string t.Name), ("description", JSON.string t.Description),
    ("inputSchema", mapToJSON t.InputSchema)]

/-- The JSON value of what `Result` holds. -/
def ResultValue.toJSON : ResultValue → JSON
  | ResultValue.value v => v.toJSON
  | ResultValue.toolsMap toolsList => JSON.object [("tools", JSON.array (toolsList.map Tool.toJSON))]
  | ResultValue.toolResult r => r.toJSON

/-- The JSON object of an `RPCError`: `data` is tagged `omitempty` and is left
out when nil. -/
def RPCError.toJSON (e : RPCError) : JSON :=
  JSON.object ([("code", JSON.number (intText e.Code)), ("message", JSON.string e.Message)] ++
    (if e.Data.isNil then [] else [("data", e.Data.toJSON)]))

/-- The JSON object of a `JSONRPCResponse`: `id`, `result` and `error` are
tagged `omitempty`, so a nil `ID`, a nil `Result` and a nil `Error` are left out. -/
def JSONRPCResponse.toJSON (resp : JSONRPCResponse) : JSON :=
  JSON.object ([("jsonrpc", JSON.string resp.JSONRPC)] ++
    (if resp.ID.isNil then [] else [("id", resp.ID.toJSON)]) ++
    (match resp.Result with
      | none => []
      | some r => [("result", r.toJSON)]) ++
    (match resp.Error with
      | none => []
      | some e => [("error", e.toJSON)]))

/-- The call `json.Marshal(resp)` followed by `string(data)`. Every value of the
response types has an encoding, so no error arises. -/
def marshal (resp : JSONRPCResponse) : String := String.mk (render resp.toJSON)

/-! ## The clock (`time.Now().Format(time.RFC3339)`) -/

/-- A reading of the clock: the civil date and time in the local zone and the
zone's offset from UTC in seconds. -/
structure Time where
  year : Nat
  month : Nat
  day : Nat
  hour : Nat
  minute : Nat
  second : Nat
  offset : Int

/-- The function `appendInt`: decimal digits, padded with zeros to `width`. -/
def appendInt (x width : Nat) : List Char :=
  List.replicate (width - (natDigits x).length) '0' ++ natDigits x

/-- The zone of the layout `Z07:00`: `Z` for UTC, else sign, hours and minutes. -/
def formatZone (offset : Int) : List Char :=
  if offset = 0 then ['Z']
  else
    let zone : Int := Int.tdiv offset 60
    (if zone < 0 then '-' else '+') ::
      (appendInt (zone.natAbs / 60) 2 ++ ':' :: appendInt (zone.natAbs % 60) 2)

/-- The method `Time.Format` with the layout `time.RFC3339`,
`2006-01-02T15:04:05Z07:00`. -/
def Time.formatRFC3339 (t : Time) : String :=
  String.mk (appendInt t.year 4 ++ '-' :: appendInt t.month 2 ++ '-' :: appendInt t.day 2 ++
    'T' :: appendInt t.hour 2 ++ ':' :: appendInt t.minute 2 ++ ':' :: appendInt t.second 2 ++
    formatZone t.offset)

/-! ## The server (main.go) -/

/-- What a call takes from outside the server: the reading `time.Now()` gives,
and the order in which `range` walks a map, which Go leaves open (any
permutation of the map's values). -/
structure Env where
  now : Time
  rangeOrder : List Tool → List Tool
  rangeOrder_perm : ∀ l, (rangeOrder l).Perm l

/-- The struct `MCPServer`: `tools` is a `map[string]Tool`, a finite map with
one entry per key. -/
structure MCPServer where
  tools : AList (fun _ : String => Tool)

/-- The method `registerTool`: `s.tools[tool.Name] = tool`. -/
def MCPServer.registerTool (s : MCPServer) (tool : Tool) : MCPServer :=
  { tools := s.tools.insert tool.Name tool }

/-- The tool that `NewMCPServer` registers. -/
def getCurrentTimeTool : Tool :=
  { Name := "getCurrentTime"
    Description := "Returns the current time in RFC3339 format"
    InputSchema := some [("type", GoValue.string "object"), ("properties", GoValue.map []),
      ("required", GoValue.slice [])] }

/-- The function `NewMCPServer`: an empty map, then the example tool registered. -/
def NewMCPServer : MCPServer :=
  MCPServer.registerTool { tools := ∅ } getCurrentTimeTool

/-- The method `successResponse`; all methods of the server return their string
together with the server they leave behind. -/
def MCPServer.successResponse (s : MCPServer) (id : GoValue) (result : ResultValue) :
    String × MCPServer :=
  (marshal { JSONRPC := "2.0", ID := id, Result := some result, Error := none }, s)

/-- The method `errorResponse`. -/
def MCPServer.errorResponse (s : MCPServer) (id : GoValue) (code : Int) (message : String)
    (data : GoValue) : String × MCPServer :=
  (marshal { JSONRPC := "2.0", ID := id, Result := none,
             Error := some { Code := code, Message := message, Data := data } }, s)

/-- The method `handleInitialize`. -/
def MCPServer.handleInitialize (s : MCPServer) (req : JSONRPCRequest) : String × MCPServer :=
  let result := ResultValue.value (GoValue.map
    [("protocolVersion", GoValue.string "2024-11-05"),
     ("serverInfo", GoValue.map
       [("name", GoValue.string "golang-wasm-mcp-server"), ("version", GoValue.string "1.0.0")]),
     ("capabilities", GoValue.map [("tools", GoValue.map [])])])
  s.successResponse req.ID result

/-- The method `handleToolsList`: the tools of the map, in the order `range`
yields them. -/
def MCPServer.handleToolsList (s : MCPServer) (env : Env) (req : JSONRPCRequest) :
    String × MCPServer :=
  let toolsList := env.rangeOrder (s.tools.entries.map fun e => e.2)
  let result := ResultValue.toolsMap toolsList
  s.successResponse req.ID result

/-- The method `handleToolCall`. -/
def MCPServer.handleToolCall (s : MCPServer) (env : Env) (req : JSONRPCRequest) :
    String × MCPServer :=
  match unmarshalParams req.Params with
  | none => s.errorResponse req.ID (-32602) "Invalid params" GoValue.nil
  | some params =>
      if params.Name = "getCurrentTime" then
        let currentTime := env.now.formatRFC3339
        let result : ToolResult :=
          { Content := [{ Typ := "text", Text := currentTime }], IsError := false }
        s.successResponse req.ID (ResultValue.toolResult result)
      else
        s.errorResponse req.ID (-32602) ("Unknown tool: " ++ params.Name) GoValue.nil

/-- The method `HandleRequest`, as Go runs it on a call stack that suffices; what
the js/wasm host does with a call that exhausts its stack is in
`mcpHandleRequest`. -/
def MCPServer.HandleRequest (s : MCPServer) (env : Env) (requestJSON : String) :
    String × MCPServer :=
  match unmarshalRequest requestJSON with
  | none => s.errorResponse GoValue.nil (-32700) "Parse error" GoValue.nil
  | some req =>
      if req.Method = "initialize" then s.handleInitialize req
      else if req.Method = "tools/list" then s.handleToolsList env req
      else if req.Method = "tools/call" then s.handleToolCall env req
      else s.errorResponse req.ID (-32601) "Method not found" GoValue.nil

/-! ## Reading a response, reachable servers, example inputs -/

/-- The member of a JSON object with the given name, if there is one. -/
def JSON.lookup (j : JSON) (name : String) : Option JSON :=
  match j with
  | JSON.object members => members.lookup name
  | _ => none

/-- The servers a program can hold: the one `NewMCPServer` builds, and any
server obtained from such a one by a further `registerTool`. -/
inductive Reachable : MCPServer → Prop where
  | new : Reachable NewMCPServer
  | register (s : MCPServer) (tool : Tool) : Reachable s → Reachable (s.registerTool tool)

/-- A clock reading: 2 January 2024, 03:04:05 UTC. -/
def exampleTime : Time :=
  { year := 2024, month := 1, day := 2, hour := 3, minute := 4, second := 5, offset := 0 }

/-- An environment with that clock reading, in which `range` walks a map in
the order of its entries. -/
def exampleEnv : Env :=
  { now := exampleTime, rangeOrder := fun l => l, rangeOrder_perm := fun l => List.Perm.refl l }

/-- The tool `add` of EXAMPLES.go. -/
def addTool : Tool :=
  { Name := "add"
    Description := "Adds two numbers together"
    InputSchema := some
      [("type", GoValue.string "object"),
       ("properties", GoValue.map
         [("a", GoValue.map [("type", GoValue.string "number"),
                             ("description", GoValue.string "First number to add")]),
          ("b", GoValue.map [("type", GoValue.string "number"),
                             ("description", GoValue.string "Second number to add")])]),
       ("required", GoValue.slice [GoValue.string "a", GoValue.string "b"])] }

/-- The `float64` of a small natural number `mant * 2^exp`, for writing ids. -/
def float64Of (mant : Nat) (exp : Int) : GoValue :=
  GoValue.float64 { neg := false, mant := mant, exp := exp }

/-- The id a request text decodes to: nil when the text does not decode. -/
def requestID (requestJSON : String) : GoValue :=
  match unmarshalRequest requestJSON with
  | some req => req.ID
  | none => GoValue.nil

/-- Whether a JSON value is null. -/
def JSON.isNull : JSON → Bool
  | JSON.null => true
  | _ => false

/-- Whether a JSON value is a string. -/
def JSON.isString : JSON → Bool
  | JSON.string _ => true
  | _ => false

/-- Whether a JSON value is an object. -/
def JSON.isObject : JSON → Bool
  | JSON.object _ => true
  | _ => false

/-- A member of a params object that cannot be stored: a `name` that is
neither a string nor null, or `arguments` that are neither an object nor null. -/
def malformedMember (kv : String × JSON) : Bool :=
  (keyMatches kv.1 "name" && !(kv.2.isString || kv.2.isNull)) ||
  (keyMatches kv.1 "arguments" && !(kv.2.isObject || kv.2.isNull))

/-- Params that are plainly not a `ToolCallParams`: absent, a JSON value that
is neither an object nor null, or an object with a malformed member. -/
def paramsMalformed : Option JSON → Bool
  | none => true
  | some (JSON.object members) => members.any malformedMember
  | some JSON.null => false
  | some _ => true

/-- The server after a run of calls of `HandleRequest`, each with the
environment it meets and its request text. -/
def MCPServer.handleAll (s : MCPServer) : List (Env × String) → MCPServer
  | [] => s
  | call :: calls => MCPServer.handleAll (s.HandleRequest call.1 call.2).2 calls

/-! ## The grammar of JSON texts (RFC 8259), without insignificant space -/

/-- The automaton of the grammar of numbers,
`[ minus ] int [ frac ] [ exp ]`: from `Step.beginValue` before the number,
over `neg` (after the minus), `zero` and `one` (in the integer part), `dot`
and `dot0` (in the fraction), `e`, `eSign` and `e0` (in the exponent);
`Step.error` when the character cannot follow. -/
def numberNext (st : Step) (c : Char) : Step :=
  match st with
  | Step.beginValue =>
      if c = '-' then Step.neg
      else if c = '0' then Step.zero
      else if isDigit c then Step.one
      else Step.error
  | Step.neg =>
      if c = '0' then Step.zero
      else if isDigit c then Step.one
      else Step.error
  | Step.zero =>
      if c = '.' then Step.dot
      else if c = 'e' ∨ c = 'E' then Step.e
      else Step.error
  | Step.one =>
      if isDigit c then Step.one
      else if c = '.' then Step.dot
      else if c = 'e' ∨ c = 'E' then Step.e
      else Step.error
  | Step.dot => if isDigit c then Step.dot0 else Step.error
  | Step.dot0 =>
      if isDigit c then Step.dot0
      else if c = 'e' ∨ c = 'E' then Step.e
      else Step.error
  | Step.e =>
      if c = '+' ∨ c = '-' then Step.eSign
      else if isDigit c then Step.e0
      else Step.error
  | Step.eSign => if isDigit c then Step.e0 else Step.error
  | Step.e0 => if isDigit c then Step.e0 else Step.error
  | _ => Step.error

/-- The states in which a number is complete. -/
def numberFinal : Step → Bool
  | Step.zero => true
  | Step.one => true
  | Step.dot0 => true
  | Step.e0 => true
  | _ => false

/-- Whether a text is a number of the grammar. -/
def isNumberLit (l : List Char) : Bool := numberFinal (l.foldl numberNext Step.beginValue)

/-- The automaton of the grammar of the characters between the quotes of a
string: `Step.inString` between characters, `inStringEsc` after a backslash,
`inStringEscU` to `inStringEscU123` in the four hexadecimal digits of `\u`. -/
def stringNext (st : Step) (c : Char) : Step :=
  match st with
  | Step.inString =>
      if c = '"' then Step.error
      else if c = '\\' then Step.inStringEsc
      else if c.toNat < 0x20 then Step.error
      else Step.inString
  | Step.inStringEsc =>
      if c = 'b' ∨ c = 'f' ∨ c = 'n' ∨ c = 'r' ∨ c = 't' ∨ c = '\\' ∨ c = '/' ∨ c = '"' then
        Step.inString
      else if c = 'u' then Step.inStringEscU
      else Step.error
  | Step.inStringEscU => if isHex c then Step.inStringEscU1 else Step.error
  | Step.inStringEscU1 => if isHex c then Step.inStringEscU12 else Step.error
  | Step.inStringEscU12 => if isHex c then Step.inStringEscU123 else Step.error
  | Step.inStringEscU123 => if isHex c then Step.inString else Step.error
  | _ => Step.error

/-- Whether a text is what stands between the quotes of a string of the grammar. -/
def isStringBody (l : List Char) : Bool := l.foldl stringNext Step.inString = Step.inString

mutual
/-- The texts of the JSON grammar and the syntax tree of each: `IsJSONText t j`
says that `t` is a JSON value whose tree is `j`. -/
inductive IsJSONText : List Char → JSON → Prop
  | null : IsJSONText ['n', 'u', 'l', 'l'] JSON.null
  | boolTrue : IsJSONText ['t', 'r', 'u', 'e'] (JSON.bool true)
  | boolFalse : IsJSONText ['f', 'a', 'l', 's', 'e'] (JSON.bool false)
  | number (lit : String) : isNumberLit lit.data = true → IsJSONText lit.data (JSON.number lit)
  | string (body : List Char) : isStringBody body = true →
      IsJSONText ('"' :: (body ++ ['"'])) (JSON.string (unquote body))
  | emptyArray : IsJSONText ['[', ']'] (JSON.array [])
  | array (t : List Char) (x : JSON) (xs : List JSON) : IsJSONElems t (x :: xs) →
      IsJSONText ('[' :: (t ++ [']'])) (JSON.array (x :: xs))
  | emptyObject : IsJSONText ['{', '}'] (JSON.object [])
  | object (t : List Char) (m : String × JSON) (ms : List (String × JSON)) :
      IsJSONMembers t (m :: ms) → IsJSONText ('{' :: (t ++ ['}'])) (JSON.object (m :: ms))
/-- The texts of one or more values separated by commas. -/
inductive IsJSONElems : List Char → List JSON → Prop
  | one (t : List Char) (x : JSON) : IsJSONText t x → IsJSONElems t [x]
  | cons (t ts : List Char) (x y : JSON) (xs : List JSON) : IsJSONText t x →
      IsJSONElems ts (y :: xs) → IsJSONElems (t ++ ',' :: ts) (x :: y :: xs)
/-- The texts of one or more members `string : value` separated by commas. -/
inductive IsJSONMembers : List Char → List (String × JSON) → Prop
  | one (body t : List Char) (x : JSON) : isStringBody body = true → IsJSONText t x →
      IsJSONMembers ('"' :: (body ++ '"' :: ':' :: t)) [(unquote body, x)]
  | cons (body t ts : List Char) (x : JSON) (y : String × JSON) (ys : List (String × JSON)) :
      isStringBody body = true → IsJSONText t x → IsJSONMembers ts (y :: ys) →
      IsJSONMembers ('"' :: (body ++ '"' :: ':' :: (t ++ ',' :: ts))) ((unquote body, x) :: y :: ys)
end

mutual
/-- How deep arrays and objects nest in a syntax tree: 0 for a value that is
neither, 1 for an array or object of such values. -/
def JSON.depth : JSON → Nat
  | JSON.array elems => depthList elems + 1
  | JSON.object members => depthMembers members + 1
  | _ => 0
/-- The greatest depth among the elements of an array. -/
def depthList : List JSON → Nat
  | [] => 0
  | x :: xs => max x.depth (depthList xs)
/-- The greatest depth among the members of an object. -/
def depthMembers : List (String × JSON) → Nat
  | [] => 0
  | (_, x) :: xs => max x.depth (depthMembers xs)
end

mutual
/-- Whether every number literal of a syntax tree is a number of the grammar. -/
def JSON.numbersValid : JSON → Bool
  | JSON.number lit => isNumberLit lit.data
  | JSON.array elems => numbersValidList elems
  | JSON.object members => numbersValidMembers members
  | _ => true
/-- The same for the elements of an array. -/
def numbersValidList : List JSON → Bool
  | [] => true
  | x :: xs => x.numbersValid && numbersValidList xs
/-- The same for the members of an object. -/
def numbersValidMembers : List (String × JSON) → Bool
  | [] => true
  | (_, x) :: xs => x.numbersValid && numbersValidMembers xs
end

/-- The stack of open containers after a finished value `v` is handed to the
frame on top of it. -/
def emitStack : List Frame → JSON → List Frame
  | [], _ => []
  | Frame.arrayValue elems :: rest, v => Frame.arrayValue (elems ++ [v]) :: rest
  | Frame.objectValue members key :: rest, v =>
      Frame.objectValue (members ++ [(key, v)]) key :: rest
  | Frame.objectKey members _ :: rest, JSON.string k => Frame.objectKey members k :: rest
  | Frame.objectKey members key :: rest, _ => Frame.objectKey members key :: rest

/-- The top-level value after a finished value `v` is handed on. -/
def emitTop : List Frame → Option JSON → JSON → Option JSON
  | [], _, v => some v
  | _ :: _, top, _ => top

/-- How deep the values nest that an open array or object has taken in so far. -/
def Frame.contentDepth : Frame → Nat
  | Frame.arrayValue elems => depthList elems
  | Frame.objectKey members _ => depthMembers members
  | Frame.objectValue members _ => depthMembers members

/-- Whether every open container of the stack, closed with what it holds,
nests within the limit at the level it stands on. -/
def stackWithin : List Frame → Bool
  | [] => true
  | f :: rest => decide (rest.length + 1 + f.contentDepth ≤ maxNestingDepth) && stackWithin rest

/-- The scanner holds nothing that nests beyond the limit: neither in its
open containers nor in the finished top-level value. -/
def Scanner.withinDepth (s : Scanner) : Prop :=
  stackWithin s.parseState = true ∧ ∀ j, s.top = some j → j.depth ≤ maxNestingDepth

/-- Whether the JSON objects of the registered tools nest so that a
`tools/list` response, in which they stand three levels deep, stays within the
limit of the decoder. -/
def MCPServer.toolsWithinDepth (s : MCPServer) : Bool :=
  s.tools.entries.all fun e => decide ((Tool.toJSON e.2).depth + 3 ≤ maxNestingDepth)

/-! ## Well-formed `float64` values, for the round trip through text -/

/-- The rounding of `roundToFloat64` at the exponent `e`: the quotient
`num / (den * 2^e)` rounded to the nearest integer, a mantissa of `2^53` made
`2^52` one exponent higher, and `none` beyond the largest `float64`. -/
def roundAt (num den : Nat) (e : Int) : Option (Nat × Int) :=
  let q := roundHalfEven (scale2 num den e)
  let r : Nat × Int := if q = 2 ^ 53 then (2 ^ 52, e + 1) else (q, e)
  if r.2 > 971 then none else some r

/-- Whether a `Float64` is one of the finite `float64` numbers in the form the
structure is documented with: the mantissa below `2^53`, the exponent from
-1074 to 971, and the exponent -1074 when the mantissa is below `2^52`. -/
def Float64.canonical (f : Float64) : Bool :=
  decide (f.mant < 2 ^ 53) && decide (-1074 ≤ f.exp) && decide (f.exp ≤ 971) &&
    (decide (2 ^ 52 ≤ f.mant) || decide (f.exp = -1074))

/-- The `float64` nearest to the decimal `d`, as `parseFloat` computes it from
what `readFloat` read: `none` for a number out of range. -/
def roundDecimal (d : Decimal) : Option Float64 :=
  if d.digits = 0 then some { neg := d.neg, mant := 0, exp := -1074 }
  else
    let r := if 0 ≤ d.exp10 then roundToFloat64 (d.digits * 10 ^ d.exp10.toNat) 1
             else roundToFloat64 d.digits (10 ^ (-d.exp10).toNat)
    r.map fun me => { neg := d.neg, mant := me.1, exp := me.2 }

mutual
/-- Whether every `float64` held in a value is in canonical form. -/
def GoValue.floatsCanonical : GoValue → Bool
  | GoValue.float64 f => f.canonical
  | GoValue.slice elems => floatsCanonicalList elems
  | GoValue.map entries => floatsCanonicalEntries entries
  | _ => true
/-- The same for the elements of a slice. -/
def floatsCanonicalList : List GoValue → Bool
  | [] => true
  | v :: vs => v.floatsCanonical && floatsCanonicalList vs
/-- The same for the entries of a map. -/
def floatsCanonicalEntries : List (String × GoValue) → Bool
  | [] => true
  | (_, v) :: vs => v.floatsCanonical && floatsCanonicalEntries vs
end

/-! ## Go values that are the same, and values a client can read -/

mutual
/-- Whether the keys of every map held in a value are distinct, as the keys of
a Go map are. -/
def GoValue.keysDistinct : GoValue → Bool
  | GoValue.slice elems => keysDistinctList elems
  | GoValue.map entries =>
      decide (entries.map Prod.fst).Nodup && keysDistinctEntries entries
  | _ => true
/-- The same for the elements of a slice. -/
def keysDistinctList : List GoValue → Bool
  | [] => true
  | v :: vs => v.keysDistinct && keysDistinctList vs
/-- The same for the entries of a map. -/
def keysDistinctEntries : List (String × GoValue) → Bool
  | [] => true
  | (_, v) :: vs => v.keysDistinct && keysDistinctEntries vs
end

mutual
/-- Two values that are the same Go value. A Go map has no order, and the
list of entries that stands for it here has one: two maps are the same when
one has, under the same keys and in some order, the same values as the other.
Everything else is the same only as itself, part by part. -/
inductive GoValue.Same : GoValue → GoValue → Prop
  | nil : GoValue.Same GoValue.nil GoValue.nil
  | bool (b : Bool) : GoValue.Same (GoValue.bool b) (GoValue.bool b)
  | float64 (f : Float64) : GoValue.Same (GoValue.float64 f) (GoValue.float64 f)
  | string (x : String) : GoValue.Same (GoValue.string x) (GoValue.string x)
  | slice {xs ys : List GoValue} : SameList xs ys →
      GoValue.Same (GoValue.slice xs) (GoValue.slice ys)
  | map {es fs gs : List (String × GoValue)} : SameEntries es fs → fs.Perm gs →
      GoValue.Same (GoValue.map es) (GoValue.map gs)
/-- Slices of the same length whose elements are the same, one by one. -/
inductive SameList : List GoValue → List GoValue → Prop
  | nil : SameList [] []
  | cons {x y : GoValue} {xs ys : List GoValue} : GoValue.Same x y → SameList xs ys →
      SameList (x :: xs) (y :: ys)
/-- Entries with the same keys whose values are the same, one by one. -/
inductive SameEntries : List (String × GoValue) → List (String × GoValue) → Prop
  | nil : SameEntries [] []
  | cons {k : String} {x y : GoValue} {es fs : List (String × GoValue)} :
      GoValue.Same x y → SameEntries es fs → SameEntries ((k, x) :: es) ((k, y) :: fs)
end

/-- The value `json.Marshal` writes a tool schema as: nil for the nil map. -/
def schemaValue : Option (List (String × GoValue)) → GoValue
  | none => GoValue.nil
  | some m => GoValue.map m

/-- Whether the schema of a tool is a well-formed value: its numbers are
`float64` values and the keys of each of its maps are distinct. -/
def Tool.wellFormed (t : Tool) : Bool :=
  (schemaValue t.InputSchema).floatsCanonical && (schemaValue t.InputSchema).keysDistinct

/-- Whether a client can read the `tools/list` answer of the server: the JSON
objects of the registered tools nest within the limit of the decoder, and
their schemas are well-formed values. -/
def MCPServer.toolsReadable (s : MCPServer) : Bool :=
  s.toolsWithinDepth && s.tools.entries.all fun e => e.2.wellFormed

/-- What a client reads a tool as: the generic map with the members `name`,
`description` and `inputSchema`, holding the tool's name, its description and
the same value as its schema. -/
def Tool.ReadAs (t : Tool) (g : GoValue) : Prop :=
  ∃ sch, g = GoValue.map [("name", GoValue.string t.Name),
      ("description", GoValue.string t.Description), ("inputSchema", sch)] ∧
    GoValue.Same (schemaValue t.InputSchema) sch

/-! ## Timestamps of RFC 3339 -/

/-- The days of a month in the Gregorian calendar. -/
def daysIn (year month : Nat) : Nat :=
  if month = 2 then
    if year % 4 = 0 ∧ (year % 100 ≠ 0 ∨ year % 400 = 0) then 29 else 28
  else if month = 4 ∨ month = 6 ∨ month = 9 ∨ month = 11 then 30
  else 31

/-- Whether a reading of the clock is a civil time of the years 0 to 9999 in a
zone whose offset is a whole number of minutes, less than a day: the readings
RFC 3339 has a text for. -/
def Time.valid (t : Time) : Bool :=
  decide (t.year ≤ 9999) && decide (1 ≤ t.month) && decide (t.month ≤ 12) &&
    decide (1 ≤ t.day) && decide (t.day ≤ daysIn t.year t.month) && decide (t.hour ≤ 23) &&
    decide (t.minute ≤ 59) && decide (t.second ≤ 59) && decide (t.offset % 60 = 0) &&
    decide (-86400 < t.offset) && decide (t.offset < 86400)

/-- The `time-offset` of RFC 3339, section 5.6, read as seconds east of UTC:
`Z`, or a sign, two digits of hours, a colon and two digits of minutes. -/
def readZone : List Char → Option Int
  | [z] => if z = 'Z' then some 0 else none
  | [sign, a, b, c, d, e] =>
      if (sign = '+' ∨ sign = '-') ∧ c = ':' ∧ isDigit a = true ∧ isDigit b = true ∧
          isDigit d = true ∧ isDigit e = true ∧ digitsVal [a, b] ≤ 23 ∧ digitsVal [d, e] ≤ 59 then
        some ((if sign = '-' then -1 else 1) *
          ((digitsVal [a, b] * 3600 + digitsVal [d, e] * 60 : Nat) : Int))
      else none
  | _ => none

/-- The `date-time` of RFC 3339, section 5.6, without a fraction of a second,
read into a clock reading: `yyyy-mm-ddThh:mm:ss` and a `time-offset`, every
field a number in its range. `none` for a text that is no such timestamp. -/
def readRFC3339 : List Char → Option Time
  | y1 :: y2 :: y3 :: y4 :: c1 :: m1 :: m2 :: c2 :: d1 :: d2 :: c3 :: h1 :: h2 :: c4 ::
      n1 :: n2 :: c5 :: s1 :: s2 :: zone =>
      if c1 = '-' ∧ c2 = '-' ∧ c3 = 'T' ∧ c4 = ':' ∧ c5 = ':' ∧
          ([y1, y2, y3, y4, m1, m2, d1, d2, h1, h2, n1, n2, s1, s2].all isDigit) = true then
        match readZone zone with
        | some offset =>
            let t : Time :=
              { year := digitsVal [y1, y2, y3, y4], month := digitsVal [m1, m2],
                day := digitsVal [d1, d2], hour := digitsVal [h1, h2],
                minute := digitsVal [n1, n2], second := digitsVal [s1, s2], offset := offset }
            if t.valid = true then some t else none
        | none => none
      else none
  | _ => none

/-! ## The call stack of the js/wasm host (main.go, lines 1-2 and 190-198) -/

/-- The host that runs the js/wasm build (the only build, by the constraint
`wasm` of main.go): the calls of Go functions nest on the call stack of the
JavaScript engine, which is bounded. `room` is the number of levels of nested
arrays and objects that the functions of `encoding/json` that call themselves
once for each level can descend, beyond what every call needs, before the
engine throws `RangeError`. -/
structure Host where
  room : Nat

/-- The levels `json.Unmarshal` descends for the members `id` of a request
object: the member is an `interface{}`, which `valueInterface`,
`arrayInterface` and `objectInterface` fill by calling one another once for
each level of nesting. `json.Marshal` descends the decoded id again, no
deeper. Members of other names are skipped or kept as raw text by the scanner,
which does not call itself. -/
def idLevels (members : List (String × JSON)) : Nat :=
  members.foldl (fun n kv => if keyMatches kv.1 "id" then max n kv.2.depth else n) 0

/-- The levels `json.Unmarshal(req.Params, &params)` descends: the values of an
object `arguments` are stored in a `map[string]interface{}`. -/
def argumentLevels : Option JSON → Nat
  | some (JSON.object members) =>
      members.foldl (fun n kv =>
        if keyMatches kv.1 "name" = false ∧ keyMatches kv.1 "arguments" = true ∧
            kv.2.isObject = true then max n kv.2.depth else n) 0
  | _ => 0

/-- The levels `json.Marshal` descends for the schemas of the registered tools,
maps of `interface{}`, when it writes a `tools/list` result. -/
def MCPServer.schemaLevels (s : MCPServer) : Nat :=
  s.tools.entries.foldl (fun n e => max n (mapToJSON e.2.InputSchema).depth) 0

/-- The levels of nesting a call of `HandleRequest` makes `encoding/json`
descend by functions that call themselves: those of the id, and for
`tools/call` those of the arguments, for `tools/list` those of the schemas. A
text the scanner rejects, or one that is no object, is not descended. -/
def MCPServer.stackLevels (s : MCPServer) (requestJSON : String) : Nat :=
  match checkValid requestJSON with
  | some (JSON.object members) =>
      max (idLevels members)
        (match unmarshalRequest requestJSON with
          | some req =>
              if req.Method = "tools/call" then argumentLevels req.Params
              else if req.Method = "tools/list" then s.schemaLevels
              else 0
          | none => 0)
  | _ => 0

/-- What a call from JavaScript comes to: the string returned, with the server
left behind, or the `RangeError` the host throws when its call stack is
exhausted. -/
inductive Outcome where
  | returned (text : String) (server : MCPServer)
  | rangeError

/-- The function that `main` gives to JavaScript as `mcpHandleRequest`
(main.go, lines 190-198), on a host: one argument is handed to
`HandleRequest`, whose string is returned unless the nesting the call descends
exceeds the room of the host's call stack. -/
def mcpHandleRequest (host : Host) (server : MCPServer) (env : Env) (args : List String) :
    Outcome :=
  match args with
  | [requestJSON] =>
      if server.stackLevels requestJSON ≤ host.room then
        Outcome.returned (server.HandleRequest env requestJSON).1
          (server.HandleRequest env requestJSON).2
      else Outcome.rangeError
  | _ => Outcome.returned "Error: expected 1 argument (request JSON string)" server

/-- Arrays nested in one another, `n + 1` of them: `[[...[]...]]`. -/
def nestedArrays : Nat → JSON
  | 0 => JSON.array []
  | n + 1 => JSON.array [nestedArrays n]

/-- The request `{"id":[[...[]...]]}` whose id is `n + 1` nested arrays. -/
def nestedIdRequest (n : Nat) : String :=
  String.mk ("\x7b\"id\":".data ++ List.replicate (n + 1) '[' ++ List.replicate (n + 1) ']' ++
    ['\x7d'])

/-! ## Theorems -/

set_option maxRecDepth 1000000

/-- The scanner on some texts: what it accepts and what it rejects. -/
theorem valid_examples :
    Valid "\x7b\"a\":[1,-0.5e+3,true,false,null,\"x\\n\\u00e9\"],\"b\":\x7b\x7d\x7d" = true ∧
    Valid " [ ] " = true ∧ Valid "-0" = true ∧ Valid "\"\"" = true ∧
    Valid "" = false ∧ Valid "nope" = false ∧ Valid "[1,]" = false ∧
    Valid "\x7b\"a\":1,\x7d" = false ∧ Valid "\x7ba:1\x7d" = false ∧
    Valid "01" = false ∧ Valid "1." = false ∧ Valid ".5" = false ∧ Valid "+1" = false ∧
    Valid "\"a" = false ∧ Valid "\"\\x\"" = false ∧ Valid "\"a\tb\"" = false ∧
    Valid "[1] 2" = false ∧ Valid "nul" = false ∧ Valid "NaN" = false := by
  decide

/-- Numbers read as `float64` and written back. -/
theorem float64_examples :
    (parseFloat "1").map formatFloat = some "1" ∧
    (parseFloat "-12.50").map formatFloat = some "-12.5" ∧
    (parseFloat "0.1").map formatFloat = some "0.1" ∧
    (parseFloat "1e2").map formatFloat = some "100" ∧
    (parseFloat "1e21").map formatFloat = some "1e+21" ∧
    (parseFloat "0.0000001").map formatFloat = some "1e-7" ∧
    (parseFloat "9007199254740993").map formatFloat = some "9007199254740992" ∧
    (parseFloat "5e-324").map formatFloat = some "5e-324" ∧
    (parseFloat "1.7976931348623157e308").map formatFloat = some "1.7976931348623157e+308" ∧
    (parseFloat "1e999").map formatFloat = none := by
  decide!

/-- A text that is not valid JSON does not decode. -/
theorem unmarshalRequest_of_not_valid (requestJSON : String) (h : Valid requestJSON = false) :
    unmarshalRequest requestJSON = none := by
  unfold Valid at h
  unfold unmarshalRequest
  cases hc : checkValid requestJSON with
  | none => rfl
  | some v => rw [hc] at h; cases h

/-- The text of the parse-error response. -/
theorem marshal_parse_error :
    marshal { JSONRPC := "2.0", ID := GoValue.nil, Result := none,
              Error := some { Code := -32700, Message := "Parse error", Data := GoValue.nil } } =
      "\x7b\"jsonrpc\":\"2.0\",\"error\":\x7b\"code\":-32700,\"message\":\"Parse error\"\x7d\x7d" := by
  decide!

/-- The parse-error response as a client decodes it: no result, error code
-32700 with the message "Parse error", and a nil id. -/
theorem unmarshalResponse_parse_error :
    (unmarshalResponse
        "\x7b\"jsonrpc\":\"2.0\",\"error\":\x7b\"code\":-32700,\"message\":\"Parse error\"\x7d\x7d").map
      (fun r => (r.JSONRPC, r.ID.isNil, r.Result.isNone, r.Error.map fun e => (e.Code, e.Message))) =
      some ("2.0", true, true, some (-32700, "Parse error")) := by
  decide!

/-- C2: an input that is not valid JSON is answered, on every server, with the
encoding of the response that has error code -32700, message "Parse error", no
result and the nil id. That encoding is one fixed text; decoded as a
`JSONRPCResponse` it gives the error code -32700, the message "Parse error",
no result and the id nil (the text does not write the nil id). -/
theorem handleRequest_parse_error (s : MCPServer) (env : Env) (requestJSON : String)
    (h : Valid requestJSON = false) :
    s.HandleRequest env requestJSON =
        (marshal { JSONRPC := "2.0", ID := GoValue.nil, Result := none,
                   Error := some { Code := -32700, Message := "Parse error",
                                   Data := GoValue.nil } }, s) ∧
      (s.HandleRequest env requestJSON).1 =
        "\x7b\"jsonrpc\":\"2.0\",\"error\":\x7b\"code\":-32700,\"message\":\"Parse error\"\x7d\x7d" ∧
      (unmarshalResponse (s.HandleRequest env requestJSON).1).map
          (fun r => (r.JSONRPC, r.ID.isNil, r.Result.isNone,
            r.Error.map fun e => (e.Code, e.Message))) =
        some ("2.0", true, true, some (-32700, "Parse error")) := by
  have hreq := unmarshalRequest_of_not_valid requestJSON h
  have h1 : s.HandleRequest env requestJSON =
      (marshal { JSONRPC := "2.0", ID := GoValue.nil, Result := none,
                 Error := some { Code := -32700, Message := "Parse error",
                                 Data := GoValue.nil } }, s) := by
    unfold MCPServer.HandleRequest
    rw [hreq]
    rfl
  have h2 : (s.HandleRequest env requestJSON).1 =
      "\x7b\"jsonrpc\":\"2.0\",\"error\":\x7b\"code\":-32700,\"message\":\"Parse error\"\x7d\x7d" := by
    rw [h1]
    exact marshal_parse_error
  refine ⟨h1, h2, ?_⟩
  rw [h2]
  exact unmarshalResponse_parse_error

/-- C2 at the input `{"jsonrpc":"2.0","id":1,"method":` (cut short). -/
theorem handleRequest_parse_error_witness :
    Valid "\x7b\"jsonrpc\":\"2.0\",\"id\":1,\"method\":" = false ∧
      (NewMCPServer.HandleRequest exampleEnv "\x7b\"jsonrpc\":\"2.0\",\"id\":1,\"method\":").1 =
        "\x7b\"jsonrpc\":\"2.0\",\"error\":\x7b\"code\":-32700,\"message\":\"Parse error\"\x7d\x7d" :=
  ⟨by decide, (handleRequest_parse_error NewMCPServer exampleEnv _ (by decide)).2.1⟩

/-- Every call of `HandleRequest` returns the encoding of a response with
`jsonrpc` "2.0", the id the request decoded to, and either a result or an
error, and leaves the server as it was. -/
theorem handleRequest_response (s : MCPServer) (env : Env) (requestJSON : String) :
    ∃ resp : JSONRPCResponse,
      s.HandleRequest env requestJSON = (marshal resp, s) ∧ resp.JSONRPC = "2.0" ∧
      resp.ID = requestID requestJSON ∧
      ((resp.Result.isSome = true ∧ resp.Error.isSome = false) ∨
       (resp.Result.isSome = false ∧ resp.Error.isSome = true)) := by
  unfold MCPServer.HandleRequest requestID
  cases hreq : unmarshalRequest requestJSON with
  | none => exact ⟨_, rfl, rfl, rfl, Or.inr ⟨rfl, rfl⟩⟩
  | some req =>
    by_cases h1 : req.Method = "initialize"
    · simp only [h1, if_true]
      exact ⟨_, rfl, rfl, rfl, Or.inl ⟨rfl, rfl⟩⟩
    · by_cases h2 : req.Method = "tools/list"
      · simp only [h1, h2, if_true, if_false]
        exact ⟨_, rfl, rfl, rfl, Or.inl ⟨rfl, rfl⟩⟩
      · by_cases h3 : req.Method = "tools/call"
        · simp only [h1, h2, h3, if_true, if_false]
          unfold MCPServer.handleToolCall
          cases hp : unmarshalParams req.Params with
          | none => exact ⟨_, rfl, rfl, rfl, Or.inr ⟨rfl, rfl⟩⟩
          | some params =>
            by_cases hn : params.Name = "getCurrentTime"
            · simp only [hn, if_true]
              exact ⟨_, rfl, rfl, rfl, Or.inl ⟨rfl, rfl⟩⟩
            · simp only [hn, if_false]
              exact ⟨_, rfl, rfl, rfl, Or.inr ⟨rfl, rfl⟩⟩
        · simp only [h1, h2, h3, if_false]
          exact ⟨_, rfl, rfl, rfl, Or.inr ⟨rfl, rfl⟩⟩

/-- The `id` member of an encoded response: absent for the nil id, the
encoding of the id otherwise. -/
theorem lookup_id_toJSON (resp : JSONRPCResponse) :
    resp.toJSON.lookup "id" = if resp.ID.isNil then none else some resp.ID.toJSON := by
  unfold JSONRPCResponse.toJSON JSON.lookup
  cases hid : resp.ID.isNil <;> cases resp.Result <;> cases resp.Error <;>
    simp [List.lookup, show ("id" == "jsonrpc") = false by decide,
      show ("id" == "result") = false by decide, show ("id" == "error") = false by decide]

/-- C3, refuted as stated: the answer to an input that cannot be parsed has
no `id` member at all (it is not `"id":null`); the same holds for a request
whose id is null; and a number id that is not a `float64` comes back as the
nearest `float64`, here 9007199254740993 as 9007199254740992. -/
theorem handleRequest_id_counterexample :
    (NewMCPServer.HandleRequest exampleEnv "nope").1 = "\x7b\"jsonrpc\":\"2.0\",\"error\":\x7b\"code\":-32700,\"message\":\"Parse error\"\x7d\x7d" ∧
    (checkValid (NewMCPServer.HandleRequest exampleEnv "nope").1).map
        (fun j => (j.lookup "id").isSome) = some false ∧
    (NewMCPServer.HandleRequest exampleEnv "\x7b\"jsonrpc\":\"2.0\",\"id\":null,\"method\":\"initialize\"\x7d").1 = "\x7b\"jsonrpc\":\"2.0\",\"result\":\x7b\"capabilities\":\x7b\"tools\":\x7b\x7d\x7d,\"protocolVersion\":\"2024-11-05\",\"serverInfo\":\x7b\"name\":\"golang-wasm-mcp-server\",\"version\":\"1.0.0\"\x7d\x7d\x7d" ∧
    (NewMCPServer.HandleRequest exampleEnv "\x7b\"jsonrpc\":\"2.0\",\"id\":9007199254740993,\"method\":\"ping\"\x7d").1 = "\x7b\"jsonrpc\":\"2.0\",\"id\":9007199254740992,\"error\":\x7b\"code\":-32601,\"message\":\"Method not found\"\x7d\x7d" := by
  refine ⟨?_, ?_, ?_, ?_⟩ <;> decide!

/-- C3, amended: every response is built with the id the request decoded to
(nil when the id is null or absent, and when the request does not decode), on
every path; the text returned is the rendering of the response's JSON object,
which has an `id` member exactly when that id is not nil, and the member is
then the encoding of the decoded id. -/
theorem handleRequest_id (s : MCPServer) (env : Env) (requestJSON : String) :
    ∃ resp : JSONRPCResponse,
      s.HandleRequest env requestJSON = (marshal resp, s) ∧
      resp.ID = requestID requestJSON ∧
      (s.HandleRequest env requestJSON).1 = String.mk (render resp.toJSON) ∧
      resp.toJSON.lookup "id" =
        if (requestID requestJSON).isNil then none else some (requestID requestJSON).toJSON := by
  obtain ⟨resp, h, _, hid, _⟩ := handleRequest_response s env requestJSON
  refine ⟨resp, h, hid, ?_, ?_⟩
  · rw [h]; rfl
  · rw [← hid]; exact lookup_id_toJSON resp

/-- The text of the members of an object that ends with the member `kv`. -/
theorem renderMembers_append_singleton (a : List (String × JSON)) (kv : String × JSON)
    (ha : a ≠ []) :
    renderMembers (a ++ [kv]) = renderMembers a ++ ',' :: (quote kv.1 ++ ':' :: render kv.2) := by
  induction a with
  | nil => exact absurd rfl ha
  | cons x rest ih =>
    obtain ⟨k, v⟩ := x
    obtain ⟨k2, v2⟩ := kv
    cases rest with
    | nil => simp [renderMembers]
    | cons y rest2 =>
      have ih2 := ih (by simp)
      simp only [List.cons_append] at ih2 ⊢
      simp only [renderMembers, ih2]
      simp

/-- The JSON object of a success response: `jsonrpc`, the id if not nil, `result`. -/
theorem toJSON_success (id : GoValue) (r : ResultValue) :
    (JSONRPCResponse.mk "2.0" id (some r) none).toJSON =
      JSON.object (([("jsonrpc", JSON.string "2.0")] ++
        (if id.isNil then [] else [("id", id.toJSON)])) ++ [("result", r.toJSON)]) := by
  simp [JSONRPCResponse.toJSON]

/-- The JSON object of an error response: `jsonrpc`, the id if not nil, `error`. -/
theorem toJSON_error (id : GoValue) (e : RPCError) :
    (JSONRPCResponse.mk "2.0" id none (some e)).toJSON =
      JSON.object (([("jsonrpc", JSON.string "2.0")] ++
        (if id.isNil then [] else [("id", id.toJSON)])) ++ [("error", e.toJSON)]) := by
  simp [JSONRPCResponse.toJSON]

/-- A success response and an error response never have the same text. -/
theorem marshal_success_ne_error (id : GoValue) (r : ResultValue) (e : RPCError) :
    marshal { JSONRPC := "2.0", ID := id, Result := some r, Error := none } ≠
      marshal { JSONRPC := "2.0", ID := id, Result := none, Error := some e } := by
  intro h
  unfold marshal at h
  rw [toJSON_success, toJSON_error] at h
  have h2 := congrArg String.data h
  simp only at h2
  simp only [render] at h2
  rw [renderMembers_append_singleton _ _ (by simp),
    renderMembers_append_singleton _ _ (by simp)] at h2
  simp only [List.cons.injEq, true_and, List.append_assoc, List.cons_append,
    List.append_cancel_left_eq] at h2
  have hq : quote "result" = ['"', 'r', 'e', 's', 'u', 'l', 't', '"'] := by decide
  have hq2 : quote "error" = ['"', 'e', 'r', 'r', 'o', 'r', '"'] := by decide
  rw [hq, hq2] at h2
  simp at h2

/-- The registry `NewMCPServer` builds has the one key `getCurrentTime`. -/
theorem newMCPServer_keys : NewMCPServer.tools.keys = ["getCurrentTime"] := rfl

/-- What `HandleRequest` does with a `tools/call` request whose params decode:
the switch on the name. -/
theorem handleRequest_toolCall (s : MCPServer) (env : Env) (requestJSON : String)
    (req : JSONRPCRequest) (params : ToolCallParams)
    (hdec : unmarshalRequest requestJSON = some req) (hm : req.Method = "tools/call")
    (hp : unmarshalParams req.Params = some params) :
    s.HandleRequest env requestJSON =
      if params.Name = "getCurrentTime" then
        (marshal { JSONRPC := "2.0", ID := req.ID,
                   Result := some (ResultValue.toolResult
                     { Content := [{ Typ := "text", Text := env.now.formatRFC3339 }],
                       IsError := false }),
                   Error := none }, s)
      else
        (marshal { JSONRPC := "2.0", ID := req.ID, Result := none,
                   Error := some { Code := -32602, Message := "Unknown tool: " ++ params.Name,
                                   Data := GoValue.nil } }, s) := by
  unfold MCPServer.HandleRequest
  rw [hdec]
  simp only [hm, show ¬ ("tools/call" = "initialize") by decide,
    show ¬ ("tools/call" = "tools/list") by decide, if_true, if_false]
  unfold MCPServer.handleToolCall
  rw [hp]
  rfl

/-- C4, refuted as stated: with the tool `add` of EXAMPLES.go registered, a
call of `add` is still answered "Unknown tool: add"; and on a server with an
empty registry a call of `getCurrentTime` succeeds. -/
theorem toolCall_registry_counterexample :
    "add" ∈ (NewMCPServer.registerTool addTool).tools.keys ∧
    ((NewMCPServer.registerTool addTool).HandleRequest exampleEnv "\x7b\"jsonrpc\":\"2.0\",\"id\":1,\"method\":\"tools/call\",\"params\":\x7b\"name\":\"add\",\"arguments\":\x7b\"a\":5,\"b\":3\x7d\x7d\x7d").1 = "\x7b\"jsonrpc\":\"2.0\",\"id\":1,\"error\":\x7b\"code\":-32602,\"message\":\"Unknown tool: add\"\x7d\x7d" ∧
    "getCurrentTime" ∉ (MCPServer.mk ∅).tools.keys ∧
    ((MCPServer.mk ∅).HandleRequest exampleEnv "\x7b\"jsonrpc\":\"2.0\",\"id\":1,\"method\":\"tools/call\",\"params\":\x7b\"name\":\"getCurrentTime\",\"arguments\":\x7b\x7d\x7d\x7d").1 = "\x7b\"jsonrpc\":\"2.0\",\"id\":1,\"result\":\x7b\"content\":[\x7b\"type\":\"text\",\"text\":\"2024-01-02T03:04:05Z\"\x7d]\x7d\x7d" := by
  refine ⟨?_, ?_, ?_, ?_⟩ <;> decide!

/-- C4, amended: on every server, a `tools/call` request whose params decode
with name `n` is answered with the unknown-tool error (-32602, "Unknown tool: "
followed by `n`) if and only if `n` is not `getCurrentTime`, the one name the
switch of `handleToolCall` knows; the registry is not consulted. When `n` is
`getCurrentTime` the handler runs and its `ToolResult` is the response's
result. On the registry `NewMCPServer` builds, `n` is `getCurrentTime` exactly
when `n` is a registered key. -/
theorem handleRequest_toolCall_dispatch (s : MCPServer) (env : Env) (requestJSON : String)
    (req : JSONRPCRequest) (params : ToolCallParams)
    (hdec : unmarshalRequest requestJSON = some req) (hm : req.Method = "tools/call")
    (hp : unmarshalParams req.Params = some params) :
    (s.HandleRequest env requestJSON =
        (marshal { JSONRPC := "2.0", ID := req.ID, Result := none,
                   Error := some { Code := -32602, Message := "Unknown tool: " ++ params.Name,
                                   Data := GoValue.nil } }, s) ↔
      params.Name ≠ "getCurrentTime") ∧
    (params.Name = "getCurrentTime" →
      s.HandleRequest env requestJSON =
        (marshal { JSONRPC := "2.0", ID := req.ID,
                   Result := some (ResultValue.toolResult
                     { Content := [{ Typ := "text", Text := env.now.formatRFC3339 }],
                       IsError := false }),
                   Error := none }, s)) ∧
    (params.Name ∈ NewMCPServer.tools.keys ↔ params.Name = "getCurrentTime") := by
  have h := handleRequest_toolCall s env requestJSON req params hdec hm hp
  refine ⟨⟨?_, ?_⟩, ?_, ?_⟩
  · intro heq hn
    rw [h, if_pos hn] at heq
    exact marshal_success_ne_error _ _ _ (congrArg Prod.fst heq)
  · intro hn
    rw [h, if_neg hn]
  · intro hn
    rw [h, if_pos hn]
  · rw [newMCPServer_keys]
    simp

/-- C4 (amended) at a call of `doesNotExist` on the server with `add` registered. -/
theorem handleRequest_toolCall_dispatch_witness :
    ((NewMCPServer.registerTool addTool).HandleRequest exampleEnv "\x7b\"jsonrpc\":\"2.0\",\"id\":1,\"method\":\"tools/call\",\"params\":\x7b\"name\":\"doesNotExist\"\x7d\x7d" =
        (marshal { JSONRPC := "2.0", ID := float64Of 4503599627370496 (-52), Result := none,
                   Error := some { Code := -32602, Message := "Unknown tool: " ++ "doesNotExist",
                                   Data := GoValue.nil } }, NewMCPServer.registerTool addTool) ↔
      "doesNotExist" ≠ "getCurrentTime") ∧
    ("doesNotExist" ∈ NewMCPServer.tools.keys ↔ "doesNotExist" = "getCurrentTime") :=
  have h := handleRequest_toolCall_dispatch (NewMCPServer.registerTool addTool) exampleEnv "\x7b\"jsonrpc\":\"2.0\",\"id\":1,\"method\":\"tools/call\",\"params\":\x7b\"name\":\"doesNotExist\"\x7d\x7d"
    { JSONRPC := "2.0", ID := float64Of 4503599627370496 (-52), Method := "tools/call",
      Params := some (JSON.object [("name", JSON.string "doesNotExist")]) }
    { Name := "doesNotExist", Arguments := none } rfl rfl rfl
  ⟨h.1, h.2.2⟩

/-- A decimal digit is written as it is. -/
theorem escapeChar_digitChar (d : Nat) : escapeChar (digitChar d) = [digitChar d] := by
  have h : d % 10 < 10 := Nat.mod_lt _ (by decide)
  unfold digitChar
  generalize d % 10 = r at h
  interval_cases r <;> decide

/-- The digits of a number are written as they are. -/
theorem flatMap_escapeChar_natDigitsAux (fuel n : Nat) (acc : List Char)
    (hacc : acc.flatMap escapeChar = acc) :
    (natDigitsAux fuel n acc).flatMap escapeChar = natDigitsAux fuel n acc := by
  induction fuel generalizing n acc with
  | zero => simpa [natDigitsAux] using hacc
  | succ k ih =>
    unfold natDigitsAux
    have hc : (digitChar n :: acc).flatMap escapeChar = digitChar n :: acc := by
      rw [List.flatMap_cons, escapeChar_digitChar, hacc]; rfl
    split
    · exact hc
    · exact ih _ _ hc

/-- Two texts written as they are give a text written as it is. -/
theorem flatMap_escapeChar_append (a b : List Char) (ha : a.flatMap escapeChar = a)
    (hb : b.flatMap escapeChar = b) : (a ++ b).flatMap escapeChar = a ++ b := by
  rw [List.flatMap_append, ha, hb]

/-- A character written as it is, in front of a text written as it is. -/
theorem flatMap_escapeChar_cons (c : Char) (b : List Char) (hc : escapeChar c = [c])
    (hb : b.flatMap escapeChar = b) : (c :: b).flatMap escapeChar = c :: b := by
  rw [List.flatMap_cons, hc, hb]; rfl

/-- The text of `appendInt` is written as it is. -/
theorem flatMap_escapeChar_appendInt (x w : Nat) :
    (appendInt x w).flatMap escapeChar = appendInt x w := by
  unfold appendInt
  apply flatMap_escapeChar_append
  · induction (w - (natDigits x).length) with
    | zero => rfl
    | succ k ih => rw [List.replicate_succ]; exact flatMap_escapeChar_cons _ _ (by decide) ih
  · exact flatMap_escapeChar_natDigitsAux _ _ _ rfl

/-- A separator and the number behind it are written as they are. -/
theorem flatMap_escapeChar_sep (c : Char) (x w : Nat) (hc : escapeChar c = [c]) :
    (c :: appendInt x w).flatMap escapeChar = c :: appendInt x w :=
  flatMap_escapeChar_cons c _ hc (flatMap_escapeChar_appendInt x w)

/-- The zone is written as it is. -/
theorem flatMap_escapeChar_formatZone (o : Int) :
    (formatZone o).flatMap escapeChar = formatZone o := by
  unfold formatZone
  split
  · decide
  · simp only
    split
    · exact flatMap_escapeChar_cons _ _ (by decide) (flatMap_escapeChar_append _ _
        (flatMap_escapeChar_appendInt _ _) (flatMap_escapeChar_sep _ _ _ (by decide)))
    · exact flatMap_escapeChar_cons _ _ (by decide) (flatMap_escapeChar_append _ _
        (flatMap_escapeChar_appendInt _ _) (flatMap_escapeChar_sep _ _ _ (by decide)))

/-- An RFC3339 time holds no character that the encoder escapes. -/
theorem flatMap_escapeChar_formatRFC3339 (t : Time) :
    t.formatRFC3339.data.flatMap escapeChar = t.formatRFC3339.data := by
  unfold Time.formatRFC3339
  simp only
  exact flatMap_escapeChar_append _ _
    (flatMap_escapeChar_append _ _
      (flatMap_escapeChar_append _ _
        (flatMap_escapeChar_append _ _
          (flatMap_escapeChar_append _ _
            (flatMap_escapeChar_append _ _ (flatMap_escapeChar_appendInt _ _)
              (flatMap_escapeChar_sep _ _ _ (by decide)))
            (flatMap_escapeChar_sep _ _ _ (by decide)))
          (flatMap_escapeChar_sep _ _ _ (by decide)))
        (flatMap_escapeChar_sep _ _ _ (by decide)))
      (flatMap_escapeChar_sep _ _ _ (by decide)))
    (flatMap_escapeChar_formatZone _)

/-- The text of a success response with the id 1 and a result of one text block. -/
theorem marshal_text_result (text : String) :
    marshal { JSONRPC := "2.0", ID := float64Of 4503599627370496 (-52),
              Result := some (ResultValue.toolResult
                { Content := [{ Typ := "text", Text := text }], IsError := false }),
              Error := none } =
      "\x7b\"jsonrpc\":\"2.0\",\"id\":1,\"result\":\x7b\"content\":[\x7b\"type\":\"text\",\"text\":" ++
        String.mk (quote text) ++ "\x7d]\x7d\x7d" := by
  have e1 : quote "jsonrpc" = "\"jsonrpc\"".data := by decide
  have e2 : quote "2.0" = "\"2.0\"".data := by decide
  have e3 : quote "id" = "\"id\"".data := by decide
  have e4 : quote "result" = "\"result\"".data := by decide
  have e5 : quote "content" = "\"content\"".data := by decide
  have e6 : quote "type" = "\"type\"".data := by decide
  have e7 : quote "text" = "\"text\"".data := by decide
  have e8 : (formatFloat { neg := false, mant := 4503599627370496, exp := -52 }).data = ['1'] := by
    decide!
  apply String.ext
  simp only [marshal, JSONRPCResponse.toJSON, float64Of, GoValue.isNil, GoValue.toJSON,
    ResultValue.toJSON, ToolResult.toJSON, ContentBlock.toJSON, List.map, render, renderMembers,
    renderList, e1, e2, e3, e4, e5, e6, e7, e8, String.data_append]
  simp

/-- The request of the end-to-end example decodes. -/
theorem unmarshalRequest_example :
    unmarshalRequest "\x7b\"jsonrpc\":\"2.0\",\"id\":1,\"method\":\"tools/call\",\"params\":\x7b\"name\":\"getCurrentTime\",\"arguments\":\x7b\x7d\x7d\x7d" =
      some { JSONRPC := "2.0", ID := float64Of 4503599627370496 (-52), Method := "tools/call",
             Params := some (JSON.object [("name", JSON.string "getCurrentTime"),
                                          ("arguments", JSON.object [])]) } :=
  rfl

/-- C7, refuted as stated: with the clock at 2024-01-02T03:04:05Z the text
returned for the example request is not the one the claim gives; it has no
`isError` member, `omitempty` leaving the false value out. -/
theorem handleRequest_example_counterexample :
    exampleEnv.now.formatRFC3339 = "2024-01-02T03:04:05Z" ∧
    (NewMCPServer.HandleRequest exampleEnv "\x7b\"jsonrpc\":\"2.0\",\"id\":1,\"method\":\"tools/call\",\"params\":\x7b\"name\":\"getCurrentTime\",\"arguments\":\x7b\x7d\x7d\x7d").1 ≠
      "\x7b\"jsonrpc\":\"2.0\",\"id\":1,\"result\":\x7b\"content\":[\x7b\"type\":\"text\",\"text\":\"2024-01-02T03:04:05Z\"\x7d],\"isError\":false\x7d\x7d" ∧
    (NewMCPServer.HandleRequest exampleEnv "\x7b\"jsonrpc\":\"2.0\",\"id\":1,\"method\":\"tools/call\",\"params\":\x7b\"name\":\"getCurrentTime\",\"arguments\":\x7b\x7d\x7d\x7d").1 =
      "\x7b\"jsonrpc\":\"2.0\",\"id\":1,\"result\":\x7b\"content\":[\x7b\"type\":\"text\",\"text\":\"2024-01-02T03:04:05Z\"\x7d]\x7d\x7d" := by
  refine ⟨?_, ?_, ?_⟩ <;> decide!

/-- C7, amended: for the example request, on every server and for every clock
reading, formatted as `T`, the text returned is exactly
`{"jsonrpc":"2.0","id":1,"result":{"content":[{"type":"text","text":"T"}]}}`,
the members in that order and no `isError` member. -/
theorem handleRequest_example (s : MCPServer) (env : Env) :
    (s.HandleRequest env "\x7b\"jsonrpc\":\"2.0\",\"id\":1,\"method\":\"tools/call\",\"params\":\x7b\"name\":\"getCurrentTime\",\"arguments\":\x7b\x7d\x7d\x7d").1 =
      "\x7b\"jsonrpc\":\"2.0\",\"id\":1,\"result\":\x7b\"content\":[\x7b\"type\":\"text\",\"text\":\"" ++
        env.now.formatRFC3339 ++ "\"\x7d]\x7d\x7d" := by
  rw [handleRequest_toolCall s env _ _ { Name := "getCurrentTime", Arguments := some [] }
    unmarshalRequest_example rfl rfl, if_pos rfl]
  show marshal _ = _
  rw [marshal_text_result]
  apply String.ext
  simp only [String.data_append, quote, flatMap_escapeChar_formatRFC3339]
  simp

/-- A key that selects a member has the member's folded name. -/
theorem fold_eq_of_keyMatches (key name : String) (h : keyMatches key name = true) :
    key.data.map foldChar = name.data.map foldChar := by
  unfold keyMatches at h
  rcases Bool.or_eq_true _ _ |>.mp h with h1 | h1
  · rw [of_decide_eq_true h1]
  · exact of_decide_eq_true h1

/-- No key selects both `name` and `arguments`. -/
theorem not_keyMatches_name_of_arguments (key : String)
    (h : keyMatches key "arguments" = true) : keyMatches key "name" = false := by
  cases hn : keyMatches key "name" with
  | false => rfl
  | true =>
    have h1 := fold_eq_of_keyMatches key "arguments" h
    have h2 := fold_eq_of_keyMatches key "name" hn
    rw [h1] at h2
    exact absurd h2 (by decide)

/-- A malformed member is an error whatever has been decoded before it. -/
theorem setMember_of_malformed (kv : String × JSON) (h : malformedMember kv = true)
    (p : ToolCallParams) : p.setMember kv = none := by
  obtain ⟨k, v⟩ := kv
  unfold malformedMember at h
  unfold ToolCallParams.setMember
  rcases Bool.or_eq_true _ _ |>.mp h with h1 | h1
  · obtain ⟨hk, hv⟩ := Bool.and_eq_true _ _ |>.mp h1
    simp only at hk hv
    simp only [hk, if_true]
    cases v <;> simp_all [decodeString, JSON.isString, JSON.isNull]
  · obtain ⟨hk, hv⟩ := Bool.and_eq_true _ _ |>.mp h1
    simp only at hk hv
    have hk2 := not_keyMatches_name_of_arguments k hk
    simp only [hk, hk2, if_true, Bool.false_eq_true, if_false]
    cases v <;> simp_all [decodeMap, JSON.isObject, JSON.isNull]

/-- Decoding the members of an object fails when one member is an error
whatever precedes it. -/
theorem foldlM_none_of_mem {σ α : Type} (f : σ → α → Option σ) (x : α) (l : List α)
    (hx : x ∈ l) (hf : ∀ st, f st x = none) (init : σ) : l.foldlM f init = none := by
  induction l generalizing init with
  | nil => cases hx
  | cons y ys ih =>
    rw [List.foldlM_cons]
    rcases List.mem_cons.mp hx with h | h
    · subst h
      rw [hf init]
      rfl
    · cases hy : f init y with
      | none => rfl
      | some st => exact ih h st

/-- Malformed params do not decode. -/
theorem unmarshalParams_of_malformed (p : Option JSON) (h : paramsMalformed p = true) :
    unmarshalParams p = none := by
  cases p with
  | none => rfl
  | some v =>
    cases v with
    | null => cases h
    | bool b => rfl
    | number lit => rfl
    | string str => rfl
    | array elems => rfl
    | object members =>
      obtain ⟨kv, hmem, hkv⟩ := List.any_eq_true.mp h
      exact foldlM_none_of_mem _ kv members hmem (setMember_of_malformed kv hkv) _

/-- What `HandleRequest` does with a `tools/call` request whose params do not
decode. -/
theorem handleRequest_toolCall_undecoded (s : MCPServer) (env : Env) (requestJSON : String)
    (req : JSONRPCRequest) (hdec : unmarshalRequest requestJSON = some req)
    (hm : req.Method = "tools/call") (hp : unmarshalParams req.Params = none) :
    s.HandleRequest env requestJSON =
      (marshal { JSONRPC := "2.0", ID := req.ID, Result := none,
                 Error := some { Code := -32602, Message := "Invalid params",
                                 Data := GoValue.nil } }, s) := by
  unfold MCPServer.HandleRequest
  rw [hdec]
  simp only [hm, show ¬ ("tools/call" = "initialize") by decide,
    show ¬ ("tools/call" = "tools/list") by decide, if_true, if_false]
  unfold MCPServer.handleToolCall
  rw [hp]
  rfl

/-- C8, refuted as stated: params that are null are not a JSON object, yet they
decode (null leaves the zero `ToolCallParams`), and the request is answered
"Unknown tool: " with the empty name, not "Invalid params". -/
theorem handleRequest_invalid_params_counterexample :
    JSON.null.isObject = false ∧
    (NewMCPServer.HandleRequest exampleEnv
        "\x7b\"jsonrpc\":\"2.0\",\"id\":3,\"method\":\"tools/call\",\"params\":null\x7d").1 =
      "\x7b\"jsonrpc\":\"2.0\",\"id\":3,\"error\":\x7b\"code\":-32602,\"message\":\"Unknown tool: \"\x7d\x7d" ∧
    (NewMCPServer.HandleRequest exampleEnv
        "\x7b\"jsonrpc\":\"2.0\",\"id\":3,\"method\":\"tools/call\",\"params\":null\x7d").1 ≠
      "\x7b\"jsonrpc\":\"2.0\",\"id\":3,\"error\":\x7b\"code\":-32602,\"message\":\"Invalid params\"\x7d\x7d" := by
  refine ⟨?_, ?_, ?_⟩ <;> decide!

/-- C8, amended: on every server, a `tools/call` request whose params do not
decode as `ToolCallParams` is answered with the encoding of the response that
has error code -32602, message "Invalid params", no result and the request's
id. That is so in particular when the params are absent, are a JSON value that
is neither an object nor null, or are an object with a `name` that is neither a
string nor null or with `arguments` that are neither an object nor null.
Params that are null do decode, and are answered "Unknown tool: ". -/
theorem handleRequest_invalid_params (s : MCPServer) (env : Env) (requestJSON : String)
    (req : JSONRPCRequest) (hdec : unmarshalRequest requestJSON = some req)
    (hm : req.Method = "tools/call") :
    (unmarshalParams req.Params = none →
      s.HandleRequest env requestJSON =
        (marshal { JSONRPC := "2.0", ID := req.ID, Result := none,
                   Error := some { Code := -32602, Message := "Invalid params",
                                   Data := GoValue.nil } }, s)) ∧
    (paramsMalformed req.Params = true →
      s.HandleRequest env requestJSON =
        (marshal { JSONRPC := "2.0", ID := req.ID, Result := none,
                   Error := some { Code := -32602, Message := "Invalid params",
                                   Data := GoValue.nil } }, s)) ∧
    (req.Params = some JSON.null →
      s.HandleRequest env requestJSON =
        (marshal { JSONRPC := "2.0", ID := req.ID, Result := none,
                   Error := some { Code := -32602, Message := "Unknown tool: ",
                                   Data := GoValue.nil } }, s)) := by
  refine ⟨?_, ?_, ?_⟩
  · exact handleRequest_toolCall_undecoded s env requestJSON req hdec hm
  · intro h
    exact handleRequest_toolCall_undecoded s env requestJSON req hdec hm
      (unmarshalParams_of_malformed _ h)
  · intro h
    have hp : unmarshalParams req.Params = some ToolCallParams.zero := by rw [h]; rfl
    rw [handleRequest_toolCall s env requestJSON req _ hdec hm hp,
      if_neg (show ¬ (ToolCallParams.zero.Name = "getCurrentTime") by decide)]
    rfl

/-- C8 (amended) at a request whose params are an object with a number as name. -/
theorem handleRequest_invalid_params_witness :
    paramsMalformed (some (JSON.object [("name", JSON.number "5")])) = true ∧
      NewMCPServer.HandleRequest exampleEnv
          "\x7b\"jsonrpc\":\"2.0\",\"id\":\"r\",\"method\":\"tools/call\",\"params\":\x7b\"name\":5\x7d\x7d" =
        (marshal { JSONRPC := "2.0", ID := GoValue.string "r", Result := none,
                   Error := some { Code := -32602, Message := "Invalid params",
                                   Data := GoValue.nil } }, NewMCPServer) :=
  ⟨by decide,
   (handleRequest_invalid_params NewMCPServer exampleEnv
      "\x7b\"jsonrpc\":\"2.0\",\"id\":\"r\",\"method\":\"tools/call\",\"params\":\x7b\"name\":5\x7d\x7d"
      { JSONRPC := "2.0", ID := GoValue.string "r", Method := "tools/call",
        Params := some (JSON.object [("name", JSON.number "5")]) } rfl rfl).2.1 (by decide)⟩

/-- The `jsonrpc`, `result` and `error` members of an encoded response. -/
theorem lookup_members_toJSON (resp : JSONRPCResponse) :
    resp.toJSON.lookup "jsonrpc" = some (JSON.string resp.JSONRPC) ∧
    (resp.toJSON.lookup "result").isSome = resp.Result.isSome ∧
    (resp.toJSON.lookup "error").isSome = resp.Error.isSome := by
  unfold JSONRPCResponse.toJSON JSON.lookup
  cases hid : resp.ID.isNil <;> cases resp.Result <;> cases resp.Error <;>
    simp [List.lookup, show ("result" == "jsonrpc") = false by decide,
      show ("error" == "jsonrpc") = false by decide, show ("result" == "id") = false by decide,
      show ("error" == "id") = false by decide, show ("error" == "result") = false by decide]

/-- C9: for every input and every server, the text `HandleRequest` returns is
the rendering of the JSON object of a response with `jsonrpc` "2.0" and exactly
one of result and error; that object has the member `jsonrpc` with the value
"2.0" and exactly one of the members `result` and `error`. -/
theorem handleRequest_envelope (s : MCPServer) (env : Env) (requestJSON : String) :
    ∃ resp : JSONRPCResponse,
      s.HandleRequest env requestJSON = (marshal resp, s) ∧
      (s.HandleRequest env requestJSON).1 = String.mk (render resp.toJSON) ∧
      resp.JSONRPC = "2.0" ∧
      ((resp.Result.isSome = true ∧ resp.Error.isSome = false) ∨
       (resp.Result.isSome = false ∧ resp.Error.isSome = true)) ∧
      resp.toJSON.lookup "jsonrpc" = some (JSON.string "2.0") ∧
      (((resp.toJSON.lookup "result").isSome = true ∧
          (resp.toJSON.lookup "error").isSome = false) ∨
       ((resp.toJSON.lookup "result").isSome = false ∧
          (resp.toJSON.lookup "error").isSome = true)) := by
  obtain ⟨resp, h, hv, _, hone⟩ := handleRequest_response s env requestJSON
  obtain ⟨l1, l2, l3⟩ := lookup_members_toJSON resp
  refine ⟨resp, h, ?_, hv, hone, ?_, ?_⟩
  · rw [h]; rfl
  · rw [l1, hv]
  · rw [l2, l3]; exact hone

/-- A server that can be reached holds a tool named `getCurrentTime` under the
key `getCurrentTime`. -/
theorem reachable_lookup (s : MCPServer) (h : Reachable s) :
    ∃ t : Tool, s.tools.lookup "getCurrentTime" = some t ∧ t.Name = "getCurrentTime" := by
  induction h with
  | new => exact ⟨getCurrentTimeTool, rfl, rfl⟩
  | register s tool _ ih =>
    obtain ⟨t, ht, hn⟩ := ih
    unfold MCPServer.registerTool
    by_cases hk : tool.Name = "getCurrentTime"
    · refine ⟨tool, ?_, hk⟩
      simp only
      rw [← hk]
      exact AList.lookup_insert s.tools
    · refine ⟨t, ?_, hn⟩
      simp only
      rw [AList.lookup_insert_ne (fun h => hk h.symm)]
      exact ht

/-- What `HandleRequest` does with a `tools/list` request. -/
theorem handleRequest_toolsList (s : MCPServer) (env : Env) (requestJSON : String)
    (req : JSONRPCRequest) (hdec : unmarshalRequest requestJSON = some req)
    (hm : req.Method = "tools/list") :
    s.HandleRequest env requestJSON =
      (marshal { JSONRPC := "2.0", ID := req.ID,
                 Result := some (ResultValue.toolsMap
                   (env.rangeOrder (s.tools.entries.map fun e => e.2))),
                 Error := none }, s) := by
  unfold MCPServer.HandleRequest
  rw [hdec]
  simp only [hm, show ¬ ("tools/list" = "initialize") by decide, if_true, if_false]
  rfl

/-- On a server that can be reached every key is the name of its tool. -/
theorem reachable_keys (s : MCPServer) (h : Reachable s) :
    ∀ e ∈ s.tools.entries, e.1 = e.2.Name := by
  induction h with
  | new =>
    intro e he
    have : e = ⟨"getCurrentTime", getCurrentTimeTool⟩ := by
      have h1 : NewMCPServer.tools.entries = [⟨"getCurrentTime", getCurrentTimeTool⟩] := rfl
      rw [h1] at he
      exact List.mem_singleton.mp he
    rw [this]
    rfl
  | register s tool _ ih =>
    intro e he
    unfold MCPServer.registerTool at he
    simp only [AList.insert_entries] at he
    rcases List.mem_cons.mp he with h1 | h1
    · rw [h1]
    · exact ih e ((List.kerase_sublist _ _).subset h1)

/-- The tools of a map whose keys are the names of their tools are distinct. -/
theorem nodup_values (s : MCPServer) (hk : ∀ e ∈ s.tools.entries, e.1 = e.2.Name) :
    (s.tools.entries.map fun e => e.2).Nodup := by
  have hnd : (s.tools.entries.map Sigma.fst).Nodup := s.tools.nodupKeys
  have hinj : ∀ a ∈ s.tools.entries, ∀ b ∈ s.tools.entries, a.2 = b.2 → a = b := by
    intro a ha b hb hab
    have h1 : a.1 = b.1 := by rw [hk a ha, hk b hb, hab]
    obtain ⟨a1, a2⟩ := a
    obtain ⟨b1, b2⟩ := b
    simp only at h1 hab
    subst h1
    subst hab
    rfl
  exact List.Nodup.map_on hinj (List.Nodup.of_map _ hnd)

/-- C12: `registerTool` yields a registry in which the entry under the tool's
name is exactly the tool (inserted or overwritten, never an error), every entry
under another name is as before, and the keys are the old keys and the tool's
name: at most one key more, none fewer. -/
theorem registerTool_frame (s : MCPServer) (tool : Tool) :
    (s.registerTool tool).tools.lookup tool.Name = some tool ∧
    (∀ k, k ≠ tool.Name → (s.registerTool tool).tools.lookup k = s.tools.lookup k) ∧
    (∀ k, k ∈ (s.registerTool tool).tools.keys ↔ k = tool.Name ∨ k ∈ s.tools.keys) ∧
    (s.registerTool tool).tools.keys.length ≤ s.tools.keys.length + 1 ∧
    s.tools.keys.length ≤ (s.registerTool tool).tools.keys.length ∧
    (tool.Name ∈ s.tools.keys →
      (s.registerTool tool).tools.keys.length = s.tools.keys.length) := by
  unfold MCPServer.registerTool
  refine ⟨AList.lookup_insert s.tools, fun k hk => AList.lookup_insert_ne hk, ?_, ?_, ?_, ?_⟩
  · intro k
    simp only [← AList.mem_keys]
    exact AList.mem_insert s.tools
  · simp only [AList.keys_insert, List.length_cons]
    have := List.length_erase_le tool.Name s.tools.keys
    omega
  · simp only [AList.keys_insert, List.length_cons]
    by_cases hmem : tool.Name ∈ s.tools.keys
    · rw [List.length_erase_of_mem hmem]
      have : 0 < s.tools.keys.length := List.length_pos_of_mem hmem
      omega
    · rw [List.erase_of_not_mem hmem]
      omega
  · intro hmem
    simp only [AList.keys_insert, List.length_cons]
    rw [List.length_erase_of_mem hmem]
    have : 0 < s.tools.keys.length := List.length_pos_of_mem hmem
    omega

/-- A run of calls leaves the server as it was. -/
theorem handleAll_eq (s : MCPServer) (calls : List (Env × String)) : s.handleAll calls = s := by
  induction calls with
  | nil => rfl
  | cons call calls ih =>
    unfold MCPServer.handleAll
    obtain ⟨resp, h, _⟩ := handleRequest_response s call.1 call.2
    rw [h]
    exact ih

/-- C13: for every server, environment and input, `HandleRequest` returns the
server it was called on, its registry as before; so after any run of earlier
calls the server is still the same, and a later request is answered as it
would have been without them. -/
theorem handleRequest_registry_unchanged (s : MCPServer) (env : Env) (requestJSON : String) :
    (s.HandleRequest env requestJSON).2 = s ∧
    (s.HandleRequest env requestJSON).2.tools = s.tools ∧
    ∀ (calls : List (Env × String)) (env2 : Env) (later : String),
      s.handleAll calls = s ∧
      (s.handleAll calls).HandleRequest env2 later = s.HandleRequest env2 later := by
  obtain ⟨resp, h, _⟩ := handleRequest_response s env requestJSON
  refine ⟨by rw [h], by rw [h], ?_⟩
  intro calls env2 later
  rw [handleAll_eq]
  exact ⟨rfl, rfl⟩

/-- What `HandleRequest` does with an `initialize` request. -/
theorem handleRequest_initialize_eq (s : MCPServer) (env : Env) (requestJSON : String)
    (req : JSONRPCRequest) (hdec : unmarshalRequest requestJSON = some req)
    (hm : req.Method = "initialize") :
    s.HandleRequest env requestJSON =
      (marshal { JSONRPC := "2.0", ID := req.ID,
                 Result := some (ResultValue.value (GoValue.map
                   [("protocolVersion", GoValue.string "2024-11-05"),
                    ("serverInfo", GoValue.map
                      [("name", GoValue.string "golang-wasm-mcp-server"),
                       ("version", GoValue.string "1.0.0")]),
                    ("capabilities", GoValue.map [("tools", GoValue.map [])])])),
                 Error := none }, s) := by
  unfold MCPServer.HandleRequest
  rw [hdec]
  simp only [hm, if_true]
  rfl

/-- The JSON object written for the result of `initialize`: its three members,
sorted by name as the encoder writes a map. -/
theorem initialize_result_toJSON :
    (ResultValue.value (GoValue.map
        [("protocolVersion", GoValue.string "2024-11-05"),
         ("serverInfo", GoValue.map
           [("name", GoValue.string "golang-wasm-mcp-server"),
            ("version", GoValue.string "1.0.0")]),
         ("capabilities", GoValue.map [("tools", GoValue.map [])])])).toJSON =
      JSON.object
        [("capabilities", JSON.object [("tools", JSON.object [])]),
         ("protocolVersion", JSON.string "2024-11-05"),
         ("serverInfo", JSON.object
           [("name", JSON.string "golang-wasm-mcp-server"),
            ("version", JSON.string "1.0.0")])] :=
  rfl

/-- C14: on every server, every `initialize` request, whatever its params and
id, is answered with the encoding of a success response (no error, the
request's id) whose result is the fixed map with exactly the three members
`protocolVersion` "2024-11-05", `serverInfo` (name "golang-wasm-mcp-server",
version "1.0.0") and `capabilities` (`tools`: an empty map); it does not depend
on the params or on the registry. -/
theorem handleRequest_initialize_fixed (s : MCPServer) (env : Env) (requestJSON : String)
    (req : JSONRPCRequest) (hdec : unmarshalRequest requestJSON = some req)
    (hm : req.Method = "initialize") :
    s.HandleRequest env requestJSON =
        (marshal { JSONRPC := "2.0", ID := req.ID,
                   Result := some (ResultValue.value (GoValue.map
                     [("protocolVersion", GoValue.string "2024-11-05"),
                      ("serverInfo", GoValue.map
                        [("name", GoValue.string "golang-wasm-mcp-server"),
                         ("version", GoValue.string "1.0.0")]),
                      ("capabilities", GoValue.map [("tools", GoValue.map [])])])),
                   Error := none }, s) ∧
      (ResultValue.value (GoValue.map
          [("protocolVersion", GoValue.string "2024-11-05"),
           ("serverInfo", GoValue.map
             [("name", GoValue.string "golang-wasm-mcp-server"),
              ("version", GoValue.string "1.0.0")]),
           ("capabilities", GoValue.map [("tools", GoValue.map [])])])).toJSON =
        JSON.object
          [("capabilities", JSON.object [("tools", JSON.object [])]),
           ("protocolVersion", JSON.string "2024-11-05"),
           ("serverInfo", JSON.object
             [("name", JSON.string "golang-wasm-mcp-server"),
              ("version", JSON.string "1.0.0")])] :=
  ⟨handleRequest_initialize_eq s env requestJSON req hdec hm, initialize_result_toJSON⟩

/-- C14 at an `initialize` request with params, on the server with `add`
registered: the text returned. -/
theorem handleRequest_initialize_fixed_witness :
    ((NewMCPServer.registerTool addTool).HandleRequest exampleEnv
        "\x7b\"jsonrpc\":\"2.0\",\"id\":\"i\",\"method\":\"initialize\",\"params\":\x7b\"protocolVersion\":\"x\",\"junk\":[1]\x7d\x7d").1 =
      "\x7b\"jsonrpc\":\"2.0\",\"id\":\"i\",\"result\":\x7b\"capabilities\":\x7b\"tools\":\x7b\x7d\x7d,\"protocolVersion\":\"2024-11-05\",\"serverInfo\":\x7b\"name\":\"golang-wasm-mcp-server\",\"version\":\"1.0.0\"\x7d\x7d\x7d" :=
  have h := (handleRequest_initialize_fixed (NewMCPServer.registerTool addTool) exampleEnv
    "\x7b\"jsonrpc\":\"2.0\",\"id\":\"i\",\"method\":\"initialize\",\"params\":\x7b\"protocolVersion\":\"x\",\"junk\":[1]\x7d\x7d"
    { JSONRPC := "2.0", ID := GoValue.string "i", Method := "initialize",
      Params := some (JSON.object [("protocolVersion", JSON.string "x"),
                                   ("junk", JSON.array [JSON.number "1"])]) } rfl rfl).1
  (congrArg Prod.fst h).trans (by decide!)

/-- Characters with the same code are the same. -/
theorem char_eq_of_toNat_eq (a b : Char) (h : a.toNat = b.toNat) : a = b :=
  Char.ext (UInt32.toNat.inj h)

/-- No key comes before itself. -/
theorem keyLt_irrefl (a : List Char) : keyLt a a = false := by
  induction a with
  | nil => rfl
  | cons x xs ih => simp [keyLt, ih]

/-- The order of keys is transitive. -/
theorem keyLt_trans (a b c : List Char) (h1 : keyLt a b = true) (h2 : keyLt b c = true) :
    keyLt a c = true := by
  induction a generalizing b c with
  | nil =>
    cases b with
    | nil => simp [keyLt] at h1
    | cons y ys =>
      cases c with
      | nil => simp [keyLt] at h2
      | cons z zs => rfl
  | cons x xs ih =>
    cases b with
    | nil => simp [keyLt] at h1
    | cons y ys =>
      cases c with
      | nil => simp [keyLt] at h2
      | cons z zs =>
        simp only [keyLt, Bool.or_eq_true, Bool.and_eq_true, decide_eq_true_eq] at h1 h2 ⊢
        rcases h1 with h1 | ⟨h1, h1t⟩
        · rcases h2 with h2 | ⟨h2, _⟩
          · left; omega
          · left; rw [← h2]; exact h1
        · rcases h2 with h2 | ⟨h2, h2t⟩
          · left; rw [h1]; exact h2
          · right; exact ⟨h1.trans h2, ih ys zs h1t h2t⟩

/-- Of two different keys one comes before the other. -/
theorem keyLt_total (a b : List Char) (h : a ≠ b) : keyLt a b = true ∨ keyLt b a = true := by
  induction a generalizing b with
  | nil =>
    cases b with
    | nil => exact absurd rfl h
    | cons y ys => left; rfl
  | cons x xs ih =>
    cases b with
    | nil => right; rfl
    | cons y ys =>
      simp only [keyLt, Bool.or_eq_true, Bool.and_eq_true, decide_eq_true_eq]
      rcases Nat.lt_trichotomy x.toNat y.toNat with hlt | heq | hgt
      · left; left; exact hlt
      · have hxy : x = y := char_eq_of_toNat_eq x y heq
        subst hxy
        have hne : xs ≠ ys := fun e => h (by rw [e])
        rcases ih ys hne with h1 | h1
        · left; right; exact ⟨rfl, h1⟩
        · right; right; exact ⟨rfl, h1⟩
      · right; left; exact hgt

/-- Inserting a member rearranges the members with it in front. -/
theorem insertByKey_perm (kv : String × JSON) (l : List (String × JSON)) :
    (insertByKey kv l).Perm (kv :: l) := by
  induction l with
  | nil => exact List.Perm.refl _
  | cons m rest ih =>
    unfold insertByKey
    split
    · exact ((List.Perm.cons m ih).trans (List.Perm.swap kv m rest))
    · exact List.Perm.refl _

/-- Sorting rearranges the members. -/
theorem sortByKey_perm (l : List (String × JSON)) : (sortByKey l).Perm l := by
  induction l with
  | nil => exact List.Perm.refl _
  | cons m rest ih =>
    show (insertByKey m (sortByKey rest)).Perm (m :: rest)
    exact (insertByKey_perm m _).trans (List.Perm.cons m ih)

/-- Inserting a member with a new key into sorted members keeps them sorted. -/
theorem insertByKey_sorted (kv : String × JSON) (l : List (String × JSON))
    (hl : l.Pairwise fun a b => keyLt a.1.data b.1.data = true)
    (hk : ∀ m ∈ l, m.1 ≠ kv.1) :
    (insertByKey kv l).Pairwise fun a b => keyLt a.1.data b.1.data = true := by
  induction l with
  | nil => exact List.pairwise_singleton _ _
  | cons m rest ih =>
    unfold insertByKey
    have hm := List.pairwise_cons.mp hl
    split
    · rename_i hlt
      refine List.pairwise_cons.mpr ⟨?_, ih hm.2 (fun x hx => hk x (List.mem_cons_of_mem _ hx))⟩
      intro x hx
      rcases List.mem_cons.mp ((insertByKey_perm kv rest).subset hx) with h1 | h1
      · rw [h1]; exact hlt
      · exact hm.1 x h1
    · rename_i hlt
      have hne : kv.1.data ≠ m.1.data := by
        intro e
        exact hk m (List.mem_cons_self _ _) (String.ext e.symm)
      have hkm : keyLt kv.1.data m.1.data = true := by
        rcases keyLt_total _ _ hne with h1 | h1
        · exact h1
        · exact absurd h1 hlt
      refine List.pairwise_cons.mpr ⟨?_, hl⟩
      intro x hx
      rcases List.mem_cons.mp hx with h1 | h1
      · rw [h1]; exact hkm
      · exact keyLt_trans _ _ _ hkm (hm.1 x h1)

/-- Members with distinct keys are sorted by `sortByKey`. -/
theorem sortByKey_sorted (l : List (String × JSON)) (hnd : (l.map Prod.fst).Nodup) :
    (sortByKey l).Pairwise fun a b => keyLt a.1.data b.1.data = true := by
  induction l with
  | nil => exact List.Pairwise.nil
  | cons m rest ih =>
    have h := List.nodup_cons.mp hnd
    show (insertByKey m (sortByKey rest)).Pairwise _
    refine insertByKey_sorted m _ (ih h.2) ?_
    intro x hx e
    exact h.1 (e ▸ List.mem_map_of_mem Prod.fst ((sortByKey_perm rest).subset hx))

/-- Members with distinct keys are written in one order, however they are held. -/
theorem sortByKey_eq_of_perm (l1 l2 : List (String × JSON)) (hp : l1.Perm l2)
    (hnd : (l1.map Prod.fst).Nodup) : sortByKey l1 = sortByKey l2 := by
  have hnd2 : (l2.map Prod.fst).Nodup := (hp.map Prod.fst).nodup_iff.mp hnd
  have hs1 := sortByKey_sorted l1 hnd
  have hs2 := sortByKey_sorted l2 hnd2
  have hperm : (sortByKey l1).Perm (sortByKey l2) :=
    (sortByKey_perm l1).trans (hp.trans (sortByKey_perm l2).symm)
  haveI : IsAntisymm (String × JSON) (fun a b => keyLt a.1.data b.1.data = true) :=
    ⟨fun a b hab hba => by
      have := keyLt_trans _ _ _ hab hba
      rw [keyLt_irrefl] at this
      cases this⟩
  exact List.eq_of_perm_of_sorted hperm hs1 hs2

/-- The entries of a map, each with the JSON value of its value. -/
theorem toJSONMembers_eq_map (l : List (String × GoValue)) :
    toJSONMembers l = l.map fun kv => (kv.1, kv.2.toJSON) := by
  induction l with
  | nil => simp [toJSONMembers]
  | cons kv rest ih =>
    obtain ⟨k, v⟩ := kv
    simp [toJSONMembers, ih]

/-- The encoder writes a map in one way, in whatever order the map's entries
are held. -/
theorem map_toJSON_eq_of_perm (l1 l2 : List (String × GoValue)) (hp : l1.Perm l2)
    (hnd : (l1.map Prod.fst).Nodup) : (GoValue.map l1).toJSON = (GoValue.map l2).toJSON := by
  simp only [GoValue.toJSON, toJSONMembers_eq_map]
  congr 1
  apply sortByKey_eq_of_perm
  · exact hp.map _
  · simpa [List.map_map, Function.comp] using hnd

/-- The text of a success response: `jsonrpc`, the id unless it is nil, and
the result. -/
theorem marshal_success_text (id : GoValue) (r : ResultValue) :
    marshal { JSONRPC := "2.0", ID := id, Result := some r, Error := none } =
      String.mk ("\x7b\"jsonrpc\":\"2.0\"".data ++
        (if id.isNil then [] else ",\"id\":".data ++ render id.toJSON) ++
        (",\"result\":".data ++ render r.toJSON ++ "\x7d".data)) := by
  have e1 : quote "jsonrpc" = "\"jsonrpc\"".data := by decide
  have e2 : quote "2.0" = "\"2.0\"".data := by decide
  have e3 : quote "id" = "\"id\"".data := by decide
  have e4 : quote "result" = "\"result\"".data := by decide
  unfold marshal
  rw [toJSON_success]
  congr 1
  simp only [render]
  rw [renderMembers_append_singleton _ _ (by simp)]
  cases hid : id.isNil
  · simp [renderMembers, render, e1, e2, e3, e4]
  · simp [renderMembers, render, e1, e2, e4]

/-- The text of the result of `initialize`. -/
theorem render_initialize_result :
    render (ResultValue.value (GoValue.map
        [("protocolVersion", GoValue.string "2024-11-05"),
         ("serverInfo", GoValue.map
           [("name", GoValue.string "golang-wasm-mcp-server"),
            ("version", GoValue.string "1.0.0")]),
         ("capabilities", GoValue.map [("tools", GoValue.map [])])])).toJSON =
      "\x7b\"capabilities\":\x7b\"tools\":\x7b\x7d\x7d,\"protocolVersion\":\"2024-11-05\",\"serverInfo\":\x7b\"name\":\"golang-wasm-mcp-server\",\"version\":\"1.0.0\"\x7d\x7d".data := by
  decide!

/-- C15: the answer to an `initialize` request is a function of the request's
id and of constants: its text is `{"jsonrpc":"2.0"`, the id member unless the
id is nil, and the fixed result, byte for byte. So two calls with the same
request text, or with requests of the same id, on the same or on different
servers and at different times, return identical texts. The members of a map
are written sorted by key, in one way however the map holds its entries. -/
theorem handleRequest_initialize_deterministic (s1 s2 : MCPServer) (env1 env2 : Env)
    (request1 request2 : String) (req1 req2 : JSONRPCRequest)
    (hdec1 : unmarshalRequest request1 = some req1) (hm1 : req1.Method = "initialize")
    (hdec2 : unmarshalRequest request2 = some req2) (hm2 : req2.Method = "initialize") :
    (s1.HandleRequest env1 request1).1 =
        String.mk ("\x7b\"jsonrpc\":\"2.0\"".data ++
          (if req1.ID.isNil then [] else ",\"id\":".data ++ render req1.ID.toJSON) ++
          ",\"result\":\x7b\"capabilities\":\x7b\"tools\":\x7b\x7d\x7d,\"protocolVersion\":\"2024-11-05\",\"serverInfo\":\x7b\"name\":\"golang-wasm-mcp-server\",\"version\":\"1.0.0\"\x7d\x7d\x7d".data) ∧
      (s1.HandleRequest env1 request1).1 = (s2.HandleRequest env2 request1).1 ∧
      (req1.ID = req2.ID →
        (s1.HandleRequest env1 request1).1 = (s2.HandleRequest env2 request2).1) ∧
      ∀ l1 l2 : List (String × GoValue), l1.Perm l2 → (l1.map Prod.fst).Nodup →
        (GoValue.map l1).toJSON = (GoValue.map l2).toJSON := by
  have h1 := handleRequest_initialize_eq s1 env1 request1 req1 hdec1 hm1
  have h1b := handleRequest_initialize_eq s2 env2 request1 req1 hdec1 hm1
  have h2 := handleRequest_initialize_eq s2 env2 request2 req2 hdec2 hm2
  refine ⟨?_, ?_, ?_, map_toJSON_eq_of_perm⟩
  · rw [h1]
    show marshal _ = _
    rw [marshal_success_text, render_initialize_result]
    congr 1
  · rw [h1, h1b]
  · intro hid
    rw [h1, h2, hid]

/-- C15 at two `initialize` requests with the id 1 and different params, on
two servers and at the same clock reading. -/
theorem handleRequest_initialize_deterministic_witness :
    (NewMCPServer.HandleRequest exampleEnv
        "\x7b\"jsonrpc\":\"2.0\",\"id\":1,\"method\":\"initialize\"\x7d").1 =
      ((NewMCPServer.registerTool addTool).HandleRequest exampleEnv
        "\x7b\"jsonrpc\":\"2.0\",\"id\":1,\"method\":\"initialize\",\"params\":\x7b\"x\":true\x7d\x7d").1 :=
  (handleRequest_initialize_deterministic NewMCPServer (NewMCPServer.registerTool addTool)
    exampleEnv exampleEnv
    "\x7b\"jsonrpc\":\"2.0\",\"id\":1,\"method\":\"initialize\"\x7d"
    "\x7b\"jsonrpc\":\"2.0\",\"id\":1,\"method\":\"initialize\",\"params\":\x7b\"x\":true\x7d\x7d"
    { JSONRPC := "2.0", ID := float64Of 4503599627370496 (-52), Method := "initialize",
      Params := none }
    { JSONRPC := "2.0", ID := float64Of 4503599627370496 (-52), Method := "initialize",
      Params := some (JSON.object [("x", JSON.bool true)]) }
    rfl rfl rfl rfl).2.2.1 rfl

/-- C18, refuted as stated: the input `null` is valid JSON whose top-level
value is not an object, yet it decodes (to the zero request) and is routed by
its empty method: the answer is -32601 "Method not found", not -32700. -/
theorem handleRequest_top_level_counterexample :
    checkValid "null" = some JSON.null ∧
    (NewMCPServer.HandleRequest exampleEnv "null").1 =
      "\x7b\"jsonrpc\":\"2.0\",\"error\":\x7b\"code\":-32601,\"message\":\"Method not found\"\x7d\x7d" ∧
    (NewMCPServer.HandleRequest exampleEnv "null").1 ≠
      "\x7b\"jsonrpc\":\"2.0\",\"error\":\x7b\"code\":-32700,\"message\":\"Parse error\"\x7d\x7d" := by
  refine ⟨rfl, ?_, ?_⟩ <;> decide!

/-- C18, amended: an input that is valid JSON and whose top-level value is an
array, a string, a number or a boolean does not decode; on every server it is
answered with the encoding of the response with error code -32700, message
"Parse error", no result and the nil id, and is not routed by method. A
top-level null decodes to the zero request; it is routed by its empty method
and answered -32601 "Method not found", with the nil id. -/
theorem handleRequest_top_level (s : MCPServer) (env : Env) (requestJSON : String) (v : JSON)
    (hv : checkValid requestJSON = some v) :
    (v.isObject = false → v.isNull = false →
      unmarshalRequest requestJSON = none ∧
      s.HandleRequest env requestJSON =
        (marshal { JSONRPC := "2.0", ID := GoValue.nil, Result := none,
                   Error := some { Code := -32700, Message := "Parse error",
                                   Data := GoValue.nil } }, s)) ∧
    (v.isNull = true →
      unmarshalRequest requestJSON = some JSONRPCRequest.zero ∧
      s.HandleRequest env requestJSON =
        (marshal { JSONRPC := "2.0", ID := GoValue.nil, Result := none,
                   Error := some { Code := -32601, Message := "Method not found",
                                   Data := GoValue.nil } }, s)) := by
  have hu : unmarshalRequest requestJSON = decodeRequest JSONRPCRequest.zero v := by
    unfold unmarshalRequest
    rw [hv]
  constructor
  · intro ho hn
    have hnone : unmarshalRequest requestJSON = none := by
      rw [hu]
      cases v with
      | null => cases hn
      | object members => cases ho
      | bool b => rfl
      | number lit => rfl
      | string str => rfl
      | array elems => rfl
    refine ⟨hnone, ?_⟩
    unfold MCPServer.HandleRequest
    rw [hnone]
    rfl
  · intro hn
    have hz : unmarshalRequest requestJSON = some JSONRPCRequest.zero := by
      rw [hu]
      cases v with
      | null => rfl
      | object members => cases hn
      | bool b => cases hn
      | number lit => cases hn
      | string str => cases hn
      | array elems => cases hn
    refine ⟨hz, ?_⟩
    unfold MCPServer.HandleRequest
    rw [hz]
    rfl

/-- C18 (amended) at the input `[1,2]`. -/
theorem handleRequest_top_level_witness :
    checkValid "[1,2]" = some (JSON.array [JSON.number "1", JSON.number "2"]) ∧
    NewMCPServer.HandleRequest exampleEnv "[1,2]" =
      (marshal { JSONRPC := "2.0", ID := GoValue.nil, Result := none,
                 Error := some { Code := -32700, Message := "Parse error",
                                 Data := GoValue.nil } }, NewMCPServer) :=
  ⟨rfl, ((handleRequest_top_level NewMCPServer exampleEnv "[1,2]"
    (JSON.array [JSON.number "1", JSON.number "2"]) rfl).1 rfl rfl).2⟩

/-- C19, refuted as stated: an arguments object that holds a number outside
the range of `float64` does not decode, and the call of `getCurrentTime` fails
with -32602 "Invalid params". -/
theorem handleRequest_arguments_counterexample :
    Valid "\x7b\"jsonrpc\":\"2.0\",\"id\":1,\"method\":\"tools/call\",\"params\":\x7b\"name\":\"getCurrentTime\",\"arguments\":\x7b\"x\":1e999\x7d\x7d\x7d" = true ∧
    (NewMCPServer.HandleRequest exampleEnv
        "\x7b\"jsonrpc\":\"2.0\",\"id\":1,\"method\":\"tools/call\",\"params\":\x7b\"name\":\"getCurrentTime\",\"arguments\":\x7b\"x\":1e999\x7d\x7d\x7d").1 =
      "\x7b\"jsonrpc\":\"2.0\",\"id\":1,\"error\":\x7b\"code\":-32602,\"message\":\"Invalid params\"\x7d\x7d" := by
  refine ⟨?_, ?_⟩ <;> decide!

/-- The params `{"name":"getCurrentTime","arguments":{...}}` decode exactly when
the members of the arguments do. -/
theorem unmarshalParams_getCurrentTime (a : List (String × JSON)) :
    unmarshalParams (some (JSON.object
        [("name", JSON.string "getCurrentTime"), ("arguments", JSON.object a)])) =
      (toInterfaceMembers a).map fun kvs =>
        { Name := "getCurrentTime", Arguments := some (mapSetAll [] kvs) } := by
  have k1 : keyMatches "name" "name" = true := by decide
  have k2 : keyMatches "arguments" "name" = false := by decide
  have k3 : keyMatches "arguments" "arguments" = true := by decide
  simp only [unmarshalParams, List.foldlM, ToolCallParams.setMember, k1, k2, k3, if_true,
    Bool.false_eq_true, if_false, decodeString, decodeMap, ToolCallParams.zero]
  cases toInterfaceMembers a <;> rfl

/-- C19, amended: the `getCurrentTime` handler ignores its arguments. On every
server and for every clock reading, two `tools/call` requests with the same id
whose params decode with the name `getCurrentTime` get the same success
response, whatever their arguments (absent, null, empty, or with members of any
type): no presence or type check is made. Params
`{"name":"getCurrentTime","arguments":{...}}` decode, and the call succeeds,
whenever the members of the arguments decode; they fail to decode only through
a number outside the range of `float64`, and then the call is answered -32602
"Invalid params". -/
theorem handleRequest_arguments_ignored (s : MCPServer) (env : Env) (request1 request2 : String)
    (req1 req2 : JSONRPCRequest)
    (hdec1 : unmarshalRequest request1 = some req1) (hm1 : req1.Method = "tools/call")
    (hdec2 : unmarshalRequest request2 = some req2) (hm2 : req2.Method = "tools/call")
    (hid : req1.ID = req2.ID) :
    (∀ p1 p2 : ToolCallParams, unmarshalParams req1.Params = some p1 →
      unmarshalParams req2.Params = some p2 →
      p1.Name = "getCurrentTime" → p2.Name = "getCurrentTime" →
      s.HandleRequest env request1 = s.HandleRequest env request2 ∧
      s.HandleRequest env request1 =
        (marshal { JSONRPC := "2.0", ID := req1.ID,
                   Result := some (ResultValue.toolResult
                     { Content := [{ Typ := "text", Text := env.now.formatRFC3339 }],
                       IsError := false }),
                   Error := none }, s)) ∧
    (∀ a : List (String × JSON),
      req1.Params = some (JSON.object
        [("name", JSON.string "getCurrentTime"), ("arguments", JSON.object a)]) →
      ((toInterfaceMembers a).isSome = true →
        s.HandleRequest env request1 =
          (marshal { JSONRPC := "2.0", ID := req1.ID,
                     Result := some (ResultValue.toolResult
                       { Content := [{ Typ := "text", Text := env.now.formatRFC3339 }],
                         IsError := false }),
                     Error := none }, s)) ∧
      (toInterfaceMembers a = none →
        s.HandleRequest env request1 =
          (marshal { JSONRPC := "2.0", ID := req1.ID, Result := none,
                     Error := some { Code := -32602, Message := "Invalid params",
                                     Data := GoValue.nil } }, s))) := by
  constructor
  · intro p1 p2 hp1 hp2 hn1 hn2
    have h1 := handleRequest_toolCall s env request1 req1 p1 hdec1 hm1 hp1
    have h2 := handleRequest_toolCall s env request2 req2 p2 hdec2 hm2 hp2
    rw [if_pos hn1] at h1
    rw [if_pos hn2] at h2
    refine ⟨?_, h1⟩
    rw [h1, h2, hid]
  · intro a ha
    have hp := unmarshalParams_getCurrentTime a
    rw [← ha] at hp
    constructor
    · intro hsome
      obtain ⟨kvs, hk⟩ := Option.isSome_iff_exists.mp hsome
      rw [hk] at hp
      have h1 := handleRequest_toolCall s env request1 req1 _ hdec1 hm1 hp
      rw [h1]
      rfl
    · intro hnone
      rw [hnone] at hp
      exact handleRequest_toolCall_undecoded s env request1 req1 hdec1 hm1 hp

/-- C19 (amended) at two calls with the id 1, one without arguments and one
with members of several types. -/
theorem handleRequest_arguments_ignored_witness :
    NewMCPServer.HandleRequest exampleEnv
        "\x7b\"jsonrpc\":\"2.0\",\"id\":1,\"method\":\"tools/call\",\"params\":\x7b\"name\":\"getCurrentTime\"\x7d\x7d" =
      NewMCPServer.HandleRequest exampleEnv
        "\x7b\"jsonrpc\":\"2.0\",\"id\":1,\"method\":\"tools/call\",\"params\":\x7b\"name\":\"getCurrentTime\",\"arguments\":\x7b\"a\":\"x\",\"b\":[1,null],\"c\":\x7b\"d\":false\x7d\x7d\x7d\x7d" :=
  ((handleRequest_arguments_ignored NewMCPServer exampleEnv
    "\x7b\"jsonrpc\":\"2.0\",\"id\":1,\"method\":\"tools/call\",\"params\":\x7b\"name\":\"getCurrentTime\"\x7d\x7d"
    "\x7b\"jsonrpc\":\"2.0\",\"id\":1,\"method\":\"tools/call\",\"params\":\x7b\"name\":\"getCurrentTime\",\"arguments\":\x7b\"a\":\"x\",\"b\":[1,null],\"c\":\x7b\"d\":false\x7d\x7d\x7d\x7d"
    { JSONRPC := "2.0", ID := float64Of 4503599627370496 (-52), Method := "tools/call",
      Params := some (JSON.object [("name", JSON.string "getCurrentTime")]) }
    { JSONRPC := "2.0", ID := float64Of 4503599627370496 (-52), Method := "tools/call",
      Params := some (JSON.object [("name", JSON.string "getCurrentTime"),
        ("arguments", JSON.object [("a", JSON.string "x"),
          ("b", JSON.array [JSON.number "1", JSON.null]),
          ("c", JSON.object [("d", JSON.bool false)])])]) }
    rfl rfl rfl rfl rfl).1
    { Name := "getCurrentTime", Arguments := none }
    { Name := "getCurrentTime", Arguments := some
        [("a", GoValue.string "x"),
         ("b", GoValue.slice [float64Of 4503599627370496 (-52), GoValue.nil]),
         ("c", GoValue.map [("d", GoValue.bool false)])] }
    rfl rfl rfl rfl).1

/-- A decimal digit character is a digit. -/
theorem isDigit_digitChar (d : Nat) : isDigit (digitChar d) = true := by
  have h : d % 10 < 10 := Nat.mod_lt _ (by decide)
  unfold digitChar
  generalize d % 10 = r at h
  interval_cases r <;> decide

/-- The digit of a number from 1 to 9 is not the zero. -/
theorem digitChar_ne_zero (d : Nat) (h0 : 0 < d) (h9 : d < 10) : digitChar d ≠ '0' := by
  unfold digitChar
  rw [Nat.mod_eq_of_lt h9]
  interval_cases d <;> decide

/-- The digits of a positive number: they stand in front of the digits given,
are decimal digits, begin with a digit that is not zero, and are as many as
the number's size in powers of ten. -/
theorem natDigitsAux_spec (fuel n : Nat) (acc : List Char) (hn : 0 < n) (hf : n < fuel) :
    ∃ d ds, natDigitsAux fuel n acc = d :: (ds ++ acc) ∧ isDigit d = true ∧ d ≠ '0' ∧
      (∀ c ∈ ds, isDigit c = true) ∧ 10 ^ ds.length ≤ n ∧ n < 10 ^ (ds.length + 1) := by
  induction fuel generalizing n acc with
  | zero => omega
  | succ k ih =>
    unfold natDigitsAux
    by_cases h10 : n / 10 = 0
    · rw [if_pos h10]
      have hlt : n < 10 := by omega
      refine ⟨digitChar n, [], rfl, isDigit_digitChar n, digitChar_ne_zero n hn hlt, ?_, ?_, ?_⟩
      · intro c hc
        exact absurd hc (List.not_mem_nil c)
      · simpa using hn
      · simpa using hlt
    · rw [if_neg h10]
      have h1 : 0 < n / 10 := Nat.pos_of_ne_zero h10
      have h2 : n / 10 < k := by omega
      obtain ⟨d, ds, he, hd, hd0, hds, hlo, hhi⟩ := ih (n / 10) (digitChar n :: acc) h1 h2
      refine ⟨d, ds ++ [digitChar n], ?_, hd, hd0, ?_, ?_, ?_⟩
      · rw [he]; simp
      · intro c hc
        rcases List.mem_append.mp hc with h | h
        · exact hds c h
        · rw [List.mem_singleton.mp h]; exact isDigit_digitChar n
      · rw [List.length_append, List.length_singleton, pow_succ]
        omega
      · rw [List.length_append, List.length_singleton, pow_succ]
        omega

/-- The digits of a positive number. -/
theorem natDigits_pos (n : Nat) (hn : 0 < n) :
    ∃ d ds, natDigits n = d :: ds ∧ isDigit d = true ∧ d ≠ '0' ∧
      (∀ c ∈ ds, isDigit c = true) ∧ 10 ^ ds.length ≤ n ∧ n < 10 ^ (ds.length + 1) := by
  obtain ⟨d, ds, he, h⟩ := natDigitsAux_spec (n + 1) n [] hn (Nat.lt_succ_self n)
  exact ⟨d, ds, by rw [natDigits, he, List.append_nil], h⟩

/-- The digits of zero. -/
theorem natDigits_zero : natDigits 0 = ['0'] := rfl

/-- The digits of a number are decimal digits, at least one. -/
theorem natDigits_digits (n : Nat) :
    ∃ d ds, natDigits n = d :: ds ∧ ∀ c ∈ d :: ds, isDigit c = true := by
  rcases Nat.eq_zero_or_pos n with h | h
  · subst h
    exact ⟨'0', [], rfl, by decide⟩
  · obtain ⟨d, ds, he, hd, _, hds, _⟩ := natDigits_pos n h
    refine ⟨d, ds, he, ?_⟩
    intro c hc
    rcases List.mem_cons.mp hc with h1 | h1
    · rw [h1]; exact hd
    · exact hds c h1

/-- The automaton of numbers stays in its error state. -/
theorem foldl_numberNext_error (l : List Char) : l.foldl numberNext Step.error = Step.error := by
  induction l with
  | nil => rfl
  | cons c l ih => simpa [List.foldl, numberNext] using ih

/-- Digits keep the automaton in the integer part. -/
theorem foldl_numberNext_one (l : List Char) (h : ∀ c ∈ l, isDigit c = true) :
    l.foldl numberNext Step.one = Step.one := by
  induction l with
  | nil => rfl
  | cons c l ih =>
    have hc := h c (List.mem_cons_self c l)
    simp only [List.foldl, numberNext, hc, if_true]
    exact ih fun d hd => h d (List.mem_cons_of_mem c hd)

/-- Digits keep the automaton in the fraction. -/
theorem foldl_numberNext_dot0 (l : List Char) (h : ∀ c ∈ l, isDigit c = true) :
    l.foldl numberNext Step.dot0 = Step.dot0 := by
  induction l with
  | nil => rfl
  | cons c l ih =>
    have hc := h c (List.mem_cons_self c l)
    simp only [List.foldl, numberNext, hc, if_true]
    exact ih fun d hd => h d (List.mem_cons_of_mem c hd)

/-- Digits keep the automaton in the exponent. -/
theorem foldl_numberNext_e0 (l : List Char) (h : ∀ c ∈ l, isDigit c = true) :
    l.foldl numberNext Step.e0 = Step.e0 := by
  induction l with
  | nil => rfl
  | cons c l ih =>
    have hc := h c (List.mem_cons_self c l)
    simp only [List.foldl, numberNext, hc, if_true]
    exact ih fun d hd => h d (List.mem_cons_of_mem c hd)

/-- An integer part, `0` or digits that begin with another digit, read after
an optional minus. -/
theorem foldl_numberNext_int (d : Char) (ds : List Char) (hd : isDigit d = true)
    (hds : ∀ c ∈ ds, isDigit c = true) (h0 : d ≠ '0' ∨ ds = []) :
    (d :: ds).foldl numberNext Step.neg = Step.zero ∨
      (d :: ds).foldl numberNext Step.neg = Step.one := by
  by_cases hz : d = '0'
  · have he : ds = [] := h0.resolve_left (fun h => h hz)
    subst he; subst hz
    exact Or.inl rfl
  · right
    simp only [List.foldl, numberNext, hz, hd, if_true, if_false]
    exact foldl_numberNext_one ds hds

/-- A fraction after the integer part. -/
theorem foldl_numberNext_frac (st : Step) (hst : st = Step.zero ∨ st = Step.one) (d : Char)
    (ds : List Char) (hds : ∀ c ∈ d :: ds, isDigit c = true) :
    ('.' :: d :: ds).foldl numberNext st = Step.dot0 := by
  have hd := hds d (List.mem_cons_self d ds)
  have hrest := foldl_numberNext_dot0 ds fun c hc => hds c (List.mem_cons_of_mem d hc)
  rcases hst with h | h <;> subst h
  · simpa [List.foldl, numberNext, hd] using hrest
  · have : isDigit '.' = false := by decide
    simpa [List.foldl, numberNext, hd, this] using hrest

/-- An exponent after the integer part or the fraction. -/
theorem foldl_numberNext_exp (st : Step)
    (hst : st = Step.zero ∨ st = Step.one ∨ st = Step.dot0) (sg d : Char) (ds : List Char)
    (hsg : sg = '+' ∨ sg = '-') (hds : ∀ c ∈ d :: ds, isDigit c = true) :
    ('e' :: sg :: d :: ds).foldl numberNext st = Step.e0 := by
  have hd := hds d (List.mem_cons_self d ds)
  have hrest := foldl_numberNext_e0 ds fun c hc => hds c (List.mem_cons_of_mem d hc)
  have he : isDigit 'e' = false := by decide
  have hdot : ('e' : Char) ≠ '.' := by decide
  rcases hst with h | h | h <;> subst h <;>
    simpa [List.foldl, numberNext, hd, he, hdot, hsg] using hrest

/-- A text that is a number when read after a minus, and begins with a digit,
is a number with or without the minus in front. -/
theorem isNumberLit_sign (neg : Bool) (d : Char) (ds : List Char) (hd : isDigit d = true)
    (h : numberFinal ((d :: ds).foldl numberNext Step.neg) = true) :
    isNumberLit ((if neg then ['-'] else []) ++ d :: ds) = true := by
  have hm : d ≠ '-' := by
    intro he
    subst he
    exact absurd hd (by decide)
  cases neg with
  | true => simpa [isNumberLit, List.foldl, numberNext] using h
  | false =>
    have : numberNext Step.beginValue d = numberNext Step.neg d := by
      simp [numberNext, hm]
    simpa [isNumberLit, List.foldl, this] using h

/-- Rounding a quotient does not go below it. -/
theorem le_roundHalfEven (nd : Nat × Nat) : nd.1 / nd.2 ≤ roundHalfEven nd := by
  unfold roundHalfEven
  simp only
  split <;> omega

/-- The denominator of the value of a `float64` is positive. -/
theorem fraction_den_pos (f : Float64) : 0 < f.fraction.2 := by
  unfold Float64.fraction
  split
  · exact Nat.one_pos
  · exact Nat.pos_pow_of_pos _ (by decide)

/-- A fraction cut in front of its decimal point is not below one. -/
theorem one_le_scale10 (nd : Nat × Nat) (hden : 0 < nd.2) (u : Int) (hu : 1 ≤ u)
    (hp : u < decimalPoint nd) : 1 ≤ (scale10 nd u).1 / (scale10 nd u).2 := by
  obtain ⟨num, den⟩ := nd
  simp only at hden
  unfold decimalPoint at hp
  simp only at hp
  by_cases hge : num ≥ den
  · rw [if_pos hge] at hp
    have hq : 0 < num / den := Nat.div_pos hge hden
    obtain ⟨d, ds, he, _, _, _, hlo, _⟩ := natDigits_pos (num / den) hq
    rw [he] at hp
    simp only [List.length_cons] at hp
    have hu0 : 0 ≤ u := by omega
    unfold scale10
    rw [if_pos hu0]
    simp only
    rw [← Nat.div_div_eq_div_mul]
    have hle : u.toNat ≤ ds.length := by omega
    have hpow : 10 ^ u.toNat ≤ num / den :=
      le_trans (Nat.pow_le_pow_right (by decide) hle) hlo
    exact Nat.div_pos hpow (Nat.pos_pow_of_pos _ (by decide))
  · rw [if_neg hge] at hp
    split at hp <;> omega

/-- The digits `shortestAux` settles on are zero only with the decimal point
not behind them. -/
theorem shortestAux_zero (f : Float64) (fuel n : Nat) (hn : 1 ≤ n)
    (h0 : (shortestAux f (decimalPoint f.fraction) fuel n).1 = 0) :
    (shortestAux f (decimalPoint f.fraction) fuel n).2 ≤ 0 := by
  induction fuel generalizing n with
  | zero =>
    unfold shortestAux at h0 ⊢
    simp only at h0 ⊢
    by_contra hc
    have h1 := one_le_scale10 f.fraction (fraction_den_pos f)
      (decimalPoint f.fraction - n) (by omega) (by omega)
    have h2 := le_roundHalfEven (scale10 f.fraction (decimalPoint f.fraction - n))
    omega
  | succ k ih =>
    have hrec : (shortestAux f (decimalPoint f.fraction) k (n + 1)).1 = 0 →
        (shortestAux f (decimalPoint f.fraction) k (n + 1)).2 ≤ 0 := ih (n + 1) (by omega)
    have hbig : 1 ≤ decimalPoint f.fraction - (n : Int) →
        1 ≤ (scale10 f.fraction (decimalPoint f.fraction - n)).1 /
          (scale10 f.fraction (decimalPoint f.fraction - n)).2 := fun h =>
      one_le_scale10 f.fraction (fraction_den_pos f) (decimalPoint f.fraction - n) h (by omega)
    have h2 := le_roundHalfEven (scale10 f.fraction (decimalPoint f.fraction - n))
    unfold shortestAux at h0 ⊢
    simp only at h0 ⊢
    by_cases hA : (roundsTo f ((scale10 f.fraction (decimalPoint f.fraction - ↑n)).1 /
        (scale10 f.fraction (decimalPoint f.fraction - ↑n)).2) (decimalPoint f.fraction - ↑n) &&
        roundsTo f ((scale10 f.fraction (decimalPoint f.fraction - ↑n)).1 /
        (scale10 f.fraction (decimalPoint f.fraction - ↑n)).2 + 1)
        (decimalPoint f.fraction - ↑n)) = true
    · rw [if_pos hA] at h0 ⊢
      simp only at h0 ⊢
      by_contra hc
      have := hbig (by omega)
      omega
    · rw [if_neg hA] at h0 ⊢
      by_cases hB : roundsTo f ((scale10 f.fraction (decimalPoint f.fraction - ↑n)).1 /
        (scale10 f.fraction (decimalPoint f.fraction - ↑n)).2) (decimalPoint f.fraction - ↑n) = true
      · rw [if_pos hB] at h0 ⊢
        simp only at h0 ⊢
        by_contra hc
        have := hbig (by omega)
        omega
      · rw [if_neg hB] at h0 ⊢
        by_cases hC : roundsTo f ((scale10 f.fraction (decimalPoint f.fraction - ↑n)).1 /
          (scale10 f.fraction (decimalPoint f.fraction - ↑n)).2 + 1)
          (decimalPoint f.fraction - ↑n) = true
        · rw [if_pos hC] at h0 ⊢
          simp only at h0 ⊢
          omega
        · rw [if_neg hC] at h0 ⊢
          have := hrec (by exact_mod_cast h0)
          exact_mod_cast this

/-- Dropping the zeros at the end leaves zero as it is and any other number
other than zero. -/
theorem trimZeros_spec (fuel d : Nat) (u : Int) :
    (d = 0 → trimZeros fuel d u = (0, u)) ∧ (d ≠ 0 → (trimZeros fuel d u).1 ≠ 0) := by
  induction fuel generalizing d u with
  | zero => exact ⟨fun h => by rw [h]; rfl, fun h => h⟩
  | succ k ih =>
    unfold trimZeros
    constructor
    · intro h
      subst h
      simp
    · intro h
      by_cases hz : d % 10 = 0
      · rw [if_pos ⟨h, hz⟩]
        exact (ih (d / 10) (u + 1)).2 (by omega)
      · rw [if_neg (fun hh => hz hh.2)]
        exact h

/-- The digits of the shortest decimal of a `float64` other than zero: decimal
digits, which begin with a digit other than `0` or else are the one digit `0`
with the decimal point at most one place behind it. -/
theorem shortest_spec (f : Float64) :
    ∃ d ds, (shortest f).1 = d :: ds ∧ (∀ c ∈ d :: ds, isDigit c = true) ∧
      (d ≠ '0' ∨ (ds = [] ∧ (shortest f).2 ≤ 1)) := by
  unfold shortest
  simp only
  generalize hr : shortestAux f (decimalPoint f.fraction) 16 1 = r
  have hz : r.1 = 0 → r.2 ≤ 0 := by
    intro h
    rw [← hr] at h ⊢
    exact shortestAux_zero f 16 1 (le_refl 1) h
  obtain ⟨h0, h1⟩ := trimZeros_spec 17 r.1 r.2
  by_cases hd : r.1 = 0
  · rw [h0 hd]
    have := hz hd
    refine ⟨'0', [], natDigits_zero, by decide, Or.inr ⟨rfl, ?_⟩⟩
    show ((natDigits 0).length : Int) + r.2 ≤ 1
    rw [natDigits_zero]
    simp only [List.length_singleton]
    omega
  · obtain ⟨d, ds, he, hdig, hne, hds, _⟩ :=
      natDigits_pos (trimZeros 17 r.1 r.2).1 (Nat.pos_of_ne_zero (h1 hd))
    refine ⟨d, ds, he, ?_, Or.inl hne⟩
    intro c hc
    rcases List.mem_cons.mp hc with h | h
    · rw [h]; exact hdig
    · exact hds c h

/-- The character `0` repeated is made of digits. -/
theorem isDigit_of_mem_replicate (n : Nat) (c : Char) (h : c ∈ List.replicate n '0') :
    isDigit c = true := by
  rw [(List.mem_replicate.mp h).2]
  decide

/-- The `%e` form of digits is a number when read after a minus, and begins
with a digit. -/
theorem fmtE_spec (d : Char) (ds : List Char) (dp : Int)
    (hds : ∀ c ∈ d :: ds, isDigit c = true) :
    ∃ tl, fmtE (d :: ds) dp = d :: tl ∧
      numberFinal ((fmtE (d :: ds) dp).foldl numberNext Step.neg) = true := by
  have hd := hds d (List.mem_cons_self d ds)
  obtain ⟨x, xs, hx, hxs⟩ := natDigits_digits (dp - 1).natAbs
  have hsg : (if dp - 1 < 0 then '-' else '+') = '+' ∨ (if dp - 1 < 0 then '-' else '+') = '-' := by
    split
    · exact Or.inr rfl
    · exact Or.inl rfl
  cases ds with
  | nil =>
    refine ⟨_, rfl, ?_⟩
    unfold fmtE
    simp only [hx]
    have h1 := foldl_numberNext_int d [] hd (fun c hc => absurd hc (List.not_mem_nil c)) (Or.inr rfl)
    have h2 := foldl_numberNext_exp ([d].foldl numberNext Step.neg)
      (h1.elim Or.inl fun h => Or.inr (Or.inl h)) _ x xs hsg hxs
    have : ([d] ++ 'e' :: (if dp - 1 < 0 then '-' else '+') :: x :: xs).foldl numberNext Step.neg
        = Step.e0 := by
      rw [List.foldl_append]; exact h2
    rw [this]; rfl
  | cons y ys =>
    refine ⟨_, rfl, ?_⟩
    unfold fmtE
    simp only [hx]
    have h1 := foldl_numberNext_int d [] hd (fun c hc => absurd hc (List.not_mem_nil c)) (Or.inr rfl)
    have hfr := foldl_numberNext_frac ([d].foldl numberNext Step.neg) h1 y ys
      (fun c hc => hds c (List.mem_cons_of_mem d hc))
    have h2 := foldl_numberNext_exp Step.dot0 (Or.inr (Or.inr rfl)) _ x xs hsg hxs
    have : ((d :: '.' :: y :: ys) ++ 'e' :: (if dp - 1 < 0 then '-' else '+') :: x :: xs).foldl
        numberNext Step.neg = Step.e0 := by
      rw [List.foldl_append]
      have h3 : (d :: '.' :: y :: ys).foldl numberNext Step.neg = Step.dot0 := by
        have : d :: '.' :: y :: ys = [d] ++ '.' :: y :: ys := rfl
        rw [this, List.foldl_append]; exact hfr
      rw [h3]; exact h2
    rw [this]; rfl

/-- The `%f` form of digits is a number when read after a minus, and begins
with a digit. -/
theorem fmtF_spec (d : Char) (ds : List Char) (dp : Int)
    (hds : ∀ c ∈ d :: ds, isDigit c = true) (h0 : d ≠ '0' ∨ (ds = [] ∧ dp ≤ 1)) :
    ∃ x tl, fmtF (d :: ds) dp = x :: tl ∧ isDigit x = true ∧
      numberFinal ((fmtF (d :: ds) dp).foldl numberNext Step.neg) = true := by
  have hA : ∃ x t, (if 0 < dp then (d :: ds).take dp.toNat ++
        List.replicate (dp.toNat - (d :: ds).length) '0' else ['0']) = x :: t ∧
      (∀ c ∈ x :: t, isDigit c = true) ∧ (x ≠ '0' ∨ t = []) := by
    by_cases hp : 0 < dp
    · rw [if_pos hp]
      obtain ⟨k, hk⟩ : ∃ k, dp.toNat = k + 1 := ⟨dp.toNat - 1, by omega⟩
      rw [hk, List.take_succ_cons, List.cons_append]
      refine ⟨d, _, rfl, ?_, ?_⟩
      · intro c hc
        rcases List.mem_cons.mp hc with h | h
        · rw [h]; exact hds d (List.mem_cons_self d ds)
        · rcases List.mem_append.mp h with h | h
          · exact hds c (List.mem_cons_of_mem d (List.mem_of_mem_take h))
          · exact isDigit_of_mem_replicate _ c h
      · rcases h0 with h | ⟨h1, h2⟩
        · exact Or.inl h
        · right
          subst h1
          have : k = 0 := by omega
          subst this
          rfl
    · rw [if_neg hp]
      exact ⟨'0', [], rfl, by decide, Or.inr rfl⟩
  have hB : (if ((d :: ds).length : Int) > dp then
        '.' :: (List.replicate (-dp).toNat '0' ++ (d :: ds).drop dp.toNat) else []) = [] ∨
      ∃ y ys, (if ((d :: ds).length : Int) > dp then
        '.' :: (List.replicate (-dp).toNat '0' ++ (d :: ds).drop dp.toNat) else [])
          = '.' :: y :: ys ∧ ∀ c ∈ y :: ys, isDigit c = true := by
    by_cases hl : ((d :: ds).length : Int) > dp
    · right
      rw [if_pos hl]
      have hne : List.replicate (-dp).toNat '0' ++ (d :: ds).drop dp.toNat ≠ [] := by
        intro h
        have h2 := (List.append_eq_nil.mp h).2
        rw [List.drop_eq_nil_iff] at h2
        simp only [List.length_cons] at h2 hl
        omega
      obtain ⟨y, ys, hy⟩ := List.exists_cons_of_ne_nil hne
      refine ⟨y, ys, by rw [hy], ?_⟩
      intro c hc
      rw [← hy] at hc
      rcases List.mem_append.mp hc with h | h
      · exact isDigit_of_mem_replicate _ c h
      · exact hds c (List.mem_of_mem_drop h)
    · left
      rw [if_neg hl]
  unfold fmtF
  simp only
  obtain ⟨x, t, hx, hxt, hx0⟩ := hA
  rw [hx]
  have hxd := hxt x (List.mem_cons_self x t)
  have hint := foldl_numberNext_int x t hxd (fun c hc => hxt c (List.mem_cons_of_mem x hc)) hx0
  refine ⟨x, _, rfl, hxd, ?_⟩
  rcases hB with hB | ⟨y, ys, hB, hys⟩
  · rw [hB, List.append_nil]
    rcases hint with h | h <;> rw [h] <;> rfl
  · rw [hB, List.foldl_append, foldl_numberNext_frac _ hint y ys hys]
    rfl

/-- The text of a `float64` is a number of the grammar. -/
theorem isNumberLit_formatFloat (f : Float64) : isNumberLit (formatFloat f).data = true := by
  unfold formatFloat
  simp only
  by_cases hm : f.mant = 0
  · rw [if_pos hm]
    cases f.neg <;> decide
  · rw [if_neg hm]
    obtain ⟨d, ds, he, hds, h0⟩ := shortest_spec f
    split
    · obtain ⟨tl, h1, h2⟩ := fmtE_spec d ds (shortest f).2 hds
      rw [he]
      show isNumberLit ((if f.neg then ['-'] else []) ++ fmtE (d :: ds) (shortest f).2) = true
      rw [h1] at h2 ⊢
      exact isNumberLit_sign f.neg d tl (hds d (List.mem_cons_self d ds)) h2
    · obtain ⟨x, tl, h1, hx, h2⟩ := fmtF_spec d ds (shortest f).2 hds h0
      rw [he]
      show isNumberLit ((if f.neg then ['-'] else []) ++ fmtF (d :: ds) (shortest f).2) = true
      rw [h1] at h2 ⊢
      exact isNumberLit_sign f.neg x tl hx h2

/-- The text of an `int` is a number of the grammar. -/
theorem isNumberLit_intText (i : Int) : isNumberLit (intText i).data = true := by
  unfold intText
  show isNumberLit ((if i < 0 then ['-'] else []) ++ natDigits i.natAbs) = true
  have key : ∃ d ds, natDigits i.natAbs = d :: ds ∧ isDigit d = true ∧
      (∀ c ∈ ds, isDigit c = true) ∧ (d ≠ '0' ∨ ds = []) := by
    rcases Nat.eq_zero_or_pos i.natAbs with h | h
    · rw [h]
      exact ⟨'0', [], rfl, by decide, fun c hc => absurd hc (List.not_mem_nil c), Or.inr rfl⟩
    · obtain ⟨d, ds, he, hd, hne, hds, _⟩ := natDigits_pos _ h
      exact ⟨d, ds, he, hd, hds, Or.inl hne⟩
  obtain ⟨d, ds, he, hd, hds, h0⟩ := key
  rw [he]
  have hint := foldl_numberNext_int d ds hd hds h0
  have hfin : numberFinal ((d :: ds).foldl numberNext Step.neg) = true := by
    rcases hint with h | h <;> rw [h] <;> rfl
  have := isNumberLit_sign (decide (i < 0)) d ds hd hfin
  simpa using this

/-- A hexadecimal digit character is a hexadecimal digit. -/
theorem isHex_hexDigit (n : Nat) : isHex (hexDigit n) = true := by
  have h : n % 16 < 16 := Nat.mod_lt _ (by decide)
  unfold hexDigit
  generalize n % 16 = r at h
  interval_cases r <;> decide

/-- The value of a hexadecimal digit character. -/
theorem hexVal_hexDigit (n : Nat) : hexVal (hexDigit n) = n % 16 := by
  have h : n % 16 < 16 := Nat.mod_lt _ (by decide)
  unfold hexDigit
  generalize n % 16 = r at h
  interval_cases r <;> decide

/-- The four digits of `escapeU` read back as the code unit. -/
theorem getu4_escapeU (n : Nat) (h : n < 65536) :
    getu4 (hexDigit (n / 4096)) (hexDigit (n / 256)) (hexDigit (n / 16)) (hexDigit n) = n := by
  unfold getu4
  simp only [hexVal_hexDigit]
  omega

/-- The grammar's automaton over the escape `\uXXXX`. -/
theorem foldl_stringNext_escapeU (n : Nat) :
    (escapeU n).foldl stringNext Step.inString = Step.inString := by
  simp [escapeU, List.foldl, stringNext, isHex_hexDigit]

/-- The grammar's automaton over one written character. -/
theorem foldl_stringNext_escapeChar (c : Char) :
    (escapeChar c).foldl stringNext Step.inString = Step.inString := by
  unfold escapeChar
  split
  · rename_i h
    rcases h with h | h <;> subst h <;> rfl
  split; rfl
  split; rfl
  split; rfl
  split; rfl
  split; rfl
  split
  · exact foldl_stringNext_escapeU _
  · rename_i h1 _ _ _ _ _ h7
    simp only [not_or] at h1 h7
    simp [List.foldl, stringNext, h1.1, h1.2, h7.1]

/-- What the encoder writes between the quotes of a string belongs to the grammar. -/
theorem isStringBody_escape (cs : List Char) : isStringBody (cs.flatMap escapeChar) = true := by
  unfold isStringBody
  rw [decide_eq_true_eq]
  induction cs with
  | nil => rfl
  | cons c cs ih =>
    rw [List.flatMap_cons, List.foldl_append, foldl_stringNext_escapeChar]
    exact ih

/-- Unquoting what the encoder writes for one character gives the character back. -/
theorem unquoteAux_escapeChar (c : Char) (rest : List Char) :
    unquoteAux none (escapeChar c ++ rest) = c :: unquoteAux none rest := by
  have hesc : ∀ x : Char, x ≠ 'u' →
      unquoteAux none ('\\' :: x :: rest) = unescapeChar x :: unquoteAux none rest := by
    intro x hx
    rw [unquoteAux.eq_3 none x rest (fun _ _ _ _ _ h _ => hx h)]
    rfl
  unfold escapeChar
  split
  · rename_i h
    rcases h with h | h <;> subst h
    · exact hesc '"' (by decide)
    · exact hesc '\\' (by decide)
  split
  · rename_i h; subst h; exact hesc 'b' (by decide)
  split
  · rename_i h; subst h; exact hesc 'f' (by decide)
  split
  · rename_i h; subst h; exact hesc 'n' (by decide)
  split
  · rename_i h; subst h; exact hesc 'r' (by decide)
  split
  · rename_i h; subst h; exact hesc 't' (by decide)
  split
  · rename_i h
    have hlt : c.toNat < 65536 := by
      rcases h with h | h | h | h | h | h
      · omega
      · subst h; decide
      · subst h; decide
      · subst h; decide
      · omega
      · omega
    have hhi : isHighSurrogate c.toNat = false := by
      unfold isHighSurrogate
      rcases h with h | h | h | h | h | h
      · simp; omega
      · subst h; decide
      · subst h; decide
      · subst h; decide
      · rw [h]; decide
      · rw [h]; decide
    have hlo : isLowSurrogate c.toNat = false := by
      unfold isLowSurrogate
      rcases h with h | h | h | h | h | h
      · simp; omega
      · subst h; decide
      · subst h; decide
      · subst h; decide
      · rw [h]; decide
      · rw [h]; decide
    show unquoteAux none ('\\' :: 'u' :: hexDigit (c.toNat / 4096) :: hexDigit (c.toNat / 256) ::
      hexDigit (c.toNat / 16) :: hexDigit c.toNat :: rest) = c :: unquoteAux none rest
    rw [unquoteAux.eq_2, getu4_escapeU c.toNat hlt, hhi, hlo]
    simp only [Bool.false_eq_true, if_false]
    rw [Char.ofNat_toNat]
  · rename_i h1 _ _ _ _ _ _
    simp only [not_or] at h1
    show unquoteAux none (c :: rest) = c :: unquoteAux none rest
    rw [unquoteAux.eq_4 none c rest (fun _ _ _ _ _ h _ => h1.2 h) (fun _ _ h _ => h1.2 h)]
    rfl

/-- Unquoting what the encoder writes between the quotes gives the string back. -/
theorem unquote_escape (s : String) : unquote (s.data.flatMap escapeChar) = s := by
  unfold unquote
  have h : ∀ cs : List Char, unquoteAux none (cs.flatMap escapeChar) = cs := by
    intro cs
    induction cs with
    | nil => rfl
    | cons c cs ih => rw [List.flatMap_cons, unquoteAux_escapeChar, ih]
  rw [h]

/-- A string as the encoder writes it is a string of the grammar. -/
theorem isJSONText_quote (s : String) : IsJSONText (quote s) (JSON.string s) := by
  have h := IsJSONText.string (s.data.flatMap escapeChar) (isStringBody_escape s.data)
  rw [unquote_escape] at h
  exact h

mutual
/-- The compact text of a syntax tree whose numbers are numbers of the
grammar is a JSON text, and the tree is its syntax tree. -/
theorem isJSONText_render : ∀ j : JSON, j.numbersValid = true → IsJSONText (render j) j
  | JSON.null, _ => IsJSONText.null
  | JSON.bool true, _ => IsJSONText.boolTrue
  | JSON.bool false, _ => IsJSONText.boolFalse
  | JSON.number lit, h => IsJSONText.number lit (by simpa [JSON.numbersValid] using h)
  | JSON.string s, _ => isJSONText_quote s
  | JSON.array [], _ => IsJSONText.emptyArray
  | JSON.array (x :: xs), h =>
      IsJSONText.array (renderList (x :: xs)) x xs
        (isJSONElems_renderList (x :: xs) (by simpa [JSON.numbersValid] using h)
          (List.cons_ne_nil x xs))
  | JSON.object [], _ => IsJSONText.emptyObject
  | JSON.object (m :: ms), h =>
      IsJSONText.object (renderMembers (m :: ms)) m ms
        (isJSONMembers_renderMembers (m :: ms) (by simpa [JSON.numbersValid] using h)
          (List.cons_ne_nil m ms))
/-- The same for the elements of an array. -/
theorem isJSONElems_renderList : ∀ l : List JSON,
    numbersValidList l = true → l ≠ [] → IsJSONElems (renderList l) l
  | [], _, hne => absurd rfl hne
  | [x], h, _ =>
      IsJSONElems.one (render x) x
        (isJSONText_render x (by simp [numbersValidList] at h; exact h))
  | x :: y :: ys, h, _ =>
      have h1 : x.numbersValid = true ∧ numbersValidList (y :: ys) = true := by
        have := h
        rw [numbersValidList, Bool.and_eq_true] at this
        exact this
      IsJSONElems.cons (render x) (renderList (y :: ys)) x y ys
        (isJSONText_render x h1.1) (isJSONElems_renderList (y :: ys) h1.2 (List.cons_ne_nil y ys))
/-- The same for the members of an object. -/
theorem isJSONMembers_renderMembers : ∀ l : List (String × JSON),
    numbersValidMembers l = true → l ≠ [] → IsJSONMembers (renderMembers l) l
  | [], _, hne => absurd rfl hne
  | [(k, x)], h, _ => by
      have hx : x.numbersValid = true := by simp [numbersValidMembers] at h; exact h
      have := IsJSONMembers.one (k.data.flatMap escapeChar) (render x) x
        (isStringBody_escape k.data) (isJSONText_render x hx)
      rw [unquote_escape] at this
      simpa [renderMembers, quote] using this
  | (k, x) :: y :: ys, h, _ => by
      have h1 : x.numbersValid = true ∧ numbersValidMembers (y :: ys) = true := by
        have := h
        rw [numbersValidMembers, Bool.and_eq_true] at this
        exact this
      have := IsJSONMembers.cons (k.data.flatMap escapeChar) (render x) (renderMembers (y :: ys))
        x y ys (isStringBody_escape k.data) (isJSONText_render x h1.1)
        (isJSONMembers_renderMembers (y :: ys) h1.2 (List.cons_ne_nil y ys))
      rw [unquote_escape] at this
      simpa [renderMembers, quote] using this
end

/-- What `emit` leaves: the step as it was, the value handed to the stack or
made the top-level value, and no literal. -/
theorem emit_eq (st : Step) (ps : List Frame) (lit : List Char) (top : Option JSON) (v : JSON) :
    Scanner.emit ⟨st, ps, lit, top⟩ v = ⟨st, emitStack ps v, [], emitTop ps top v⟩ := by
  cases ps with
  | nil => rfl
  | cons f rest =>
    cases f with
    | arrayValue elems => rfl
    | objectValue members key => rfl
    | objectKey members key => cases v <;> rfl

/-- The step `stateEndValue` does not look at the step the scanner is in. -/
theorem stateEndValue_step (st st2 : Step) (ps : List Frame) (lit : List Char)
    (top : Option JSON) (c : Char) :
    stateEndValue ⟨st, ps, lit, top⟩ c = stateEndValue ⟨st2, ps, lit, top⟩ c := by
  cases ps with
  | nil => rfl
  | cons f rest =>
    cases f with
    | arrayValue elems =>
      simp only [stateEndValue, Scanner.fail, Scanner.pop, emit_eq]
    | objectValue members key =>
      simp only [stateEndValue, Scanner.fail, Scanner.pop, emit_eq]
    | objectKey members key =>
      simp only [stateEndValue, Scanner.fail]

/-- What `pop` leaves when an array is closed. -/
theorem pop_array (st : Step) (elems : List JSON) (ps : List Frame) (lit : List Char)
    (top : Option JSON) :
    Scanner.pop ⟨st, Frame.arrayValue elems :: ps, lit, top⟩ =
      ⟨if ps.isEmpty then Step.endTop else Step.endValue, emitStack ps (JSON.array elems), [],
        emitTop ps top (JSON.array elems)⟩ := by
  simp only [Scanner.pop, emit_eq]

/-- What `pop` leaves when an object is closed. -/
theorem pop_object (st : Step) (members : List (String × JSON)) (key : String)
    (ps : List Frame) (lit : List Char) (top : Option JSON) :
    Scanner.pop ⟨st, Frame.objectValue members key :: ps, lit, top⟩ =
      ⟨if ps.isEmpty then Step.endTop else Step.endValue, emitStack ps (JSON.object members), [],
        emitTop ps top (JSON.object members)⟩ := by
  simp only [Scanner.pop, emit_eq]

/-- The scanner after a closed container reads the next character as what
follows a value. -/
theorem next_after_pop (ps : List Frame) (top : Option JSON) (v : JSON) (c : Char) :
    Scanner.next ⟨if ps.isEmpty then Step.endTop else Step.endValue, emitStack ps v, [],
        emitTop ps top v⟩ c =
      stateEndValue ⟨Step.endValue, emitStack ps v, [], emitTop ps top v⟩ c := by
  cases ps with
  | nil => rfl
  | cons f rest => rfl

/-- A run of the scanner over two texts, one after the other. -/
theorem run_append (s : Scanner) (a b : List Char) :
    Scanner.run s (a ++ b) = Scanner.run (Scanner.run s a) b := by
  unfold Scanner.run
  exact List.foldl_append _ _ _ _

/-- A run of the scanner, its first step taken. -/
theorem run_cons (s : Scanner) (c : Char) (l : List Char) :
    Scanner.run s (c :: l) = Scanner.run (s.next c) l := rfl

/-- The automaton of strings stays in its error state. -/
theorem foldl_stringNext_error (l : List Char) : l.foldl stringNext Step.error = Step.error := by
  induction l with
  | nil => rfl
  | cons c l ih => simpa [List.foldl, stringNext] using ih

/-- One step of the scanner inside a string is the step of the grammar's automaton. -/
theorem next_stringNext (st : Step) (ps : List Frame) (lit : List Char) (top : Option JSON)
    (c : Char) (h : stringNext st c ≠ Step.error) :
    Scanner.next ⟨st, ps, lit, top⟩ c = ⟨stringNext st c, ps, c :: lit, top⟩ := by
  cases st <;> simp only [stringNext, ne_eq, not_true_eq_false] at h <;>
    simp only [Scanner.next, stringNext, Scanner.fail] <;>
    split_ifs at h ⊢ <;> first | rfl | exact absurd rfl h

/-- The scanner inside a string, over characters of the grammar. -/
theorem run_string_body (body : List Char) (st : Step) (ps : List Frame) (lit : List Char)
    (top : Option JSON) (h : body.foldl stringNext st ≠ Step.error) :
    Scanner.run ⟨st, ps, lit, top⟩ body = ⟨body.foldl stringNext st, ps, body.reverse ++ lit, top⟩ := by
  induction body generalizing st lit with
  | nil => rfl
  | cons c body ih =>
    have hc : stringNext st c ≠ Step.error := by
      intro he
      rw [List.foldl, he, foldl_stringNext_error] at h
      exact h rfl
    rw [run_cons, next_stringNext st ps lit top c hc, ih (stringNext st c) (c :: lit) h]
    simp

/-- A digit other than `0` lies between `1` and `9`. -/
theorem one_le_of_isDigit (c : Char) (hd : isDigit c = true) (h0 : c ≠ '0') :
    '1' ≤ c ∧ c ≤ '9' := by
  simp only [isDigit, Bool.and_eq_true, decide_eq_true_eq] at hd
  refine ⟨?_, hd.2⟩
  have h1 : ('0' : Char).toNat ≤ c.toNat := hd.1
  have h2 : c.toNat ≠ ('0' : Char).toNat := fun h => h0 (char_eq_of_toNat_eq c '0' h)
  show ('1' : Char).toNat ≤ c.toNat
  have e0 : ('0' : Char).toNat = 48 := rfl
  have e1 : ('1' : Char).toNat = 49 := rfl
  omega

/-- A character between `1` and `9` is a digit. -/
theorem isDigit_of_one_le (c : Char) (h : '1' ≤ c ∧ c ≤ '9') : isDigit c = true := by
  simp only [isDigit, Bool.and_eq_true, decide_eq_true_eq]
  refine ⟨?_, h.2⟩
  have h1 : ('1' : Char).toNat ≤ c.toNat := h.1
  show ('0' : Char).toNat ≤ c.toNat
  have e0 : ('0' : Char).toNat = 48 := rfl
  have e1 : ('1' : Char).toNat = 49 := rfl
  omega

/-- The automaton of numbers never goes back in front of the number. -/
theorem numberNext_ne_beginValue (st : Step) (c : Char) : numberNext st c ≠ Step.beginValue := by
  cases st <;> simp only [numberNext] <;> first | (split_ifs <;> simp) | simp

/-- One step of the scanner inside a number is the step of the grammar's automaton. -/
theorem next_numberNext (st : Step) (ps : List Frame) (lit : List Char) (top : Option JSON)
    (c : Char) (hst : st ≠ Step.beginValue) (h : numberNext st c ≠ Step.error) :
    Scanner.next ⟨st, ps, lit, top⟩ c = ⟨numberNext st c, ps, c :: lit, top⟩ := by
  cases st <;> simp only [numberNext, ne_eq, not_true_eq_false] at h hst <;>
    simp only [Scanner.next, numberNext, Scanner.fail, state0, stateESign] <;>
    split_ifs at h ⊢ <;>
    first
    | rfl
    | exact absurd rfl h
    | (rename_i h1 h2 h3; exact absurd (one_le_of_isDigit c h3 h1) h2)

/-- The scanner inside a number, over characters of the grammar. -/
theorem run_number_body (l : List Char) (st : Step) (ps : List Frame) (lit : List Char)
    (top : Option JSON) (hst : st ≠ Step.beginValue) (h : l.foldl numberNext st ≠ Step.error) :
    Scanner.run ⟨st, ps, lit, top⟩ l = ⟨l.foldl numberNext st, ps, l.reverse ++ lit, top⟩ := by
  induction l generalizing st lit with
  | nil => rfl
  | cons c l ih =>
    have hc : numberNext st c ≠ Step.error := by
      intro he
      rw [List.foldl, he, foldl_numberNext_error] at h
      exact h rfl
    rw [run_cons, next_numberNext st ps lit top c hst hc,
      ih (numberNext st c) (c :: lit) (numberNext_ne_beginValue st c) h]
    simp

/-- The first character of a number, read where a value begins. -/
theorem next_number_first (st : Step) (ps : List Frame) (lit : List Char) (top : Option JSON)
    (c : Char) (hst : st = Step.beginValue ∨ st = Step.beginValueOrEmpty)
    (h : numberNext Step.beginValue c ≠ Step.error) :
    Scanner.next ⟨st, ps, lit, top⟩ c = ⟨numberNext Step.beginValue c, ps, [c], top⟩ := by
  have key : stateBeginValue ⟨st, ps, lit, top⟩ c = ⟨numberNext Step.beginValue c, ps, [c], top⟩ := by
    simp only [numberNext] at h ⊢
    by_cases h1 : c = '-'
    · subst h1; rfl
    · by_cases h2 : c = '0'
      · subst h2; rfl
      · rw [if_neg h1, if_neg h2] at h ⊢
        by_cases h3 : isDigit c = true
        · rw [if_pos h3]
          have h4 := one_le_of_isDigit c h3 h2
          have hne : ∀ x : Char, isDigit x = false → c ≠ x := by
            intro x hx he
            rw [he, hx] at h3
            exact absurd h3 (by decide)
          have hsp : isSpace c = false := by
            simp only [isSpace, Bool.or_eq_false_iff, decide_eq_false_iff_not]
            exact ⟨⟨⟨hne ' ' (by decide), hne '\t' (by decide)⟩, hne '\r' (by decide)⟩,
              hne '\n' (by decide)⟩
          simp only [stateBeginValue, hsp, Bool.false_eq_true, if_false,
            hne '{' (by decide), hne '[' (by decide), hne '"' (by decide), h1, h2,
            hne 't' (by decide), hne 'f' (by decide), hne 'n' (by decide), h4, and_self, if_true]
        · rw [if_neg h3] at h
          exact absurd rfl h
  rcases hst with hs | hs <;> subst hs
  · exact key
  · have hsp : isSpace c = false := by
      by_contra hc
      have : numberNext Step.beginValue c = Step.error := by
        simp only [isSpace, Bool.or_eq_true, decide_eq_true_eq, Bool.not_eq_false] at hc
        rcases hc with ((hc | hc) | hc) | hc <;> subst hc <;> rfl
      exact h this
    have hbr : c ≠ ']' := by
      intro hc
      subst hc
      exact h rfl
    have : Scanner.next ⟨Step.beginValueOrEmpty, ps, lit, top⟩ c =
        stateBeginValue ⟨Step.beginValueOrEmpty, ps, lit, top⟩ c := by
      simp only [Scanner.next, hsp, Bool.false_eq_true, if_false, hbr]
    rw [this, key]

/-- A number of the grammar followed by a character that ends it: the scanner
hands the number on and reads the character as what follows a value. -/
theorem run_number (lit : String) (hlit : isNumberLit lit.data = true) (st : Step)
    (ps : List Frame) (l : List Char) (top : Option JSON) (c : Char) (rest : List Char)
    (hst : st = Step.beginValue ∨ st = Step.beginValueOrEmpty)
    (hc : c = ',' ∨ c = ']' ∨ c = '}' ∨ c = ' ') :
    Scanner.run ⟨st, ps, l, top⟩ (lit.data ++ c :: rest) =
      Scanner.run (stateEndValue ⟨Step.endValue, emitStack ps (JSON.number lit), [],
        emitTop ps top (JSON.number lit)⟩ c) rest := by
  obtain ⟨cs⟩ := lit
  simp only at hlit ⊢
  cases cs with
  | nil => exact absurd hlit (by decide)
  | cons d ds =>
    unfold isNumberLit at hlit
    rw [List.foldl] at hlit
    have hfe : ds.foldl numberNext (numberNext Step.beginValue d) ≠ Step.error := by
      intro he
      rw [he] at hlit
      exact absurd hlit (by decide)
    have hd : numberNext Step.beginValue d ≠ Step.error := by
      intro he
      rw [he, foldl_numberNext_error] at hfe
      exact hfe rfl
    rw [List.cons_append, run_cons, next_number_first st ps l top d hst hd, run_append,
      run_number_body ds _ ps [d] top (numberNext_ne_beginValue _ d) hfe, run_cons]
    generalize ds.foldl numberNext (numberNext Step.beginValue d) = fin at hlit
    have hrev : (ds.reverse ++ [d]).reverse = d :: ds := by simp
    have hend : Scanner.next ⟨fin, ps, ds.reverse ++ [d], top⟩ c =
        endNumber ⟨fin, ps, ds.reverse ++ [d], top⟩ c := by
      have hdig : isDigit c = false := by
        rcases hc with h | h | h | h <;> subst h <;> decide
      have hdot : c ≠ '.' := by
        rcases hc with h | h | h | h <;> subst h <;> decide
      have he : ¬ (c = 'e' ∨ c = 'E') := by
        rcases hc with h | h | h | h <;> subst h <;> decide
      cases fin <;> first
        | exact absurd hlit (by decide)
        | simp only [Scanner.next, state0, hdig, hdot, he, Bool.false_eq_true, if_false]
    rw [hend, endNumber, emit_eq]
    simp only [hrev]
    rw [stateEndValue_step fin Step.endValue]

/-- A string as the encoder writes it, read where a value or a key begins: the
scanner hands the string on. -/
theorem run_quote (s : String) (st : Step) (ps : List Frame) (lit : List Char)
    (top : Option JSON) (rest : List Char)
    (hst : st = Step.beginValue ∨ st = Step.beginValueOrEmpty ∨ st = Step.beginString ∨
      st = Step.beginStringOrEmpty) :
    Scanner.run ⟨st, ps, lit, top⟩ (quote s ++ rest) =
      Scanner.run ⟨Step.endValue, emitStack ps (JSON.string s), [],
        emitTop ps top (JSON.string s)⟩ rest := by
  have hfirst : Scanner.next ⟨st, ps, lit, top⟩ '"' = ⟨Step.inString, ps, [], top⟩ := by
    rcases hst with h | h | h | h <;> subst h <;> rfl
  have hbody := isStringBody_escape s.data
  unfold isStringBody at hbody
  rw [decide_eq_true_eq] at hbody
  have hrun := run_string_body (s.data.flatMap escapeChar) Step.inString ps [] top
    (by rw [hbody]; decide)
  rw [hbody] at hrun
  have hlast : Scanner.next ⟨Step.inString, ps, (s.data.flatMap escapeChar).reverse ++ [], top⟩ '"'
      = ⟨Step.endValue, emitStack ps (JSON.string s), [], emitTop ps top (JSON.string s)⟩ := by
    simp only [Scanner.next, if_true, emit_eq, List.append_nil, List.reverse_reverse,
      unquote_escape]
  unfold quote
  rw [List.cons_append, run_cons, hfirst, List.append_assoc, run_append, hrun,
    List.singleton_append, run_cons, hlast]

/-- The literal `null`, read where a value begins. -/
theorem run_null (st : Step) (ps : List Frame) (lit : List Char) (top : Option JSON)
    (rest : List Char) (hst : st = Step.beginValue ∨ st = Step.beginValueOrEmpty) :
    Scanner.run ⟨st, ps, lit, top⟩ ('n' :: 'u' :: 'l' :: 'l' :: rest) =
      Scanner.run ⟨Step.endValue, emitStack ps JSON.null, [], emitTop ps top JSON.null⟩ rest := by
  have h1 : Scanner.next ⟨st, ps, lit, top⟩ 'n' = ⟨Step.n, ps, lit, top⟩ := by
    rcases hst with h | h <;> subst h <;> rfl
  have h2 : Scanner.next ⟨Step.n, ps, lit, top⟩ 'u' = ⟨Step.nu, ps, lit, top⟩ := rfl
  have h3 : Scanner.next ⟨Step.nu, ps, lit, top⟩ 'l' = ⟨Step.nul, ps, lit, top⟩ := rfl
  have h4 : Scanner.next ⟨Step.nul, ps, lit, top⟩ 'l' =
      ⟨Step.endValue, emitStack ps JSON.null, [], emitTop ps top JSON.null⟩ := by
    simp only [Scanner.next, if_true, emit_eq]
  rw [run_cons, h1, run_cons, h2, run_cons, h3, run_cons, h4]

/-- The literal `true`, read where a value begins. -/
theorem run_true (st : Step) (ps : List Frame) (lit : List Char) (top : Option JSON)
    (rest : List Char) (hst : st = Step.beginValue ∨ st = Step.beginValueOrEmpty) :
    Scanner.run ⟨st, ps, lit, top⟩ ('t' :: 'r' :: 'u' :: 'e' :: rest) =
      Scanner.run ⟨Step.endValue, emitStack ps (JSON.bool true), [],
        emitTop ps top (JSON.bool true)⟩ rest := by
  have h1 : Scanner.next ⟨st, ps, lit, top⟩ 't' = ⟨Step.t, ps, lit, top⟩ := by
    rcases hst with h | h <;> subst h <;> rfl
  have h2 : Scanner.next ⟨Step.t, ps, lit, top⟩ 'r' = ⟨Step.tr, ps, lit, top⟩ := rfl
  have h3 : Scanner.next ⟨Step.tr, ps, lit, top⟩ 'u' = ⟨Step.tru, ps, lit, top⟩ := rfl
  have h4 : Scanner.next ⟨Step.tru, ps, lit, top⟩ 'e' =
      ⟨Step.endValue, emitStack ps (JSON.bool true), [], emitTop ps top (JSON.bool true)⟩ := by
    simp only [Scanner.next, if_true, emit_eq]
  rw [run_cons, h1, run_cons, h2, run_cons, h3, run_cons, h4]

/-- The literal `false`, read where a value begins. -/
theorem run_false (st : Step) (ps : List Frame) (lit : List Char) (top : Option JSON)
    (rest : List Char) (hst : st = Step.beginValue ∨ st = Step.beginValueOrEmpty) :
    Scanner.run ⟨st, ps, lit, top⟩ ('f' :: 'a' :: 'l' :: 's' :: 'e' :: rest) =
      Scanner.run ⟨Step.endValue, emitStack ps (JSON.bool false), [],
        emitTop ps top (JSON.bool false)⟩ rest := by
  have h1 : Scanner.next ⟨st, ps, lit, top⟩ 'f' = ⟨Step.f, ps, lit, top⟩ := by
    rcases hst with h | h <;> subst h <;> rfl
  have h2 : Scanner.next ⟨Step.f, ps, lit, top⟩ 'a' = ⟨Step.fa, ps, lit, top⟩ := rfl
  have h3 : Scanner.next ⟨Step.fa, ps, lit, top⟩ 'l' = ⟨Step.fal, ps, lit, top⟩ := rfl
  have h4 : Scanner.next ⟨Step.fal, ps, lit, top⟩ 's' = ⟨Step.fals, ps, lit, top⟩ := rfl
  have h5 : Scanner.next ⟨Step.fals, ps, lit, top⟩ 'e' =
      ⟨Step.endValue, emitStack ps (JSON.bool false), [], emitTop ps top (JSON.bool false)⟩ := by
    simp only [Scanner.next, if_true, emit_eq]
  rw [run_cons, h1, run_cons, h2, run_cons, h3, run_cons, h4, run_cons, h5]

/-- An opening bracket, read where a value begins and the nesting allows it. -/
theorem next_open_array (st : Step) (ps : List Frame) (lit : List Char) (top : Option JSON)
    (hst : st = Step.beginValue ∨ st = Step.beginValueOrEmpty)
    (hd : ps.length + 1 ≤ maxNestingDepth) :
    Scanner.next ⟨st, ps, lit, top⟩ '[' =
      ⟨Step.beginValueOrEmpty, Frame.arrayValue [] :: ps, lit, top⟩ := by
  have key : stateBeginValue ⟨st, ps, lit, top⟩ '[' =
      ⟨Step.beginValueOrEmpty, Frame.arrayValue [] :: ps, lit, top⟩ := by
    have h1 : isSpace '[' = false := by decide
    have h2 : ('[' : Char) ≠ '{' := by decide
    simp only [stateBeginValue, h1, h2, Bool.false_eq_true, if_false, if_true, Scanner.push, hd]
  rcases hst with h | h <;> subst h
  · exact key
  · rw [← key]; rfl

/-- An opening brace, read where a value begins and the nesting allows it. -/
theorem next_open_object (st : Step) (ps : List Frame) (lit : List Char) (top : Option JSON)
    (hst : st = Step.beginValue ∨ st = Step.beginValueOrEmpty)
    (hd : ps.length + 1 ≤ maxNestingDepth) :
    Scanner.next ⟨st, ps, lit, top⟩ '{' =
      ⟨Step.beginStringOrEmpty, Frame.objectKey [] "" :: ps, lit, top⟩ := by
  have key : stateBeginValue ⟨st, ps, lit, top⟩ '{' =
      ⟨Step.beginStringOrEmpty, Frame.objectKey [] "" :: ps, lit, top⟩ := by
    have h1 : isSpace '{' = false := by decide
    simp only [stateBeginValue, h1, Bool.false_eq_true, if_false, if_true, Scanner.push, hd]
  rcases hst with h | h <;> subst h
  · exact key
  · rw [← key]; rfl

mutual
/-- The scanner over the compact text of a syntax tree, read where a value
begins, with nesting that stays within the limit: the tree is handed on, and
the character behind the text is read as what follows a value. -/
theorem run_render : ∀ (j : JSON), j.numbersValid = true →
    ∀ (st : Step) (ps : List Frame) (lit : List Char) (top : Option JSON) (c : Char)
      (rest : List Char), (st = Step.beginValue ∨ st = Step.beginValueOrEmpty) →
      ps.length + j.depth ≤ maxNestingDepth → (c = ',' ∨ c = ']' ∨ c = '}' ∨ c = ' ') →
      Scanner.run ⟨st, ps, lit, top⟩ (render j ++ c :: rest) =
        Scanner.run (stateEndValue ⟨Step.endValue, emitStack ps j, [], emitTop ps top j⟩ c) rest
  | JSON.null, _, st, ps, lit, top, c, rest, hst, _, _ => by
      rw [render, List.cons_append, List.cons_append, List.cons_append, List.cons_append,
        List.nil_append, run_null st ps lit top _ hst, run_cons]
      rfl
  | JSON.bool true, _, st, ps, lit, top, c, rest, hst, _, _ => by
      rw [render, List.cons_append, List.cons_append, List.cons_append, List.cons_append,
        List.nil_append, run_true st ps lit top _ hst, run_cons]
      rfl
  | JSON.bool false, _, st, ps, lit, top, c, rest, hst, _, _ => by
      rw [render, List.cons_append, List.cons_append, List.cons_append, List.cons_append,
        List.cons_append, List.nil_append, run_false st ps lit top _ hst, run_cons]
      rfl
  | JSON.number l, hv, st, ps, lit, top, c, rest, hst, _, hc => by
      rw [render]
      exact run_number l (by simpa [JSON.numbersValid] using hv) st ps lit top c rest hst hc
  | JSON.string s, _, st, ps, lit, top, c, rest, hst, _, _ => by
      rw [render, run_quote s st ps lit top _ (hst.elim Or.inl fun h => Or.inr (Or.inl h)),
        run_cons]
      rfl
  | JSON.array [], _, st, ps, lit, top, c, rest, hst, hd, _ => by
      have hd1 : ps.length + 1 ≤ maxNestingDepth := by
        simp only [JSON.depth] at hd; omega
      have hclose : Scanner.next ⟨Step.beginValueOrEmpty, Frame.arrayValue [] :: ps, lit, top⟩ ']'
          = ⟨if ps.isEmpty then Step.endTop else Step.endValue, emitStack ps (JSON.array []), [],
            emitTop ps top (JSON.array [])⟩ := by
        rw [← pop_array Step.beginValueOrEmpty [] ps lit top]
        rfl
      rw [render, renderList, List.nil_append, List.cons_append, List.cons_append,
        List.nil_append, run_cons, next_open_array st ps lit top hst hd1, run_cons, hclose,
        run_cons, next_after_pop]
  | JSON.array (x :: xs), hv, st, ps, lit, top, c, rest, hst, hd, _ => by
      have hd1 : ps.length + 1 + depthList (x :: xs) ≤ maxNestingDepth := by
        simp only [JSON.depth] at hd; omega
      have hv1 : numbersValidList (x :: xs) = true := by simpa [JSON.numbersValid] using hv
      have := run_renderList (x :: xs) hv1 (List.cons_ne_nil x xs) Step.beginValueOrEmpty []
        ps lit top (c :: rest) (Or.inr rfl) hd1
      rw [render, List.cons_append, List.append_assoc, List.singleton_append, run_cons,
        next_open_array st ps lit top hst (by omega), this, List.nil_append, run_cons,
        next_after_pop]
  | JSON.object [], _, st, ps, lit, top, c, rest, hst, hd, _ => by
      have hd1 : ps.length + 1 ≤ maxNestingDepth := by
        simp only [JSON.depth] at hd; omega
      have hclose : Scanner.next ⟨Step.beginStringOrEmpty, Frame.objectKey [] "" :: ps, lit, top⟩
          '}' = ⟨if ps.isEmpty then Step.endTop else Step.endValue,
            emitStack ps (JSON.object []), [], emitTop ps top (JSON.object [])⟩ := by
        rw [← pop_object Step.beginStringOrEmpty [] "" ps lit top]
        rfl
      rw [render, renderMembers, List.nil_append, List.cons_append, List.cons_append,
        List.nil_append, run_cons, next_open_object st ps lit top hst hd1, run_cons, hclose,
        run_cons, next_after_pop]
  | JSON.object (m :: ms), hv, st, ps, lit, top, c, rest, hst, hd, _ => by
      have hd1 : ps.length + 1 + depthMembers (m :: ms) ≤ maxNestingDepth := by
        simp only [JSON.depth] at hd; omega
      have hv1 : numbersValidMembers (m :: ms) = true := by simpa [JSON.numbersValid] using hv
      have := run_renderMembers (m :: ms) hv1 (List.cons_ne_nil m ms) Step.beginStringOrEmpty []
        "" ps lit top (c :: rest) (Or.inr rfl) hd1
      rw [render, List.cons_append, List.append_assoc, List.singleton_append, run_cons,
        next_open_object st ps lit top hst (by omega), this, List.nil_append, run_cons,
        next_after_pop]
/-- The scanner over the elements of an array and the bracket that closes it:
the array is handed on. -/
theorem run_renderList : ∀ (l : List JSON), numbersValidList l = true → l ≠ [] →
    ∀ (st : Step) (acc : List JSON) (ps : List Frame) (lit : List Char) (top : Option JSON)
      (rest : List Char), (st = Step.beginValue ∨ st = Step.beginValueOrEmpty) →
      ps.length + 1 + depthList l ≤ maxNestingDepth →
      Scanner.run ⟨st, Frame.arrayValue acc :: ps, lit, top⟩ (renderList l ++ ']' :: rest) =
        Scanner.run ⟨if ps.isEmpty then Step.endTop else Step.endValue,
          emitStack ps (JSON.array (acc ++ l)), [], emitTop ps top (JSON.array (acc ++ l))⟩ rest
  | [], _, hne, _, _, _, _, _, _, _, _ => absurd rfl hne
  | [x], hv, _, st, acc, ps, lit, top, rest, hst, hd => by
      have hx : x.numbersValid = true := by simp [numbersValidList] at hv; exact hv
      have hdx : (Frame.arrayValue acc :: ps).length + x.depth ≤ maxNestingDepth := by
        simp only [depthList, List.length_cons] at hd ⊢; omega
      have := run_render x hx st (Frame.arrayValue acc :: ps) lit top ']' rest hst hdx
        (Or.inr (Or.inl rfl))
      rw [renderList, this]
      have hstep : stateEndValue ⟨Step.endValue, emitStack (Frame.arrayValue acc :: ps) x, [],
          emitTop (Frame.arrayValue acc :: ps) top x⟩ ']' =
          Scanner.pop ⟨Step.endValue, Frame.arrayValue (acc ++ [x]) :: ps, [], top⟩ := rfl
      rw [hstep, pop_array]
  | x :: y :: ys, hv, _, st, acc, ps, lit, top, rest, hst, hd => by
      have hv1 : x.numbersValid = true ∧ numbersValidList (y :: ys) = true := by
        have := hv
        rw [numbersValidList, Bool.and_eq_true] at this
        exact this
      have hdx : (Frame.arrayValue acc :: ps).length + x.depth ≤ maxNestingDepth := by
        rw [depthList] at hd
        simp only [List.length_cons]; omega
      have hdl : ps.length + 1 + depthList (y :: ys) ≤ maxNestingDepth := by
        rw [depthList] at hd
        omega
      have h1 := run_render x hv1.1 st (Frame.arrayValue acc :: ps) lit top ','
        (renderList (y :: ys) ++ ']' :: rest) hst hdx (Or.inl rfl)
      have hstep : stateEndValue ⟨Step.endValue, emitStack (Frame.arrayValue acc :: ps) x, [],
          emitTop (Frame.arrayValue acc :: ps) top x⟩ ',' =
          ⟨Step.beginValue, Frame.arrayValue (acc ++ [x]) :: ps, [], top⟩ := rfl
      have h2 := run_renderList (y :: ys) hv1.2 (List.cons_ne_nil y ys) Step.beginValue
        (acc ++ [x]) ps [] top rest (Or.inl rfl) hdl
      rw [renderList, List.append_assoc, List.cons_append, h1, hstep, h2, List.append_assoc,
        List.singleton_append]
/-- The scanner over the members of an object and the brace that closes it:
the object is handed on. -/
theorem run_renderMembers : ∀ (l : List (String × JSON)), numbersValidMembers l = true →
    l ≠ [] →
    ∀ (st : Step) (acc : List (String × JSON)) (key : String) (ps : List Frame)
      (lit : List Char) (top : Option JSON) (rest : List Char),
      (st = Step.beginString ∨ st = Step.beginStringOrEmpty) →
      ps.length + 1 + depthMembers l ≤ maxNestingDepth →
      Scanner.run ⟨st, Frame.objectKey acc key :: ps, lit, top⟩ (renderMembers l ++ '}' :: rest) =
        Scanner.run ⟨if ps.isEmpty then Step.endTop else Step.endValue,
          emitStack ps (JSON.object (acc ++ l)), [], emitTop ps top (JSON.object (acc ++ l))⟩ rest
  | [], _, hne, _, _, _, _, _, _, _, _, _ => absurd rfl hne
  | [(k, x)], hv, _, st, acc, key, ps, lit, top, rest, hst, hd => by
      have hx : x.numbersValid = true := by simp [numbersValidMembers] at hv; exact hv
      have hdx : (Frame.objectValue acc k :: ps).length + x.depth ≤ maxNestingDepth := by
        simp only [depthMembers, List.length_cons] at hd ⊢; omega
      have hkey := run_quote k st (Frame.objectKey acc key :: ps) lit top
        (':' :: (render x ++ '}' :: rest)) (hst.elim (fun h => Or.inr (Or.inr (Or.inl h)))
          fun h => Or.inr (Or.inr (Or.inr h)))
      have hcolon : Scanner.next ⟨Step.endValue,
          emitStack (Frame.objectKey acc key :: ps) (JSON.string k), [],
          emitTop (Frame.objectKey acc key :: ps) top (JSON.string k)⟩ ':' =
          ⟨Step.beginValue, Frame.objectValue acc k :: ps, [], top⟩ := rfl
      have hval := run_render x hx Step.beginValue (Frame.objectValue acc k :: ps) [] top '}'
        rest (Or.inl rfl) hdx (Or.inr (Or.inr (Or.inl rfl)))
      have hstep : stateEndValue ⟨Step.endValue, emitStack (Frame.objectValue acc k :: ps) x, [],
          emitTop (Frame.objectValue acc k :: ps) top x⟩ '}' =
          Scanner.pop ⟨Step.endValue, Frame.objectValue (acc ++ [(k, x)]) k :: ps, [], top⟩ := rfl
      rw [renderMembers, List.append_assoc, List.cons_append, hkey, run_cons, hcolon, hval,
        hstep, pop_object]
  | (k, x) :: y :: ys, hv, _, st, acc, key, ps, lit, top, rest, hst, hd => by
      have hv1 : x.numbersValid = true ∧ numbersValidMembers (y :: ys) = true := by
        have := hv
        rw [numbersValidMembers, Bool.and_eq_true] at this
        exact this
      have hdx : (Frame.objectValue acc k :: ps).length + x.depth ≤ maxNestingDepth := by
        rw [depthMembers] at hd
        simp only [List.length_cons]; omega
      have hdl : ps.length + 1 + depthMembers (y :: ys) ≤ maxNestingDepth := by
        rw [depthMembers] at hd
        omega
      have hkey := run_quote k st (Frame.objectKey acc key :: ps) lit top
        (':' :: (render x ++ ',' :: (renderMembers (y :: ys) ++ '}' :: rest)))
        (hst.elim (fun h => Or.inr (Or.inr (Or.inl h))) fun h => Or.inr (Or.inr (Or.inr h)))
      have hcolon : Scanner.next ⟨Step.endValue,
          emitStack (Frame.objectKey acc key :: ps) (JSON.string k), [],
          emitTop (Frame.objectKey acc key :: ps) top (JSON.string k)⟩ ':' =
          ⟨Step.beginValue, Frame.objectValue acc k :: ps, [], top⟩ := rfl
      have hval := run_render x hv1.1 Step.beginValue (Frame.objectValue acc k :: ps) [] top ','
        (renderMembers (y :: ys) ++ '}' :: rest) (Or.inl rfl) hdx (Or.inl rfl)
      have hstep : stateEndValue ⟨Step.endValue, emitStack (Frame.objectValue acc k :: ps) x, [],
          emitTop (Frame.objectValue acc k :: ps) top x⟩ ',' =
          ⟨Step.beginString, Frame.objectKey (acc ++ [(k, x)]) k :: ps, [], top⟩ := rfl
      have hrec := run_renderMembers (y :: ys) hv1.2 (List.cons_ne_nil y ys) Step.beginString
        (acc ++ [(k, x)]) k ps [] top rest (Or.inl rfl) hdl
      rw [renderMembers, List.append_assoc, List.cons_append, List.append_assoc,
        List.cons_append, hkey, run_cons, hcolon, hval, hstep, hrec, List.append_assoc,
        List.singleton_append]
end

/-- The scanner accepts the compact text of a syntax tree whose numbers are
numbers of the grammar and whose nesting is within the limit, and reads the
tree from it. -/
theorem checkValid_render (j : JSON) (hv : j.numbersValid = true)
    (hd : j.depth ≤ maxNestingDepth) : checkValid (String.mk (render j)) = some j := by
  have h := run_render j hv Step.beginValue [] [] none ' ' [] (Or.inl rfl)
    (by simpa using hd) (Or.inr (Or.inr (Or.inr rfl)))
  rw [run_append] at h
  have hS : Scanner.next (Scanner.run Scanner.reset (render j)) ' ' =
      ⟨Step.endTop, [], [], some j⟩ := h
  show (Scanner.run Scanner.reset (render j)).eof = some j
  generalize Scanner.run Scanner.reset (render j) = S at hS
  obtain ⟨st, ps, lit, top⟩ := S
  cases st <;> simp only [Scanner.eof, hS]
  · simp only [Scanner.next, stateEndTop] at hS
    have := congrArg Scanner.top hS
    simpa using this
  · simp [Scanner.next] at hS

/-- The numbers of the elements are valid when those of each element are. -/
theorem numbersValidList_iff (l : List JSON) :
    numbersValidList l = true ↔ ∀ x ∈ l, x.numbersValid = true := by
  induction l with
  | nil => simp [numbersValidList]
  | cons x xs ih => simp [numbersValidList, ih]

/-- The numbers of the members are valid when those of each member are. -/
theorem numbersValidMembers_iff (l : List (String × JSON)) :
    numbersValidMembers l = true ↔ ∀ kv ∈ l, kv.2.numbersValid = true := by
  induction l with
  | nil => simp [numbersValidMembers]
  | cons kv xs ih =>
    obtain ⟨k, x⟩ := kv
    simp [numbersValidMembers, ih]

mutual
/-- The numbers the encoder writes for a value are numbers of the grammar. -/
theorem numbersValid_toJSON : ∀ v : GoValue, v.toJSON.numbersValid = true
  | GoValue.nil => rfl
  | GoValue.bool _ => rfl
  | GoValue.float64 f => by
      rw [GoValue.toJSON, JSON.numbersValid]
      exact isNumberLit_formatFloat f
  | GoValue.string _ => rfl
  | GoValue.slice elems => by
      rw [GoValue.toJSON, JSON.numbersValid]
      exact numbersValid_toJSONList elems
  | GoValue.map entries => by
      rw [GoValue.toJSON, JSON.numbersValid, numbersValidMembers_iff]
      intro kv hkv
      have hmem := (sortByKey_perm (toJSONMembers entries)).mem_iff.mp hkv
      exact (numbersValidMembers_iff _).mp (numbersValid_toJSONMembers entries) kv hmem
/-- The same for the elements of a slice. -/
theorem numbersValid_toJSONList : ∀ l : List GoValue, numbersValidList (toJSONList l) = true
  | [] => rfl
  | v :: vs => by
      rw [toJSONList, numbersValidList, numbersValid_toJSON v, numbersValid_toJSONList vs]
      rfl
/-- The same for the entries of a map. -/
theorem numbersValid_toJSONMembers : ∀ l : List (String × GoValue),
    numbersValidMembers (toJSONMembers l) = true
  | [] => rfl
  | (k, v) :: vs => by
      rw [toJSONMembers, numbersValidMembers, numbersValid_toJSON v,
        numbersValid_toJSONMembers vs]
      rfl
end

/-- The numbers of an encoded result are numbers of the grammar. -/
theorem numbersValid_result (r : ResultValue) : r.toJSON.numbersValid = true := by
  cases r with
  | value v => exact numbersValid_toJSON v
  | toolsMap toolsList =>
    simp only [ResultValue.toJSON, JSON.numbersValid, numbersValidMembers, Bool.and_true]
    rw [numbersValidList_iff]
    intro x hx
    obtain ⟨t, _, ht⟩ := List.mem_map.mp hx
    subst ht
    simp only [Tool.toJSON, JSON.numbersValid, numbersValidMembers, Bool.and_true, Bool.true_and]
    cases t.InputSchema with
    | none => rfl
    | some m => exact numbersValid_toJSON (GoValue.map m)
  | toolResult r =>
    have hc : numbersValidList (r.Content.map ContentBlock.toJSON) = true := by
      rw [numbersValidList_iff]
      intro x hx
      obtain ⟨b, _, hb⟩ := List.mem_map.mp hx
      subst hb
      rfl
    cases hr : r.IsError <;>
      simp [ResultValue.toJSON, ToolResult.toJSON, hr, JSON.numbersValid, numbersValidMembers, hc]

/-- The numbers of an encoded error are numbers of the grammar. -/
theorem numbersValid_error (e : RPCError) : e.toJSON.numbersValid = true := by
  cases hd : e.Data.isNil <;>
    simp [RPCError.toJSON, hd, JSON.numbersValid, numbersValidMembers, isNumberLit_intText,
      numbersValid_toJSON]

/-- The numbers of an encoded response are numbers of the grammar. -/
theorem numbersValid_response (resp : JSONRPCResponse) : resp.toJSON.numbersValid = true := by
  unfold JSONRPCResponse.toJSON
  rw [JSON.numbersValid, numbersValidMembers_iff]
  intro kv hkv
  simp only [List.mem_append, List.mem_singleton] at hkv
  rcases hkv with ((h | h) | h) | h
  · subst h; rfl
  · split at h
    · exact absurd h (List.not_mem_nil kv)
    · rw [List.mem_singleton.mp h]; exact numbersValid_toJSON _
  · split at h
    · exact absurd h (List.not_mem_nil kv)
    · rw [List.mem_singleton.mp h]; exact numbersValid_result _
  · split at h
    · exact absurd h (List.not_mem_nil kv)
    · rw [List.mem_singleton.mp h]; exact numbersValid_error _

/-- The depth of elements with one more behind them. -/
theorem depthList_append_singleton (l : List JSON) (v : JSON) :
    depthList (l ++ [v]) = max (depthList l) v.depth := by
  induction l with
  | nil => simp [depthList]
  | cons x xs ih =>
    show max x.depth (depthList (xs ++ [v])) = max (max x.depth (depthList xs)) v.depth
    rw [ih]
    omega

/-- The depth of members with one more behind them. -/
theorem depthMembers_append_singleton (l : List (String × JSON)) (k : String) (v : JSON) :
    depthMembers (l ++ [(k, v)]) = max (depthMembers l) v.depth := by
  induction l with
  | nil => simp [depthMembers]
  | cons x xs ih =>
    obtain ⟨k2, x2⟩ := x
    show max x2.depth (depthMembers (xs ++ [(k, v)])) =
      max (max x2.depth (depthMembers xs)) v.depth
    rw [ih]
    omega

/-- The stack stays within the limit when a value is handed to it that fits
on top of it. -/
theorem stackWithin_emitStack (ps : List Frame) (v : JSON) (h : stackWithin ps = true)
    (hv : ps.length + v.depth ≤ maxNestingDepth) : stackWithin (emitStack ps v) = true := by
  cases ps with
  | nil => rfl
  | cons f rest =>
    simp only [stackWithin, Bool.and_eq_true, decide_eq_true_eq, List.length_cons] at h hv ⊢
    cases f with
    | arrayValue elems =>
      simp only [emitStack, stackWithin, Bool.and_eq_true, decide_eq_true_eq,
        Frame.contentDepth, depthList_append_singleton] at h ⊢
      exact ⟨by omega, h.2⟩
    | objectValue members key =>
      simp only [emitStack, stackWithin, Bool.and_eq_true, decide_eq_true_eq,
        Frame.contentDepth, depthMembers_append_singleton] at h ⊢
      exact ⟨by omega, h.2⟩
    | objectKey members key =>
      cases v <;>
        simp only [emitStack, stackWithin, Bool.and_eq_true, decide_eq_true_eq,
          Frame.contentDepth] at h ⊢ <;> exact h

/-- A scanner within the limit stays so when a value is handed on that fits on
top of its stack. -/
theorem withinDepth_emit (st st2 : Step) (ps : List Frame) (lit : List Char) (top : Option JSON)
    (v : JSON) (h : Scanner.withinDepth ⟨st, ps, lit, top⟩)
    (hv : ps.length + v.depth ≤ maxNestingDepth) :
    Scanner.withinDepth { Scanner.emit ⟨st, ps, lit, top⟩ v with step := st2 } := by
  rw [emit_eq]
  refine ⟨stackWithin_emitStack ps v h.1 hv, ?_⟩
  intro j hj
  cases ps with
  | nil =>
    simp only [emitTop, Option.some.injEq] at hj
    subst hj
    simpa using hv
  | cons f rest => exact h.2 j hj

/-- The stack is never higher than the limit. -/
theorem length_le_of_stackWithin (ps : List Frame) (h : stackWithin ps = true) :
    ps.length ≤ maxNestingDepth := by
  cases ps with
  | nil => exact Nat.zero_le _
  | cons f rest =>
    simp only [stackWithin, Bool.and_eq_true, decide_eq_true_eq] at h
    simp only [List.length_cons]
    omega

/-- A scanner within the limit stays so when it closes the container on top. -/
theorem withinDepth_pop (s : Scanner) (h : s.withinDepth) : s.pop.withinDepth := by
  obtain ⟨st, ps, lit, top⟩ := s
  cases ps with
  | nil => exact h
  | cons f rest =>
    have h1 := h.1
    simp only [stackWithin, Bool.and_eq_true, decide_eq_true_eq] at h1
    have hrest : Scanner.withinDepth ⟨st, rest, lit, top⟩ := ⟨h1.2, h.2⟩
    cases f with
    | arrayValue elems =>
      exact withinDepth_emit st _ rest lit top (JSON.array elems) hrest (by
        simp only [JSON.depth, Frame.contentDepth] at h1 ⊢; omega)
    | objectKey members key =>
      exact withinDepth_emit st _ rest lit top (JSON.object members) hrest (by
        simp only [JSON.depth, Frame.contentDepth] at h1 ⊢; omega)
    | objectValue members key =>
      exact withinDepth_emit st _ rest lit top (JSON.object members) hrest (by
        simp only [JSON.depth, Frame.contentDepth] at h1 ⊢; omega)

/-- A scanner within the limit stays so when it opens a container. -/
theorem withinDepth_push (s : Scanner) (f : Frame) (st : Step) (h : s.withinDepth)
    (hf : f.contentDepth = 0) : (s.push f st).withinDepth := by
  unfold Scanner.push
  split
  · rename_i hlen
    refine ⟨?_, h.2⟩
    simp only [stackWithin, Bool.and_eq_true, decide_eq_true_eq, hf]
    exact ⟨by omega, h.1⟩
  · exact h

/-- A scanner within the limit stays so after the step `stateEndValue`. -/
theorem withinDepth_stateEndValue (s : Scanner) (c : Char) (h : s.withinDepth) :
    (stateEndValue s c).withinDepth := by
  obtain ⟨st, ps, lit, top⟩ := s
  cases ps with
  | nil =>
    simp only [stateEndValue, stateEndTop, Scanner.fail]
    split <;> exact h
  | cons f rest =>
    have hswap : ∀ st2 members key key2,
        Scanner.withinDepth ⟨st, Frame.objectKey members key :: rest, lit, top⟩ ↔
        Scanner.withinDepth ⟨st2, Frame.objectValue members key2 :: rest, lit, top⟩ := by
      intro st2 members key key2
      simp only [Scanner.withinDepth, stackWithin, Frame.contentDepth]
    cases f with
    | arrayValue elems =>
      simp only [stateEndValue, Scanner.fail]
      split_ifs
      · exact h
      · exact h
      · exact withinDepth_pop _ h
      · exact h
    | objectValue members key =>
      simp only [stateEndValue, Scanner.fail]
      split_ifs
      · exact h
      · exact (hswap _ members key key).mpr h
      · exact withinDepth_pop _ h
      · exact h
    | objectKey members key =>
      simp only [stateEndValue, Scanner.fail]
      split_ifs
      · exact h
      · exact (hswap _ members key key).mp h
      · exact h

/-- A scanner within the limit stays so when only its step and its literal change. -/
theorem withinDepth_of_same (st st2 : Step) (ps : List Frame) (lit lit2 : List Char)
    (top : Option JSON) (h : Scanner.withinDepth ⟨st, ps, lit, top⟩) :
    Scanner.withinDepth ⟨st2, ps, lit2, top⟩ := h

/-- Being within the limit depends on the stack and the top-level value only. -/
theorem withinDepth_congr (s t : Scanner) (hp : t.parseState = s.parseState)
    (ht : t.top = s.top) (h : s.withinDepth) : t.withinDepth :=
  ⟨hp ▸ h.1, fun j hj => h.2 j (ht ▸ hj)⟩

/-- A scanner within the limit stays so after the step `stateBeginValue`. -/
theorem withinDepth_stateBeginValue (s : Scanner) (c : Char) (h : s.withinDepth) :
    (stateBeginValue s c).withinDepth := by
  by_cases h1 : c = '{'
  · have : stateBeginValue s c = s.push (Frame.objectKey [] "") Step.beginStringOrEmpty := by
      subst h1; rfl
    rw [this]
    exact withinDepth_push s _ _ h rfl
  · by_cases h2 : c = '['
    · have : stateBeginValue s c = s.push (Frame.arrayValue []) Step.beginValueOrEmpty := by
        subst h2; rfl
      rw [this]
      exact withinDepth_push s _ _ h rfl
    · have hsame : (stateBeginValue s c).parseState = s.parseState ∧
          (stateBeginValue s c).top = s.top := by
        simp only [stateBeginValue, h1, h2, if_false, Scanner.fail]
        repeat' split
        all_goals exact ⟨rfl, rfl⟩
      exact withinDepth_congr s _ hsame.1 hsame.2 h

/-- A scanner within the limit stays so when a number ends. -/
theorem withinDepth_endNumber (s : Scanner) (c : Char) (h : s.withinDepth) :
    (endNumber s c).withinDepth := by
  unfold endNumber
  apply withinDepth_stateEndValue
  obtain ⟨st, ps, lit, top⟩ := s
  exact withinDepth_emit st st ps lit top _ h (by
    simpa [JSON.depth] using length_le_of_stackWithin ps h.1)

/-- A scanner within the limit stays so at every step. -/
theorem withinDepth_next (s : Scanner) (c : Char) (h : s.withinDepth) :
    (s.next c).withinDepth := by
  have hemit : ∀ (v : JSON) (st2 : Step), v.depth = 0 →
      Scanner.withinDepth { Scanner.emit s v with step := st2 } := by
    intro v st2 hv
    obtain ⟨st, ps, lit, top⟩ := s
    exact withinDepth_emit st st2 ps lit top v h (by
      rw [hv]; exact length_le_of_stackWithin ps h.1)
  unfold Scanner.next
  split
  · exact withinDepth_congr s _ rfl rfl h
  · exact withinDepth_stateBeginValue s c h
  · split_ifs
    · exact withinDepth_congr s _ rfl rfl h
    · exact withinDepth_stateEndValue s c h
    · exact withinDepth_stateBeginValue s c h
  · split_ifs
    · exact withinDepth_congr s _ rfl rfl h
    · split
      · rename_i members key rest hps
        apply withinDepth_stateEndValue
        obtain ⟨st, ps, lit, top⟩ := s
        simp only at hps
        subst hps
        exact h
      · exact withinDepth_congr s _ rfl rfl h
    · unfold stateBeginString
      split_ifs <;> exact withinDepth_congr s _ rfl rfl h
  · unfold stateBeginString
    split_ifs <;> exact withinDepth_congr s _ rfl rfl h
  · exact withinDepth_stateEndValue s c h
  · unfold stateEndTop
    split_ifs <;> exact withinDepth_congr s _ rfl rfl h
  · split_ifs
    · exact hemit _ _ rfl
    · exact withinDepth_congr s _ rfl rfl h
    · exact withinDepth_congr s _ rfl rfl h
    · exact withinDepth_congr s _ rfl rfl h
  · split_ifs <;> exact withinDepth_congr s _ rfl rfl h
  · split_ifs <;> exact withinDepth_congr s _ rfl rfl h
  · split_ifs <;> exact withinDepth_congr s _ rfl rfl h
  · split_ifs <;> exact withinDepth_congr s _ rfl rfl h
  · split_ifs <;> exact withinDepth_congr s _ rfl rfl h
  · split_ifs <;> exact withinDepth_congr s _ rfl rfl h
  · split_ifs
    · exact withinDepth_congr s _ rfl rfl h
    · unfold state0
      split_ifs
      · exact withinDepth_congr s _ rfl rfl h
      · exact withinDepth_congr s _ rfl rfl h
      · exact withinDepth_endNumber s c h
  · unfold state0
    split_ifs
    · exact withinDepth_congr s _ rfl rfl h
    · exact withinDepth_congr s _ rfl rfl h
    · exact withinDepth_endNumber s c h
  · split_ifs <;> exact withinDepth_congr s _ rfl rfl h
  · split_ifs
    · exact withinDepth_congr s _ rfl rfl h
    · exact withinDepth_congr s _ rfl rfl h
    · exact withinDepth_endNumber s c h
  · split_ifs
    · exact withinDepth_congr s _ rfl rfl h
    · unfold stateESign
      split_ifs <;> exact withinDepth_congr s _ rfl rfl h
  · unfold stateESign
    split_ifs <;> exact withinDepth_congr s _ rfl rfl h
  · split_ifs
    · exact withinDepth_congr s _ rfl rfl h
    · exact withinDepth_endNumber s c h
  · split_ifs <;> exact withinDepth_congr s _ rfl rfl h
  · split_ifs <;> exact withinDepth_congr s _ rfl rfl h
  · split_ifs
    · exact hemit _ _ rfl
    · exact withinDepth_congr s _ rfl rfl h
  · split_ifs <;> exact withinDepth_congr s _ rfl rfl h
  · split_ifs <;> exact withinDepth_congr s _ rfl rfl h
  · split_ifs <;> exact withinDepth_congr s _ rfl rfl h
  · split_ifs
    · exact hemit _ _ rfl
    · exact withinDepth_congr s _ rfl rfl h
  · split_ifs <;> exact withinDepth_congr s _ rfl rfl h
  · split_ifs <;> exact withinDepth_congr s _ rfl rfl h
  · split_ifs
    · exact hemit _ _ rfl
    · exact withinDepth_congr s _ rfl rfl h

/-- A scanner within the limit stays so over a whole text. -/
theorem withinDepth_run (l : List Char) (s : Scanner) (h : s.withinDepth) :
    (s.run l).withinDepth := by
  induction l generalizing s with
  | nil => exact h
  | cons c l ih => exact ih (s.next c) (withinDepth_next s c h)

/-- What the scanner accepts nests within the limit. -/
theorem depth_le_of_checkValid (text : String) (j : JSON) (h : checkValid text = some j) :
    j.depth ≤ maxNestingDepth := by
  have hrun := withinDepth_run text.data Scanner.reset
    ⟨rfl, fun j hj => absurd hj (by simp [Scanner.reset])⟩
  unfold checkValid at h
  generalize Scanner.reset.run text.data = S at h hrun
  unfold Scanner.eof at h
  split at h
  · exact absurd h (by simp)
  · exact hrun.2 j h
  · simp only at h
    split at h
    · exact (withinDepth_next S ' ' hrun).2 j h
    · exact absurd h (by simp)

/-- The members of a map after an assignment: members it had, or the one assigned. -/
theorem mem_mapSet (m : List (String × GoValue)) (key : String) (v : GoValue)
    (kv : String × GoValue) (h : kv ∈ mapSet m key v) : kv ∈ m ∨ kv = (key, v) := by
  induction m with
  | nil =>
    simp only [mapSet, List.mem_singleton] at h
    exact Or.inr h
  | cons x rest ih =>
    obtain ⟨k, w⟩ := x
    unfold mapSet at h
    split at h
    · rcases List.mem_cons.mp h with h1 | h1
      · exact Or.inr h1
      · exact Or.inl (List.mem_cons_of_mem _ h1)
    · rcases List.mem_cons.mp h with h1 | h1
      · exact Or.inl (h1 ▸ List.mem_cons_self _ _)
      · rcases ih h1 with h2 | h2
        · exact Or.inl (List.mem_cons_of_mem _ h2)
        · exact Or.inr h2

/-- The members of a map after a run of assignments: members it had, or
members assigned. -/
theorem mem_mapSetAll (kvs m : List (String × GoValue)) (kv : String × GoValue)
    (h : kv ∈ mapSetAll m kvs) : kv ∈ m ∨ kv ∈ kvs := by
  induction kvs generalizing m with
  | nil => exact Or.inl h
  | cons x rest ih =>
    have h2 : kv ∈ mapSetAll (mapSet m x.1 x.2) rest := h
    rcases ih _ h2 with h3 | h3
    · rcases mem_mapSet m x.1 x.2 kv h3 with h4 | h4
      · exact Or.inl h4
      · exact Or.inr (h4 ▸ List.mem_cons_self _ _)
    · exact Or.inr (List.mem_cons_of_mem _ h3)

/-- The depth of members is within a bound when that of each member is. -/
theorem depthMembers_le_iff (l : List (String × JSON)) (d : Nat) :
    depthMembers l ≤ d ↔ ∀ kv ∈ l, kv.2.depth ≤ d := by
  induction l with
  | nil => simp [depthMembers]
  | cons kv xs ih =>
    obtain ⟨k, x⟩ := kv
    simp only [depthMembers, List.mem_cons, forall_eq_or_imp, ← ih]
    omega

/-- The depth of elements is within a bound when that of each element is. -/
theorem depthList_le_iff (l : List JSON) (d : Nat) :
    depthList l ≤ d ↔ ∀ x ∈ l, x.depth ≤ d := by
  induction l with
  | nil => simp [depthList]
  | cons x xs ih =>
    simp only [depthList, List.mem_cons, forall_eq_or_imp, ← ih]
    omega

/-- The depth of what the encoder writes for a map, from its entries. -/
theorem depth_map_toJSON_le (entries : List (String × GoValue)) (d : Nat)
    (h : ∀ kv ∈ entries, kv.2.toJSON.depth ≤ d) : (GoValue.map entries).toJSON.depth ≤ d + 1 := by
  rw [GoValue.toJSON, JSON.depth]
  apply Nat.succ_le_succ
  rw [depthMembers_le_iff]
  intro kv hkv
  have hmem := (sortByKey_perm (toJSONMembers entries)).mem_iff.mp hkv
  rw [toJSONMembers_eq_map] at hmem
  obtain ⟨e, he, hee⟩ := List.mem_map.mp hmem
  subst hee
  exact h e he

mutual
/-- A value decoded into an `interface{}` and written again nests no deeper
than the JSON value it was decoded from. -/
theorem depth_toInterface : ∀ (j : JSON) (g : GoValue), toInterface j = some g →
    g.toJSON.depth ≤ j.depth
  | JSON.null, g, h => by
      simp only [toInterface, Option.some.injEq] at h
      subst h; exact Nat.le_refl _
  | JSON.bool b, g, h => by
      simp only [toInterface, Option.some.injEq] at h
      subst h; exact Nat.le_refl _
  | JSON.number lit, g, h => by
      simp only [toInterface] at h
      split at h
      · simp only [Option.some.injEq] at h
        subst h; exact Nat.le_refl _
      · exact absurd h (by simp)
  | JSON.string s, g, h => by
      simp only [toInterface, Option.some.injEq] at h
      subst h; exact Nat.le_refl _
  | JSON.array elems, g, h => by
      simp only [toInterface] at h
      split at h
      · rename_i vs hvs
        simp only [Option.some.injEq] at h
        subst h
        rw [GoValue.toJSON, JSON.depth, JSON.depth]
        exact Nat.succ_le_succ (depth_toInterfaceList elems vs hvs)
      · exact absurd h (by simp)
  | JSON.object members, g, h => by
      simp only [toInterface] at h
      split at h
      · rename_i kvs hkvs
        simp only [Option.some.injEq] at h
        subst h
        rw [JSON.depth]
        apply depth_map_toJSON_le
        intro kv hkv
        rcases mem_mapSetAll kvs [] kv hkv with h1 | h1
        · exact absurd h1 (List.not_mem_nil kv)
        · exact depth_toInterfaceMembers members kvs hkvs kv h1
      · exact absurd h (by simp)
/-- The same for the elements of an array. -/
theorem depth_toInterfaceList : ∀ (l : List JSON) (gs : List GoValue),
    toInterfaceList l = some gs → depthList (toJSONList gs) ≤ depthList l
  | [], gs, h => by
      simp only [toInterfaceList, Option.some.injEq] at h
      subst h; exact Nat.le_refl _
  | x :: xs, gs, h => by
      simp only [toInterfaceList] at h
      split at h
      · rename_i v vs hv hvs
        simp only [Option.some.injEq] at h
        subst h
        have h1 := depth_toInterface x v hv
        have h2 := depth_toInterfaceList xs vs hvs
        rw [toJSONList, depthList, depthList]
        omega
      · exact absurd h (by simp)
/-- The same for the members of an object. -/
theorem depth_toInterfaceMembers : ∀ (l : List (String × JSON)) (kvs : List (String × GoValue)),
    toInterfaceMembers l = some kvs → ∀ kv ∈ kvs, kv.2.toJSON.depth ≤ depthMembers l
  | [], kvs, h, kv, hkv => by
      simp only [toInterfaceMembers, Option.some.injEq] at h
      subst h
      exact absurd hkv (List.not_mem_nil kv)
  | (k, x) :: xs, kvs, h, kv, hkv => by
      simp only [toInterfaceMembers] at h
      split at h
      · rename_i v vs hv hvs
        simp only [Option.some.injEq] at h
        subst h
        have h1 := depth_toInterface x v hv
        rw [depthMembers]
        rcases List.mem_cons.mp hkv with h3 | h3
        · subst h3
          simp only
          omega
        · have h2 := depth_toInterfaceMembers xs vs hvs kv h3
          omega
      · exact absurd h (by simp)
end

/-- Decoding the members of an object into a request leaves an id that nests
no deeper than the id before or the members. -/
theorem depth_id_foldlM (members : List (String × JSON)) (req req2 : JSONRPCRequest)
    (d : Nat) (h : members.foldlM JSONRPCRequest.setMember req = some req2)
    (hreq : req.ID.toJSON.depth ≤ d) (hm : depthMembers members ≤ d) :
    req2.ID.toJSON.depth ≤ d := by
  induction members generalizing req with
  | nil =>
    simp only [List.foldlM, pure, Option.some.injEq] at h
    subst h; exact hreq
  | cons kv rest ih =>
    obtain ⟨k, x⟩ := kv
    rw [List.foldlM_cons] at h
    cases hset : JSONRPCRequest.setMember req (k, x) with
    | none => rw [hset] at h; exact absurd h (by simp [bind, Option.bind])
    | some r =>
      rw [hset] at h
      have hd : depthMembers rest ≤ d ∧ x.depth ≤ d := by
        rw [depthMembers] at hm
        omega
      refine ih r h ?_ hd.1
      unfold JSONRPCRequest.setMember at hset
      simp only at hset
      split_ifs at hset
      · cases hs : decodeString req.JSONRPC x with
        | none => rw [hs] at hset; exact absurd hset (by simp)
        | some v =>
          rw [hs] at hset
          simp only [Option.map_some', Option.some.injEq] at hset
          subst hset; exact hreq
      · cases hs : toInterface x with
        | none => rw [hs] at hset; exact absurd hset (by simp)
        | some v =>
          rw [hs] at hset
          simp only [Option.map_some', Option.some.injEq] at hset
          subst hset
          exact le_trans (depth_toInterface x v hs) hd.2
      · cases hs : decodeString req.Method x with
        | none => rw [hs] at hset; exact absurd hset (by simp)
        | some v =>
          rw [hs] at hset
          simp only [Option.map_some', Option.some.injEq] at hset
          subst hset; exact hreq
      · simp only [Option.some.injEq] at hset
        subst hset; exact hreq
      · simp only [Option.some.injEq] at hset
        subst hset; exact hreq

/-- The id a request decodes to, written as JSON, nests less deep than the limit. -/
theorem depth_requestID (requestJSON : String) :
    (requestID requestJSON).toJSON.depth + 1 ≤ maxNestingDepth := by
  have hnil : GoValue.nil.toJSON.depth + 1 ≤ maxNestingDepth := by decide
  unfold requestID
  cases hreq : unmarshalRequest requestJSON with
  | none => exact hnil
  | some req =>
    simp only
    unfold unmarshalRequest at hreq
    cases hv : checkValid requestJSON with
    | none => rw [hv] at hreq; exact absurd hreq (by simp)
    | some v =>
      rw [hv] at hreq
      simp only at hreq
      have hdv := depth_le_of_checkValid requestJSON v hv
      cases v with
      | object members =>
        simp only [decodeRequest] at hreq
        rw [JSON.depth] at hdv
        have := depth_id_foldlM members JSONRPCRequest.zero req (depthMembers members) hreq
          (Nat.zero_le _) (Nat.le_refl _)
        omega
      | null =>
        simp only [decodeRequest, Option.some.injEq] at hreq
        subst hreq; exact hnil
      | bool b => exact absurd hreq (by simp [decodeRequest])
      | number l => exact absurd hreq (by simp [decodeRequest])
      | string l => exact absurd hreq (by simp [decodeRequest])
      | array l => exact absurd hreq (by simp [decodeRequest])

/-- Every call of `HandleRequest` returns the encoding of one of six
responses, each with `jsonrpc` "2.0" and the id the request decoded to: an
error with one of the three codes and no data, or a result that is the fixed
map of `initialize`, the tools of the registry, or one text block that is
not an error. -/
theorem handleRequest_shape (s : MCPServer) (env : Env) (requestJSON : String) :
    ∃ resp : JSONRPCResponse,
      s.HandleRequest env requestJSON = (marshal resp, s) ∧ resp.JSONRPC = "2.0" ∧
      resp.ID = requestID requestJSON ∧
      ((resp.Result = none ∧ ∃ code message, resp.Error = some ⟨code, message, GoValue.nil⟩ ∧
          (code = -32700 ∨ code = -32601 ∨ code = -32602)) ∨
       (resp.Error = none ∧
         (resp.Result = some (ResultValue.value (GoValue.map
            [("protocolVersion", GoValue.string "2024-11-05"),
             ("serverInfo", GoValue.map
               [("name", GoValue.string "golang-wasm-mcp-server"),
                ("version", GoValue.string "1.0.0")]),
             ("capabilities", GoValue.map [("tools", GoValue.map [])])])) ∨
          resp.Result = some (ResultValue.toolsMap
            (env.rangeOrder (s.tools.entries.map fun e => e.2))) ∨
          ∃ text, resp.Result = some (ResultValue.toolResult
            { Content := [{ Typ := "text", Text := text }], IsError := false })))) := by
  unfold MCPServer.HandleRequest requestID
  cases hreq : unmarshalRequest requestJSON with
  | none => exact ⟨_, rfl, rfl, rfl, Or.inl ⟨rfl, _, _, rfl, Or.inl rfl⟩⟩
  | some req =>
    by_cases h1 : req.Method = "initialize"
    · simp only [h1, if_true]
      exact ⟨_, rfl, rfl, rfl, Or.inr ⟨rfl, Or.inl rfl⟩⟩
    · by_cases h2 : req.Method = "tools/list"
      · simp only [h1, h2, if_true, if_false]
        exact ⟨_, rfl, rfl, rfl, Or.inr ⟨rfl, Or.inr (Or.inl rfl)⟩⟩
      · by_cases h3 : req.Method = "tools/call"
        · simp only [h1, h2, h3, if_true, if_false]
          unfold MCPServer.handleToolCall
          cases hp : unmarshalParams req.Params with
          | none => exact ⟨_, rfl, rfl, rfl, Or.inl ⟨rfl, _, _, rfl, Or.inr (Or.inr rfl)⟩⟩
          | some params =>
            by_cases hn : params.Name = "getCurrentTime"
            · simp only [hn, if_true]
              exact ⟨_, rfl, rfl, rfl, Or.inr ⟨rfl, Or.inr (Or.inr ⟨_, rfl⟩)⟩⟩
            · simp only [hn, if_false]
              exact ⟨_, rfl, rfl, rfl, Or.inl ⟨rfl, _, _, rfl, Or.inr (Or.inr rfl)⟩⟩
        · simp only [h1, h2, h3, if_false]
          exact ⟨_, rfl, rfl, rfl, Or.inl ⟨rfl, _, _, rfl, Or.inr (Or.inl rfl)⟩⟩

/-- The JSON object of a response nests one level deeper than its id, its
result and its error. -/
theorem depth_response_le (resp : JSONRPCResponse) (d : Nat)
    (hid : resp.ID.toJSON.depth ≤ d) (hr : ∀ r, resp.Result = some r → r.toJSON.depth ≤ d)
    (he : ∀ e, resp.Error = some e → e.toJSON.depth ≤ d) : resp.toJSON.depth ≤ d + 1 := by
  unfold JSONRPCResponse.toJSON
  rw [JSON.depth]
  apply Nat.succ_le_succ
  rw [depthMembers_le_iff]
  intro kv hkv
  simp only [List.mem_append, List.mem_singleton] at hkv
  rcases hkv with ((h | h) | h) | h
  · subst h
    exact Nat.zero_le _
  · split at h
    · exact absurd h (List.not_mem_nil kv)
    · rw [List.mem_singleton.mp h]
      exact hid
  · split at h
    · exact absurd h (List.not_mem_nil kv)
    · rename_i r hres
      rw [List.mem_singleton.mp h]
      exact hr r hres
  · split at h
    · exact absurd h (List.not_mem_nil kv)
    · rename_i e herr
      rw [List.mem_singleton.mp h]
      exact he e herr

/-- The JSON object of a response of `HandleRequest` nests within the limit of
the decoder, on a server whose tools do. -/
theorem depth_response (s : MCPServer) (hs : s.toolsWithinDepth = true) (env : Env)
    (requestJSON : String) (resp : JSONRPCResponse) (hid : resp.ID = requestID requestJSON)
    (hshape : (resp.Result = none ∧ ∃ code message,
          resp.Error = some ⟨code, message, GoValue.nil⟩ ∧
          (code = -32700 ∨ code = -32601 ∨ code = -32602)) ∨
       (resp.Error = none ∧
         (resp.Result = some (ResultValue.value (GoValue.map
            [("protocolVersion", GoValue.string "2024-11-05"),
             ("serverInfo", GoValue.map
               [("name", GoValue.string "golang-wasm-mcp-server"),
                ("version", GoValue.string "1.0.0")]),
             ("capabilities", GoValue.map [("tools", GoValue.map [])])])) ∨
          resp.Result = some (ResultValue.toolsMap
            (env.rangeOrder (s.tools.entries.map fun e => e.2))) ∨
          ∃ text, resp.Result = some (ResultValue.toolResult
            { Content := [{ Typ := "text", Text := text }], IsError := false })))) :
    resp.toJSON.depth ≤ maxNestingDepth := by
  have hidd := depth_requestID requestJSON
  rw [← hid] at hidd
  have hmax : maxNestingDepth = 9999 + 1 := rfl
  rw [hmax] at hidd ⊢
  apply depth_response_le resp 9999 (by omega)
  · intro r hres
    rcases hshape with ⟨hr, _⟩ | ⟨_, hr | hr | ⟨text, hr⟩⟩
    · rw [hr] at hres
      exact absurd hres (by simp)
    · rw [hr, Option.some.injEq] at hres
      subst hres
      rw [initialize_result_toJSON]
      decide
    · rw [hr, Option.some.injEq] at hres
      subst hres
      simp only [ResultValue.toJSON, JSON.depth, depthMembers]
      have hl : depthList ((env.rangeOrder (s.tools.entries.map fun e => e.2)).map Tool.toJSON)
          ≤ 9997 := by
        rw [depthList_le_iff]
        intro x hx
        obtain ⟨t, ht, hxt⟩ := List.mem_map.mp hx
        subst hxt
        have ht2 := (env.rangeOrder_perm _).mem_iff.mp ht
        obtain ⟨e, he, het⟩ := List.mem_map.mp ht2
        subst het
        have := List.all_eq_true.mp hs e he
        simp only [decide_eq_true_eq] at this
        have hm2 : maxNestingDepth = 10000 := rfl
        omega
      omega
    · rw [hr, Option.some.injEq] at hres
      subst hres
      simp only [ResultValue.toJSON, ToolResult.toJSON, ContentBlock.toJSON, JSON.depth,
        depthMembers, depthList, List.map, Bool.false_eq_true, if_false]
      decide
  · intro e herr
    rcases hshape with ⟨_, code, message, he, _⟩ | ⟨he, _⟩
    · rw [he, Option.some.injEq] at herr
      subst herr
      simp only [RPCError.toJSON, GoValue.isNil, if_true, JSON.depth, depthMembers,
        List.append_nil]
      decide
    · rw [he] at herr
      exact absurd herr (by simp)

/-- What `json.Unmarshal` reads from the text of a response that nests within
the limit and whose error, if it has one, carries no data and a code that
reads back: `jsonrpc` and the error as they are, the id and the result as the
generic values read from the JSON written for them. -/
theorem unmarshalResponse_marshal (resp : JSONRPCResponse)
    (hd : resp.toJSON.depth ≤ maxNestingDepth)
    (herr : ∀ e, resp.Error = some e →
      e.Data = GoValue.nil ∧ parseInt (intText e.Code) = some e.Code) :
    unmarshalResponse (marshal resp) =
      match toInterface resp.ID.toJSON,
        (match resp.Result with
          | none => some GoValue.nil
          | some r => toInterface r.toJSON) with
      | some id, some v =>
          some { JSONRPC := resp.JSONRPC, ID := id,
                 Result := if v.isNil then none else some (ResultValue.value v),
                 Error := resp.Error }
      | _, _ => none := by
  unfold unmarshalResponse marshal
  rw [checkValid_render _ (numbersValid_response resp) hd]
  obtain ⟨jr, id, result, error⟩ := resp
  simp only at herr
  have k1 : keyMatches "jsonrpc" "jsonrpc" = true := by decide
  have k2 : keyMatches "id" "jsonrpc" = false := by decide
  have k3 : keyMatches "id" "id" = true := by decide
  have k4 : keyMatches "result" "jsonrpc" = false := by decide
  have k5 : keyMatches "result" "id" = false := by decide
  have k6 : keyMatches "result" "result" = true := by decide
  have k7 : keyMatches "error" "jsonrpc" = false := by decide
  have k8 : keyMatches "error" "id" = false := by decide
  have k9 : keyMatches "error" "result" = false := by decide
  have k10 : keyMatches "error" "error" = true := by decide
  have c1 : keyMatches "code" "code" = true := by decide
  have c2 : keyMatches "message" "code" = false := by decide
  have c3 : keyMatches "message" "message" = true := by decide
  have hnil : ∀ g : GoValue, g.isNil = true → toInterface g.toJSON = some GoValue.nil := by
    intro g hg
    cases g <;> first | rfl | exact absurd hg (by simp [GoValue.isNil])
  have herr2 : ∀ e : RPCError, e.Data = GoValue.nil → parseInt (intText e.Code) = some e.Code →
      decodeError none e.toJSON = some (some e) := by
    intro e hdata hcode
    obtain ⟨code, message, data⟩ := e
    simp only at hdata hcode
    subst hdata
    simp [decodeError, RPCError.toJSON, GoValue.isNil, List.foldlM, RPCError.setMember, c1, c2,
      c3, decodeInt, hcode, decodeString, RPCError.zero]
  cases error with
  | none =>
    cases hid : id.isNil with
    | true =>
      cases result with
      | none =>
        simp only [JSONRPCResponse.toJSON, hid, List.foldlM, List.append_nil, List.nil_append,
          List.cons_append, JSONRPCResponse.setMember, k1, k2, k3, k4, k5, k6, k7, k8, k9, k10,
          decodeString, JSONRPCResponse.zero, Option.map_some', if_true, if_false,
          Bool.false_eq_true, bind, Option.bind, pure, hnil id hid]
        rfl
      | some r =>
        simp only [JSONRPCResponse.toJSON, hid, List.foldlM, List.append_nil, List.nil_append,
          List.cons_append, JSONRPCResponse.setMember, k1, k2, k3, k4, k5, k6, k7, k8, k9, k10,
          decodeString, JSONRPCResponse.zero, Option.map_some', if_true, if_false,
          Bool.false_eq_true, bind, Option.bind, pure, hnil id hid]
        cases toInterface r.toJSON <;> rfl
    | false =>
      cases result with
      | none =>
        simp only [JSONRPCResponse.toJSON, hid, List.foldlM, List.append_nil, List.nil_append,
          List.cons_append, JSONRPCResponse.setMember, k1, k2, k3, k4, k5, k6, k7, k8, k9, k10,
          decodeString, JSONRPCResponse.zero, Option.map_some', if_true, if_false,
          Bool.false_eq_true, bind, Option.bind, pure]
        cases toInterface id.toJSON <;> rfl
      | some r =>
        simp only [JSONRPCResponse.toJSON, hid, List.foldlM, List.append_nil, List.nil_append,
          List.cons_append, JSONRPCResponse.setMember, k1, k2, k3, k4, k5, k6, k7, k8, k9, k10,
          decodeString, JSONRPCResponse.zero, Option.map_some', if_true, if_false,
          Bool.false_eq_true, bind, Option.bind, pure]
        cases toInterface id.toJSON <;> cases toInterface r.toJSON <;> rfl
  | some e =>
    have he := herr2 e (herr e rfl).1 (herr e rfl).2
    cases hid : id.isNil with
    | true =>
      cases result with
      | none =>
        simp only [JSONRPCResponse.toJSON, hid, List.foldlM, List.append_nil, List.nil_append,
          List.cons_append, JSONRPCResponse.setMember, k1, k2, k3, k4, k5, k6, k7, k8, k9, k10,
          decodeString, JSONRPCResponse.zero, Option.map_some', if_true, if_false,
          Bool.false_eq_true, bind, Option.bind, pure, he, hnil id hid]
        rfl
      | some r =>
        simp only [JSONRPCResponse.toJSON, hid, List.foldlM, List.append_nil, List.nil_append,
          List.cons_append, JSONRPCResponse.setMember, k1, k2, k3, k4, k5, k6, k7, k8, k9, k10,
          decodeString, JSONRPCResponse.zero, Option.map_some', if_true, if_false,
          Bool.false_eq_true, bind, Option.bind, pure, he, hnil id hid]
        cases toInterface r.toJSON <;> first | rfl | (simp only [Option.map_some', he]; try rfl)
    | false =>
      cases result with
      | none =>
        simp only [JSONRPCResponse.toJSON, hid, List.foldlM, List.append_nil, List.nil_append,
          List.cons_append, JSONRPCResponse.setMember, k1, k2, k3, k4, k5, k6, k7, k8, k9, k10,
          decodeString, JSONRPCResponse.zero, Option.map_some', if_true, if_false,
          Bool.false_eq_true, bind, Option.bind, pure, he]
        cases toInterface id.toJSON <;> first | rfl | (simp only [Option.map_some', he]; try rfl)
      | some r =>
        simp only [JSONRPCResponse.toJSON, hid, List.foldlM, List.append_nil, List.nil_append,
          List.cons_append, JSONRPCResponse.setMember, k1, k2, k3, k4, k5, k6, k7, k8, k9, k10,
          decodeString, JSONRPCResponse.zero, Option.map_some', if_true, if_false,
          Bool.false_eq_true, bind, Option.bind, pure, he]
        cases toInterface id.toJSON <;> cases toInterface r.toJSON <;> first | rfl | (simp only [Option.map_some', he]; try rfl)

/-- The generic value `json.Unmarshal` stores for the result of a tool call:
a map with the one member `content`. -/
theorem toInterface_text_result (text : String) :
    toInterface (ResultValue.toolResult
        { Content := [{ Typ := "text", Text := text }], IsError := false }).toJSON =
      some (GoValue.map [("content", GoValue.slice
        [GoValue.map [("type", GoValue.string "text"), ("text", GoValue.string text)]])]) := by
  have h : ("type" : String) ≠ "text" := by decide
  simp [ResultValue.toJSON, ToolResult.toJSON, ContentBlock.toJSON, toInterface, toInterfaceList,
    toInterfaceMembers, mapSetAll, mapSet, h]

/-- A result written as a JSON object is read back as a map, not as nil. -/
theorem isNil_of_toInterface_object (members : List (String × JSON)) (v : GoValue)
    (h : toInterface (JSON.object members) = some v) : v.isNil = false := by
  simp only [toInterface] at h
  split at h
  · simp only [Option.some.injEq] at h
    subst h; rfl
  · exact absurd h (by simp)

/-- C17, refuted: the answer to a `getCurrentTime` call with the id 1 holds a
`ToolResult` with `IsError` false; its text decodes, but to a response whose
result is a map with the one member `content` -- no `ToolResult`, and no
member `isError` -- so not to the response that was encoded. -/
theorem handleRequest_round_trip_counterexample :
    NewMCPServer.HandleRequest exampleEnv
        "\x7b\"jsonrpc\":\"2.0\",\"id\":1,\"method\":\"tools/call\",\"params\":\x7b\"name\":\"getCurrentTime\"\x7d\x7d" =
      (marshal { JSONRPC := "2.0", ID := float64Of 4503599627370496 (-52),
                 Result := some (ResultValue.toolResult
                   { Content := [{ Typ := "text", Text := "2024-01-02T03:04:05Z" }],
                     IsError := false }),
                 Error := none }, NewMCPServer) ∧
    unmarshalResponse
      (marshal { JSONRPC := "2.0", ID := float64Of 4503599627370496 (-52),
                 Result := some (ResultValue.toolResult
                   { Content := [{ Typ := "text", Text := "2024-01-02T03:04:05Z" }],
                     IsError := false }),
                 Error := none }) =
      some { JSONRPC := "2.0", ID := float64Of 4503599627370496 (-52),
             Result := some (ResultValue.value (GoValue.map [("content", GoValue.slice
               [GoValue.map [("type", GoValue.string "text"),
                             ("text", GoValue.string "2024-01-02T03:04:05Z")]])])),
             Error := none } ∧
    (some (ResultValue.value (GoValue.map [("content", GoValue.slice
               [GoValue.map [("type", GoValue.string "text"),
                             ("text", GoValue.string "2024-01-02T03:04:05Z")]])])) :
        Option ResultValue) ≠
      some (ResultValue.toolResult
        { Content := [{ Typ := "text", Text := "2024-01-02T03:04:05Z" }], IsError := false }) := by
  refine ⟨rfl, rfl, ?_⟩
  intro h
  cases h

/-- The `result` and `error` members of an encoded response are the JSON
values of its result and of its error. -/
theorem lookup_result_error_toJSON (resp : JSONRPCResponse) :
    resp.toJSON.lookup "result" = resp.Result.map ResultValue.toJSON ∧
    resp.toJSON.lookup "error" = resp.Error.map RPCError.toJSON := by
  unfold JSONRPCResponse.toJSON JSON.lookup
  cases hid : resp.ID.isNil <;> cases resp.Result <;> cases resp.Error <;>
    simp [List.lookup, show ("result" == "jsonrpc") = false by decide,
      show ("error" == "jsonrpc") = false by decide, show ("result" == "id") = false by decide,
      show ("error" == "id") = false by decide, show ("error" == "result") = false by decide]

/-- The text of a response is not empty. -/
theorem marshal_ne_empty (resp : JSONRPCResponse) : marshal resp ≠ "" := by
  intro h
  have h2 := congrArg String.data h
  simp [marshal, JSONRPCResponse.toJSON, render] at h2

/-- The binary digits of a positive number: as many as its size in powers of two. -/
theorem bitLenAux_spec (fuel n : Nat) (hn : 0 < n) (hf : n ≤ fuel) :
    2 ^ (bitLenAux fuel n - 1) ≤ n ∧ n < 2 ^ bitLenAux fuel n ∧ 1 ≤ bitLenAux fuel n := by
  induction fuel generalizing n with
  | zero => omega
  | succ k ih =>
    unfold bitLenAux
    rw [if_neg (by omega)]
    by_cases h1 : n / 2 = 0
    · have hn1 : n = 1 := by omega
      subst hn1
      cases k with
      | zero => simp [bitLenAux]
      | succ j => simp [bitLenAux]
    · obtain ⟨h2, h3, h4⟩ := ih (n / 2) (Nat.pos_of_ne_zero h1) (by omega)
      refine ⟨?_, ?_, by omega⟩
      · have : bitLenAux k (n / 2) + 1 - 1 = (bitLenAux k (n / 2) - 1) + 1 := by omega
        rw [this, pow_succ]
        omega
      · rw [pow_succ]
        omega

/-- The binary digits of a positive number. -/
theorem bitLen_spec (n : Nat) (hn : 0 < n) :
    2 ^ (bitLen n - 1) ≤ n ∧ n < 2 ^ bitLen n ∧ 1 ≤ bitLen n :=
  bitLenAux_spec n n hn (Nat.le_refl n)

/-- The fraction `scale2` builds has a positive denominator. -/
theorem scale2_den_pos (num den : Nat) (e : Int) (hd : 0 < den) : 0 < (scale2 num den e).2 := by
  unfold scale2
  split
  · exact Nat.mul_pos hd (Nat.pos_pow_of_pos _ (by decide))
  · exact hd

/-- The value of the fraction `scale2` builds. -/
theorem scale2_val (num den : Nat) (e : Int) (hd : 0 < den) :
    ((scale2 num den e).1 : ℚ) / ((scale2 num den e).2 : ℚ) = (num : ℚ) / den / (2 : ℚ) ^ e := by
  have hd' : (den : ℚ) ≠ 0 := by exact_mod_cast hd.ne'
  unfold scale2
  split
  · rename_i h
    have he : e = (e.toNat : Int) := (Int.toNat_of_nonneg h).symm
    simp only
    rw [Nat.cast_mul, Nat.cast_pow, Nat.cast_ofNat, div_div]
    congr 2
    conv_rhs => rw [he]
    rw [zpow_natCast]
  · rename_i h
    have he : e = -((-e).toNat : Int) := by
      rw [Int.toNat_of_nonneg (by omega)]; omega
    simp only
    rw [Nat.cast_mul, Nat.cast_pow, Nat.cast_ofNat]
    conv_rhs => rw [he]
    rw [zpow_neg, zpow_natCast]
    field_simp

/-- The quotient of two natural numbers, among the rationals. -/
theorem div_add_mod_cast (a b : Nat) (hb : 0 < b) :
    (a : ℚ) / b = ((a / b : Nat) : ℚ) + ((a % b : Nat) : ℚ) / b := by
  have hb' : (b : ℚ) ≠ 0 := by exact_mod_cast hb.ne'
  have h : (a : ℚ) = (b : ℚ) * ((a / b : Nat) : ℚ) + ((a % b : Nat) : ℚ) := by
    exact_mod_cast (Nat.div_add_mod a b).symm
  field_simp
  linarith

/-- A natural number is at most a quotient of natural numbers when it is at
most the fraction. -/
theorem le_div_iff_cast (k a b : Nat) (hb : 0 < b) : k ≤ a / b ↔ (k : ℚ) ≤ (a : ℚ) / b := by
  have hb' : (0 : ℚ) < b := by exact_mod_cast hb
  rw [Nat.le_div_iff_mul_le hb, le_div_iff₀ hb']
  exact_mod_cast Iff.rfl

/-- Rounding to the nearest integer is off by a half at most. -/
theorem roundHalfEven_near (a b : Nat) (hb : 0 < b) :
    |((roundHalfEven (a, b) : Nat) : ℚ) - (a : ℚ) / b| ≤ 1 / 2 := by
  have hb' : (0 : ℚ) < b := by exact_mod_cast hb
  have hmod : a % b < b := Nat.mod_lt a hb
  have hmodq : ((a % b : Nat) : ℚ) < b := by exact_mod_cast hmod
  have hmod0 : (0 : ℚ) ≤ ((a % b : Nat) : ℚ) := Nat.cast_nonneg _
  rw [div_add_mod_cast a b hb]
  unfold roundHalfEven
  simp only
  split
  · rename_i h
    have h2 : (b : ℚ) ≤ 2 * ((a % b : Nat) : ℚ) := by
      rcases h with h | h
      · exact_mod_cast h.le
      · exact_mod_cast h.1.symm.le
    rw [Nat.cast_add, Nat.cast_one, abs_le]
    constructor
    · have : ((a % b : Nat) : ℚ) / b < 1 := by rw [div_lt_one hb']; exact hmodq
      linarith
    · have : (1 : ℚ) / 2 ≤ ((a % b : Nat) : ℚ) / b := by
        rw [le_div_iff₀ hb']; linarith
      linarith
  · rename_i h
    have h2 : 2 * ((a % b : Nat) : ℚ) ≤ b := by
      by_contra hc
      apply h
      left
      have : (b : ℚ) < 2 * ((a % b : Nat) : ℚ) := lt_of_not_le hc
      exact_mod_cast this
    rw [abs_le]
    constructor
    · have : ((a % b : Nat) : ℚ) / b ≤ 1 / 2 := by
        rw [div_le_iff₀ hb']; linarith
      linarith
    · have : (0 : ℚ) ≤ ((a % b : Nat) : ℚ) / b := div_nonneg hmod0 hb'.le
      linarith

/-- Rounding to the nearest integer gives the integer that is less than a half away. -/
theorem roundHalfEven_eq (a b m : Nat) (hb : 0 < b) (h : |(a : ℚ) / b - m| < 1 / 2) :
    roundHalfEven (a, b) = m := by
  have h1 := roundHalfEven_near a b hb
  have h2 : |((roundHalfEven (a, b) : Nat) : ℚ) - (m : ℚ)| < 1 := by
    have := abs_sub_le ((roundHalfEven (a, b) : Nat) : ℚ) ((a : ℚ) / b) (m : ℚ)
    linarith
  have h3 : |((roundHalfEven (a, b) : Int)) - (m : Int)| < 1 := by
    have : ((|((roundHalfEven (a, b) : Int)) - (m : Int)| : Int) : ℚ) < 1 := by
      push_cast
      exact h2
    exact_mod_cast this
  have h4 : ((roundHalfEven (a, b) : Int)) - (m : Int) = 0 := by
    exact Int.abs_lt_one_iff.mp h3
  omega

/-- Rounding does not change when numerator and denominator are multiplied alike. -/
theorem roundHalfEven_mul (k a b : Nat) (hk : 0 < k) :
    roundHalfEven (k * a, k * b) = roundHalfEven (a, b) := by
  unfold roundHalfEven
  simp only
  rw [Nat.mul_div_mul_left _ _ hk, Nat.mul_mod_mul_left]
  have e1 : (2 * (k * (a % b)) > k * b) ↔ (2 * (a % b) > b) := by
    have : 2 * (k * (a % b)) = k * (2 * (a % b)) := by ring
    rw [this]
    exact Nat.mul_lt_mul_left hk
  have e2 : (2 * (k * (a % b)) = k * b) ↔ (2 * (a % b) = b) := by
    have : 2 * (k * (a % b)) = k * (2 * (a % b)) := by ring
    rw [this]
    exact Nat.mul_right_inj hk.ne'
  simp only [e1, e2]

/-- A power of two with a natural exponent, among the rationals. -/
theorem two_zpow_natCast_sub_one (n : Nat) (hn : 1 ≤ n) :
    (2 : ℚ) ^ ((n : Int) - 1) = ((2 ^ (n - 1) : Nat) : ℚ) := by
  have : ((n : Int) - 1) = ((n - 1 : Nat) : Int) := by omega
  rw [this, zpow_natCast]
  push_cast
  rfl

/-- A power of two with a natural exponent, among the rationals. -/
theorem two_zpow_natCast (n : Nat) : (2 : ℚ) ^ (n : Int) = ((2 ^ n : Nat) : ℚ) := by
  rw [zpow_natCast]
  push_cast
  rfl

/-- The numbers of binary digits of numerator and denominator tell the size
of a fraction up to a factor of two either way. -/
theorem bitLen_bracket (num den : Nat) (hn : 0 < num) (hd : 0 < den) :
    (2 : ℚ) ^ ((bitLen num : Int) - (bitLen den : Int) - 1) < (num : ℚ) / den ∧
    (num : ℚ) / den < (2 : ℚ) ^ ((bitLen num : Int) - (bitLen den : Int) + 1) := by
  obtain ⟨n1, n2, n3⟩ := bitLen_spec num hn
  obtain ⟨d1, d2, d3⟩ := bitLen_spec den hd
  have hd' : (0 : ℚ) < den := by exact_mod_cast hd
  have hn' : (0 : ℚ) < num := by exact_mod_cast hn
  have qn1 : (2 : ℚ) ^ ((bitLen num : Int) - 1) ≤ num := by
    rw [two_zpow_natCast_sub_one _ n3]; exact_mod_cast n1
  have qn2 : (num : ℚ) < (2 : ℚ) ^ (bitLen num : Int) := by
    rw [two_zpow_natCast]; exact_mod_cast n2
  have qd1 : (2 : ℚ) ^ ((bitLen den : Int) - 1) ≤ den := by
    rw [two_zpow_natCast_sub_one _ d3]; exact_mod_cast d1
  have qd2 : (den : ℚ) < (2 : ℚ) ^ (bitLen den : Int) := by
    rw [two_zpow_natCast]; exact_mod_cast d2
  have h2 : (0 : ℚ) < 2 := by norm_num
  have p1 : (0 : ℚ) < (2 : ℚ) ^ ((bitLen den : Int) - 1) := zpow_pos h2 _
  have p2 : (0 : ℚ) < (2 : ℚ) ^ (bitLen den : Int) := zpow_pos h2 _
  constructor
  · have e : (2 : ℚ) ^ ((bitLen num : Int) - (bitLen den : Int) - 1) =
        (2 : ℚ) ^ ((bitLen num : Int) - 1) / (2 : ℚ) ^ (bitLen den : Int) := by
      rw [← zpow_sub₀ (by norm_num : (2 : ℚ) ≠ 0)]
      congr 1
      ring
    rw [e, div_lt_div_iff p2 hd']
    calc (2 : ℚ) ^ ((bitLen num : Int) - 1) * den
        ≤ num * den := by exact mul_le_mul_of_nonneg_right qn1 hd'.le
      _ < num * (2 : ℚ) ^ (bitLen den : Int) := by exact mul_lt_mul_of_pos_left qd2 hn'
  · have e : (2 : ℚ) ^ ((bitLen num : Int) - (bitLen den : Int) + 1) =
        (2 : ℚ) ^ (bitLen num : Int) / (2 : ℚ) ^ ((bitLen den : Int) - 1) := by
      rw [← zpow_sub₀ (by norm_num : (2 : ℚ) ≠ 0)]
      congr 1
      ring
    rw [e, div_lt_div_iff hd' p1]
    calc (num : ℚ) * (2 : ℚ) ^ ((bitLen den : Int) - 1)
        ≤ num * den := by exact mul_le_mul_of_nonneg_left qd1 hn'.le
      _ < (2 : ℚ) ^ (bitLen num : Int) * den := by exact mul_lt_mul_of_pos_right qn2 hd'

/-- A quotient `floor (num / (den * 2^e))` is at least `2^k` when the fraction
is at least `2^(e+k)`. -/
theorem scale2_floor_ge_pow (num den : Nat) (e : Int) (k : Nat) (hd : 0 < den) :
    (scale2 num den e).1 / (scale2 num den e).2 ≥ 2 ^ k ↔
      (2 : ℚ) ^ (e + k) ≤ (num : ℚ) / den := by
  have h2 : (0 : ℚ) < (2 : ℚ) ^ e := zpow_pos (by norm_num) _
  rw [ge_iff_le, le_div_iff_cast _ _ _ (scale2_den_pos num den e hd), scale2_val num den e hd,
    le_div_iff₀ h2, zpow_add₀ (by norm_num : (2 : ℚ) ≠ 0)]
  have : (((2 ^ k : Nat) : ℚ)) = (2 : ℚ) ^ (k : Int) := by
    rw [zpow_natCast]; push_cast; rfl
  rw [this, mul_comm]

/-- The test `floor (num / (den * 2^e)) ≥ 2^53` of `roundToFloat64`, on the
value of the fraction. -/
theorem scale2_floor_ge (num den : Nat) (e : Int) (hd : 0 < den) :
    (scale2 num den e).1 / (scale2 num den e).2 ≥ 2 ^ 53 ↔
      (2 : ℚ) ^ (e + 53) ≤ (num : ℚ) / den :=
  scale2_floor_ge_pow num den e 53 hd

/-- The function `roundToFloat64` rounds at the exponent that the size of the
fraction fixes: 52 below the power of two at or under the fraction, and at
least -1074. -/
theorem roundToFloat64_eq_roundAt (num den : Nat) (hn : 0 < num) (hd : 0 < den) (L : Int)
    (hlo : (2 : ℚ) ^ L ≤ (num : ℚ) / den) (hhi : (num : ℚ) / den < (2 : ℚ) ^ (L + 1)) :
    roundToFloat64 num den = roundAt num den (max (L - 52) (-1074)) := by
  obtain ⟨b1, b2⟩ := bitLen_bracket num den hn hd
  have two : (1 : ℚ) < 2 := by norm_num
  have hbL : (bitLen num : Int) - (bitLen den : Int) ≤ L + 1 := by
    have := lt_trans b1 hhi
    rw [zpow_lt_zpow_iff_right₀ two] at this
    omega
  have hLb : L ≤ (bitLen num : Int) - (bitLen den : Int) := by
    have := lt_of_le_of_lt hlo b2
    rw [zpow_lt_zpow_iff_right₀ two] at this
    omega
  have key : (if (scale2 num den (max ((bitLen num : Int) - (bitLen den : Int) - 53) (-1074))).1 /
        (scale2 num den (max ((bitLen num : Int) - (bitLen den : Int) - 53) (-1074))).2 ≥ 2 ^ 53
      then max ((bitLen num : Int) - (bitLen den : Int) - 53) (-1074) + 1
      else max ((bitLen num : Int) - (bitLen den : Int) - 53) (-1074)) =
      max (L - 52) (-1074) := by
    have htest := scale2_floor_ge num den
      (max ((bitLen num : Int) - (bitLen den : Int) - 53) (-1074)) hd
    by_cases hb : (bitLen num : Int) - (bitLen den : Int) = L
    · by_cases hsub : L - 53 ≥ -1074
      · have e1 : max ((bitLen num : Int) - (bitLen den : Int) - 53) (-1074) = L - 53 := by
          rw [hb]; exact max_eq_left hsub
        rw [if_pos (htest.mpr (by
          rw [e1]
          have : L - 53 + 53 = L := by ring
          rw [this]; exact hlo))]
        rw [e1, max_eq_left (by omega)]
        ring
      · have e1 : max ((bitLen num : Int) - (bitLen den : Int) - 53) (-1074) = -1074 := by
          rw [hb]; exact max_eq_right (by omega)
        rw [if_neg (fun hc => by
          have hc2 := htest.mp hc
          rw [e1] at hc2
          have h3 : (2 : ℚ) ^ (L + 1) ≤ (2 : ℚ) ^ ((-1074 : Int) + 53) :=
            zpow_le_zpow_right₀ two.le (by omega)
          exact absurd (lt_of_lt_of_le hhi h3) (not_lt.mpr hc2))]
        rw [e1, max_eq_right (by omega)]
    · have hb2 : (bitLen num : Int) - (bitLen den : Int) = L + 1 := by omega
      have e1 : max ((bitLen num : Int) - (bitLen den : Int) - 53) (-1074) =
          max (L - 52) (-1074) := by
        rw [hb2]; congr 1; ring
      rw [if_neg (fun hc => by
        have hc2 := htest.mp hc
        rw [e1] at hc2
        have h3 : (2 : ℚ) ^ (L + 1) ≤ (2 : ℚ) ^ (max (L - 52) (-1074) + 53) :=
          zpow_le_zpow_right₀ two.le (by
            have := le_max_left (L - 52) (-1074 : Int)
            omega)
        exact absurd (lt_of_lt_of_le hhi h3) (not_lt.mpr hc2))]
      exact e1
  unfold roundToFloat64 roundAt
  simp only
  rw [key]

/-- A positive fraction lies between two successive powers of two. -/
theorem exists_bracket (num den : Nat) (hn : 0 < num) (hd : 0 < den) :
    ∃ L : Int, (2 : ℚ) ^ L ≤ (num : ℚ) / den ∧ (num : ℚ) / den < (2 : ℚ) ^ (L + 1) := by
  obtain ⟨b1, b2⟩ := bitLen_bracket num den hn hd
  by_cases h : (2 : ℚ) ^ ((bitLen num : Int) - (bitLen den : Int)) ≤ (num : ℚ) / den
  · exact ⟨_, h, b2⟩
  · refine ⟨(bitLen num : Int) - (bitLen den : Int) - 1, b1.le, ?_⟩
    have : (bitLen num : Int) - (bitLen den : Int) - 1 + 1 =
        (bitLen num : Int) - (bitLen den : Int) := by ring
    rw [this]
    exact lt_of_not_le h

/-- The fraction `scale2` builds from a numerator and a denominator multiplied alike. -/
theorem scale2_mul (k num den : Nat) (e : Int) :
    scale2 (k * num) (k * den) e = (k * (scale2 num den e).1, k * (scale2 num den e).2) := by
  unfold scale2
  split <;> simp only [Nat.mul_assoc]

/-- The function `roundToFloat64` does not change when numerator and
denominator are multiplied alike. -/
theorem roundToFloat64_mul (k num den : Nat) (hk : 0 < k) (hn : 0 < num) (hd : 0 < den) :
    roundToFloat64 (k * num) (k * den) = roundToFloat64 num den := by
  obtain ⟨L, hlo, hhi⟩ := exists_bracket num den hn hd
  have hk' : (k : ℚ) ≠ 0 := by exact_mod_cast hk.ne'
  have hv : ((k * num : Nat) : ℚ) / ((k * den : Nat) : ℚ) = (num : ℚ) / den := by
    push_cast
    exact mul_div_mul_left _ _ hk'
  rw [roundToFloat64_eq_roundAt num den hn hd L hlo hhi,
    roundToFloat64_eq_roundAt (k * num) (k * den) (Nat.mul_pos hk hn) (Nat.mul_pos hk hd) L
      (by rw [hv]; exact hlo) (by rw [hv]; exact hhi)]
  unfold roundAt
  rw [scale2_mul, roundHalfEven_mul _ _ _ hk]

/-- Rounding at an exponent, on the value of the fraction. -/
theorem roundHalfEven_scale2_eq (num den m : Nat) (e : Int) (hd : 0 < den)
    (h : |(num : ℚ) / den / (2 : ℚ) ^ e - m| < 1 / 2) : roundHalfEven (scale2 num den e) = m := by
  have := roundHalfEven_eq (scale2 num den e).1 (scale2 num den e).2 m
    (scale2_den_pos num den e hd) (by rw [scale2_val num den e hd]; exact h)
  exact this

/-- The function `roundToFloat64` gives the `float64` with mantissa `m` and
exponent `x` for every fraction that, counted in units of `2^x`, is less than
a half away from `m` -- less than a quarter when `m` is `2^52`, below which
the numbers lie twice as dense. -/
theorem roundToFloat64_of_near (num den m : Nat) (x : Int) (hn : 0 < num) (hd : 0 < den)
    (hm : m < 2 ^ 53) (hx1 : -1074 ≤ x) (hx2 : x ≤ 971) (hnorm : 2 ^ 52 ≤ m ∨ x = -1074)
    (hnear : |(num : ℚ) / den / (2 : ℚ) ^ x - m| < 1 / 2)
    (hedge : m = 2 ^ 52 → |(num : ℚ) / den / (2 : ℚ) ^ x - m| < 1 / 4) :
    roundToFloat64 num den = some (m, x) := by
  have two : (1 : ℚ) < 2 := by norm_num
  have two0 : (2 : ℚ) ≠ 0 := by norm_num
  have hpx : (0 : ℚ) < (2 : ℚ) ^ x := zpow_pos (by norm_num) _
  have hmq : (m : ℚ) ≤ 2 ^ 53 - 1 := by
    have : m + 1 ≤ 2 ^ 53 := hm
    have : ((m + 1 : Nat) : ℚ) ≤ ((2 ^ 53 : Nat) : ℚ) := by exact_mod_cast this
    push_cast at this
    linarith
  obtain ⟨hn1, hn2⟩ := abs_lt.mp hnear
  have hpow : ∀ k : Int, (2 : ℚ) ^ (x + k) = (2 : ℚ) ^ x * (2 : ℚ) ^ k := fun k => zpow_add₀ two0 x k
  have hfin : ∀ e : Int, e = x → roundAt num den e = some (m, x) := by
    intro e he
    subst he
    unfold roundAt
    rw [roundHalfEven_scale2_eq num den m e hd hnear]
    have hne : ¬ m = 2 ^ 53 := by omega
    simp only
    rw [if_neg hne]
    show (if e > 971 then none else some (m, e)) = some (m, e)
    rw [if_neg (by omega)]
  by_cases hy : (2 : ℚ) ^ (52 : Int) ≤ (num : ℚ) / den / (2 : ℚ) ^ x
  · have hlo : (2 : ℚ) ^ (x + 52) ≤ (num : ℚ) / den := by
      rw [hpow, mul_comm]
      exact (le_div_iff₀ hpx).mp hy
    have hhi : (num : ℚ) / den < (2 : ℚ) ^ (x + 52 + 1) := by
      have e : x + 52 + 1 = x + 53 := by ring
      rw [e, hpow, mul_comm]
      apply (div_lt_iff₀ hpx).mp
      have : (2 : ℚ) ^ (53 : Int) = 2 ^ 53 := by norm_num
      rw [this]
      linarith
    rw [roundToFloat64_eq_roundAt num den hn hd (x + 52) hlo hhi]
    exact hfin _ (by
      have : x + 52 - 52 = x := by ring
      rw [this]; exact max_eq_left hx1)
  · have hy2 : (num : ℚ) / den / (2 : ℚ) ^ x < (2 : ℚ) ^ (52 : Int) := lt_of_not_le hy
    have hhi0 : (num : ℚ) / den < (2 : ℚ) ^ (x + 52) := by
      rw [hpow, mul_comm]
      exact (div_lt_iff₀ hpx).mp hy2
    by_cases hx : x = -1074
    · obtain ⟨L, hlo, hhi⟩ := exists_bracket num den hn hd
      have hL : L < x + 52 := by
        have := lt_of_le_of_lt hlo hhi0
        exact (zpow_lt_zpow_iff_right₀ two).mp this
      rw [roundToFloat64_eq_roundAt num den hn hd L hlo hhi]
      exact hfin _ (by rw [hx]; exact max_eq_right (by omega))
    · have hm52 : m = 2 ^ 52 := by
        rcases hnorm with h | h
        · by_contra hne
          have : 2 ^ 52 + 1 ≤ m := by omega
          have : ((2 ^ 52 + 1 : Nat) : ℚ) ≤ (m : ℚ) := by exact_mod_cast this
          push_cast at this
          have h52 : (2 : ℚ) ^ (52 : Int) = 2 ^ 52 := by norm_num
          rw [h52] at hy2
          linarith
        · exact absurd h hx
      obtain ⟨he1, he2⟩ := abs_lt.mp (hedge hm52)
      have hmq2 : (m : ℚ) = 2 ^ 52 := by rw [hm52]; norm_num
      have hlo : (2 : ℚ) ^ (x + 51) ≤ (num : ℚ) / den := by
        rw [hpow, mul_comm]
        apply (le_div_iff₀ hpx).mp
        have : (2 : ℚ) ^ (51 : Int) = 2 ^ 51 := by norm_num
        rw [this]
        rw [hmq2] at he1
        norm_num at he1 ⊢
        linarith
      have hhi : (num : ℚ) / den < (2 : ℚ) ^ (x + 51 + 1) := by
        have e : x + 51 + 1 = x + 52 := by ring
        rw [e]; exact hhi0
      rw [roundToFloat64_eq_roundAt num den hn hd (x + 51) hlo hhi]
      have he : max (x + 51 - 52) (-1074) = x - 1 := by
        have : x + 51 - 52 = x - 1 := by ring
        rw [this]; exact max_eq_left (by omega)
      rw [he]
      unfold roundAt
      have hq : roundHalfEven (scale2 num den (x - 1)) = 2 ^ 53 := by
        apply roundHalfEven_scale2_eq num den (2 ^ 53) (x - 1) hd
        have e2 : (2 : ℚ) ^ (x - 1) = (2 : ℚ) ^ x / 2 := by
          rw [zpow_sub₀ two0, zpow_one]
        rw [e2]
        have e3 : (num : ℚ) / den / ((2 : ℚ) ^ x / 2) = 2 * ((num : ℚ) / den / (2 : ℚ) ^ x) := by
          field_simp
          ring
        rw [e3, abs_lt]
        rw [hmq2] at he1 he2
        push_cast
        constructor <;> norm_num at he1 he2 ⊢ <;> linarith
      rw [hq]
      simp only [if_true]
      show (if x - 1 + 1 > 971 then none else some (2 ^ 52, x - 1 + 1)) = some (m, x)
      rw [if_neg (by omega), hm52]
      congr 2
      ring

/-- Rounding goes at most one above the quotient. -/
theorem roundHalfEven_le (nd : Nat × Nat) : roundHalfEven nd ≤ nd.1 / nd.2 + 1 := by
  unfold roundHalfEven
  simp only
  split <;> omega

/-- What `roundToFloat64` returns is the mantissa and the exponent of a
`float64` in canonical form. -/
theorem roundToFloat64_canonical (num den : Nat) (hn : 0 < num) (hd : 0 < den) (m : Nat)
    (x : Int) (h : roundToFloat64 num den = some (m, x)) :
    m < 2 ^ 53 ∧ -1074 ≤ x ∧ x ≤ 971 ∧ (2 ^ 52 ≤ m ∨ x = -1074) := by
  obtain ⟨L, hlo, hhi⟩ := exists_bracket num den hn hd
  rw [roundToFloat64_eq_roundAt num den hn hd L hlo hhi] at h
  have two : (1 : ℚ) < 2 := by norm_num
  have hemax : -1074 ≤ max (L - 52) (-1074) := le_max_right _ _
  have hfloor : (scale2 num den (max (L - 52) (-1074))).1 /
      (scale2 num den (max (L - 52) (-1074))).2 < 2 ^ 53 := by
    by_contra hc
    have h1 := (scale2_floor_ge num den _ hd).mp (not_lt.mp hc)
    have h2 := lt_of_le_of_lt h1 hhi
    rw [zpow_lt_zpow_iff_right₀ two] at h2
    have := le_max_left (L - 52) (-1074 : Int)
    omega
  have hq1 := roundHalfEven_le (scale2 num den (max (L - 52) (-1074)))
  have hq2 := le_roundHalfEven (scale2 num den (max (L - 52) (-1074)))
  have hnormal : max (L - 52) (-1074) ≠ -1074 →
      2 ^ 52 ≤ (scale2 num den (max (L - 52) (-1074))).1 /
        (scale2 num den (max (L - 52) (-1074))).2 := by
    intro hne
    apply (scale2_floor_ge_pow num den _ 52 hd).mpr
    have : max (L - 52) (-1074) = L - 52 := by
      rcases max_choice (L - 52) (-1074 : Int) with h | h
      · exact h
      · exact absurd h hne
    rw [this]
    have : L - 52 + ((52 : Nat) : Int) = L := by push_cast; ring
    rw [this]
    exact hlo
  unfold roundAt at h
  simp only at h
  generalize roundHalfEven (scale2 num den (max (L - 52) (-1074))) = q at h hq1 hq2
  generalize max (L - 52) (-1074) = e at h hemax hfloor hq1 hq2 hnormal
  by_cases hq : q = 2 ^ 53
  · rw [if_pos hq] at h
    simp only at h
    split at h
    · exact absurd h (by simp)
    · rename_i hle
      simp only [Option.some.injEq, Prod.mk.injEq] at h
      obtain ⟨h1, h2⟩ := h
      subst h1 h2
      exact ⟨by norm_num, by omega, by omega, Or.inl (le_refl _)⟩
  · rw [if_neg hq] at h
    simp only at h
    split at h
    · exact absurd h (by simp)
    · rename_i hle
      simp only [Option.some.injEq, Prod.mk.injEq] at h
      obtain ⟨h1, h2⟩ := h
      subst h1 h2
      refine ⟨by omega, hemax, by omega, ?_⟩
      by_cases he : e = -1074
      · exact Or.inr he
      · exact Or.inl (le_trans (hnormal he) hq2)

/-- What `roundDecimal` returns is a `float64` in canonical form. -/
theorem roundDecimal_canonical (d : Decimal) (f : Float64) (h : roundDecimal d = some f) :
    f.canonical = true := by
  unfold roundDecimal at h
  split at h
  · simp only [Option.some.injEq] at h
    subst h
    simp [Float64.canonical]
  · rename_i hdig
    have hpos : 0 < d.digits := Nat.pos_of_ne_zero hdig
    simp only at h
    have key : ∀ num den : Nat, 0 < num → 0 < den →
        (roundToFloat64 num den).map (fun me => ({ neg := d.neg, mant := me.1, exp := me.2 } :
          Float64)) = some f → f.canonical = true := by
      intro num den hn hd hmap
      cases hr : roundToFloat64 num den with
      | none => rw [hr] at hmap; exact absurd hmap (by simp)
      | some me =>
        rw [hr] at hmap
        simp only [Option.map_some', Option.some.injEq] at hmap
        subst hmap
        obtain ⟨m, x⟩ := me
        obtain ⟨c1, c2, c3, c4⟩ := roundToFloat64_canonical num den hn hd m x hr
        simp only [Float64.canonical, Bool.and_eq_true, Bool.or_eq_true, decide_eq_true_eq]
        exact ⟨⟨⟨c1, c2⟩, c3⟩, c4⟩
    split at h
    · exact key _ _ (Nat.mul_pos hpos (Nat.pos_pow_of_pos _ (by decide))) Nat.one_pos h
    · exact key _ _ hpos (Nat.pos_pow_of_pos _ (by decide)) h

/-- The function `parseFloat` is `roundDecimal` of what `readFloat` reads, and
so returns a `float64` in canonical form. -/
theorem parseFloat_canonical (lit : String) (f : Float64) (h : parseFloat lit = some f) :
    f.canonical = true :=
  roundDecimal_canonical (readFloat lit.data) f h

/-- The fraction `scale10` builds has a positive denominator. -/
theorem scale10_den_pos (nd : Nat × Nat) (u : Int) (hd : 0 < nd.2) : 0 < (scale10 nd u).2 := by
  unfold scale10
  split
  · exact Nat.mul_pos hd (Nat.pos_pow_of_pos _ (by decide))
  · exact hd

/-- The value of the fraction `scale10` builds. -/
theorem scale10_val (nd : Nat × Nat) (u : Int) (hd : 0 < nd.2) :
    ((scale10 nd u).1 : ℚ) / ((scale10 nd u).2 : ℚ) = (nd.1 : ℚ) / nd.2 / (10 : ℚ) ^ u := by
  have hd' : (nd.2 : ℚ) ≠ 0 := by exact_mod_cast hd.ne'
  unfold scale10
  split
  · rename_i h
    have he : u = (u.toNat : Int) := (Int.toNat_of_nonneg h).symm
    simp only
    rw [Nat.cast_mul, Nat.cast_pow, Nat.cast_ofNat, div_div]
    congr 2
    conv_rhs => rw [he]
    rw [zpow_natCast]
  · rename_i h
    have he : u = -((-u).toNat : Int) := by
      rw [Int.toNat_of_nonneg (by omega)]; omega
    simp only
    rw [Nat.cast_mul, Nat.cast_pow, Nat.cast_ofNat]
    conv_rhs => rw [he]
    rw [zpow_neg, zpow_natCast]
    field_simp

/-- The value of a `float64` as the fraction `Float64.fraction` gives it. -/
theorem fraction_val (f : Float64) :
    (f.fraction.1 : ℚ) / (f.fraction.2 : ℚ) = (f.mant : ℚ) * (2 : ℚ) ^ f.exp := by
  unfold Float64.fraction
  split
  · rename_i h
    have he : f.exp = (f.exp.toNat : Int) := (Int.toNat_of_nonneg h).symm
    simp only
    rw [Nat.cast_mul, Nat.cast_pow, Nat.cast_ofNat, Nat.cast_one, div_one]
    conv_rhs => rw [he]
    rw [zpow_natCast]
  · rename_i h
    have he : f.exp = -((-f.exp).toNat : Int) := by
      rw [Int.toNat_of_nonneg (by omega)]; omega
    simp only
    rw [Nat.cast_pow, Nat.cast_ofNat]
    conv_rhs => rw [he]
    rw [zpow_neg, zpow_natCast]
    rfl

/-- The numerator of the value of a `float64` other than zero is positive. -/
theorem fraction_num_pos (f : Float64) (hm : 0 < f.mant) : 0 < f.fraction.1 := by
  unfold Float64.fraction
  split
  · exact Nat.mul_pos hm (Nat.pos_pow_of_pos _ (by decide))
  · exact hm

/-- A power of ten with a natural exponent, among the rationals. -/
theorem ten_zpow_natCast (n : Nat) : (10 : ℚ) ^ (n : Int) = ((10 ^ n : Nat) : ℚ) := by
  rw [zpow_natCast]
  push_cast
  rfl

/-- The decimal point of a positive fraction stands right: the fraction is at
least the power of ten below the position. -/
theorem decimalPoint_le (num den : Nat) (hn : 0 < num) (hd : 0 < den) :
    (10 : ℚ) ^ (decimalPoint (num, den) - 1) ≤ (num : ℚ) / den := by
  have hd' : (0 : ℚ) < den := by exact_mod_cast hd
  have ten0 : (10 : ℚ) ≠ 0 := by norm_num
  unfold decimalPoint
  simp only
  by_cases hge : num ≥ den
  · rw [if_pos hge]
    have hq : 0 < num / den := Nat.div_pos hge hd
    obtain ⟨d, ds, he, _, _, _, hlo, _⟩ := natDigits_pos (num / den) hq
    rw [he]
    have e1 : (((d :: ds).length : Nat) : Int) - 1 = (ds.length : Int) := by
      simp only [List.length_cons]; push_cast; ring
    rw [e1, ten_zpow_natCast]
    have h1 : ((10 ^ ds.length : Nat) : ℚ) ≤ ((num / den : Nat) : ℚ) := by exact_mod_cast hlo
    have h2 : ((num / den : Nat) : ℚ) ≤ (num : ℚ) / den :=
      (le_div_iff_cast _ _ _ hd).mp (le_refl _)
    exact le_trans h1 h2
  · rw [if_neg hge]
    obtain ⟨d1, ds1, he1, _, _, _, hlo1, hhi1⟩ := natDigits_pos num hn
    obtain ⟨d2, ds2, he2, _, _, _, hlo2, hhi2⟩ := natDigits_pos den hd
    rw [he1, he2]
    simp only [List.length_cons]
    generalize hk : ds2.length + 1 - (ds1.length + 1) = k
    have key : ∀ j : Nat, den ≤ num * 10 ^ j →
        (10 : ℚ) ^ (-(j : Int)) ≤ (num : ℚ) / den := by
      intro j hj
      rw [zpow_neg, ten_zpow_natCast, le_div_iff₀ hd', inv_mul_le_iff₀ (by positivity)]
      have : (den : ℚ) ≤ ((num * 10 ^ j : Nat) : ℚ) := by exact_mod_cast hj
      push_cast at this ⊢
      linarith
    by_cases h1 : num * 10 ^ k ≥ den
    · rw [if_pos h1]
      have : (1 : Int) - (k : Int) - 1 = -(k : Int) := by ring
      rw [this]
      exact key k h1
    · rw [if_neg h1]
      have : (1 : Int) - ((k : Int) + 1) - 1 = -((k + 1 : Nat) : Int) := by push_cast; ring
      rw [this]
      apply key
      have hlen : ds2.length ≤ ds1.length + k := by omega
      calc den ≤ 10 ^ (ds2.length + 1) := hhi2.le
        _ ≤ 10 ^ (ds1.length + k + 1) := Nat.pow_le_pow_right (by decide) (by omega)
        _ = 10 ^ ds1.length * 10 ^ (k + 1) := by rw [← pow_add]; ring_nf
        _ ≤ num * 10 ^ (k + 1) := Nat.mul_le_mul_right _ hlo1

/-- The function `roundDecimal` gives the `float64` with mantissa `m` and
exponent `x` for every decimal that, counted in units of `2^x`, is less than a
half away from `m` (less than a quarter when `m` is `2^52`). -/
theorem roundDecimal_of_near (neg : Bool) (D : Nat) (u : Int) (m : Nat) (x : Int) (hD : 0 < D)
    (hm : m < 2 ^ 53) (hx1 : -1074 ≤ x) (hx2 : x ≤ 971) (hnorm : 2 ^ 52 ≤ m ∨ x = -1074)
    (hnear : |(D : ℚ) * (10 : ℚ) ^ u / (2 : ℚ) ^ x - m| < 1 / 2)
    (hedge : m = 2 ^ 52 → |(D : ℚ) * (10 : ℚ) ^ u / (2 : ℚ) ^ x - m| < 1 / 4) :
    roundDecimal ⟨neg, D, u⟩ = some ⟨neg, m, x⟩ := by
  unfold roundDecimal
  simp only
  rw [if_neg hD.ne']
  have key : ∀ num den : Nat, 0 < num → 0 < den →
      (num : ℚ) / den = (D : ℚ) * (10 : ℚ) ^ u → roundToFloat64 num den = some (m, x) := by
    intro num den hn hd hv
    exact roundToFloat64_of_near num den m x hn hd hm hx1 hx2 hnorm (by rw [hv]; exact hnear)
      (fun h => by rw [hv]; exact hedge h)
  split
  · rename_i h
    have he : u = (u.toNat : Int) := (Int.toNat_of_nonneg h).symm
    rw [key _ _ (Nat.mul_pos hD (Nat.pos_pow_of_pos _ (by decide))) Nat.one_pos (by
      rw [Nat.cast_mul, Nat.cast_pow, Nat.cast_ofNat, Nat.cast_one, div_one]
      conv_rhs => rw [he]
      rw [zpow_natCast])]
    rfl
  · rename_i h
    have he : u = -((-u).toNat : Int) := by
      rw [Int.toNat_of_nonneg (by omega)]; omega
    rw [key _ _ hD (Nat.pos_pow_of_pos _ (by decide)) (by
      rw [Nat.cast_pow, Nat.cast_ofNat]
      conv_rhs => rw [he]
      rw [zpow_neg, zpow_natCast]
      rfl)]
    rfl

/-- The parts of the canonical form of a `float64`. -/
theorem canonical_iff (f : Float64) :
    f.canonical = true ↔
      f.mant < 2 ^ 53 ∧ -1074 ≤ f.exp ∧ f.exp ≤ 971 ∧ (2 ^ 52 ≤ f.mant ∨ f.exp = -1074) := by
  simp only [Float64.canonical, Bool.and_eq_true, Bool.or_eq_true, decide_eq_true_eq]
  constructor
  · rintro ⟨⟨⟨h1, h2⟩, h3⟩, h4⟩
    exact ⟨h1, h2, h3, h4⟩
  · rintro ⟨h1, h2, h3, h4⟩
    exact ⟨⟨⟨h1, h2⟩, h3⟩, h4⟩

/-- Seventeen digits are enough: the decimal of seventeen digits nearest to a
`float64` other than zero reads back as that `float64`. -/
theorem roundDecimal_seventeen (f : Float64) (hc : f.canonical = true) (hm : 0 < f.mant) :
    roundDecimal ⟨f.neg, roundHalfEven (scale10 f.fraction (decimalPoint f.fraction - 17)),
      decimalPoint f.fraction - 17⟩ = some f := by
  obtain ⟨c1, c2, c3, c4⟩ := (canonical_iff f).mp hc
  have hfd := fraction_den_pos f
  have hfn := fraction_num_pos f hm
  have hv := fraction_val f
  have hdp := decimalPoint_le f.fraction.1 f.fraction.2 hfn hfd
  rw [hv] at hdp
  have hnear0 := roundHalfEven_near (scale10 f.fraction (decimalPoint f.fraction - 17)).1
    (scale10 f.fraction (decimalPoint f.fraction - 17)).2 (scale10_den_pos _ _ hfd)
  rw [scale10_val _ _ hfd, hv] at hnear0
  have hD : roundHalfEven ((scale10 f.fraction (decimalPoint f.fraction - 17)).1,
      (scale10 f.fraction (decimalPoint f.fraction - 17)).2) =
      roundHalfEven (scale10 f.fraction (decimalPoint f.fraction - 17)) := rfl
  rw [hD] at hnear0
  generalize roundHalfEven (scale10 f.fraction (decimalPoint f.fraction - 17)) = D at hnear0 ⊢
  have hdp2 : (decimalPoint (f.fraction.1, f.fraction.2)) = decimalPoint f.fraction := rfl
  rw [hdp2] at hdp
  generalize decimalPoint f.fraction = p at hnear0 hdp ⊢
  have ten0 : (10 : ℚ) ≠ 0 := by norm_num
  have two0 : (2 : ℚ) ≠ 0 := by norm_num
  have hpu : (0 : ℚ) < (10 : ℚ) ^ (p - 17) := zpow_pos (by norm_num) _
  have hpx : (0 : ℚ) < (2 : ℚ) ^ f.exp := zpow_pos (by norm_num) _
  have hmq : (0 : ℚ) < (f.mant : ℚ) := by exact_mod_cast hm
  have hsplit : (10 : ℚ) ^ (p - 1) = (10 : ℚ) ^ (p - 17) * 10 ^ 16 := by
    have : p - 1 = (p - 17) + 16 := by ring
    rw [this, zpow_add₀ ten0]
    norm_num
  rw [hsplit] at hdp
  -- the distance to the `float64`, in units of its last place
  have hdist : |(D : ℚ) * (10 : ℚ) ^ (p - 17) / (2 : ℚ) ^ f.exp - f.mant| ≤
      (f.mant : ℚ) / (2 * 10 ^ 16) := by
    have e : (D : ℚ) * (10 : ℚ) ^ (p - 17) / (2 : ℚ) ^ f.exp - f.mant =
        ((D : ℚ) - (f.mant : ℚ) * (2 : ℚ) ^ f.exp / (10 : ℚ) ^ (p - 17)) *
          ((10 : ℚ) ^ (p - 17) / (2 : ℚ) ^ f.exp) := by
      field_simp
      ring
    rw [e, abs_mul, abs_of_pos (div_pos hpu hpx)]
    have h1 : (10 : ℚ) ^ (p - 17) / (2 : ℚ) ^ f.exp ≤ (f.mant : ℚ) / 10 ^ 16 := by
      rw [div_le_div_iff hpx (by positivity)]
      linarith
    calc |(D : ℚ) - (f.mant : ℚ) * (2 : ℚ) ^ f.exp / (10 : ℚ) ^ (p - 17)| *
          ((10 : ℚ) ^ (p - 17) / (2 : ℚ) ^ f.exp)
        ≤ (1 / 2) * ((f.mant : ℚ) / 10 ^ 16) :=
          mul_le_mul hnear0 h1 (div_pos hpu hpx).le (by norm_num)
      _ = (f.mant : ℚ) / (2 * 10 ^ 16) := by ring
  have hmlt : (f.mant : ℚ) < 2 ^ 53 := by exact_mod_cast c1
  have hDpos : 0 < D := by
    by_contra h0
    have hz : D = 0 := by omega
    rw [hz] at hnear0
    have h2 : (10 : ℚ) ^ 16 ≤ (f.mant : ℚ) * (2 : ℚ) ^ f.exp / (10 : ℚ) ^ (p - 17) := by
      rw [le_div_iff₀ hpu]; linarith
    rw [Nat.cast_zero, zero_sub, abs_neg, abs_of_pos (by positivity)] at hnear0
    norm_num at h2
    linarith
  have := roundDecimal_of_near f.neg D (p - 17) f.mant f.exp hDpos c1 c2 c3 c4
    (lt_of_le_of_lt hdist (by
      rw [div_lt_iff₀ (by positivity)]
      norm_num at hmlt ⊢
      linarith))
    (fun h52 => lt_of_le_of_lt hdist (by
      rw [h52, div_lt_iff₀ (by positivity)]
      norm_num))
  rw [this]

/-- The digits of a number below `10^k` are at most `k`. -/
theorem natDigits_length_le (n k : Nat) (h : n < 10 ^ k) (hk : 1 ≤ k) :
    (natDigits n).length ≤ k := by
  rcases Nat.eq_zero_or_pos n with h0 | h0
  · subst h0
    rw [natDigits_zero]
    exact hk
  · obtain ⟨d, ds, he, _, _, _, hlo, _⟩ := natDigits_pos n h0
    rw [he, List.length_cons]
    have : 10 ^ ds.length < 10 ^ k := lt_of_le_of_lt hlo h
    have := (Nat.pow_lt_pow_iff_right (by decide : 1 < 10)).mp this
    omega

/-- The digits of a number are at least one. -/
theorem natDigits_length_pos (n : Nat) : 1 ≤ (natDigits n).length := by
  obtain ⟨d, ds, he, _⟩ := natDigits_digits n
  rw [he, List.length_cons]
  omega

/-- The decimal point of a `float64` in canonical form, other than zero, is
not far from the origin. -/
theorem decimalPoint_bounds (f : Float64) (hc : f.canonical = true) :
    -1076 ≤ decimalPoint f.fraction ∧ decimalPoint f.fraction ≤ 1024 := by
  obtain ⟨c1, c2, c3, c4⟩ := (canonical_iff f).mp hc
  have hnum : f.fraction.1 < 10 ^ 1024 := by
    unfold Float64.fraction
    split
    · simp only
      have h1 : f.exp.toNat ≤ 971 := by omega
      calc f.mant * 2 ^ f.exp.toNat < 2 ^ 53 * 2 ^ f.exp.toNat :=
            Nat.mul_lt_mul_of_pos_right c1 (Nat.pos_pow_of_pos _ (by decide))
        _ ≤ 2 ^ 53 * 2 ^ 971 :=
            Nat.mul_le_mul_left _ (Nat.pow_le_pow_right (by decide) h1)
        _ = 2 ^ 1024 := by rw [← pow_add]
        _ ≤ 10 ^ 1024 := Nat.pow_le_pow_left (by decide) _
    · simp only
      calc f.mant < 2 ^ 53 := c1
        _ ≤ 2 ^ 1024 := Nat.pow_le_pow_right (by decide) (by decide)
        _ ≤ 10 ^ 1024 := Nat.pow_le_pow_left (by decide) _
  have hden : f.fraction.2 < 10 ^ 1075 := by
    unfold Float64.fraction
    split
    · simp only
      exact Nat.one_lt_pow (by decide) (by decide)
    · simp only
      have h1 : (-f.exp).toNat ≤ 1074 := by omega
      calc 2 ^ (-f.exp).toNat ≤ 2 ^ 1074 := Nat.pow_le_pow_right (by decide) h1
        _ < 2 ^ 1075 := Nat.pow_lt_pow_right (by decide) (by decide)
        _ ≤ 10 ^ 1075 := Nat.pow_le_pow_left (by decide) _
  unfold decimalPoint
  split
  · have h1 : f.fraction.1 / f.fraction.2 < 10 ^ 1024 :=
      lt_of_le_of_lt (Nat.div_le_self _ _) hnum
    have h2 := natDigits_length_le _ 1024 h1 (by decide)
    have h3 := natDigits_length_pos (f.fraction.1 / f.fraction.2)
    omega
  · have h2 := natDigits_length_le _ 1075 hden (by decide)
    simp only
    split <;> omega

/-- The value of a digit character. -/
theorem digitVal_digitChar (n : Nat) : digitVal (digitChar n) = n % 10 := by
  have h : n % 10 < 10 := Nat.mod_lt _ (by decide)
  unfold digitChar digitVal
  generalize n % 10 = r at h
  interval_cases r <;> rfl

/-- Reading the digits of a number in front of other digits. -/
theorem foldl_digits_natDigitsAux (fuel n : Nat) (acc : List Char) (hf : n < fuel) :
    (natDigitsAux fuel n acc).foldl (fun a c => a * 10 + digitVal c) 0 =
      acc.foldl (fun a c => a * 10 + digitVal c) n := by
  induction fuel generalizing n acc with
  | zero => omega
  | succ k ih =>
    unfold natDigitsAux
    by_cases h10 : n / 10 = 0
    · rw [if_pos h10, List.foldl_cons, digitVal_digitChar]
      have : 0 * 10 + n % 10 = n := by omega
      rw [this]
    · rw [if_neg h10, ih (n / 10) _ (by omega), List.foldl_cons, digitVal_digitChar]
      have : n / 10 * 10 + n % 10 = n := by omega
      rw [this]

/-- The digits of a number denote the number. -/
theorem digitsVal_natDigits (n : Nat) : digitsVal (natDigits n) = n :=
  foldl_digits_natDigitsAux (n + 1) n [] (Nat.lt_succ_self n)

/-- Reading digits behind the digits of a number. -/
theorem digitsVal_natDigits_append (n : Nat) (rest : List Char) :
    digitsVal (natDigits n ++ rest) = rest.foldl (fun a c => a * 10 + digitVal c) n := by
  unfold digitsVal
  rw [List.foldl_append]
  have := digitsVal_natDigits n
  unfold digitsVal at this
  rw [this]

/-- Zeros in front do not change what digits denote. -/
theorem digitsVal_zeros (k : Nat) (ds : List Char) :
    digitsVal (List.replicate k '0' ++ ds) = digitsVal ds := by
  unfold digitsVal
  rw [List.foldl_append]
  congr 1
  induction k with
  | zero => rfl
  | succ j ih =>
    rw [List.replicate_succ, List.foldl_cons]
    exact ih

/-- Zeros behind multiply what digits denote by a power of ten. -/
theorem foldl_digits_zeros (k a : Nat) :
    (List.replicate k '0').foldl (fun a c => a * 10 + digitVal c) a = a * 10 ^ k := by
  induction k generalizing a with
  | zero => simp
  | succ j ih =>
    rw [List.replicate_succ, List.foldl_cons, ih]
    have : digitVal '0' = 0 := rfl
    rw [this, pow_succ]
    ring

/-- Reading digits never lowers what has been read. -/
theorem le_foldl_digits (l : List Char) (a : Nat) :
    a ≤ l.foldl (fun a c => a * 10 + digitVal c) a := by
  induction l generalizing a with
  | nil => exact Nat.le_refl a
  | cons c l ih =>
    rw [List.foldl_cons]
    exact le_trans (by omega) (ih _)

/-- An exponent below 100000 is read in full. -/
theorem foldl_exp_eq (l : List Char) (a : Nat)
    (h : l.foldl (fun a c => a * 10 + digitVal c) a < 100000) :
    l.foldl (fun acc c => if acc < 10000 then acc * 10 + digitVal c else acc) a =
      l.foldl (fun a c => a * 10 + digitVal c) a := by
  induction l generalizing a with
  | nil => rfl
  | cons c l ih =>
    rw [List.foldl_cons, List.foldl_cons] at *
    have h1 := le_foldl_digits l (a * 10 + digitVal c)
    have h2 : a < 10000 := by omega
    rw [if_pos h2]
    exact ih _ h

/-- The digits of an exponent below 100000 denote it. -/
theorem expVal_natDigits (n : Nat) (h : n < 100000) : expVal (natDigits n) = n := by
  have h1 := digitsVal_natDigits n
  unfold digitsVal at h1
  unfold expVal
  rw [foldl_exp_eq _ _ (by rw [h1]; exact h), h1]

/-- Digits in front of a character that is no digit: `span` cuts there. -/
theorem span_isDigit_append (a : List Char) (c : Char) (rest : List Char)
    (ha : ∀ x ∈ a, isDigit x = true) (hc : isDigit c = false) :
    (a ++ c :: rest).span isDigit = (a, c :: rest) := by
  induction a with
  | nil => simp [List.span, List.span.loop, hc]
  | cons x xs ih =>
    have hx := ha x (List.mem_cons_self x xs)
    have := ih fun y hy => ha y (List.mem_cons_of_mem x hy)
    rw [List.span_eq_take_drop] at this ⊢
    simp only [List.cons_append, List.takeWhile_cons, List.dropWhile_cons, hx, if_true,
      Prod.mk.injEq, List.cons.injEq, true_and] at this ⊢
    exact this

/-- Digits to the end of the text: `span` takes them all. -/
theorem span_isDigit_all (a : List Char) (ha : ∀ x ∈ a, isDigit x = true) :
    a.span isDigit = (a, []) := by
  induction a with
  | nil => rfl
  | cons x xs ih =>
    have hx := ha x (List.mem_cons_self x xs)
    have := ih fun y hy => ha y (List.mem_cons_of_mem x hy)
    rw [List.span_eq_take_drop] at this ⊢
    simp only [List.takeWhile_cons, List.dropWhile_cons, hx, if_true,
      Prod.mk.injEq, List.cons.injEq, true_and] at this ⊢
    exact this

/-- What `readFloat` reads from a number written as an optional minus, digits,
an optional point with digits behind it, and an optional exponent. -/
theorem readFloat_eq (neg dot : Bool) (d : Char) (ip fp tail : List Char) (ex : Int)
    (hd : isDigit d = true) (hip : ∀ x ∈ ip, isDigit x = true)
    (hfp : ∀ x ∈ fp, isDigit x = true)
    (htail : (tail = [] ∧ ex = 0) ∨
      (∃ ds, tail = 'e' :: '-' :: ds ∧ ex = -(expVal ds : Int)) ∨
      (∃ ds, tail = 'e' :: '+' :: ds ∧ ex = (expVal ds : Int)) ∨
      (∃ d0 ds, tail = 'e' :: d0 :: ds ∧ isDigit d0 = true ∧ ex = (expVal (d0 :: ds) : Int))) :
    readFloat ((if neg then ['-'] else []) ++
        (d :: ip ++ ((if dot then '.' :: fp else []) ++ tail))) =
      { neg := neg,
        digits := digitsVal (d :: ip ++ (if dot then fp else [])),
        exp10 := ex - ((if dot then fp else []).length : Int) } := by
  have hdm : d ≠ '-' := by
    intro h; subst h; exact absurd hd (by decide)
  have hdigs : ∀ x ∈ d :: ip, isDigit x = true := by
    intro x hx
    rcases List.mem_cons.mp hx with h | h
    · rw [h]; exact hd
    · exact hip x h
  have hhead : (((if neg then ['-'] else []) ++
      (d :: ip ++ ((if dot then '.' :: fp else []) ++ tail))).head? = some '-') ↔ neg = true := by
    cases neg
    · simp [hdm]
    · simp
  have hbody : (if neg = true
      then ((if neg then ['-'] else []) ++
        (d :: ip ++ ((if dot then '.' :: fp else []) ++ tail))).drop 1
      else (if neg then ['-'] else []) ++
        (d :: ip ++ ((if dot then '.' :: fp else []) ++ tail))) =
      d :: ip ++ ((if dot then '.' :: fp else []) ++ tail) := by
    cases neg <;> simp
  have htl : tail = [] ∨ ∃ rest, tail = 'e' :: rest := by
    rcases htail with h | ⟨ds, h, _⟩ | ⟨ds, h, _⟩ | ⟨d0, ds, h, _⟩
    · exact Or.inl h.1
    · exact Or.inr ⟨_, h⟩
    · exact Or.inr ⟨_, h⟩
    · exact Or.inr ⟨_, h⟩
  have hspan : (d :: ip ++ ((if dot then '.' :: fp else []) ++ tail)).span isDigit =
      (d :: ip, (if dot then '.' :: fp else []) ++ tail) := by
    cases dot
    · rcases htl with h | ⟨rest, h⟩
      · subst h
        simp only [Bool.false_eq_true, if_false, List.nil_append, List.append_nil]
        exact span_isDigit_all _ hdigs
      · subst h
        simp only [Bool.false_eq_true, if_false, List.nil_append]
        exact span_isDigit_append _ 'e' rest hdigs (by decide)
    · simp only [if_true, List.cons_append]
      exact span_isDigit_append (d :: ip) '.' (fp ++ tail) hdigs (by decide)
  have hfspan : (fp ++ tail).span isDigit = (fp, tail) := by
    rcases htl with h | ⟨rest, h⟩
    · subst h
      rw [List.append_nil]
      exact span_isDigit_all fp hfp
    · subst h
      exact span_isDigit_append fp 'e' rest hfp (by decide)
  unfold readFloat
  simp only [hhead, hbody, hspan, Bool.decide_eq_true]
  cases dot
  · rcases htail with ⟨h, he⟩ | ⟨ds, h, he⟩ | ⟨ds, h, he⟩ | ⟨d0, ds, h, hd0, he⟩
    · subst h he
      simp
    · subst h he
      simp
    · subst h he
      simp
    · subst h he
      have h1 : d0 ≠ '-' := by
        intro h; subst h; exact absurd hd0 (by decide)
      have h2 : d0 ≠ '+' := by
        intro h; subst h; exact absurd hd0 (by decide)
      simp [h1, h2]
  · simp only [if_true, List.cons_append, hfspan]
    rcases htail with ⟨h, he⟩ | ⟨ds, h, he⟩ | ⟨ds, h, he⟩ | ⟨d0, ds, h, hd0, he⟩
    · subst h he
      simp
    · subst h he
      simp
    · subst h he
      simp
    · subst h he
      have h1 : d0 ≠ '-' := by
        intro h; subst h; exact absurd hd0 (by decide)
      have h2 : d0 ≠ '+' := by
        intro h; subst h; exact absurd hd0 (by decide)
      simp [h1, h2]

/-- The function `parseFloat` is `roundDecimal` of what `readFloat` reads. -/
theorem parseFloat_eq (lit : String) : parseFloat lit = roundDecimal (readFloat lit.data) := rfl

/-- What `readFloat` reads from the decimal `roundsTo` writes. -/
theorem readFloat_roundsTo (neg : Bool) (D : Nat) (u : Int) (h1 : -100000 < u)
    (h2 : u < 100000) :
    readFloat ((if neg then ['-'] else []) ++ natDigits D ++
      'e' :: (if u < 0 then '-' :: natDigits (-u).toNat else natDigits u.toNat)) =
      ⟨neg, D, u⟩ := by
  obtain ⟨d, ip, hD, hdig⟩ := natDigits_digits D
  have hd := hdig d (List.mem_cons_self d ip)
  have hip : ∀ x ∈ ip, isDigit x = true := fun x hx => hdig x (List.mem_cons_of_mem d hx)
  have hval : digitsVal (d :: ip) = D := by rw [← hD]; exact digitsVal_natDigits D
  by_cases hu : u < 0
  · have hk : (-u).toNat < 100000 := by omega
    have := readFloat_eq neg false d ip [] ('e' :: '-' :: natDigits (-u).toNat)
      (-(expVal (natDigits (-u).toNat) : Int)) hd hip (fun x hx => absurd hx (List.not_mem_nil x))
      (Or.inr (Or.inl ⟨_, rfl, rfl⟩))
    simp only [Bool.false_eq_true, if_false, List.nil_append, List.append_nil, List.length_nil,
      Nat.cast_zero, sub_zero] at this
    rw [if_pos hu, hD, List.append_assoc, this, hval, expVal_natDigits _ hk]
    congr 1
    omega
  · have hk : u.toNat < 100000 := by omega
    obtain ⟨d0, ds, hE, hedig⟩ := natDigits_digits u.toNat
    have := readFloat_eq neg false d ip [] ('e' :: d0 :: ds)
      ((expVal (d0 :: ds) : Nat) : Int) hd hip (fun x hx => absurd hx (List.not_mem_nil x))
      (Or.inr (Or.inr (Or.inr ⟨d0, ds, rfl, hedig d0 (List.mem_cons_self d0 ds), rfl⟩)))
    simp only [Bool.false_eq_true, if_false, List.nil_append, List.append_nil, List.length_nil,
      Nat.cast_zero, sub_zero] at this
    rw [if_neg hu, hD, hE, List.append_assoc, this, hval, ← hE, expVal_natDigits _ hk]
    congr 1
    omega

/-- The test `roundsTo` says that the decimal reads back as the `float64`. -/
theorem roundsTo_iff (f : Float64) (D : Nat) (u : Int) (h1 : -100000 < u) (h2 : u < 100000) :
    roundsTo f D u = true ↔ roundDecimal ⟨f.neg, D, u⟩ = some f := by
  unfold roundsTo
  rw [decide_eq_true_eq, parseFloat_eq]
  simp only
  rw [readFloat_roundsTo f.neg D u h1 h2]

/-- A decimal whose digits end in zero reads as the same `float64` with the
zero dropped and the power of ten raised. -/
theorem roundDecimal_trim (neg : Bool) (d : Nat) (u : Int) (hd : d ≠ 0) (h10 : d % 10 = 0) :
    roundDecimal ⟨neg, d / 10, u + 1⟩ = roundDecimal ⟨neg, d, u⟩ := by
  have hd' : d / 10 ≠ 0 := by omega
  have hdpos : 0 < d / 10 := Nat.pos_of_ne_zero hd'
  have hmul : d = 10 * (d / 10) := by omega
  unfold roundDecimal
  simp only
  rw [if_neg hd', if_neg hd]
  congr 1
  by_cases h0 : 0 ≤ u
  · rw [if_pos h0, if_pos (by omega)]
    have : (u + 1).toNat = u.toNat + 1 := by omega
    rw [this, pow_succ]
    congr 1
    conv_rhs => rw [hmul]
    ring
  · rw [if_neg h0]
    by_cases h1 : u = -1
    · subst h1
      rw [if_pos (by decide)]
      have e1 : ((-1 : Int) + 1).toNat = 0 := rfl
      have e2 : (-(-1 : Int)).toNat = 1 := rfl
      rw [e1, e2, pow_zero, pow_one, Nat.mul_one]
      conv_rhs => rw [hmul]
      have := roundToFloat64_mul 10 (d / 10) 1 (by decide) hdpos Nat.one_pos
      rw [Nat.mul_one] at this
      exact this.symm
    · rw [if_neg (by omega)]
      have e1 : (-u).toNat = (-(u + 1)).toNat + 1 := by omega
      rw [e1, pow_succ]
      conv_rhs => rw [hmul, Nat.mul_comm _ 10]
      exact (roundToFloat64_mul 10 (d / 10) _ (by decide) hdpos
        (Nat.pos_pow_of_pos _ (by decide))).symm

/-- Dropping the zeros at the end of the digits does not change the `float64`
the decimal reads as, lowers the digits if anything, and raises the power of
ten by at most as much as it was allowed to. -/
theorem trimZeros_roundDecimal (neg : Bool) (fuel d : Nat) (u : Int) :
    roundDecimal ⟨neg, (trimZeros fuel d u).1, (trimZeros fuel d u).2⟩ =
        roundDecimal ⟨neg, d, u⟩ ∧
      (trimZeros fuel d u).1 ≤ d ∧ u ≤ (trimZeros fuel d u).2 ∧
      (trimZeros fuel d u).2 ≤ u + fuel := by
  induction fuel generalizing d u with
  | zero => exact ⟨rfl, Nat.le_refl _, le_refl _, by simp [trimZeros]⟩
  | succ k ih =>
    unfold trimZeros
    split
    · rename_i h
      obtain ⟨i1, i2, i3, i4⟩ := ih (d / 10) (u + 1)
      refine ⟨?_, ?_, ?_, ?_⟩
      · rw [i1]; exact roundDecimal_trim neg d u h.1 h.2
      · exact le_trans i2 (Nat.div_le_self _ _)
      · omega
      · push_cast; omega
    · exact ⟨rfl, Nat.le_refl _, le_refl _, by push_cast; omega⟩

/-- Rounding gives the quotient or the number after it. -/
theorem roundHalfEven_cases (nd : Nat × Nat) :
    roundHalfEven nd = nd.1 / nd.2 ∨ roundHalfEven nd = nd.1 / nd.2 + 1 := by
  unfold roundHalfEven
  simp only
  split
  · exact Or.inr rfl
  · exact Or.inl rfl

/-- What `shortestAux` settles on, for a `float64` in canonical form other than
zero and with seventeen digits as the last resort: a decimal that reads back
as the `float64`, of some number of digits from where the search stood, its
digits at most one above the quotient at that number of digits. -/
theorem shortestAux_spec (f : Float64) (hc : f.canonical = true) (hm : 0 < f.mant)
    (fuel n : Nat) (h17 : n + fuel = 17) :
    roundDecimal ⟨f.neg, (shortestAux f (decimalPoint f.fraction) fuel n).1,
        (shortestAux f (decimalPoint f.fraction) fuel n).2⟩ = some f ∧
      ∃ k : Nat, n ≤ k ∧ k ≤ 17 ∧
        (shortestAux f (decimalPoint f.fraction) fuel n).2 = decimalPoint f.fraction - k ∧
        (shortestAux f (decimalPoint f.fraction) fuel n).1 ≤
          (scale10 f.fraction (decimalPoint f.fraction - k)).1 /
            (scale10 f.fraction (decimalPoint f.fraction - k)).2 + 1 := by
  obtain ⟨p1, p2⟩ := decimalPoint_bounds f hc
  induction fuel generalizing n with
  | zero =>
    have hn : n = 17 := by omega
    subst hn
    unfold shortestAux
    simp only
    refine ⟨roundDecimal_seventeen f hc hm, 17, le_refl _, le_refl _, rfl, ?_⟩
    exact roundHalfEven_le _
  | succ j ih =>
    have hrec := ih (n + 1) (by omega)
    have hu1 : -100000 < decimalPoint f.fraction - (n : Int) := by omega
    have hu2 : decimalPoint f.fraction - (n : Int) < 100000 := by omega
    have hlow := roundsTo_iff f ((scale10 f.fraction (decimalPoint f.fraction - n)).1 /
      (scale10 f.fraction (decimalPoint f.fraction - n)).2) (decimalPoint f.fraction - n) hu1 hu2
    have hhigh := roundsTo_iff f ((scale10 f.fraction (decimalPoint f.fraction - n)).1 /
      (scale10 f.fraction (decimalPoint f.fraction - n)).2 + 1) (decimalPoint f.fraction - n)
      hu1 hu2
    unfold shortestAux
    simp only
    by_cases hA : (roundsTo f ((scale10 f.fraction (decimalPoint f.fraction - ↑n)).1 /
        (scale10 f.fraction (decimalPoint f.fraction - ↑n)).2) (decimalPoint f.fraction - ↑n) &&
        roundsTo f ((scale10 f.fraction (decimalPoint f.fraction - ↑n)).1 /
        (scale10 f.fraction (decimalPoint f.fraction - ↑n)).2 + 1)
        (decimalPoint f.fraction - ↑n)) = true
    · rw [if_pos hA]
      simp only
      rw [Bool.and_eq_true] at hA
      refine ⟨?_, n, le_refl _, by omega, rfl, roundHalfEven_le _⟩
      rcases roundHalfEven_cases (scale10 f.fraction (decimalPoint f.fraction - ↑n)) with h | h
      · rw [h]; exact hlow.mp hA.1
      · rw [h]; exact hhigh.mp hA.2
    · rw [if_neg hA]
      by_cases hB : roundsTo f ((scale10 f.fraction (decimalPoint f.fraction - ↑n)).1 /
        (scale10 f.fraction (decimalPoint f.fraction - ↑n)).2) (decimalPoint f.fraction - ↑n) = true
      · rw [if_pos hB]
        exact ⟨hlow.mp hB, n, le_refl _, by omega, rfl, Nat.le_succ _⟩
      · rw [if_neg hB]
        by_cases hC : roundsTo f ((scale10 f.fraction (decimalPoint f.fraction - ↑n)).1 /
          (scale10 f.fraction (decimalPoint f.fraction - ↑n)).2 + 1)
          (decimalPoint f.fraction - ↑n) = true
        · rw [if_pos hC]
          exact ⟨hhigh.mp hC, n, le_refl _, by omega, rfl, Nat.le_refl _⟩
        · rw [if_neg hC]
          obtain ⟨r1, k, k1, k2, k3, k4⟩ := hrec
          exact ⟨r1, k, by omega, k2, k3, k4⟩

/-- What `readFloat` reads from the `%e` form of digits. -/
theorem readFloat_fmtE (neg : Bool) (d : Char) (rest : List Char) (dp : Int)
    (hds : ∀ c ∈ d :: rest, isDigit c = true) (h1 : -100000 < dp - 1) (h2 : dp - 1 < 100000) :
    readFloat ((if neg then ['-'] else []) ++ fmtE (d :: rest) dp) =
      ⟨neg, digitsVal (d :: rest), dp - ((d :: rest).length : Int)⟩ := by
  have hd := hds d (List.mem_cons_self d rest)
  have hrest : ∀ x ∈ rest, isDigit x = true := fun x hx => hds x (List.mem_cons_of_mem d hx)
  have hk : (dp - 1).natAbs < 100000 := by omega
  have hex := expVal_natDigits _ hk
  have htail : ∃ ex : Int, ex = dp - 1 ∧
      ((∃ ds, 'e' :: (if dp - 1 < 0 then '-' else '+') :: natDigits (dp - 1).natAbs =
          'e' :: '-' :: ds ∧ ex = -(expVal ds : Int)) ∨
       (∃ ds, 'e' :: (if dp - 1 < 0 then '-' else '+') :: natDigits (dp - 1).natAbs =
          'e' :: '+' :: ds ∧ ex = (expVal ds : Int))) := by
    by_cases hneg : dp - 1 < 0
    · refine ⟨dp - 1, rfl, Or.inl ⟨natDigits (dp - 1).natAbs, by rw [if_pos hneg], ?_⟩⟩
      rw [hex]; omega
    · refine ⟨dp - 1, rfl, Or.inr ⟨natDigits (dp - 1).natAbs, by rw [if_neg hneg], ?_⟩⟩
      rw [hex]; omega
  obtain ⟨ex, hexv, htl⟩ := htail
  cases rest with
  | nil =>
    have := readFloat_eq neg false d [] []
      ('e' :: (if dp - 1 < 0 then '-' else '+') :: natDigits (dp - 1).natAbs) ex hd
      (fun x hx => absurd hx (List.not_mem_nil x)) (fun x hx => absurd hx (List.not_mem_nil x))
      (htl.elim (fun h => Or.inr (Or.inl h)) (fun h => Or.inr (Or.inr (Or.inl h))))
    simp only [Bool.false_eq_true, if_false, List.nil_append, List.append_nil, List.length_nil,
      Nat.cast_zero, sub_zero] at this
    unfold fmtE
    simp only [List.singleton_append, List.cons_append, List.nil_append] at this ⊢
    rw [this, hexv]
    simp
  | cons r0 rs =>
    have := readFloat_eq neg true d [] (r0 :: rs)
      ('e' :: (if dp - 1 < 0 then '-' else '+') :: natDigits (dp - 1).natAbs) ex hd
      (fun x hx => absurd hx (List.not_mem_nil x)) hrest
      (htl.elim (fun h => Or.inr (Or.inl h)) (fun h => Or.inr (Or.inr (Or.inl h))))
    simp only [if_true, List.nil_append, List.append_nil] at this
    unfold fmtE
    simp only [List.singleton_append, List.cons_append, List.nil_append] at this ⊢
    rw [this, hexv]
    simp only [List.length_cons]
    congr 1
    push_cast
    ring

/-- What `readFloat` reads from the `%f` form of digits that reach up to the
decimal point or stand in front of it: the digits with zeros behind them. -/
theorem readFloat_fmtF_int (neg : Bool) (d : Char) (rest : List Char) (dp : Int)
    (hds : ∀ c ∈ d :: rest, isDigit c = true) (hdp : ((d :: rest).length : Int) ≤ dp) :
    readFloat ((if neg then ['-'] else []) ++ fmtF (d :: rest) dp) =
      ⟨neg, digitsVal (d :: rest) * 10 ^ (dp.toNat - (d :: rest).length), 0⟩ := by
  have hd := hds d (List.mem_cons_self d rest)
  have hrest : ∀ x ∈ rest, isDigit x = true := fun x hx => hds x (List.mem_cons_of_mem d hx)
  have hlen : (d :: rest).length ≤ dp.toNat := by
    have := hdp
    simp only [List.length_cons] at this ⊢
    omega
  have hpos : 0 < dp := by
    simp only [List.length_cons] at hdp
    omega
  have htext : fmtF (d :: rest) dp =
      d :: (rest ++ List.replicate (dp.toNat - (d :: rest).length) '0') := by
    unfold fmtF
    simp only
    rw [if_pos hpos, if_neg (by omega), List.append_nil, List.take_of_length_le hlen]
    rfl
  have := readFloat_eq neg false d (rest ++ List.replicate (dp.toNat - (d :: rest).length) '0')
    [] [] 0 hd (by
      intro x hx
      rcases List.mem_append.mp hx with h | h
      · exact hrest x h
      · exact isDigit_of_mem_replicate _ x h)
    (fun x hx => absurd hx (List.not_mem_nil x)) (Or.inl ⟨rfl, rfl⟩)
  simp only [Bool.false_eq_true, if_false, List.nil_append, List.append_nil, List.length_nil,
    Nat.cast_zero, sub_zero] at this
  rw [htext, this]
  congr 1
  have e : d :: (rest ++ List.replicate (dp.toNat - (d :: rest).length) '0') =
      (d :: rest) ++ List.replicate (dp.toNat - (d :: rest).length) '0' := rfl
  rw [e]
  unfold digitsVal
  rw [List.foldl_append, foldl_digits_zeros]

/-- What `readFloat` reads from the `%f` form of digits that stand behind the
decimal point, all or some of them. -/
theorem readFloat_fmtF_frac (neg : Bool) (d : Char) (rest : List Char) (dp : Int)
    (hds : ∀ c ∈ d :: rest, isDigit c = true) (hdp : dp < ((d :: rest).length : Int)) :
    readFloat ((if neg then ['-'] else []) ++ fmtF (d :: rest) dp) =
      ⟨neg, digitsVal (d :: rest), dp - ((d :: rest).length : Int)⟩ := by
  have hd := hds d (List.mem_cons_self d rest)
  have hrest : ∀ x ∈ rest, isDigit x = true := fun x hx => hds x (List.mem_cons_of_mem d hx)
  by_cases hpos : 0 < dp
  · obtain ⟨k, hk⟩ : ∃ k, dp.toNat = k + 1 := ⟨dp.toNat - 1, by omega⟩
    have hklen : k + 1 < (d :: rest).length := by
      have := hdp
      omega
    have htext : fmtF (d :: rest) dp = d :: (rest.take k ++ ('.' :: rest.drop k)) := by
      unfold fmtF
      simp only
      rw [if_pos hpos, if_pos (by omega), hk]
      have e1 : k + 1 - (d :: rest).length = 0 := by omega
      have e2 : (-dp).toNat = 0 := by omega
      rw [e1, e2]
      simp
    have := readFloat_eq neg true d (rest.take k) (rest.drop k) [] 0 hd
      (fun x hx => hrest x (List.mem_of_mem_take hx))
      (fun x hx => hrest x (List.mem_of_mem_drop hx)) (Or.inl ⟨rfl, rfl⟩)
    simp only [if_true, List.append_nil] at this
    rw [htext]
    refine this.trans ?_
    have e3 : d :: List.take k rest ++ List.drop k rest = d :: rest := by
      rw [List.cons_append, List.take_append_drop]
    rw [e3]
    congr 1
    simp only [List.length_drop, List.length_cons] at hklen ⊢
    omega
  · have htext : fmtF (d :: rest) dp =
        '0' :: ('.' :: (List.replicate (-dp).toNat '0' ++ (d :: rest))) := by
      unfold fmtF
      simp only
      rw [if_neg hpos, if_pos (by omega)]
      have e1 : dp.toNat = 0 := by omega
      rw [e1]
      rfl
    have := readFloat_eq neg true '0' [] (List.replicate (-dp).toNat '0' ++ (d :: rest)) [] 0
      (by decide) (fun x hx => absurd hx (List.not_mem_nil x)) (by
        intro x hx
        rcases List.mem_append.mp hx with h | h
        · exact isDigit_of_mem_replicate _ x h
        · exact hds x h)
      (Or.inl ⟨rfl, rfl⟩)
    simp only [if_true, List.append_nil, List.nil_append] at this
    rw [htext]
    refine this.trans ?_
    have e3 : ['0'] ++ (List.replicate (-dp).toNat '0' ++ d :: rest) =
        List.replicate ((-dp).toNat + 1) '0' ++ (d :: rest) := by
      rw [List.replicate_succ]
      rfl
    rw [e3, digitsVal_zeros]
    congr 1
    simp only [List.length_append, List.length_replicate, List.length_cons]
    push_cast
    omega

/-- The numerator of the value of a `float64` in canonical form is below `10^1024`. -/
theorem fraction_num_lt (f : Float64) (hc : f.canonical = true) : f.fraction.1 < 10 ^ 1024 := by
  obtain ⟨c1, c2, c3, c4⟩ := (canonical_iff f).mp hc
  unfold Float64.fraction
  split
  · simp only
    have h1 : f.exp.toNat ≤ 971 := by omega
    calc f.mant * 2 ^ f.exp.toNat < 2 ^ 53 * 2 ^ f.exp.toNat :=
          Nat.mul_lt_mul_of_pos_right c1 (Nat.pos_pow_of_pos _ (by decide))
      _ ≤ 2 ^ 53 * 2 ^ 971 :=
          Nat.mul_le_mul_left _ (Nat.pow_le_pow_right (by decide) h1)
      _ = 2 ^ 1024 := by rw [← pow_add]
      _ ≤ 10 ^ 1024 := Nat.pow_le_pow_left (by decide) _
  · simp only
    calc f.mant < 2 ^ 53 := c1
      _ ≤ 2 ^ 1024 := Nat.pow_le_pow_right (by decide) (by decide)
      _ ≤ 10 ^ 1024 := Nat.pow_le_pow_left (by decide) _

/-- The quotient `scale10` stands for, a little way in front of the decimal
point of a `float64` in canonical form, is below `10^2117`. -/
theorem scale10_quot_lt (f : Float64) (hc : f.canonical = true) (u : Int) (hu : -1093 ≤ u) :
    (scale10 f.fraction u).1 / (scale10 f.fraction u).2 < 10 ^ 2117 := by
  have hnum := fraction_num_lt f hc
  apply lt_of_le_of_lt (Nat.div_le_self _ _)
  unfold scale10
  split
  · simp only
    exact lt_of_lt_of_le hnum (Nat.pow_le_pow_right (by decide) (by decide))
  · simp only
    have h1 : (-u).toNat ≤ 1093 := by omega
    calc f.fraction.1 * 10 ^ (-u).toNat < 10 ^ 1024 * 10 ^ (-u).toNat :=
          Nat.mul_lt_mul_of_pos_right hnum (Nat.pos_pow_of_pos _ (by decide))
      _ ≤ 10 ^ 1024 * 10 ^ 1093 :=
          Nat.mul_le_mul_left _ (Nat.pow_le_pow_right (by decide) h1)
      _ = 10 ^ 2117 := by rw [← pow_add]

/-- A `float64` in canonical form, written as `encoding/json` writes it, reads
back as the same `float64`. -/
theorem parseFloat_formatFloat (f : Float64) (hc : f.canonical = true) :
    parseFloat (formatFloat f) = some f := by
  obtain ⟨c1, c2, c3, c4⟩ := (canonical_iff f).mp hc
  by_cases hm0 : f.mant = 0
  · have hexp : f.exp = -1074 := by
      rcases c4 with h | h
      · rw [hm0] at h
        exact absurd h (by decide)
      · exact h
    obtain ⟨neg, mant, exp⟩ := f
    simp only at hm0 hexp
    subst hm0 hexp
    cases neg <;> rfl
  · have hm : 0 < f.mant := Nat.pos_of_ne_zero hm0
    obtain ⟨p1, p2⟩ := decimalPoint_bounds f hc
    obtain ⟨hr, k, k1, k2, k3, k4⟩ := shortestAux_spec f hc hm 16 1 rfl
    have hq := scale10_quot_lt f hc (decimalPoint f.fraction - k) (by omega)
    obtain ⟨t1, t2, t3, t4⟩ := trimZeros_roundDecimal f.neg 17
      (shortestAux f (decimalPoint f.fraction) 16 1).1
      (shortestAux f (decimalPoint f.fraction) 16 1).2
    rw [hr] at t1
    have hshort : shortest f =
        (natDigits (trimZeros 17 (shortestAux f (decimalPoint f.fraction) 16 1).1
          (shortestAux f (decimalPoint f.fraction) 16 1).2).1,
         ((natDigits (trimZeros 17 (shortestAux f (decimalPoint f.fraction) 16 1).1
          (shortestAux f (decimalPoint f.fraction) 16 1).2).1).length : Int) +
          (trimZeros 17 (shortestAux f (decimalPoint f.fraction) 16 1).1
          (shortestAux f (decimalPoint f.fraction) 16 1).2).2) := rfl
    generalize shortestAux f (decimalPoint f.fraction) 16 1 = r at *
    generalize trimZeros 17 r.1 r.2 = t at *
    have ht0 : t.1 ≠ 0 := by
      intro h0
      unfold roundDecimal at t1
      simp only at t1
      rw [if_pos h0, Option.some.injEq] at t1
      have := congrArg Float64.mant t1
      simp only at this
      omega
    obtain ⟨d, rest, hD, hdig⟩ := natDigits_digits t.1
    have hval : digitsVal (d :: rest) = t.1 := by rw [← hD]; exact digitsVal_natDigits t.1
    have hlen : (natDigits t.1).length ≤ 2118 := by
      apply natDigits_length_le _ _ _ (by decide)
      calc t.1 ≤ r.1 := t2
        _ ≤ _ := k4
        _ < 10 ^ 2117 + 1 := by omega
        _ ≤ 10 ^ 2118 := by
          have : 10 ^ 2118 = 10 ^ 2117 * 10 := pow_succ 10 2117
          have hp : 0 < 10 ^ 2117 := Nat.pos_pow_of_pos _ (by decide)
          omega
    have hlen1 := natDigits_length_pos t.1
    rw [hD] at hshort hlen hlen1
    unfold formatFloat
    simp only
    rw [if_neg hm0, hshort]
    simp only
    split
    · rw [parseFloat_eq]
      simp only
      rw [readFloat_fmtE f.neg d rest _ hdig (by omega) (by omega)]
      have : ((d :: rest).length : Int) + t.2 - ((d :: rest).length : Int) = t.2 := by ring
      rw [this, hval]
      exact t1
    · rw [parseFloat_eq]
      simp only
      by_cases hint : ((d :: rest).length : Int) ≤ ((d :: rest).length : Int) + t.2
      · rw [readFloat_fmtF_int f.neg d rest _ hdig hint, hval, ← t1]
        have ht2 : 0 ≤ t.2 := by omega
        have e1 : (((d :: rest).length : Int) + t.2).toNat - (d :: rest).length = t.2.toNat := by
          omega
        rw [e1]
        unfold roundDecimal
        simp only
        rw [if_neg ht0, if_neg (Nat.mul_ne_zero ht0 (Nat.pos_pow_of_pos _ (by decide)).ne'),
          if_pos (le_refl _), if_pos ht2]
        simp
      · rw [readFloat_fmtF_frac f.neg d rest _ hdig (by omega)]
        have : ((d :: rest).length : Int) + t.2 - ((d :: rest).length : Int) = t.2 := by ring
        rw [this, hval]
        exact t1

/-- The floats of the elements are canonical when those of each element are. -/
theorem floatsCanonicalList_iff (l : List GoValue) :
    floatsCanonicalList l = true ↔ ∀ v ∈ l, v.floatsCanonical = true := by
  induction l with
  | nil => simp [floatsCanonicalList]
  | cons x xs ih => simp [floatsCanonicalList, ih]

/-- The floats of the entries are canonical when those of each entry are. -/
theorem floatsCanonicalEntries_iff (l : List (String × GoValue)) :
    floatsCanonicalEntries l = true ↔ ∀ kv ∈ l, kv.2.floatsCanonical = true := by
  induction l with
  | nil => simp [floatsCanonicalEntries]
  | cons kv xs ih =>
    obtain ⟨k, x⟩ := kv
    simp [floatsCanonicalEntries, ih]

mutual
/-- What `json.Unmarshal` stores in an `interface{}` holds `float64` numbers
in canonical form only. -/
theorem floatsCanonical_toInterface : ∀ (j : JSON) (g : GoValue), toInterface j = some g →
    g.floatsCanonical = true
  | JSON.null, g, h => by
      simp only [toInterface, Option.some.injEq] at h
      subst h; rfl
  | JSON.bool b, g, h => by
      simp only [toInterface, Option.some.injEq] at h
      subst h; rfl
  | JSON.number lit, g, h => by
      simp only [toInterface] at h
      split at h
      · rename_i f hf
        simp only [Option.some.injEq] at h
        subst h
        exact parseFloat_canonical lit f hf
      · exact absurd h (by simp)
  | JSON.string s, g, h => by
      simp only [toInterface, Option.some.injEq] at h
      subst h; rfl
  | JSON.array elems, g, h => by
      simp only [toInterface] at h
      split at h
      · rename_i vs hvs
        simp only [Option.some.injEq] at h
        subst h
        rw [GoValue.floatsCanonical, floatsCanonicalList_iff]
        exact floatsCanonical_toInterfaceList elems vs hvs
      · exact absurd h (by simp)
  | JSON.object members, g, h => by
      simp only [toInterface] at h
      split at h
      · rename_i kvs hkvs
        simp only [Option.some.injEq] at h
        subst h
        rw [GoValue.floatsCanonical, floatsCanonicalEntries_iff]
        intro kv hkv
        rcases mem_mapSetAll kvs [] kv hkv with h1 | h1
        · exact absurd h1 (List.not_mem_nil kv)
        · exact floatsCanonical_toInterfaceMembers members kvs hkvs kv h1
      · exact absurd h (by simp)
/-- The same for the elements of an array. -/
theorem floatsCanonical_toInterfaceList : ∀ (l : List JSON) (gs : List GoValue),
    toInterfaceList l = some gs → ∀ g ∈ gs, g.floatsCanonical = true
  | [], gs, h, g, hg => by
      simp only [toInterfaceList, Option.some.injEq] at h
      subst h
      exact absurd hg (List.not_mem_nil g)
  | x :: xs, gs, h, g, hg => by
      simp only [toInterfaceList] at h
      split at h
      · rename_i v vs hv hvs
        simp only [Option.some.injEq] at h
        subst h
        rcases List.mem_cons.mp hg with h3 | h3
        · subst h3
          exact floatsCanonical_toInterface x g hv
        · exact floatsCanonical_toInterfaceList xs vs hvs g h3
      · exact absurd h (by simp)
/-- The same for the members of an object. -/
theorem floatsCanonical_toInterfaceMembers : ∀ (l : List (String × JSON))
    (kvs : List (String × GoValue)), toInterfaceMembers l = some kvs →
    ∀ kv ∈ kvs, kv.2.floatsCanonical = true
  | [], kvs, h, kv, hkv => by
      simp only [toInterfaceMembers, Option.some.injEq] at h
      subst h
      exact absurd hkv (List.not_mem_nil kv)
  | (k, x) :: xs, kvs, h, kv, hkv => by
      simp only [toInterfaceMembers] at h
      split at h
      · rename_i v vs hv hvs
        simp only [Option.some.injEq] at h
        subst h
        rcases List.mem_cons.mp hkv with h3 | h3
        · subst h3
          exact floatsCanonical_toInterface x v hv
        · exact floatsCanonical_toInterfaceMembers xs vs hvs kv h3
      · exact absurd h (by simp)
end

/-- Decoding the members of an object into a request leaves an id whose
`float64` numbers are canonical, when those of the id before are. -/
theorem floatsCanonical_id_foldlM (members : List (String × JSON)) (req req2 : JSONRPCRequest)
    (h : members.foldlM JSONRPCRequest.setMember req = some req2)
    (hreq : req.ID.floatsCanonical = true) : req2.ID.floatsCanonical = true := by
  induction members generalizing req with
  | nil =>
    simp only [List.foldlM, pure, Option.some.injEq] at h
    subst h; exact hreq
  | cons kv rest ih =>
    obtain ⟨k, x⟩ := kv
    rw [List.foldlM_cons] at h
    cases hset : JSONRPCRequest.setMember req (k, x) with
    | none => rw [hset] at h; exact absurd h (by simp [bind, Option.bind])
    | some r =>
      rw [hset] at h
      refine ih r h ?_
      unfold JSONRPCRequest.setMember at hset
      simp only at hset
      split_ifs at hset
      · cases hs : decodeString req.JSONRPC x with
        | none => rw [hs] at hset; exact absurd hset (by simp)
        | some v =>
          rw [hs] at hset
          simp only [Option.map_some', Option.some.injEq] at hset
          subst hset; exact hreq
      · cases hs : toInterface x with
        | none => rw [hs] at hset; exact absurd hset (by simp)
        | some v =>
          rw [hs] at hset
          simp only [Option.map_some', Option.some.injEq] at hset
          subst hset
          exact floatsCanonical_toInterface x v hs
      · cases hs : decodeString req.Method x with
        | none => rw [hs] at hset; exact absurd hset (by simp)
        | some v =>
          rw [hs] at hset
          simp only [Option.map_some', Option.some.injEq] at hset
          subst hset; exact hreq
      · simp only [Option.some.injEq] at hset
        subst hset; exact hreq
      · simp only [Option.some.injEq] at hset
        subst hset; exact hreq

/-- The id a request decodes to holds `float64` numbers in canonical form only. -/
theorem floatsCanonical_requestID (requestJSON : String) :
    (requestID requestJSON).floatsCanonical = true := by
  unfold requestID
  cases hreq : unmarshalRequest requestJSON with
  | none => rfl
  | some req =>
    simp only
    unfold unmarshalRequest at hreq
    cases hv : checkValid requestJSON with
    | none => rw [hv] at hreq; exact absurd hreq (by simp)
    | some v =>
      rw [hv] at hreq
      simp only at hreq
      cases v with
      | object members =>
        simp only [decodeRequest] at hreq
        exact floatsCanonical_id_foldlM members JSONRPCRequest.zero req hreq rfl
      | null =>
        simp only [decodeRequest, Option.some.injEq] at hreq
        subst hreq; rfl
      | bool b => exact absurd hreq (by simp [decodeRequest])
      | number l => exact absurd hreq (by simp [decodeRequest])
      | string l => exact absurd hreq (by simp [decodeRequest])
      | array l => exact absurd hreq (by simp [decodeRequest])

/-- The keys of every entry are distinct when those of each entry are. -/
theorem keysDistinctList_iff (l : List GoValue) :
    keysDistinctList l = true ↔ ∀ v ∈ l, v.keysDistinct = true := by
  induction l with
  | nil => simp [keysDistinctList]
  | cons x xs ih => simp [keysDistinctList, ih]

/-- The keys within the values of entries are distinct when those of each are. -/
theorem keysDistinctEntries_iff (l : List (String × GoValue)) :
    keysDistinctEntries l = true ↔ ∀ kv ∈ l, kv.2.keysDistinct = true := by
  induction l with
  | nil => simp [keysDistinctEntries]
  | cons kv xs ih =>
    obtain ⟨k, x⟩ := kv
    simp [keysDistinctEntries, ih]

/-- Assigning under a key the map does not hold adds an entry at its end. -/
theorem mapSet_of_not_mem (m : List (String × GoValue)) (key : String) (v : GoValue)
    (h : key ∉ m.map Prod.fst) : mapSet m key v = m ++ [(key, v)] := by
  induction m with
  | nil => rfl
  | cons x rest ih =>
    obtain ⟨k, w⟩ := x
    simp only [List.map_cons, List.mem_cons, not_or] at h
    simp only [mapSet]
    rw [if_neg (fun hk => h.1 hk.symm), ih h.2]
    rfl

/-- Assigning entries under keys that are distinct and new adds them in order. -/
theorem mapSetAll_of_nodup (kvs m : List (String × GoValue))
    (h : (m.map Prod.fst ++ kvs.map Prod.fst).Nodup) : mapSetAll m kvs = m ++ kvs := by
  induction kvs generalizing m with
  | nil => simp [mapSetAll]
  | cons x rest ih =>
    have hx : x.1 ∉ m.map Prod.fst := by
      intro hmem
      rw [List.nodup_append] at h
      exact h.2.2 hmem (by simp)
    have h2 : mapSetAll m (x :: rest) = mapSetAll (mapSet m x.1 x.2) rest := rfl
    rw [h2, mapSet_of_not_mem m x.1 x.2 hx, ih]
    · simp
    · simpa [List.map_append] using h

/-- The keys of a map after an assignment are its keys and the key assigned. -/
theorem keys_mapSet (m : List (String × GoValue)) (key : String) (v : GoValue) :
    (∀ k, k ∈ (mapSet m key v).map Prod.fst ↔ k ∈ m.map Prod.fst ∨ k = key) ∧
    ((m.map Prod.fst).Nodup → ((mapSet m key v).map Prod.fst).Nodup) := by
  induction m with
  | nil => simp [mapSet]
  | cons x rest ih =>
    obtain ⟨k0, w⟩ := x
    by_cases hk : k0 = key
    · subst hk
      simp only [mapSet, if_true, List.map_cons]
      refine ⟨fun k => ?_, fun h => h⟩
      simp only [List.mem_cons]
      tauto
    · simp only [mapSet, if_neg hk, List.map_cons]
      refine ⟨fun k => ?_, fun h => ?_⟩
      · rw [List.mem_cons, ih.1 k, List.mem_cons, or_assoc]
      · rw [List.nodup_cons] at h ⊢
        refine ⟨fun hmem => ?_, ih.2 h.2⟩
        rcases (ih.1 k0).mp hmem with h3 | h3
        · exact h.1 h3
        · exact hk h3

/-- The keys of a map stay distinct under assignments. -/
theorem nodup_keys_mapSetAll (kvs m : List (String × GoValue))
    (h : (m.map Prod.fst).Nodup) : ((mapSetAll m kvs).map Prod.fst).Nodup := by
  induction kvs generalizing m with
  | nil => exact h
  | cons x rest ih => exact ih _ ((keys_mapSet m x.1 x.2).2 h)

/-- Decoding the members of an object keeps their keys. -/
theorem keys_toInterfaceMembers (l : List (String × JSON)) (kvs : List (String × GoValue))
    (h : toInterfaceMembers l = some kvs) : kvs.map Prod.fst = l.map Prod.fst := by
  induction l generalizing kvs with
  | nil =>
    simp only [toInterfaceMembers, Option.some.injEq] at h
    subst h; rfl
  | cons x rest ih =>
    obtain ⟨k, j⟩ := x
    simp only [toInterfaceMembers] at h
    split at h
    · rename_i v vs hv hvs
      simp only [Option.some.injEq] at h
      subst h
      simp [ih vs hvs]
    · exact absurd h (by simp)

/-- What the members of an object decode to, member by member. -/
theorem toInterfaceMembers_cons (k : String) (j : JSON) (rest : List (String × JSON))
    (v : GoValue) (vs : List (String × GoValue)) (hv : toInterface j = some v)
    (hvs : toInterfaceMembers rest = some vs) :
    toInterfaceMembers ((k, j) :: rest) = some ((k, v) :: vs) := by
  simp [toInterfaceMembers, hv, hvs]

/-- The members of an object that decodes decode one by one. -/
theorem toInterfaceMembers_cons_inv (k : String) (j : JSON) (rest : List (String × JSON))
    (kvs : List (String × GoValue)) (h : toInterfaceMembers ((k, j) :: rest) = some kvs) :
    ∃ v vs, toInterface j = some v ∧ toInterfaceMembers rest = some vs ∧ kvs = (k, v) :: vs := by
  simp only [toInterfaceMembers] at h
  split at h
  · rename_i v vs hv hvs
    simp only [Option.some.injEq] at h
    exact ⟨v, vs, hv, hvs, h.symm⟩
  · exact absurd h (by simp)

/-- Members in another order decode to the same entries in that order. -/
theorem toInterfaceMembers_perm (l1 l2 : List (String × JSON)) (hp : l1.Perm l2) :
    ∀ k1, toInterfaceMembers l1 = some k1 →
      ∃ k2, toInterfaceMembers l2 = some k2 ∧ k1.Perm k2 := by
  induction hp with
  | nil =>
    intro k1 h
    exact ⟨k1, h, List.Perm.refl _⟩
  | cons x _ ih =>
    intro k1 h
    obtain ⟨k, j⟩ := x
    obtain ⟨v, vs, hv, hvs, he⟩ := toInterfaceMembers_cons_inv k j _ k1 h
    obtain ⟨k2, hk2, hperm⟩ := ih vs hvs
    subst he
    exact ⟨(k, v) :: k2, toInterfaceMembers_cons k j _ v k2 hv hk2, hperm.cons _⟩
  | swap x y l =>
    intro k1 h
    obtain ⟨kx, jx⟩ := x
    obtain ⟨ky, jy⟩ := y
    obtain ⟨vy, vs, hvy, hvs, he⟩ := toInterfaceMembers_cons_inv ky jy _ k1 h
    obtain ⟨vx, vs2, hvx, hvs2, he2⟩ := toInterfaceMembers_cons_inv kx jx _ vs hvs
    subst he2
    subst he
    exact ⟨(kx, vx) :: (ky, vy) :: vs2,
      toInterfaceMembers_cons kx jx _ vx _ hvx (toInterfaceMembers_cons ky jy _ vy _ hvy hvs2),
      List.Perm.swap _ _ _⟩
  | trans _ _ ih1 ih2 =>
    intro k1 h
    obtain ⟨k2, hk2, hp1⟩ := ih1 k1 h
    obtain ⟨k3, hk3, hp2⟩ := ih2 k2 hk2
    exact ⟨k3, hk3, hp1.trans hp2⟩

/-- The members written for the entries of a map have the keys of the entries. -/
theorem keys_toJSONMembers (l : List (String × GoValue)) :
    (toJSONMembers l).map Prod.fst = l.map Prod.fst := by
  rw [toJSONMembers_eq_map, List.map_map]
  rfl

mutual
/-- A value whose numbers are well-formed `float64` and whose maps have distinct
keys, written as JSON and read back into an `interface{}`, is the same value. -/
theorem same_toInterface_toJSON : ∀ g : GoValue, g.floatsCanonical = true →
    g.keysDistinct = true → ∃ g2, toInterface g.toJSON = some g2 ∧ GoValue.Same g g2
  | GoValue.nil, _, _ => ⟨_, rfl, GoValue.Same.nil⟩
  | GoValue.bool b, _, _ => ⟨_, rfl, GoValue.Same.bool b⟩
  | GoValue.float64 f, h, _ => by
      refine ⟨GoValue.float64 f, ?_, GoValue.Same.float64 f⟩
      rw [GoValue.toJSON, toInterface, parseFloat_formatFloat f h]
  | GoValue.string x, _, _ => ⟨_, rfl, GoValue.Same.string x⟩
  | GoValue.slice elems, h, hk => by
      rw [GoValue.floatsCanonical] at h
      rw [GoValue.keysDistinct] at hk
      obtain ⟨vs, hvs, hsame⟩ := same_toInterface_toJSONList elems h hk
      refine ⟨GoValue.slice vs, ?_, GoValue.Same.slice hsame⟩
      simp [GoValue.toJSON, toInterface, hvs]
  | GoValue.map entries, h, hk => by
      rw [GoValue.floatsCanonical] at h
      rw [GoValue.keysDistinct, Bool.and_eq_true, decide_eq_true_eq] at hk
      obtain ⟨kvs, hkvs, hsame⟩ := same_toInterface_toJSONMembers entries h hk.2
      obtain ⟨k2, hk2, hperm⟩ := toInterfaceMembers_perm _ _
        (sortByKey_perm (toJSONMembers entries)).symm kvs hkvs
      have hkeys : (k2.map Prod.fst).Nodup := by
        rw [keys_toInterfaceMembers _ _ hk2]
        have hp := (sortByKey_perm (toJSONMembers entries)).map Prod.fst
        rw [keys_toJSONMembers] at hp
        exact hp.nodup_iff.mpr hk.1
      refine ⟨GoValue.map k2, ?_, GoValue.Same.map hsame hperm⟩
      have hset : mapSetAll [] k2 = k2 := by
        rw [mapSetAll_of_nodup k2 [] (by simpa using hkeys)]
        rfl
      simp [GoValue.toJSON, toInterface, hk2, hset]
/-- The same for the elements of a slice. -/
theorem same_toInterface_toJSONList : ∀ l : List GoValue, floatsCanonicalList l = true →
    keysDistinctList l = true →
    ∃ vs, toInterfaceList (toJSONList l) = some vs ∧ SameList l vs
  | [], _, _ => ⟨[], rfl, SameList.nil⟩
  | v :: rest, h, hk => by
      rw [floatsCanonicalList, Bool.and_eq_true] at h
      rw [keysDistinctList, Bool.and_eq_true] at hk
      obtain ⟨v2, hv2, hs1⟩ := same_toInterface_toJSON v h.1 hk.1
      obtain ⟨vs, hvs, hs2⟩ := same_toInterface_toJSONList rest h.2 hk.2
      refine ⟨v2 :: vs, ?_, SameList.cons hs1 hs2⟩
      simp [toJSONList, toInterfaceList, hv2, hvs]
/-- The same for the entries of a map, in their order. -/
theorem same_toInterface_toJSONMembers : ∀ l : List (String × GoValue),
    floatsCanonicalEntries l = true → keysDistinctEntries l = true →
    ∃ kvs, toInterfaceMembers (toJSONMembers l) = some kvs ∧ SameEntries l kvs
  | [], _, _ => ⟨[], rfl, SameEntries.nil⟩
  | (k, v) :: rest, h, hk => by
      rw [floatsCanonicalEntries, Bool.and_eq_true] at h
      rw [keysDistinctEntries, Bool.and_eq_true] at hk
      obtain ⟨v2, hv2, hs1⟩ := same_toInterface_toJSON v h.1 hk.1
      obtain ⟨vs, hvs, hs2⟩ := same_toInterface_toJSONMembers rest h.2 hk.2
      refine ⟨(k, v2) :: vs, ?_, SameEntries.cons hs1 hs2⟩
      simp [toJSONMembers, toInterfaceMembers, hv2, hvs]
end

/-- A nil, a bool, a number or a string is the same value only as itself. -/
theorem eq_of_same_scalar (g g2 : GoValue) (h : GoValue.Same g g2)
    (hs : g = GoValue.nil ∨ (∃ b, g = GoValue.bool b) ∨ (∃ f, g = GoValue.float64 f) ∨
      ∃ x, g = GoValue.string x) : g2 = g := by
  rcases hs with h1 | ⟨b, h1⟩ | ⟨f, h1⟩ | ⟨x, h1⟩ <;> subst h1 <;> cases h <;> rfl

mutual
/-- What `json.Unmarshal` stores in an `interface{}` holds maps with distinct
keys only. -/
theorem keysDistinct_toInterface : ∀ (j : JSON) (g : GoValue), toInterface j = some g →
    g.keysDistinct = true
  | JSON.null, g, h => by
      simp only [toInterface, Option.some.injEq] at h
      subst h; rfl
  | JSON.bool b, g, h => by
      simp only [toInterface, Option.some.injEq] at h
      subst h; rfl
  | JSON.number lit, g, h => by
      simp only [toInterface] at h
      split at h
      · simp only [Option.some.injEq] at h
        subst h; rfl
      · exact absurd h (by simp)
  | JSON.string s, g, h => by
      simp only [toInterface, Option.some.injEq] at h
      subst h; rfl
  | JSON.array elems, g, h => by
      simp only [toInterface] at h
      split at h
      · rename_i vs hvs
        simp only [Option.some.injEq] at h
        subst h
        rw [GoValue.keysDistinct, keysDistinctList_iff]
        exact keysDistinct_toInterfaceList elems vs hvs
      · exact absurd h (by simp)
  | JSON.object members, g, h => by
      simp only [toInterface] at h
      split at h
      · rename_i kvs hkvs
        simp only [Option.some.injEq] at h
        subst h
        rw [GoValue.keysDistinct, Bool.and_eq_true, decide_eq_true_eq, keysDistinctEntries_iff]
        refine ⟨nodup_keys_mapSetAll kvs [] List.nodup_nil, ?_⟩
        intro kv hkv
        rcases mem_mapSetAll kvs [] kv hkv with h1 | h1
        · exact absurd h1 (List.not_mem_nil kv)
        · exact keysDistinct_toInterfaceMembers members kvs hkvs kv h1
      · exact absurd h (by simp)
/-- The same for the elements of an array. -/
theorem keysDistinct_toInterfaceList : ∀ (l : List JSON) (gs : List GoValue),
    toInterfaceList l = some gs → ∀ g ∈ gs, g.keysDistinct = true
  | [], gs, h, g, hg => by
      simp only [toInterfaceList, Option.some.injEq] at h
      subst h
      exact absurd hg (List.not_mem_nil g)
  | x :: xs, gs, h, g, hg => by
      simp only [toInterfaceList] at h
      split at h
      · rename_i v vs hv hvs
        simp only [Option.some.injEq] at h
        subst h
        rcases List.mem_cons.mp hg with h3 | h3
        · subst h3
          exact keysDistinct_toInterface x g hv
        · exact keysDistinct_toInterfaceList xs vs hvs g h3
      · exact absurd h (by simp)
/-- The same for the members of an object. -/
theorem keysDistinct_toInterfaceMembers : ∀ (l : List (String × JSON))
    (kvs : List (String × GoValue)), toInterfaceMembers l = some kvs →
    ∀ kv ∈ kvs, kv.2.keysDistinct = true
  | [], kvs, h, kv, hkv => by
      simp only [toInterfaceMembers, Option.some.injEq] at h
      subst h
      exact absurd hkv (List.not_mem_nil kv)
  | (k, x) :: xs, kvs, h, kv, hkv => by
      simp only [toInterfaceMembers] at h
      split at h
      · rename_i v vs hv hvs
        simp only [Option.some.injEq] at h
        subst h
        rcases List.mem_cons.mp hkv with h3 | h3
        · subst h3
          exact keysDistinct_toInterface x v hv
        · exact keysDistinct_toInterfaceMembers xs vs hvs kv h3
      · exact absurd h (by simp)
end

/-- The relation at work: a map is the same value whatever the order of its
entries, and is not the same value as a map that holds another value under a
key, has a key more, or as a slice. -/
theorem same_examples :
    GoValue.Same (GoValue.map [("a", GoValue.nil), ("b", GoValue.bool true)])
      (GoValue.map [("b", GoValue.bool true), ("a", GoValue.nil)]) ∧
    ¬ GoValue.Same (GoValue.map [("a", GoValue.nil)]) (GoValue.map [("a", GoValue.bool true)]) ∧
    ¬ GoValue.Same (GoValue.map [("a", GoValue.nil)])
      (GoValue.map [("a", GoValue.nil), ("b", GoValue.nil)]) ∧
    ¬ GoValue.Same (GoValue.map []) (GoValue.slice []) := by
  refine ⟨?_, ?_, ?_, ?_⟩
  · exact GoValue.Same.map
      (SameEntries.cons GoValue.Same.nil (SameEntries.cons (GoValue.Same.bool true) SameEntries.nil))
      (List.Perm.swap _ _ _)
  · intro h
    cases h with
    | map hs hp =>
      cases hs with
      | cons h1 h2 =>
        cases h2
        have := hp.eq_singleton
        simp only [List.cons.injEq, Prod.mk.injEq, true_and, and_true] at this
        subst this
        cases h1
  · intro h
    cases h with
    | map hs hp =>
      cases hs with
      | cons h1 h2 =>
        cases h2
        have := hp.length_eq
        simp at this
  · intro h
    cases h

/-- Decoding the members of an object into a request leaves an id whose maps
have distinct keys, when those of the id before have. -/
theorem keysDistinct_id_foldlM (members : List (String × JSON)) (req req2 : JSONRPCRequest)
    (h : members.foldlM JSONRPCRequest.setMember req = some req2)
    (hreq : req.ID.keysDistinct = true) : req2.ID.keysDistinct = true := by
  induction members generalizing req with
  | nil =>
    simp only [List.foldlM, pure, Option.some.injEq] at h
    subst h; exact hreq
  | cons kv rest ih =>
    obtain ⟨k, x⟩ := kv
    rw [List.foldlM_cons] at h
    cases hset : JSONRPCRequest.setMember req (k, x) with
    | none => rw [hset] at h; exact absurd h (by simp [bind, Option.bind])
    | some r =>
      rw [hset] at h
      refine ih r h ?_
      unfold JSONRPCRequest.setMember at hset
      simp only at hset
      split_ifs at hset
      · cases hs : decodeString req.JSONRPC x with
        | none => rw [hs] at hset; exact absurd hset (by simp)
        | some v =>
          rw [hs] at hset
          simp only [Option.map_some', Option.some.injEq] at hset
          subst hset; exact hreq
      · cases hs : toInterface x with
        | none => rw [hs] at hset; exact absurd hset (by simp)
        | some v =>
          rw [hs] at hset
          simp only [Option.map_some', Option.some.injEq] at hset
          subst hset
          exact keysDistinct_toInterface x v hs
      · cases hs : decodeString req.Method x with
        | none => rw [hs] at hset; exact absurd hset (by simp)
        | some v =>
          rw [hs] at hset
          simp only [Option.map_some', Option.some.injEq] at hset
          subst hset; exact hreq
      · simp only [Option.some.injEq] at hset
        subst hset; exact hreq
      · simp only [Option.some.injEq] at hset
        subst hset; exact hreq

/-- The id a request decodes to holds maps with distinct keys only. -/
theorem keysDistinct_requestID (requestJSON : String) :
    (requestID requestJSON).keysDistinct = true := by
  unfold requestID
  cases hreq : unmarshalRequest requestJSON with
  | none => rfl
  | some req =>
    simp only
    unfold unmarshalRequest at hreq
    cases hv : checkValid requestJSON with
    | none => rw [hv] at hreq; exact absurd hreq (by simp)
    | some v =>
      rw [hv] at hreq
      simp only at hreq
      cases v with
      | object members =>
        simp only [decodeRequest] at hreq
        exact keysDistinct_id_foldlM members JSONRPCRequest.zero req hreq rfl
      | null =>
        simp only [decodeRequest, Option.some.injEq] at hreq
        subst hreq; rfl
      | bool b => exact absurd hreq (by simp [decodeRequest])
      | number l => exact absurd hreq (by simp [decodeRequest])
      | string l => exact absurd hreq (by simp [decodeRequest])
      | array l => exact absurd hreq (by simp [decodeRequest])

/-- The id a request decodes to, written as JSON and read back, is the same
value; it is the very same model value when it is nil, a bool, a number or a
string. -/
theorem same_requestID (requestJSON : String) :
    ∃ id2, toInterface (requestID requestJSON).toJSON = some id2 ∧
      GoValue.Same (requestID requestJSON) id2 ∧
      ((requestID requestJSON = GoValue.nil ∨ (∃ b, requestID requestJSON = GoValue.bool b) ∨
        (∃ f, requestID requestJSON = GoValue.float64 f) ∨
        ∃ x, requestID requestJSON = GoValue.string x) → id2 = requestID requestJSON) := by
  obtain ⟨id2, h1, h2⟩ := same_toInterface_toJSON (requestID requestJSON)
    (floatsCanonical_requestID requestJSON) (keysDistinct_requestID requestJSON)
  exact ⟨id2, h1, h2, eq_of_same_scalar _ _ h2⟩

/-- The id of a request that decodes is the id the text decodes to. -/
theorem requestID_of_unmarshalRequest (requestJSON : String) (req : JSONRPCRequest)
    (h : unmarshalRequest requestJSON = some req) : requestID requestJSON = req.ID := by
  unfold requestID
  rw [h]

/-- The text of an error response without data, as a client decodes it: the
same `jsonrpc`, the id read back, no result, the same error. -/
theorem unmarshalResponse_error (id id2 : GoValue) (code : Int) (message : String)
    (hd : id.toJSON.depth + 1 ≤ maxNestingDepth) (hid : toInterface id.toJSON = some id2)
    (hcode : parseInt (intText code) = some code) :
    unmarshalResponse
        (marshal { JSONRPC := "2.0", ID := id, Result := none,
                   Error := some { Code := code, Message := message, Data := GoValue.nil } }) =
      some { JSONRPC := "2.0", ID := id2, Result := none,
             Error := some { Code := code, Message := message, Data := GoValue.nil } } := by
  have hmax : maxNestingDepth = 9999 + 1 := rfl
  have hdepth : (JSONRPCResponse.mk "2.0" id none
      (some { Code := code, Message := message, Data := GoValue.nil })).toJSON.depth ≤
      maxNestingDepth := by
    rw [hmax] at hd ⊢
    apply depth_response_le _ 9999 (by simpa using hd)
    · intro r hr
      exact absurd hr (by simp)
    · intro e he
      simp only [Option.some.injEq] at he
      subst he
      simp [RPCError.toJSON, GoValue.isNil, JSON.depth, depthMembers]
  rw [unmarshalResponse_marshal _ hdepth (by
    intro e he
    simp only [Option.some.injEq] at he
    subst he
    exact ⟨rfl, hcode⟩)]
  simp only [hid]
  rfl

/-- The text of a success response whose result is written as a JSON object,
as a client decodes it: the same `jsonrpc`, the id read back, the result as
the generic value read from that object, no error. -/
theorem unmarshalResponse_success (id id2 : GoValue) (r : ResultValue) (v : GoValue)
    (members : List (String × JSON))
    (hd : id.toJSON.depth + 1 ≤ maxNestingDepth) (hid : toInterface id.toJSON = some id2)
    (hobj : r.toJSON = JSON.object members) (hrd : r.toJSON.depth + 1 ≤ maxNestingDepth)
    (hv : toInterface r.toJSON = some v) :
    unmarshalResponse
        (marshal { JSONRPC := "2.0", ID := id, Result := some r, Error := none }) =
      some { JSONRPC := "2.0", ID := id2, Result := some (ResultValue.value v),
             Error := none } := by
  have hmax : maxNestingDepth = 9999 + 1 := rfl
  have hdepth : (JSONRPCResponse.mk "2.0" id (some r) none).toJSON.depth ≤
      maxNestingDepth := by
    rw [hmax] at hd hrd ⊢
    apply depth_response_le _ 9999 (by simpa using hd)
    · intro r2 hr
      simp only [Option.some.injEq] at hr
      subst hr
      omega
    · intro e he
      exact absurd he (by simp)
  rw [unmarshalResponse_marshal _ hdepth (by
    intro e he
    exact absurd he (by simp))]
  have hv2 := hv
  rw [hobj] at hv2
  simp only [hid, hv, isNil_of_toInterface_object members v hv2, Bool.false_eq_true, if_false]

/-- The text of an error response without data: `jsonrpc`, the id unless it is
nil, and the error object of code and message. -/
theorem marshal_error_text (id : GoValue) (code : Int) (message : String) :
    marshal { JSONRPC := "2.0", ID := id, Result := none,
              Error := some { Code := code, Message := message, Data := GoValue.nil } } =
      String.mk ("\x7b\"jsonrpc\":\"2.0\"".data ++
        (if id.isNil then [] else ",\"id\":".data ++ render id.toJSON) ++
        (",\"error\":\x7b\"code\":".data ++ (intText code).data ++ ",\"message\":".data ++
          quote message ++ "\x7d\x7d".data)) := by
  have e1 : quote "jsonrpc" = "\"jsonrpc\"".data := by decide
  have e2 : quote "2.0" = "\"2.0\"".data := by decide
  have e3 : quote "id" = "\"id\"".data := by decide
  have e4 : quote "error" = "\"error\"".data := by decide
  have e5 : quote "code" = "\"code\"".data := by decide
  have e6 : quote "message" = "\"message\"".data := by decide
  unfold marshal
  rw [toJSON_error]
  congr 1
  simp only [render]
  rw [renderMembers_append_singleton _ _ (by simp)]
  cases hid : id.isNil
  · simp [renderMembers, render, RPCError.toJSON, GoValue.isNil, e1, e2, e3, e4, e5, e6]
  · simp [renderMembers, render, RPCError.toJSON, GoValue.isNil, e1, e2, e4, e5, e6]

/-- The id of a request that decodes nests less deep than the limit, and read
back from its JSON it is the same value. -/
theorem same_id_of_unmarshalRequest (requestJSON : String) (req : JSONRPCRequest)
    (h : unmarshalRequest requestJSON = some req) :
    req.ID.toJSON.depth + 1 ≤ maxNestingDepth ∧
    ∃ id2, toInterface req.ID.toJSON = some id2 ∧ GoValue.Same req.ID id2 ∧
      ((req.ID = GoValue.nil ∨ (∃ b, req.ID = GoValue.bool b) ∨
        (∃ f, req.ID = GoValue.float64 f) ∨ ∃ x, req.ID = GoValue.string x) →
        id2 = req.ID) := by
  have hid := requestID_of_unmarshalRequest requestJSON req h
  have h1 := depth_requestID requestJSON
  have h2 := same_requestID requestJSON
  rw [hid] at h1 h2
  exact ⟨h1, h2⟩

/-- C1: a request that decodes and whose method is none of `initialize`,
`tools/list`, `tools/call` (the empty method included) is answered, on every
server, with the encoding of the response that has error code -32601, message
"Method not found", no result and the request's id; the server is unchanged.
The text returned is `{"jsonrpc":"2.0"`, the member `id` with the request's id
unless that is nil, and `"error":{"code":-32601,"message":"Method not found"}}`.
A client that decodes the text gets `jsonrpc` "2.0", no result, the error with
code -32601, the message "Method not found" and no data, and as id the same
value as the request's id (the very same model value for nil, a bool, a number
or a string). -/
theorem handleRequest_method_not_found (s : MCPServer) (env : Env) (requestJSON : String)
    (req : JSONRPCRequest) (hdec : unmarshalRequest requestJSON = some req)
    (h1 : req.Method ≠ "initialize") (h2 : req.Method ≠ "tools/list")
    (h3 : req.Method ≠ "tools/call") :
    s.HandleRequest env requestJSON =
      (marshal { JSONRPC := "2.0", ID := req.ID, Result := none,
                 Error := some { Code := -32601, Message := "Method not found",
                                 Data := GoValue.nil } }, s) ∧
    (s.HandleRequest env requestJSON).1 =
      String.mk ("\x7b\"jsonrpc\":\"2.0\"".data ++
        (if req.ID.isNil then [] else ",\"id\":".data ++ render req.ID.toJSON) ++
        ",\"error\":\x7b\"code\":-32601,\"message\":\"Method not found\"\x7d\x7d".data) ∧
    ∃ id2 : GoValue,
      unmarshalResponse (s.HandleRequest env requestJSON).1 =
        some { JSONRPC := "2.0", ID := id2, Result := none,
               Error := some { Code := -32601, Message := "Method not found",
                               Data := GoValue.nil } } ∧
      GoValue.Same req.ID id2 ∧
      ((req.ID = GoValue.nil ∨ (∃ b, req.ID = GoValue.bool b) ∨
        (∃ f, req.ID = GoValue.float64 f) ∨ ∃ x, req.ID = GoValue.string x) →
        id2 = req.ID) := by
  have hout : s.HandleRequest env requestJSON =
      (marshal { JSONRPC := "2.0", ID := req.ID, Result := none,
                 Error := some { Code := -32601, Message := "Method not found",
                                 Data := GoValue.nil } }, s) := by
    unfold MCPServer.HandleRequest
    rw [hdec]
    simp only [h1, h2, h3, if_false]
    rfl
  obtain ⟨hd, id2, hid, hsame, hsc⟩ := same_id_of_unmarshalRequest requestJSON req hdec
  refine ⟨hout, ?_, id2, ?_, hsame, hsc⟩
  · rw [hout]
    simp only
    rw [marshal_error_text]
    congr 1
  · rw [hout]
    exact unmarshalResponse_error req.ID id2 _ _ hd hid (by decide)

/-- C1 at the request `{"jsonrpc":"2.0","id":7,"method":"ping"}`: the text
returned, and what a client decodes from it. -/
theorem handleRequest_method_not_found_witness :
    unmarshalRequest "\x7b\"jsonrpc\":\"2.0\",\"id\":7,\"method\":\"ping\"\x7d" =
        some { JSONRPC := "2.0", ID := float64Of 7881299347898368 (-50), Method := "ping",
               Params := none } ∧
      (NewMCPServer.HandleRequest exampleEnv
          "\x7b\"jsonrpc\":\"2.0\",\"id\":7,\"method\":\"ping\"\x7d").1 =
        "\x7b\"jsonrpc\":\"2.0\",\"id\":7,\"error\":\x7b\"code\":-32601,\"message\":\"Method not found\"\x7d\x7d" ∧
      unmarshalResponse (NewMCPServer.HandleRequest exampleEnv
          "\x7b\"jsonrpc\":\"2.0\",\"id\":7,\"method\":\"ping\"\x7d").1 =
        some { JSONRPC := "2.0", ID := float64Of 7881299347898368 (-50), Result := none,
               Error := some { Code := -32601, Message := "Method not found",
                               Data := GoValue.nil } } := by
  have h := handleRequest_method_not_found NewMCPServer exampleEnv
    "\x7b\"jsonrpc\":\"2.0\",\"id\":7,\"method\":\"ping\"\x7d"
    { JSONRPC := "2.0", ID := float64Of 7881299347898368 (-50), Method := "ping", Params := none }
    rfl (by decide) (by decide) (by decide)
  obtain ⟨_, htext, id2, hdec, _, hsc⟩ := h
  refine ⟨rfl, htext.trans (by decide!), ?_⟩
  rw [hdec, hsc (Or.inr (Or.inr (Or.inl ⟨_, rfl⟩)))]

/-- C5: on the server `NewMCPServer` builds, a `tools/call` request whose
params decode with a name `n` that is not registered is answered, for every id,
with the encoding of the response that has error code -32602, no result, the
request's id and the message "Unknown tool: " followed by `n`, which contains
`n` literally. The text returned is `{"jsonrpc":"2.0"`, the member `id` with
the request's id unless that is nil, and `"error":{"code":-32602,"message":`
followed by that message as a JSON string and `}}`. A client that decodes the
text gets `jsonrpc` "2.0", no result, the error with code -32602, the message
"Unknown tool: " followed by `n` and no data, and as id the same value as the
request's id. -/
theorem handleRequest_unknown_tool (env : Env) (requestJSON : String)
    (req : JSONRPCRequest) (params : ToolCallParams)
    (hdec : unmarshalRequest requestJSON = some req) (hm : req.Method = "tools/call")
    (hp : unmarshalParams req.Params = some params)
    (hn : params.Name ∉ NewMCPServer.tools.keys) :
    NewMCPServer.HandleRequest env requestJSON =
        (marshal { JSONRPC := "2.0", ID := req.ID, Result := none,
                   Error := some { Code := -32602, Message := "Unknown tool: " ++ params.Name,
                                   Data := GoValue.nil } }, NewMCPServer) ∧
      List.IsInfix params.Name.data ("Unknown tool: " ++ params.Name).data ∧
      (NewMCPServer.HandleRequest env requestJSON).1 =
        String.mk ("\x7b\"jsonrpc\":\"2.0\"".data ++
          (if req.ID.isNil then [] else ",\"id\":".data ++ render req.ID.toJSON) ++
          (",\"error\":\x7b\"code\":-32602,\"message\":".data ++
            quote ("Unknown tool: " ++ params.Name) ++ "\x7d\x7d".data)) ∧
      ∃ id2 : GoValue,
        unmarshalResponse (NewMCPServer.HandleRequest env requestJSON).1 =
          some { JSONRPC := "2.0", ID := id2, Result := none,
                 Error := some { Code := -32602, Message := "Unknown tool: " ++ params.Name,
                                 Data := GoValue.nil } } ∧
        GoValue.Same req.ID id2 ∧
        ((req.ID = GoValue.nil ∨ (∃ b, req.ID = GoValue.bool b) ∨
          (∃ f, req.ID = GoValue.float64 f) ∨ ∃ x, req.ID = GoValue.string x) →
          id2 = req.ID) := by
  have hne : params.Name ≠ "getCurrentTime" := by
    intro h
    apply hn
    rw [newMCPServer_keys, h]
    exact List.mem_singleton_self _
  have hout : NewMCPServer.HandleRequest env requestJSON =
      (marshal { JSONRPC := "2.0", ID := req.ID, Result := none,
                 Error := some { Code := -32602, Message := "Unknown tool: " ++ params.Name,
                                 Data := GoValue.nil } }, NewMCPServer) := by
    rw [handleRequest_toolCall NewMCPServer env requestJSON req params hdec hm hp, if_neg hne]
  obtain ⟨hd, id2, hid, hsame, hsc⟩ := same_id_of_unmarshalRequest requestJSON req hdec
  refine ⟨hout, ?_, ?_, id2, ?_, hsame, hsc⟩
  · rw [String.data_append]
    exact (List.suffix_append _ _).isInfix
  · rw [hout]
    simp only
    rw [marshal_error_text]
    congr 1
  · rw [hout]
    exact unmarshalResponse_error req.ID id2 _ _ hd hid (by decide)

/-- C5 at a call of `doesNotExist` with the id "q": the text returned, and
what a client decodes from it. -/
theorem handleRequest_unknown_tool_witness :
    "doesNotExist" ∉ NewMCPServer.tools.keys ∧
      (NewMCPServer.HandleRequest exampleEnv "\x7b\"jsonrpc\":\"2.0\",\"id\":\"q\",\"method\":\"tools/call\",\"params\":\x7b\"name\":\"doesNotExist\",\"arguments\":\x7b\x7d\x7d\x7d").1 =
        "\x7b\"jsonrpc\":\"2.0\",\"id\":\"q\",\"error\":\x7b\"code\":-32602,\"message\":\"Unknown tool: doesNotExist\"\x7d\x7d" ∧
      unmarshalResponse (NewMCPServer.HandleRequest exampleEnv "\x7b\"jsonrpc\":\"2.0\",\"id\":\"q\",\"method\":\"tools/call\",\"params\":\x7b\"name\":\"doesNotExist\",\"arguments\":\x7b\x7d\x7d\x7d").1 =
        some { JSONRPC := "2.0", ID := GoValue.string "q", Result := none,
               Error := some { Code := -32602, Message := "Unknown tool: doesNotExist",
                               Data := GoValue.nil } } := by
  have h := handleRequest_unknown_tool exampleEnv "\x7b\"jsonrpc\":\"2.0\",\"id\":\"q\",\"method\":\"tools/call\",\"params\":\x7b\"name\":\"doesNotExist\",\"arguments\":\x7b\x7d\x7d\x7d"
    { JSONRPC := "2.0", ID := GoValue.string "q", Method := "tools/call",
      Params := some (JSON.object [("name", JSON.string "doesNotExist"),
                                   ("arguments", JSON.object [])]) }
    { Name := "doesNotExist", Arguments := some [] } rfl rfl rfl (by decide)
  obtain ⟨_, _, htext, id2, hdec, _, hsc⟩ := h
  refine ⟨by decide, htext.trans (by decide!), ?_⟩
  rw [hdec, hsc (Or.inr (Or.inr (Or.inr ⟨_, rfl⟩)))]
  rfl

/-- The digits `appendInt` writes: as many as the width, reading as the number. -/
theorem appendInt_spec (x w : Nat) (h : x < 10 ^ w) (hw : 1 ≤ w) :
    (appendInt x w).length = w ∧ (∀ c ∈ appendInt x w, isDigit c = true) ∧
      digitsVal (appendInt x w) = x := by
  have h1 := natDigits_length_le x w h hw
  obtain ⟨d, ds, he, hds⟩ := natDigits_digits x
  unfold appendInt
  refine ⟨?_, ?_, ?_⟩
  · rw [List.length_append, List.length_replicate]
    omega
  · intro c hc
    rcases List.mem_append.mp hc with h2 | h2
    · rw [List.eq_of_mem_replicate h2]
      rfl
    · rw [he] at h2
      exact hds c h2
  · rw [digitsVal_zeros, digitsVal_natDigits]

/-- A number below 100 is written by `appendInt` with two digits. -/
theorem appendInt_two (x : Nat) (h : x < 100) :
    ∃ a b, appendInt x 2 = [a, b] ∧ isDigit a = true ∧ isDigit b = true ∧
      digitsVal [a, b] = x := by
  obtain ⟨h1, h2, h3⟩ := appendInt_spec x 2 (by omega) (by omega)
  obtain ⟨a, b, hab⟩ := List.length_eq_two.mp h1
  rw [hab] at h2 h3
  exact ⟨a, b, hab, h2 a (by simp), h2 b (by simp), h3⟩

/-- A number below 10000 is written by `appendInt` with four digits. -/
theorem appendInt_four (x : Nat) (h : x < 10000) :
    ∃ a b c d, appendInt x 4 = [a, b, c, d] ∧ isDigit a = true ∧ isDigit b = true ∧
      isDigit c = true ∧ isDigit d = true ∧ digitsVal [a, b, c, d] = x := by
  obtain ⟨h1, h2, h3⟩ := appendInt_spec x 4 (by omega) (by omega)
  match hl : appendInt x 4, h1 with
  | [a, b, c, d], _ =>
    rw [hl] at h2 h3
    exact ⟨a, b, c, d, rfl, h2 a (by simp), h2 b (by simp), h2 c (by simp), h2 d (by simp), h3⟩

/-- The zone written by the layout reads back as the offset. -/
theorem readZone_formatZone (o : Int) (h1 : o % 60 = 0) (h2 : -86400 < o) (h3 : o < 86400) :
    readZone (formatZone o) = some o := by
  unfold formatZone
  by_cases h0 : o = 0
  · rw [if_pos h0, h0]
    rfl
  · rw [if_neg h0]
    have hz : Int.tdiv o 60 * 60 = o := Int.tdiv_mul_cancel (Int.dvd_of_emod_eq_zero h1)
    generalize Int.tdiv o 60 = z at hz
    simp only
    obtain ⟨a, b, hab, ha, hb, hv1⟩ := appendInt_two (z.natAbs / 60) (by omega)
    obtain ⟨d, e, hde, hd, he, hv2⟩ := appendInt_two (z.natAbs % 60) (by omega)
    rw [hab, hde]
    simp only [List.cons_append, List.nil_append, readZone]
    have hc1 : digitsVal [a, b] ≤ 23 := by omega
    have hc2 : digitsVal [d, e] ≤ 59 := by omega
    by_cases hneg : z < 0
    · rw [if_pos hneg]
      simp only [ha, hb, hd, he, hc1, hc2, or_true, and_self, if_true,
        Option.some.injEq]
      omega
    · rw [if_neg hneg]
      simp only [ha, hb, hd, he, hc1, hc2, true_or, and_self, if_true,
        Option.some.injEq, show ¬ ('+' = '-') by decide, if_false]
      omega

/-- C6, the timestamp: the text the layout `time.RFC3339` writes for a valid
reading of the clock is a timestamp of RFC 3339, and reads back as that
reading. -/
theorem readRFC3339_formatRFC3339 (t : Time) (h : t.valid = true) :
    readRFC3339 t.formatRFC3339.data = some t := by
  have hv := h
  unfold Time.valid at h
  simp only [Bool.and_eq_true, decide_eq_true_eq] at h
  obtain ⟨⟨⟨⟨⟨⟨⟨⟨⟨⟨hy, hm1⟩, hm2⟩, hd1⟩, hd2⟩, hh⟩, hmi⟩, hs⟩, ho1⟩, ho2⟩, ho3⟩ := h
  have hdays : daysIn t.year t.month ≤ 31 := by
    unfold daysIn
    split_ifs <;> omega
  obtain ⟨y1, y2, y3, y4, ey, hy1, hy2, hy3, hy4, vy⟩ := appendInt_four t.year (by omega)
  obtain ⟨m1, m2, em, hm1d, hm2d, vm⟩ := appendInt_two t.month (by omega)
  obtain ⟨d1, d2, ed, hd1d, hd2d, vd⟩ := appendInt_two t.day (by omega)
  obtain ⟨h1, h2, eh, hh1, hh2, vh⟩ := appendInt_two t.hour (by omega)
  obtain ⟨n1, n2, en, hn1, hn2, vn⟩ := appendInt_two t.minute (by omega)
  obtain ⟨s1, s2, es, hs1, hs2, vs⟩ := appendInt_two t.second (by omega)
  unfold Time.formatRFC3339
  rw [ey, em, ed, eh, en, es]
  simp only [List.cons_append, List.nil_append, readRFC3339]
  simp only [List.all_cons, List.all_nil, hy1, hy2, hy3, hy4, hm1d, hm2d, hd1d, hd2d,
    hh1, hh2, hn1, hn2, hs1, hs2, Bool.and_self, and_self, if_true,
    readZone_formatZone t.offset ho1 ho2 ho3, vy, vm, vd, vh, vn, vs]
  rw [if_pos hv]

/-- The text of the result of a tool call with one text block that needs no
escaping. -/
theorem render_text_result (text : String) (h : text.data.flatMap escapeChar = text.data) :
    render (ResultValue.toolResult
        { Content := [{ Typ := "text", Text := text }], IsError := false }).toJSON =
      "\x7b\"content\":[\x7b\"type\":\"text\",\"text\":\"".data ++ text.data ++ "\"\x7d]\x7d".data := by
  have e5 : quote "content" = "\"content\"".data := by decide
  have e6 : quote "type" = "\"type\"".data := by decide
  have e7 : quote "text" = "\"text\"".data := by decide
  have e8 : quote text = '"' :: (text.data ++ ['"']) := by
    unfold quote
    rw [h]
  simp only [ResultValue.toJSON, ToolResult.toJSON, ContentBlock.toJSON, List.map, render,
    renderMembers, renderList, e5, e6, e7, e8]
  simp

/-- C6: on every server, for every id and every clock reading, a `tools/call`
request whose params decode with the name `getCurrentTime` (with no arguments,
or any) is answered with the encoding of a success response (no error) with the
request's id, whose result is the `ToolResult` with `IsError` false and exactly
one content block, of type "text", whose text is the RFC3339 form of the
clock reading. The text returned is `{"jsonrpc":"2.0"`, the member `id` with
the request's id unless that is nil, and
`"result":{"content":[{"type":"text","text":"T"}]}}` with `T` that form. A
client that decodes the text gets no error and as result the map with the one
member `content`, a sequence of one map with `type` "text" and `text` `T`; and
when the reading is a valid civil time, `T` is a timestamp of RFC 3339 that
reads back as the reading. -/
theorem handleRequest_getCurrentTime (s : MCPServer) (env : Env) (requestJSON : String)
    (req : JSONRPCRequest) (params : ToolCallParams)
    (hdec : unmarshalRequest requestJSON = some req) (hm : req.Method = "tools/call")
    (hp : unmarshalParams req.Params = some params)
    (hn : params.Name = "getCurrentTime") :
    s.HandleRequest env requestJSON =
      (marshal { JSONRPC := "2.0", ID := req.ID,
                 Result := some (ResultValue.toolResult
                   { Content := [{ Typ := "text", Text := env.now.formatRFC3339 }],
                     IsError := false }),
                 Error := none }, s) ∧
    (s.HandleRequest env requestJSON).1 =
      String.mk ("\x7b\"jsonrpc\":\"2.0\"".data ++
        (if req.ID.isNil then [] else ",\"id\":".data ++ render req.ID.toJSON) ++
        (",\"result\":\x7b\"content\":[\x7b\"type\":\"text\",\"text\":\"".data ++
          env.now.formatRFC3339.data ++ "\"\x7d]\x7d\x7d".data)) ∧
    (∃ id2 : GoValue,
      unmarshalResponse (s.HandleRequest env requestJSON).1 =
        some { JSONRPC := "2.0", ID := id2,
               Result := some (ResultValue.value (GoValue.map [("content", GoValue.slice
                 [GoValue.map [("type", GoValue.string "text"),
                               ("text", GoValue.string env.now.formatRFC3339)]])])),
               Error := none } ∧
      GoValue.Same req.ID id2 ∧
      ((req.ID = GoValue.nil ∨ (∃ b, req.ID = GoValue.bool b) ∨
        (∃ f, req.ID = GoValue.float64 f) ∨ ∃ x, req.ID = GoValue.string x) →
        id2 = req.ID)) ∧
    (env.now.valid = true → readRFC3339 env.now.formatRFC3339.data = some env.now) := by
  have hout : s.HandleRequest env requestJSON =
      (marshal { JSONRPC := "2.0", ID := req.ID,
                 Result := some (ResultValue.toolResult
                   { Content := [{ Typ := "text", Text := env.now.formatRFC3339 }],
                     IsError := false }),
                 Error := none }, s) := by
    rw [handleRequest_toolCall s env requestJSON req params hdec hm hp, if_pos hn]
  obtain ⟨hd, id2, hid, hsame, hsc⟩ := same_id_of_unmarshalRequest requestJSON req hdec
  refine ⟨hout, ?_, ⟨id2, ?_, hsame, hsc⟩, readRFC3339_formatRFC3339 env.now⟩
  · rw [hout]
    simp only
    rw [marshal_success_text, render_text_result _ (flatMap_escapeChar_formatRFC3339 env.now)]
    congr 1
    simp
  · rw [hout]
    exact unmarshalResponse_success req.ID id2 _ _ _ hd hid rfl
      (by simp [ResultValue.toJSON, ToolResult.toJSON, ContentBlock.toJSON, JSON.depth,
            depthList, depthMembers, maxNestingDepth])
      (toInterface_text_result _)

/-- C6 at a call without arguments, with the id "t-1", at the clock reading
2024-01-02T03:04:05Z: the text returned, what a client decodes from it, and
the timestamp read back. -/
theorem handleRequest_getCurrentTime_witness :
    unmarshalParams (some (JSON.object [("name", JSON.string "getCurrentTime")])) =
        some { Name := "getCurrentTime", Arguments := none } ∧
      (NewMCPServer.HandleRequest exampleEnv "\x7b\"jsonrpc\":\"2.0\",\"id\":\"t-1\",\"method\":\"tools/call\",\"params\":\x7b\"name\":\"getCurrentTime\"\x7d\x7d").1 =
        "\x7b\"jsonrpc\":\"2.0\",\"id\":\"t-1\",\"result\":\x7b\"content\":[\x7b\"type\":\"text\",\"text\":\"2024-01-02T03:04:05Z\"\x7d]\x7d\x7d" ∧
      unmarshalResponse (NewMCPServer.HandleRequest exampleEnv "\x7b\"jsonrpc\":\"2.0\",\"id\":\"t-1\",\"method\":\"tools/call\",\"params\":\x7b\"name\":\"getCurrentTime\"\x7d\x7d").1 =
        some { JSONRPC := "2.0", ID := GoValue.string "t-1",
               Result := some (ResultValue.value (GoValue.map [("content", GoValue.slice
                 [GoValue.map [("type", GoValue.string "text"),
                               ("text", GoValue.string "2024-01-02T03:04:05Z")]])])),
               Error := none } ∧
      readRFC3339 "2024-01-02T03:04:05Z".data =
        some { year := 2024, month := 1, day := 2, hour := 3, minute := 4, second := 5,
               offset := 0 } := by
  have h := handleRequest_getCurrentTime NewMCPServer exampleEnv "\x7b\"jsonrpc\":\"2.0\",\"id\":\"t-1\",\"method\":\"tools/call\",\"params\":\x7b\"name\":\"getCurrentTime\"\x7d\x7d"
    { JSONRPC := "2.0", ID := GoValue.string "t-1", Method := "tools/call",
      Params := some (JSON.object [("name", JSON.string "getCurrentTime")]) }
    { Name := "getCurrentTime", Arguments := none } rfl rfl rfl rfl
  obtain ⟨_, htext, ⟨id2, hdec, _, hsc⟩, hts⟩ := h
  refine ⟨rfl, htext.trans (by decide!), ?_, hts (by decide)⟩
  rw [hdec, hsc (Or.inr (Or.inr (Or.inr ⟨_, rfl⟩)))]
  rfl

/-- The JSON written for the schema of a tool is the JSON of its value. -/
theorem mapToJSON_eq (o : Option (List (String × GoValue))) :
    mapToJSON o = (schemaValue o).toJSON := by
  cases o <;> rfl

/-- A client reads the JSON object of a well-formed tool as the generic map of
its name, its description and the same schema. -/
theorem toInterface_tool (t : Tool) (h : t.wellFormed = true) :
    ∃ g, toInterface t.toJSON = some g ∧ t.ReadAs g := by
  unfold Tool.wellFormed at h
  rw [Bool.and_eq_true] at h
  obtain ⟨sch, hsch, hsame⟩ := same_toInterface_toJSON (schemaValue t.InputSchema) h.1 h.2
  refine ⟨_, ?_, sch, rfl, hsame⟩
  have h1 : ("name" : String) ≠ "description" := by decide
  have h2 : ("name" : String) ≠ "inputSchema" := by decide
  have h3 : ("description" : String) ≠ "inputSchema" := by decide
  rw [← mapToJSON_eq] at hsch
  simp [Tool.toJSON, toInterface, toInterfaceMembers, hsch, mapSetAll, mapSet, h1, h2, h3]

/-- A client reads the array of well-formed tools as the sequence of their
generic maps, one by one. -/
theorem toInterfaceList_tools (tools : List Tool) (h : ∀ t ∈ tools, t.wellFormed = true) :
    ∃ gs, toInterfaceList (tools.map Tool.toJSON) = some gs ∧
      List.Forall₂ Tool.ReadAs tools gs := by
  induction tools with
  | nil => exact ⟨[], rfl, List.Forall₂.nil⟩
  | cons t rest ih =>
    obtain ⟨g, hg, hr⟩ := toInterface_tool t (h t (List.mem_cons_self _ _))
    obtain ⟨gs, hgs, hrs⟩ := ih fun x hx => h x (List.mem_cons_of_mem _ hx)
    refine ⟨g :: gs, ?_, List.Forall₂.cons hr hrs⟩
    simp [toInterfaceList, hg, hgs]

/-- A client reads the result of `tools/list` as the map with the one member
`tools`, the sequence of the tools as generic maps. -/
theorem toInterface_toolsMap (tools : List Tool) (h : ∀ t ∈ tools, t.wellFormed = true) :
    ∃ gs, toInterface (ResultValue.toolsMap tools).toJSON =
        some (GoValue.map [("tools", GoValue.slice gs)]) ∧
      List.Forall₂ Tool.ReadAs tools gs := by
  obtain ⟨gs, hgs, hrs⟩ := toInterfaceList_tools tools h
  refine ⟨gs, ?_, hrs⟩
  simp [ResultValue.toJSON, toInterface, toInterfaceMembers, hgs, mapSetAll, mapSet]

/-- The tools a `tools/list` answer lists are well-formed and nest within the
limit of the decoder on a server a client can read. -/
theorem toolsList_readable (s : MCPServer) (hs : s.toolsReadable = true) (env : Env) :
    (∀ t ∈ env.rangeOrder (s.tools.entries.map fun e => e.2), t.wellFormed = true) ∧
    (ResultValue.toolsMap (env.rangeOrder (s.tools.entries.map fun e => e.2))).toJSON.depth + 1 ≤
      maxNestingDepth := by
  rw [MCPServer.toolsReadable, Bool.and_eq_true, List.all_eq_true] at hs
  obtain ⟨hs1, hs2⟩ := hs
  have hmem : ∀ t ∈ env.rangeOrder (s.tools.entries.map fun e => e.2),
      ∃ e ∈ s.tools.entries, e.2 = t := by
    intro t ht
    have ht2 := (env.rangeOrder_perm _).mem_iff.mp ht
    obtain ⟨e, he, het⟩ := List.mem_map.mp ht2
    exact ⟨e, he, het⟩
  refine ⟨?_, ?_⟩
  · intro t ht
    obtain ⟨e, he, het⟩ := hmem t ht
    rw [← het]
    exact hs2 e he
  · simp only [ResultValue.toJSON, JSON.depth, depthMembers]
    have hl : depthList ((env.rangeOrder (s.tools.entries.map fun e => e.2)).map Tool.toJSON)
        ≤ 9997 := by
      rw [depthList_le_iff]
      intro x hx
      obtain ⟨t, ht, hxt⟩ := List.mem_map.mp hx
      subst hxt
      obtain ⟨e, he, het⟩ := hmem t ht
      subst het
      have := List.all_eq_true.mp hs1 e he
      simp only [decide_eq_true_eq] at this
      have hm2 : maxNestingDepth = 10000 := rfl
      omega
    have hm2 : maxNestingDepth = 10000 := rfl
    omega

/-- The text of a success response is the JSON text of the object with
`jsonrpc`, the id unless it is nil, and the result. -/
theorem isJSONText_success (id : GoValue) (r : ResultValue) :
    IsJSONText (marshal { JSONRPC := "2.0", ID := id, Result := some r, Error := none }).data
      (JSON.object (([("jsonrpc", JSON.string "2.0")] ++
        (if id.isNil then [] else [("id", id.toJSON)])) ++ [("result", r.toJSON)])) := by
  rw [← toJSON_success]
  exact isJSONText_render _ (numbersValid_response _)

/-- What a client decodes from a `tools/list` answer of a server it can read. -/
theorem unmarshalResponse_toolsList (s : MCPServer) (hs : s.toolsReadable = true) (env : Env)
    (id id2 : GoValue) (hd : id.toJSON.depth + 1 ≤ maxNestingDepth)
    (hid : toInterface id.toJSON = some id2) :
    ∃ gs, unmarshalResponse
        (marshal { JSONRPC := "2.0", ID := id,
                   Result := some (ResultValue.toolsMap
                     (env.rangeOrder (s.tools.entries.map fun e => e.2))),
                   Error := none }) =
        some { JSONRPC := "2.0", ID := id2,
               Result := some (ResultValue.value (GoValue.map [("tools", GoValue.slice gs)])),
               Error := none } ∧
      List.Forall₂ Tool.ReadAs (env.rangeOrder (s.tools.entries.map fun e => e.2)) gs := by
  obtain ⟨hwf, hdepth⟩ := toolsList_readable s hs env
  obtain ⟨gs, hgs, hrs⟩ := toInterface_toolsMap _ hwf
  exact ⟨gs, unmarshalResponse_success id id2 _ _ _ hd hid rfl hdepth hgs, hrs⟩

/-- C10: on the server `NewMCPServer` builds and on every server reached from
it by further `registerTool` calls, every `tools/list` request is answered with
the encoding of a success response (a result, no error, the request's id)
whose result is the map with the one member `tools`, the sequence of the
registered tools in the order `range` yields them; that sequence contains a
tool with the name `getCurrentTime`. The text returned is the JSON text of an
object with `jsonrpc` "2.0", the id unless it is nil, and a `result` object
whose one member `tools` is an array; among the elements of that array is an
object with the members `name`, `description` and `inputSchema` whose `name`
is "getCurrentTime". -/
theorem handleRequest_toolsList_getCurrentTime (s : MCPServer) (hs : Reachable s) (env : Env)
    (requestJSON : String) (req : JSONRPCRequest)
    (hdec : unmarshalRequest requestJSON = some req) (hm : req.Method = "tools/list") :
    s.HandleRequest env requestJSON =
        (marshal { JSONRPC := "2.0", ID := req.ID,
                   Result := some (ResultValue.toolsMap
                     (env.rangeOrder (s.tools.entries.map fun e => e.2))),
                   Error := none }, s) ∧
      (∃ t ∈ env.rangeOrder (s.tools.entries.map fun e => e.2), t.Name = "getCurrentTime") ∧
      ∃ tools : List JSON,
        IsJSONText (s.HandleRequest env requestJSON).1.data
          (JSON.object (([("jsonrpc", JSON.string "2.0")] ++
            (if req.ID.isNil then [] else [("id", req.ID.toJSON)])) ++
            [("result", JSON.object [("tools", JSON.array tools)])])) ∧
        ∃ (description : String) (inputSchema : JSON),
          JSON.object [("name", JSON.string "getCurrentTime"),
            ("description", JSON.string description), ("inputSchema", inputSchema)] ∈ tools := by
  obtain ⟨t, ht, hn⟩ := reachable_lookup s hs
  have hmem : t ∈ env.rangeOrder (s.tools.entries.map fun e => e.2) := by
    rw [(env.rangeOrder_perm _).mem_iff]
    exact List.mem_map.mpr ⟨⟨"getCurrentTime", t⟩, AList.mem_lookup_iff.mp ht, rfl⟩
  have hout := handleRequest_toolsList s env requestJSON req hdec hm
  refine ⟨hout, ⟨t, hmem, hn⟩,
    (env.rangeOrder (s.tools.entries.map fun e => e.2)).map Tool.toJSON, ?_,
    t.Description, mapToJSON t.InputSchema, ?_⟩
  · rw [hout]
    exact isJSONText_success _ _
  · rw [← hn]
    exact List.mem_map_of_mem Tool.toJSON hmem

/-- C10 on the server with `add` registered after `getCurrentTime`: the text
returned lists `getCurrentTime` after `add`. -/
theorem handleRequest_toolsList_getCurrentTime_witness :
    Reachable (NewMCPServer.registerTool addTool) ∧
    ((NewMCPServer.registerTool addTool).HandleRequest exampleEnv
        "\x7b\"jsonrpc\":\"2.0\",\"id\":2,\"method\":\"tools/list\"\x7d").1 =
      "\x7b\"jsonrpc\":\"2.0\",\"id\":2,\"result\":\x7b\"tools\":[\x7b\"name\":\"add\",\"description\":\"Adds two numbers together\",\"inputSchema\":\x7b\"properties\":\x7b\"a\":\x7b\"description\":\"First number to add\",\"type\":\"number\"\x7d,\"b\":\x7b\"description\":\"Second number to add\",\"type\":\"number\"\x7d\x7d,\"required\":[\"a\",\"b\"],\"type\":\"object\"\x7d\x7d,\x7b\"name\":\"getCurrentTime\",\"description\":\"Returns the current time in RFC3339 format\",\"inputSchema\":\x7b\"properties\":\x7b\x7d,\"required\":[],\"type\":\"object\"\x7d\x7d]\x7d\x7d" :=
  ⟨Reachable.register _ _ Reachable.new,
   (congrArg Prod.fst (handleRequest_toolsList_getCurrentTime (NewMCPServer.registerTool addTool)
      (Reachable.register _ _ Reachable.new) exampleEnv
      "\x7b\"jsonrpc\":\"2.0\",\"id\":2,\"method\":\"tools/list\"\x7d"
      { JSONRPC := "2.0", ID := float64Of 4503599627370496 (-51), Method := "tools/list",
        Params := none } rfl rfl).1).trans (by decide!)⟩

/-- C11: on every server, every `tools/list` request (whatever its params) is
answered with the encoding of a success response whose result is the map with
the one member `tools`. The text returned is the JSON text of an object with
`jsonrpc` "2.0", the id unless it is nil, and a `result` object whose one
member `tools` is the array of one object for each listed tool, with the
members `name`, `description` and `inputSchema` holding the tool's name, its
description and its schema. The tools listed are a rearrangement of the tools
the registry holds, one per key: as many as the registry has keys, a tool is
listed exactly when it is registered under some key, and when every key is
the name of its tool (as on every server that can be reached) no tool is listed
twice. On a server a client can read, decoding the text gives a success
response whose result is the map with the one member `tools`, a sequence that
holds each listed tool, in order, as the generic map of its name, its
description and the same schema. -/
theorem handleRequest_toolsList_listing (s : MCPServer) (env : Env) (requestJSON : String)
    (req : JSONRPCRequest) (hdec : unmarshalRequest requestJSON = some req)
    (hm : req.Method = "tools/list") :
    s.HandleRequest env requestJSON =
        (marshal { JSONRPC := "2.0", ID := req.ID,
                   Result := some (ResultValue.toolsMap
                     (env.rangeOrder (s.tools.entries.map fun e => e.2))),
                   Error := none }, s) ∧
      IsJSONText (s.HandleRequest env requestJSON).1.data
        (JSON.object (([("jsonrpc", JSON.string "2.0")] ++
          (if req.ID.isNil then [] else [("id", req.ID.toJSON)])) ++
          [("result", JSON.object [("tools", JSON.array
            ((env.rangeOrder (s.tools.entries.map fun e => e.2)).map fun t =>
              JSON.object [("name", JSON.string t.Name),
                ("description", JSON.string t.Description),
                ("inputSchema", (schemaValue t.InputSchema).toJSON)]))])])) ∧
      (env.rangeOrder (s.tools.entries.map fun e => e.2)).Perm
        (s.tools.entries.map fun e => e.2) ∧
      (env.rangeOrder (s.tools.entries.map fun e => e.2)).length = s.tools.keys.length ∧
      (∀ t : Tool, t ∈ env.rangeOrder (s.tools.entries.map fun e => e.2) ↔
        ∃ k, s.tools.lookup k = some t) ∧
      ((∀ e ∈ s.tools.entries, e.1 = e.2.Name) →
        (env.rangeOrder (s.tools.entries.map fun e => e.2)).Nodup) ∧
      (Reachable s → (env.rangeOrder (s.tools.entries.map fun e => e.2)).Nodup) ∧
      (s.toolsReadable = true →
        ∃ (id2 : GoValue) (gs : List GoValue),
          unmarshalResponse (s.HandleRequest env requestJSON).1 =
            some { JSONRPC := "2.0", ID := id2,
                   Result := some (ResultValue.value
                     (GoValue.map [("tools", GoValue.slice gs)])),
                   Error := none } ∧
          GoValue.Same req.ID id2 ∧
          List.Forall₂ Tool.ReadAs (env.rangeOrder (s.tools.entries.map fun e => e.2)) gs) := by
  have hperm := env.rangeOrder_perm (s.tools.entries.map fun e => e.2)
  have hout := handleRequest_toolsList s env requestJSON req hdec hm
  refine ⟨hout, ?_, hperm, ?_, ?_, ?_, ?_, ?_⟩
  · rw [hout]
    have h := isJSONText_success req.ID (ResultValue.toolsMap
      (env.rangeOrder (s.tools.entries.map fun e => e.2)))
    have he : (ResultValue.toolsMap (env.rangeOrder (s.tools.entries.map fun e => e.2))).toJSON =
        JSON.object [("tools", JSON.array
          ((env.rangeOrder (s.tools.entries.map fun e => e.2)).map fun t =>
            JSON.object [("name", JSON.string t.Name),
              ("description", JSON.string t.Description),
              ("inputSchema", (schemaValue t.InputSchema).toJSON)]))] := by
      have hf : Tool.toJSON = fun t : Tool =>
          JSON.object [("name", JSON.string t.Name),
            ("description", JSON.string t.Description),
            ("inputSchema", (schemaValue t.InputSchema).toJSON)] := by
        funext t
        rw [Tool.toJSON, mapToJSON_eq]
      rw [ResultValue.toJSON, hf]
    rw [he] at h
    exact h
  · rw [hperm.length_eq, List.length_map]
    simp [AList.keys, List.keys]
  · intro t
    rw [hperm.mem_iff, List.mem_map]
    constructor
    · rintro ⟨⟨k, t2⟩, he, rfl⟩
      exact ⟨k, AList.mem_lookup_iff.mpr he⟩
    · rintro ⟨k, hk⟩
      exact ⟨⟨k, t⟩, AList.mem_lookup_iff.mp hk, rfl⟩
  · intro hk
    exact hperm.nodup_iff.mpr (nodup_values s hk)
  · intro hr
    exact hperm.nodup_iff.mpr (nodup_values s (reachable_keys s hr))
  · intro hs
    obtain ⟨hd, id2, hid, hsame, _⟩ := same_id_of_unmarshalRequest requestJSON req hdec
    obtain ⟨gs, hgs, hrs⟩ := unmarshalResponse_toolsList s hs env req.ID id2 hd hid
    refine ⟨id2, gs, ?_, hsame, hrs⟩
    rw [hout]
    exact hgs

/-- C11 on the server with `add` registered after `getCurrentTime`: the text
returned, with an object for each of the two tools, and their number. -/
theorem handleRequest_toolsList_listing_witness :
    ((NewMCPServer.registerTool addTool).HandleRequest exampleEnv
          "\x7b\"jsonrpc\":\"2.0\",\"id\":\"l\",\"method\":\"tools/list\",\"params\":\x7b\"cursor\":null\x7d\x7d").1 =
        "\x7b\"jsonrpc\":\"2.0\",\"id\":\"l\",\"result\":\x7b\"tools\":[\x7b\"name\":\"add\",\"description\":\"Adds two numbers together\",\"inputSchema\":\x7b\"properties\":\x7b\"a\":\x7b\"description\":\"First number to add\",\"type\":\"number\"\x7d,\"b\":\x7b\"description\":\"Second number to add\",\"type\":\"number\"\x7d\x7d,\"required\":[\"a\",\"b\"],\"type\":\"object\"\x7d\x7d,\x7b\"name\":\"getCurrentTime\",\"description\":\"Returns the current time in RFC3339 format\",\"inputSchema\":\x7b\"properties\":\x7b\x7d,\"required\":[],\"type\":\"object\"\x7d\x7d]\x7d\x7d" ∧
      (exampleEnv.rangeOrder ((NewMCPServer.registerTool addTool).tools.entries.map
        fun e => e.2)).length = 2 ∧
      (NewMCPServer.registerTool addTool).tools.keys.length = 2 :=
  have h := handleRequest_toolsList_listing (NewMCPServer.registerTool addTool) exampleEnv
    "\x7b\"jsonrpc\":\"2.0\",\"id\":\"l\",\"method\":\"tools/list\",\"params\":\x7b\"cursor\":null\x7d\x7d"
    { JSONRPC := "2.0", ID := GoValue.string "l", Method := "tools/list",
      Params := some (JSON.object [("cursor", JSON.null)]) } rfl rfl
  ⟨(congrArg Prod.fst h.1).trans (by decide!), h.2.2.2.1.trans rfl, rfl⟩

/-- C17, amended: on a server a client can read (the JSON of its tools nests
within the limit of the decoder and their schemas are well-formed values; the
one `NewMCPServer` builds is such a server), decoding the text of a response
`R` of `HandleRequest` into a zero `JSONRPCResponse` succeeds and gives the
same `jsonrpc`, the same id (as a Go value; the very same model value for nil,
a bool, a number or a string), the same error (code, message, no data), and
no result where `R` has none. Where `R` has a result, the decoded result holds
the same members as generic values: for `initialize` the same map; for
`tools/list` the map with the one member `tools`, a sequence that holds each
tool, in order, as the map of its name, its description and the same schema;
for a tool call the map with the one member `content`, a sequence that holds
each block as the map of its `type` and `text`. The typed `ToolResult` and
tool list are not restored, and `isError`, false in `R`, is not a member of
what is decoded. -/
theorem handleRequest_round_trip (s : MCPServer) (hs : s.toolsReadable = true) (env : Env)
    (requestJSON : String) :
    ∃ resp decoded : JSONRPCResponse,
      s.HandleRequest env requestJSON = (marshal resp, s) ∧
      resp.JSONRPC = "2.0" ∧ resp.ID = requestID requestJSON ∧
      unmarshalResponse (s.HandleRequest env requestJSON).1 = some decoded ∧
      decoded.JSONRPC = resp.JSONRPC ∧
      GoValue.Same resp.ID decoded.ID ∧
      ((resp.ID = GoValue.nil ∨ (∃ b, resp.ID = GoValue.bool b) ∨
          (∃ f, resp.ID = GoValue.float64 f) ∨ ∃ x, resp.ID = GoValue.string x) →
        decoded.ID = resp.ID) ∧
      decoded.Error = resp.Error ∧
      (resp.Result = none → decoded.Result = none) ∧
      (∀ v : GoValue, resp.Result = some (ResultValue.value v) →
        ∃ v2, decoded.Result = some (ResultValue.value v2) ∧ GoValue.Same v v2) ∧
      (∀ tools : List Tool, resp.Result = some (ResultValue.toolsMap tools) →
        ∃ gs, decoded.Result =
            some (ResultValue.value (GoValue.map [("tools", GoValue.slice gs)])) ∧
          List.Forall₂ Tool.ReadAs tools gs) ∧
      (∀ r : ToolResult, resp.Result = some (ResultValue.toolResult r) →
        r.IsError = false ∧
        decoded.Result = some (ResultValue.value (GoValue.map [("content", GoValue.slice
          (r.Content.map fun b => GoValue.map
            [("type", GoValue.string b.Typ), ("text", GoValue.string b.Text)]))]))) := by
  obtain ⟨resp, hout, hjr, hid, hshape⟩ := handleRequest_shape s env requestJSON
  have hd := depth_requestID requestJSON
  obtain ⟨id2, hid2, hsame, hsc⟩ := same_requestID requestJSON
  rw [← hid] at hd hid2 hsame hsc
  obtain ⟨jr, id, result, error⟩ := resp
  simp only at hjr hid hd hid2 hsame hsc hshape
  subst hjr
  rcases hshape with ⟨hr, code, message, he, hc⟩ | ⟨he, hr | hr | ⟨text, hr⟩⟩
  · subst hr
    subst he
    have hcode : parseInt (intText code) = some code := by
      rcases hc with h | h | h <;> subst h <;> decide
    refine ⟨_, { JSONRPC := "2.0", ID := id2, Result := none,
                   Error := some { Code := code, Message := message, Data := GoValue.nil } },
      hout, rfl, hid, ?_, rfl, hsame, hsc, rfl, fun _ => rfl, ?_, ?_, ?_⟩
    · rw [hout]
      exact unmarshalResponse_error id id2 code message hd hid2 hcode
    · intro v hv
      exact absurd hv (by simp)
    · intro tools hv
      exact absurd hv (by simp)
    · intro r hv
      exact absurd hv (by simp)
  · subst hr
    subst he
    obtain ⟨v2, hv2, hsv⟩ := same_toInterface_toJSON (GoValue.map
      [("protocolVersion", GoValue.string "2024-11-05"),
       ("serverInfo", GoValue.map
         [("name", GoValue.string "golang-wasm-mcp-server"),
          ("version", GoValue.string "1.0.0")]),
       ("capabilities", GoValue.map [("tools", GoValue.map [])])]) (by decide) (by decide)
    refine ⟨_, { JSONRPC := "2.0", ID := id2, Result := some (ResultValue.value v2), Error := none },
      hout, rfl, hid, ?_, rfl, hsame, hsc, rfl, ?_, ?_, ?_, ?_⟩
    · rw [hout]
      exact unmarshalResponse_success id id2 _ v2 _ hd hid2 initialize_result_toJSON
        (by rw [initialize_result_toJSON]; decide) hv2
    · intro hv
      exact absurd hv (by simp)
    · intro v hv
      simp only [Option.some.injEq, ResultValue.value.injEq] at hv
      subst hv
      exact ⟨v2, rfl, hsv⟩
    · intro tools hv
      exact absurd hv (by simp)
    · intro r hv
      exact absurd hv (by simp)
  · subst hr
    subst he
    obtain ⟨gs, hgs, hrs⟩ := unmarshalResponse_toolsList s hs env id id2 hd hid2
    refine ⟨_, { JSONRPC := "2.0", ID := id2,
                   Result := some (ResultValue.value (GoValue.map [("tools", GoValue.slice gs)])),
                   Error := none },
      hout, rfl, hid, ?_, rfl, hsame, hsc, rfl, ?_, ?_, ?_, ?_⟩
    · rw [hout]
      exact hgs
    · intro hv
      exact absurd hv (by simp)
    · intro v hv
      exact absurd hv (by simp)
    · intro tools hv
      simp only [Option.some.injEq, ResultValue.toolsMap.injEq] at hv
      subst hv
      exact ⟨gs, rfl, hrs⟩
    · intro r hv
      exact absurd hv (by simp)
  · subst hr
    subst he
    refine ⟨_, { JSONRPC := "2.0", ID := id2,
                   Result := some (ResultValue.value (GoValue.map [("content", GoValue.slice
                     [GoValue.map [("type", GoValue.string "text"),
                                   ("text", GoValue.string text)]])])),
                   Error := none },
      hout, rfl, hid, ?_, rfl, hsame, hsc, rfl, ?_, ?_, ?_, ?_⟩
    · rw [hout]
      exact unmarshalResponse_success id id2 _ _ _ hd hid2 rfl
        (by simp [ResultValue.toJSON, ToolResult.toJSON, ContentBlock.toJSON, JSON.depth,
              depthList, depthMembers, maxNestingDepth])
        (toInterface_text_result text)
    · intro hv
      exact absurd hv (by simp)
    · intro v hv
      exact absurd hv (by simp)
    · intro tools hv
      exact absurd hv (by simp)
    · intro r hv
      simp only [Option.some.injEq, ResultValue.toolResult.injEq] at hv
      subst hv
      exact ⟨rfl, rfl⟩

/-- C17 at the server `NewMCPServer` builds and a `tools/list` request whose
id is an array that holds an object: the text returned, and what is decoded
from it. -/
theorem handleRequest_round_trip_witness :
    NewMCPServer.toolsReadable = true ∧
    (NewMCPServer.HandleRequest exampleEnv
        "\x7b\"jsonrpc\":\"2.0\",\"id\":[1,\x7b\"b\":2,\"a\":null\x7d],\"method\":\"tools/list\"\x7d").1 =
      "\x7b\"jsonrpc\":\"2.0\",\"id\":[1,\x7b\"a\":null,\"b\":2\x7d],\"result\":\x7b\"tools\":[\x7b\"name\":\"getCurrentTime\",\"description\":\"Returns the current time in RFC3339 format\",\"inputSchema\":\x7b\"properties\":\x7b\x7d,\"required\":[],\"type\":\"object\"\x7d\x7d]\x7d\x7d" ∧
    ∃ resp decoded : JSONRPCResponse,
      NewMCPServer.HandleRequest exampleEnv
          "\x7b\"jsonrpc\":\"2.0\",\"id\":[1,\x7b\"b\":2,\"a\":null\x7d],\"method\":\"tools/list\"\x7d" =
        (marshal resp, NewMCPServer) ∧
      resp.JSONRPC = "2.0" ∧
      resp.ID = requestID "\x7b\"jsonrpc\":\"2.0\",\"id\":[1,\x7b\"b\":2,\"a\":null\x7d],\"method\":\"tools/list\"\x7d" ∧
      unmarshalResponse (NewMCPServer.HandleRequest exampleEnv
          "\x7b\"jsonrpc\":\"2.0\",\"id\":[1,\x7b\"b\":2,\"a\":null\x7d],\"method\":\"tools/list\"\x7d").1 =
        some decoded ∧
      decoded.JSONRPC = resp.JSONRPC ∧
      GoValue.Same resp.ID decoded.ID ∧
      ((resp.ID = GoValue.nil ∨ (∃ b, resp.ID = GoValue.bool b) ∨
          (∃ f, resp.ID = GoValue.float64 f) ∨ ∃ x, resp.ID = GoValue.string x) →
        decoded.ID = resp.ID) ∧
      decoded.Error = resp.Error ∧
      (resp.Result = none → decoded.Result = none) ∧
      (∀ v : GoValue, resp.Result = some (ResultValue.value v) →
        ∃ v2, decoded.Result = some (ResultValue.value v2) ∧ GoValue.Same v v2) ∧
      (∀ tools : List Tool, resp.Result = some (ResultValue.toolsMap tools) →
        ∃ gs, decoded.Result =
            some (ResultValue.value (GoValue.map [("tools", GoValue.slice gs)])) ∧
          List.Forall₂ Tool.ReadAs tools gs) ∧
      (∀ r : ToolResult, resp.Result = some (ResultValue.toolResult r) →
        r.IsError = false ∧
        decoded.Result = some (ResultValue.value (GoValue.map [("content", GoValue.slice
          (r.Content.map fun b => GoValue.map
            [("type", GoValue.string b.Typ), ("text", GoValue.string b.Text)]))]))) :=
  ⟨by decide, by decide!,
    handleRequest_round_trip NewMCPServer (by decide) exampleEnv _⟩

/-- The text of nested arrays: the opening brackets, then the closing ones. -/
theorem render_nestedArrays (n : Nat) :
    render (nestedArrays n) = List.replicate (n + 1) '[' ++ List.replicate (n + 1) ']' := by
  induction n with
  | zero => rfl
  | succ k ih =>
    rw [nestedArrays, render, renderList, ih, List.replicate_succ (n := k + 1),
      List.replicate_succ' (n := k + 1) (a := ']')]
    simp

/-- Nested arrays hold no number. -/
theorem numbersValid_nestedArrays (n : Nat) : (nestedArrays n).numbersValid = true := by
  induction n with
  | zero => rfl
  | succ k ih => simp [nestedArrays, JSON.numbersValid, numbersValidList, ih]

/-- The depth of nested arrays is their number. -/
theorem depth_nestedArrays (n : Nat) : (nestedArrays n).depth = n + 1 := by
  induction n with
  | zero => rfl
  | succ k ih => simp [nestedArrays, JSON.depth, depthList, ih]

/-- The scanner accepts a request whose id is nested arrays within its limit,
and reads the object with that id from it. -/
theorem checkValid_nestedIdRequest (n : Nat) (h : n + 2 ≤ maxNestingDepth) :
    checkValid (nestedIdRequest n) = some (JSON.object [("id", nestedArrays n)]) := by
  have hr : nestedIdRequest n = String.mk (render (JSON.object [("id", nestedArrays n)])) := by
    have e : quote "id" = "\"id\"".data := by decide
    unfold nestedIdRequest
    congr 1
    simp only [render, renderMembers, e, render_nestedArrays]
    simp
  rw [hr]
  apply checkValid_render
  · simp [JSON.numbersValid, numbersValidMembers, numbersValid_nestedArrays]
  · simp only [JSON.depth, depthMembers, depth_nestedArrays]
    omega

/-- A request whose id is nested arrays makes the decoder descend them all. -/
theorem le_stackLevels_nestedIdRequest (s : MCPServer) (n : Nat)
    (h : n + 2 ≤ maxNestingDepth) : n + 1 ≤ s.stackLevels (nestedIdRequest n) := by
  unfold MCPServer.stackLevels
  rw [checkValid_nestedIdRequest n h]
  simp only
  have hid : idLevels [("id", nestedArrays n)] = n + 1 := by
    have hk : keyMatches "id" "id" = true := by decide
    simp [idLevels, hk, depth_nestedArrays]
  rw [hid]
  exact Nat.le_max_left _ _

/-- A request whose id is nested arrays is valid JSON with as many opening
brackets as arrays. -/
theorem valid_nestedIdRequest (n : Nat) (h : n + 2 ≤ maxNestingDepth) :
    Valid (nestedIdRequest n) = true ∧ (nestedIdRequest n).data.count '[' = n + 1 := by
  refine ⟨?_, ?_⟩
  · unfold Valid
    rw [checkValid_nestedIdRequest n h]
    rfl
  · unfold nestedIdRequest
    simp only [List.count_append, List.count_replicate]
    have h1 : List.count '[' "\x7b\"id\":".data = 0 := by decide
    have h2 : List.count '[' ['\x7d'] = 0 := by decide
    rw [h1, h2]
    simp

/-- The call throws when the request descends deeper than the host has room. -/
theorem mcpHandleRequest_rangeError (host : Host) (s : MCPServer) (env : Env)
    (requestJSON : String) (h : host.room < s.stackLevels requestJSON) :
    mcpHandleRequest host s env [requestJSON] = Outcome.rangeError := by
  unfold mcpHandleRequest
  simp only
  rw [if_neg (by omega)]

/-- C16, refuted as stated: on a host whose call stack has room for 1000
levels, the request `{"id":[[...]]}` with 5000 nested arrays, a JSON text that
`encoding/json` accepts, makes the call throw `RangeError` into its JavaScript
caller: no response is returned. -/
theorem handleRequest_complete_counterexample :
    Valid (nestedIdRequest 4999) = true ∧
    (nestedIdRequest 4999).data.count '[' = 5000 ∧
    mcpHandleRequest { room := 1000 } NewMCPServer exampleEnv [nestedIdRequest 4999] =
      Outcome.rangeError :=
  have hmax : 4999 + 2 ≤ maxNestingDepth := by
    unfold maxNestingDepth
    omega
  ⟨(valid_nestedIdRequest 4999 hmax).1, (valid_nestedIdRequest 4999 hmax).2,
    mcpHandleRequest_rangeError _ _ _ _
      (Nat.lt_of_lt_of_le (show 1000 < 4999 + 1 by omega)
        (le_stackLevels_nestedIdRequest NewMCPServer 4999 hmax))⟩

/-- C16, amended: a call whose request makes `encoding/json` descend no deeper
than the call stack of the js/wasm host has room for returns, on every server
(its tools holding schemas that are JSON data, as `GoValue` has it), the text
of a response and leaves the server as it was: the text is not empty, it is a
JSON text of the grammar whose syntax tree is the JSON object of the response,
and that object has the member `jsonrpc` with the value "2.0" and either a
member `result` and no `error`, or no `result` and a member `error` that is
an object of a code and a message; on a server whose tools nest within the
limit of `encoding/json`, the decoder of `encoding/json` accepts the text and
reads that object from it. A call whose request descends deeper returns
nothing: the host throws `RangeError`; and whatever room below 9999 levels a
host has, there is such a request that is valid JSON. -/
theorem handleRequest_complete (host : Host) (s : MCPServer) (env : Env)
    (requestJSON : String) :
    (s.stackLevels requestJSON ≤ host.room →
      ∃ resp : JSONRPCResponse,
        mcpHandleRequest host s env [requestJSON] = Outcome.returned (marshal resp) s ∧
        s.HandleRequest env requestJSON = (marshal resp, s) ∧
        marshal resp ≠ "" ∧
        IsJSONText (marshal resp).data resp.toJSON ∧
        resp.toJSON.isObject = true ∧
        resp.toJSON.lookup "jsonrpc" = some (JSON.string "2.0") ∧
        (((resp.toJSON.lookup "result").isSome = true ∧ resp.toJSON.lookup "error" = none) ∨
         (resp.toJSON.lookup "result" = none ∧ ∃ code message,
            resp.toJSON.lookup "error" = some (JSON.object
              [("code", JSON.number (intText code)), ("message", JSON.string message)]))) ∧
        (s.toolsWithinDepth = true → checkValid (marshal resp) = some resp.toJSON)) ∧
    (host.room < s.stackLevels requestJSON →
      mcpHandleRequest host s env [requestJSON] = Outcome.rangeError) ∧
    (host.room + 2 ≤ maxNestingDepth →
      Valid (nestedIdRequest host.room) = true ∧
      mcpHandleRequest host s env [nestedIdRequest host.room] = Outcome.rangeError) := by
  refine ⟨?_, mcpHandleRequest_rangeError host s env requestJSON, ?_⟩
  · intro hroom
    obtain ⟨resp, hout, hjr, hid, hshape⟩ := handleRequest_shape s env requestJSON
    obtain ⟨l1, _, _⟩ := lookup_members_toJSON resp
    obtain ⟨l2, l3⟩ := lookup_result_error_toJSON resp
    refine ⟨resp, ?_, hout, marshal_ne_empty resp,
      isJSONText_render resp.toJSON (numbersValid_response resp), rfl, ?_, ?_, ?_⟩
    · unfold mcpHandleRequest
      simp only
      rw [if_pos hroom, hout]
    · rw [l1, hjr]
    · rw [l2, l3]
      rcases hshape with ⟨hr, code, message, he, _⟩ | ⟨he, hr⟩
      · right
        rw [hr, he]
        exact ⟨rfl, code, message, rfl⟩
      · left
        rw [he]
        rcases hr with h | h | ⟨text, h⟩ <;> rw [h] <;> exact ⟨rfl, rfl⟩
    · intro hs
      exact checkValid_render resp.toJSON (numbersValid_response resp)
        (depth_response s hs env requestJSON resp hid hshape)
  · intro hmax
    exact ⟨(valid_nestedIdRequest host.room hmax).1,
      mcpHandleRequest_rangeError host s env _
        (Nat.lt_of_lt_of_le (Nat.lt_succ_self _)
          (le_stackLevels_nestedIdRequest s host.room hmax))⟩

/-- C16 on a host with room for 1000 levels, at the server `NewMCPServer`
builds: an input that is no JSON is answered with the text of the parse
error, which the decoder accepts; the request whose id is 1001 nested arrays
is not answered. -/
theorem handleRequest_complete_witness :
    NewMCPServer.stackLevels "no JSON at all" ≤ 1000 ∧
    mcpHandleRequest { room := 1000 } NewMCPServer exampleEnv ["no JSON at all"] =
      Outcome.returned
        "\x7b\"jsonrpc\":\"2.0\",\"error\":\x7b\"code\":-32700,\"message\":\"Parse error\"\x7d\x7d" NewMCPServer ∧
    Valid "\x7b\"jsonrpc\":\"2.0\",\"error\":\x7b\"code\":-32700,\"message\":\"Parse error\"\x7d\x7d" = true ∧
    mcpHandleRequest { room := 1000 } NewMCPServer exampleEnv [nestedIdRequest 1000] =
      Outcome.rangeError := by
  have h := handleRequest_complete { room := 1000 } NewMCPServer exampleEnv "no JSON at all"
  obtain ⟨resp, hret, hout, _, _, _, _, _, hvalid⟩ := h.1 (by decide)
  have htext : marshal resp =
      "\x7b\"jsonrpc\":\"2.0\",\"error\":\x7b\"code\":-32700,\"message\":\"Parse error\"\x7d\x7d" :=
    (congrArg Prod.fst hout).symm.trans (by decide!)
  refine ⟨by decide, ?_, ?_, (h.2.2 (by decide)).2⟩
  · rw [hret, htext]
  · unfold Valid
    rw [← htext, hvalid (by decide)]
    rfl

end MCP
